import Mathlib

/-! # XV6 paging: page table and demand-paging engine

A shallow embedding of `kernel/vm.c` and `kernel/param.h`.

* Physical memory is a map from the base address of a frame and a word index
  (0..511) to a 64-bit word, so `&pagetable[i]` is the pair `(pagetable, i)`.
  A null pointer is `none`.
* Kernel state is passed explicitly.  A function returns `Res.ok v k` (value
  and new state), `Res.stop r` (the kernel stopped: `panic` or a null
  dereference), or `Res.nofuel` (the bound of a modelled loop was reached).
* `SWAP_ALGO` is a compile-time switch in the source; here it is the
  parameter `algo` of every function that has an `#if` on it.
-/

namespace XV6

/-! ## Constants and macros -/

/-- Modelled from the spec: riscv.h is not in src; bytes per page. -/
def PGSIZE : Nat := 4096

/-- Modelled from the spec: riscv.h is not in src; one beyond the highest
virtual address, `1L << (9 + 9 + 9 + 12 - 1)`. -/
def MAXVA : Nat := 2 ^ 38

/-- Modelled from the spec: riscv.h is not in src; the Valid flag. -/
def PTE_V : Nat := 1
/-- Modelled from the spec: riscv.h is not in src; the Read flag. -/
def PTE_R : Nat := 2
/-- Modelled from the spec: riscv.h is not in src; the Write flag. -/
def PTE_W : Nat := 4
/-- Modelled from the spec: riscv.h is not in src; the Execute flag. -/
def PTE_X : Nat := 8
/-- Modelled from the spec: riscv.h is not in src; the User flag. -/
def PTE_U : Nat := 16
/-- Modelled from the spec: riscv.h is not in src; the hardware Accessed flag. -/
def PTE_A : Nat := 64
/-- Modelled from the spec: riscv.h is not in src; the Swapped flag
(one of the bits reserved for software). -/
def PTE_PG : Nat := 512

/-- The size of a machine word: `uint64` arithmetic is modulo this. -/
def U64 : Nat := 2 ^ 64

/-- Bitwise complement of a `uint64`. -/
def NOT64 (x : Nat) : Nat := (U64 - 1) ^^^ x

/-- Modelled from the spec: riscv.h is not in src;
`(((sz)+PGSIZE-1) & ~(PGSIZE-1))`. -/
def PGROUNDUP (sz : Nat) : Nat := ((sz + PGSIZE - 1) % U64) &&& NOT64 (PGSIZE - 1)

/-- Modelled from the spec: riscv.h is not in src; `(((a)) & ~(PGSIZE-1))`. -/
def PGROUNDDOWN (a : Nat) : Nat := a &&& NOT64 (PGSIZE - 1)

/-- Modelled from the spec: riscv.h is not in src;
`((((uint64) (va)) >> (12 + 9*level)) & 0x1FF)`. -/
def PX (level va : Nat) : Nat := (va >>> (12 + 9 * level)) &&& 0x1FF

/-- Modelled from the spec: riscv.h is not in src; `((((uint64)pa) >> 12) << 10)`. -/
def PA2PTE (pa : Nat) : Nat := ((pa >>> 12) <<< 10) % U64

/-- Modelled from the spec: riscv.h is not in src; `(((pte) >> 10) << 12)`. -/
def PTE2PA (pte : Nat) : Nat := ((pte >>> 10) <<< 12) % U64

/-- Modelled from the spec: riscv.h is not in src; `((pte) & 0x3FF)`. -/
def PTE_FLAGS (pte : Nat) : Nat := pte &&& 0x3FF

/-- Constant of param.h: maximum number of physical pages. -/
def MAX_PSYC_PAGES : Nat := 16
/-- Constant of param.h: maximum number of pages in the swap file. -/
def MAX_PAGED_PAGES : Nat := 16
/-- Constant of param.h: maximum number of pages. -/
def MAX_TOTAL_PAGES : Nat := 32

/-- Modelled from the spec: proc.h is not in src; the status of a free slot
(the first member of `enum procstate`). -/
def UNUSED : Nat := 0
/-- Constant of param.h. -/
def INMEMORY : Nat := 1
/-- Constant of param.h. -/
def PAGED : Nat := 2

/-- The values of the compile-time switch `SWAP_ALGO` (param.h). -/
inductive SwapAlgo where
  | NONE
  | SCFIFO
  | NFUA
  | LAPA
  deriving DecidableEq, Repr

/-! ## State -/

/-- Modelled from the spec: proc.h is not in src; `struct page`, one roster slot. -/
structure Page where
  va : Nat
  status : Nat
  counter : Nat
  deriving DecidableEq, Repr

/-- Modelled from the spec: proc.h is not in src; `struct scfifo`, a node of the
second-chance list.  A pointer to a node is its index in `p->scfifo`. -/
structure Scfifo where
  position : Nat
  newer : Option Nat
  older : Option Nat
  deriving DecidableEq, Repr

/-- Modelled from the spec: proc.h is not in src; the fields of `struct proc`
that vm.c uses, and the contents of the swap file of the process
(page offset, then word index). -/
structure Proc where
  name : List Nat
  pagetable : Nat
  memory_pages : Nat → Page
  swapfile_pages : Nat → Page
  num_of_phys_pages : Int
  scfifo : Nat → Scfifo
  oldest : Option Nat
  newest : Option Nat
  swapFile : Nat → Nat → Nat

/-- The kernel state: physical memory, the free list of the frame allocator,
and the current process (`myproc()`). -/
structure Kernel where
  mem : Nat → Nat → Nat
  freelist : List Nat
  proc : Proc

/-- The ways the kernel stops: the `panic` calls of vm.c, and a dereference of
a null pointer. -/
inductive Stop where
  | walk
  | mappages_size
  | mappages_remap
  | couldnt_find_page
  | uvmunmap_not_aligned
  | uvmunmap_walk
  | uvmunmap_not_mapped
  | uvmunmap_not_a_leaf
  | uvmcopy_pte_should_exist
  | uvmcopy_page_not_present
  | uvmclear
  | no_min_page
  | cant_find_free
  | cant_find_page
  | null_deref
  deriving DecidableEq, Repr

/-- The outcome of a kernel function. -/
inductive Res (α : Type) where
  | ok (v : α) (k : Kernel)
  | stop (r : Stop)
  | nofuel

/-- Sequencing: run `f` on the value and state of a normal return. -/
def Res.bind {α β : Type} (r : Res α) (f : α → Kernel → Res β) : Res β :=
  match r with
  | .ok v k => f v k
  | .stop e => .stop e
  | .nofuel => .nofuel

/-- The value of a normal return. -/
def Res.val? {α : Type} : Res α → Option α
  | .ok v _ => some v
  | _ => none

/-- The state after a normal return. -/
def Res.state? {α : Type} : Res α → Option Kernel
  | .ok _ k => some k
  | _ => none

/-- The reason of a kernel stop. -/
def Res.stop? {α : Type} : Res α → Option Stop
  | .stop r => some r
  | _ => none

/-- Store of one word: `*p = v` for `p = &frame[i]`. -/
def Kernel.write (k : Kernel) (t i v : Nat) : Kernel :=
  { k with mem := fun t' i' => if t' = t ∧ i' = i then v else k.mem t' i' }

/-- Fill of a frame: `memset(pa, 0, PGSIZE)`. -/
def Kernel.zero (k : Kernel) (t : Nat) : Kernel :=
  { k with mem := fun t' i' => if t' = t then 0 else k.mem t' i' }

/-- Copy of a frame: `memmove(dst, src, PGSIZE)`. -/
def Kernel.copy (k : Kernel) (dst src : Nat) : Kernel :=
  { k with mem := fun t' i' => if t' = dst then k.mem src i' else k.mem t' i' }

/-- Modelled from the spec: kalloc.c is not in src; `acquire() -> frame | exhausted`
takes the first frame of the free list. -/
def kalloc (k : Kernel) : Option Nat × Kernel :=
  match k.freelist with
  | [] => (none, k)
  | f :: rest => (some f, { k with freelist := rest })

/-- Modelled from the spec: kalloc.c is not in src; `release(frame)` puts the
frame back at the head of the free list. -/
def kfree (k : Kernel) (pa : Nat) : Kernel :=
  { k with freelist := pa :: k.freelist }

/-! ## Page table -/

/-- One iteration of the loop of `walk`: the table the entry of `level` points
to, allocated if `alloc` is not 0; `none` is `return 0`. -/
def walk_level (k : Kernel) (pagetable va level alloc : Nat) : Res (Option Nat) :=
  let pte := k.mem pagetable (PX level va)
  if pte &&& PTE_V ≠ 0 then
    .ok (some (PTE2PA pte)) k
  else if alloc = 0 then
    .ok none k
  else
    match kalloc k with
    | (none, k1) => .ok none k1
    | (some f, k1) =>
      .ok (some f) ((k1.zero f).write pagetable (PX level va) (PA2PTE f ||| PTE_V))

/-- The function `walk`: the address of the leaf PTE of `va`, as a frame and an
index; `none` is the null pointer. -/
def walk (k : Kernel) (pagetable va alloc : Nat) : Res (Option (Nat × Nat)) :=
  if va ≥ MAXVA then .stop .walk
  else
    (walk_level k pagetable va 2 alloc).bind fun o2 k2 =>
      match o2 with
      | none => .ok none k2
      | some t1 =>
        (walk_level k2 t1 va 1 alloc).bind fun o1 k1 =>
          match o1 with
          | none => .ok none k1
          | some t0 => .ok (some (t0, PX 0 va)) k1

/-- The function `walkaddr`. -/
def walkaddr (k : Kernel) (pagetable va : Nat) : Res Nat :=
  if va ≥ MAXVA then .ok 0 k
  else
    (walk k pagetable va 0).bind fun pte k1 =>
      match pte with
      | none => .ok 0 k1
      | some (t, i) =>
        if k1.mem t i &&& PTE_V = 0 then .ok 0 k1
        else if k1.mem t i &&& PTE_U = 0 then .ok 0 k1
        else .ok (PTE2PA (k1.mem t i)) k1

/-- The `for(;;)` loop of `mappages`; every iteration calls `walk`, which stops
the kernel at `MAXVA`, so `fuel` bounds the iterations. -/
def mappages_loop (fuel : Nat) (k : Kernel) (pagetable a last pa perm : Nat) : Res Int :=
  match fuel with
  | 0 => .nofuel
  | fuel + 1 =>
    (walk k pagetable a 1).bind fun pte k1 =>
      match pte with
      | none => .ok (-1) k1
      | some (t, i) =>
        if k1.mem t i &&& PTE_V ≠ 0 then .stop .mappages_remap
        else
          let k2 := k1.write t i ((PA2PTE pa ||| perm ||| PTE_V) % U64)
          if a = last then .ok 0 k2
          else mappages_loop fuel k2 pagetable ((a + PGSIZE) % U64) last ((pa + PGSIZE) % U64) perm

/-- The function `mappages`. -/
def mappages (k : Kernel) (pagetable va size pa perm : Nat) : Res Int :=
  if size = 0 then .stop .mappages_size
  else
    mappages_loop (MAXVA / PGSIZE + 1) k pagetable (PGROUNDDOWN va)
      (PGROUNDDOWN ((va + size - 1) % U64)) pa perm

/-! ## Rosters and the second-chance list -/

/-- Store into one element of an array: `f[i] = v`. -/
def upd {α : Type} (f : Nat → α) (i : Nat) (v : α) : Nat → α :=
  fun j => if j = i then v else f j

/-- The first index `j` with `i ≤ j < i + n` at which `P` holds: the scan
`for (j = i; j < i + n; j++) if (P j) return j;`. -/
def firstSlot (P : Nat → Bool) : Nat → Nat → Option Nat
  | 0, _ => none
  | n + 1, i => if P i then some i else firstSlot P n (i + 1)

/-- The function `remove_scfifo`; `none` is a dereference of a null pointer. -/
def remove_scfifo (p : Proc) (position : Nat) : Option Proc :=
  -- scfifo->newer = 0; scfifo->older = 0;
  let unlink (q : Proc) : Proc :=
    { q with scfifo := upd q.scfifo position { q.scfifo position with newer := none, older := none } }
  if p.newest = some position ∧ p.oldest = some position then
    some (unlink { p with oldest := none, newest := none })
  else if p.oldest = some position then
    -- p->oldest = p->oldest->newer; p->oldest->older = 0;
    match (p.scfifo position).newer with
    | none => none
    | some o =>
      some (unlink { p with
        oldest := some o,
        scfifo := upd p.scfifo o { p.scfifo o with older := none } })
  else if p.newest = some position then
    -- p->newest = p->newest->older; p->newest->newer = 0;
    match (p.scfifo position).older with
    | none => none
    | some n =>
      some (unlink { p with
        newest := some n,
        scfifo := upd p.scfifo n { p.scfifo n with newer := none } })
  else
    -- scfifo->older->newer = scfifo->newer; scfifo->newer->older = scfifo->older;
    match (p.scfifo position).older with
    | none => none
    | some o =>
      let p1 : Proc :=
        { p with scfifo := upd p.scfifo o { p.scfifo o with newer := (p.scfifo position).newer } }
      match (p1.scfifo position).newer with
      | none => none
      | some n =>
        some (unlink { p1 with
          scfifo := upd p1.scfifo n { p1.scfifo n with older := (p1.scfifo position).older } })

/-- The function `set_scfifo`. -/
def set_scfifo (p : Proc) (position : Nat) : Proc :=
  -- scfifo->position = position; scfifo->newer = 0; scfifo->older = p->newest;
  let p1 : Proc := { p with scfifo := upd p.scfifo position ⟨position, none, p.newest⟩ }
  -- if (p->newest != 0) p->newest->newer = scfifo;
  let p2 : Proc :=
    match p1.newest with
    | none => p1
    | some n => { p1 with scfifo := upd p1.scfifo n { p1.scfifo n with newer := some position } }
  -- p->newest = scfifo;
  let p3 : Proc := { p2 with newest := some position }
  -- if (p->oldest == 0) { p->oldest = scfifo; scfifo->older = 0; }
  match p3.oldest with
  | none => { p3 with
      oldest := some position,
      scfifo := upd p3.scfifo position { p3.scfifo position with older := none } }
  | some _ => p3

/-- The function `freePage`: the index of the freed slot and the new roster;
`none` is `panic("couldn't find page")`. -/
def freePage (pages : Nat → Page) (va : Nat) : Option (Nat × (Nat → Page)) :=
  match firstSlot (fun i => (pages i).va = va) MAX_PSYC_PAGES 0 with
  | none => none
  | some i => some (i, upd pages i ⟨0, UNUSED, 0⟩)

/-- The function `findFree`; `none` is `panic("cant find free")`. -/
def findFree (pages : Nat → Page) : Option Nat :=
  firstSlot (fun i => (pages i).status = UNUSED) MAX_PSYC_PAGES 0

/-- The function `findPageLocation`; `none` is `panic("cant find page")`. -/
def findPageLocation (pages : Nat → Page) (va : Nat) : Option (Nat × (Nat → Page)) :=
  match firstSlot (fun i => (pages i).va = va) MAX_PSYC_PAGES 0 with
  | none => none
  | some i => some (i, upd pages i { pages i with status := UNUSED })

/-- Modelled from the spec: string.c is not in src; `strncmp` of the C library
on byte strings, a byte past the end of a list reading as NUL. -/
def strncmp (p q : List Nat) : Nat → Int
  | 0 => 0
  | n + 1 =>
    if p.headD 0 ≠ 0 ∧ p.headD 0 = q.headD 0 then strncmp p.tail q.tail n
    else (p.headD 0 : Int) - (q.headD 0 : Int)

/-- The function `sh_or_init`; `sizeof(p->name)` is 16 (proc.h, not in src).
The literals are "sh", "init" and "initcode". -/
def sh_or_init (p : Proc) : Nat :=
  let size := 16
  if strncmp p.name [115, 104] size = 0 then 0
  else if strncmp p.name [105, 110, 105, 116] size = 0 then 0
  else if strncmp p.name [105, 110, 105, 116, 99, 111, 100, 101] size = 0 then 0
  else 1

/-- The loop of `ones`: at most 64 iterations for a 64-bit counter. -/
def ones_loop : Nat → Nat → Nat → Nat
  | 0, _, counter_ones => counter_ones
  | fuel + 1, counter, counter_ones =>
    if counter ≠ 0 then ones_loop fuel (counter >>> 1) ((counter_ones + (counter &&& 1)) % 2 ^ 32)
    else counter_ones

/-- The function `ones` (LAPA). -/
def ones (counter : Nat) : Nat := ones_loop 64 (counter % U64) 0

/-- The function `set_counter`. -/
def set_counter (algo : SwapAlgo) (page : Page) : Page :=
  match algo with
  | .NFUA => { page with counter := 0 }
  | .LAPA => { page with counter := 0xFFFFFFFFFFFFFFFF }
  | _ => page

/-! ## Eviction -/

/-- The `while` loop of `findPageToEvict` under SCFIFO: the index of the
victim in `pages`.  Every iteration that does not return clears one
accessed bit. -/
def findPageToEvict_scfifo (fuel : Nat) (k : Kernel) : Res Nat :=
  match fuel with
  | 0 => .nofuel
  | fuel + 1 =>
    match k.proc.oldest with
    | none => .stop .null_deref
    | some o =>
      let position := (k.proc.scfifo o).position
      (walk k k.proc.pagetable (k.proc.memory_pages position).va 0).bind fun pte k1 =>
        match pte with
        | none => .stop .null_deref
        | some (t, i) =>
          if k1.mem t i &&& PTE_A = 0 then .ok position k1
          else
            let k2 := k1.write t i (k1.mem t i &&& NOT64 PTE_A)
            match remove_scfifo k2.proc position with
            | none => .stop .null_deref
            | some p3 =>
              findPageToEvict_scfifo fuel { k2 with proc := set_scfifo p3 position }

/-- The `for` loop of `findPageToEvict` under NFUA and LAPA, from slot `i` for
`n` slots; the state is `min_page` (an index, `none` for null) and
`min_ones`.  `none` is a dereference of a null `min_page`. -/
def findPageToEvict_scan (algo : SwapAlgo) (pages : Nat → Page) :
    Nat → Nat → Option Nat → Nat → Option (Option Nat)
  | 0, _, min_page, _ => some min_page
  | n + 1, i, min_page, min_ones =>
    if (pages i).status = INMEMORY then
      match algo with
      | .NFUA =>
        match min_page with
        | none => findPageToEvict_scan algo pages n (i + 1) (some i) min_ones
        | some m =>
          if (pages i).counter < (pages m).counter then
            findPageToEvict_scan algo pages n (i + 1) (some i) min_ones
          else findPageToEvict_scan algo pages n (i + 1) min_page min_ones
      | .LAPA =>
        let page_ones := ones (pages i).counter
        if page_ones < min_ones then
          findPageToEvict_scan algo pages n (i + 1) (some i) page_ones
        else if page_ones = min_ones then
          match min_page with
          | none => none
          | some m =>
            if (pages i).counter < (pages m).counter then
              findPageToEvict_scan algo pages n (i + 1) (some i) page_ones
            else findPageToEvict_scan algo pages n (i + 1) min_page min_ones
        else findPageToEvict_scan algo pages n (i + 1) min_page min_ones
      | _ => findPageToEvict_scan algo pages n (i + 1) min_page min_ones
    else findPageToEvict_scan algo pages n (i + 1) min_page min_ones

/-- The function `findPageToEvict`, called on `p->memory_pages`: the index of
the victim. -/
def findPageToEvict (algo : SwapAlgo) (k : Kernel) : Res Nat :=
  match algo with
  | .SCFIFO => findPageToEvict_scfifo (MAX_PSYC_PAGES + 1) k
  | _ =>
    match findPageToEvict_scan algo k.proc.memory_pages MAX_PSYC_PAGES 0 none 100 with
    | none => .stop .null_deref
    | some none => .stop .no_min_page
    | some (some m) => .ok m k

/-- Modelled from the spec: the swap-store service is not in src;
`write(slotOffset, bytes, pageSize)` copies the frame to the swap file. -/
def writeToSwapFile (k : Kernel) (pa offset : Nat) : Kernel :=
  { k with proc := { k.proc with swapFile := upd k.proc.swapFile offset (k.mem pa) } }

/-- Modelled from the spec: the swap-store service is not in src;
`read(slotOffset, buffer, pageSize)` copies from the swap file to the frame. -/
def readFromSwapFile (k : Kernel) (mem offset : Nat) : Kernel :=
  { k with mem := upd k.mem mem (k.proc.swapFile offset) }

/-- The function `swap_out`. -/
def swap_out (algo : SwapAlgo) (k : Kernel) (pagetable : Nat) : Res Unit :=
  match findFree k.proc.swapfile_pages with
  | none => .stop .cant_find_free
  | some position =>
    (findPageToEvict algo k).bind fun m k1 =>
      let va := (k1.proc.memory_pages m).va
      -- swapfile_page->va = memory_page->va; swapfile_page->status = PAGED;
      let p2 : Proc := { k1.proc with
        swapfile_pages := upd k1.proc.swapfile_pages position
          { k1.proc.swapfile_pages position with va := va, status := PAGED } }
      -- memory_page->va = 0; memory_page->status = UNUSED; p->num_of_phys_pages--;
      let p3 : Proc := { p2 with
        memory_pages := upd p2.memory_pages m { p2.memory_pages m with va := 0, status := UNUSED },
        num_of_phys_pages := p2.num_of_phys_pages - 1 }
      let k3 : Kernel := { k1 with proc := p3 }
      (walk k3 pagetable (k3.proc.swapfile_pages position).va 0).bind fun pte k4 =>
        match pte with
        | none => .stop .null_deref
        | some (t, i) =>
          let pa := PTE2PA (k4.mem t i)
          let k5 := writeToSwapFile k4 pa (position * PGSIZE)
          let k6 := k5.write t i (k5.mem t i &&& NOT64 PTE_V)
          let k7 := k6.write t i (k6.mem t i ||| PTE_PG)
          .ok () (kfree k7 pa)

/-- The function `allocate_page`. -/
def allocate_page (algo : SwapAlgo) (k : Kernel) (pagetable va : Nat) : Res Unit :=
  (if k.proc.num_of_phys_pages = MAX_PSYC_PAGES then swap_out algo k pagetable
   else .ok () k).bind fun _ k1 =>
    match findFree k1.proc.memory_pages with
    | none => .stop .cant_find_free
    | some position =>
      -- page->status = INMEMORY; page->va = va;
      let p2 : Proc := { k1.proc with
        memory_pages := upd k1.proc.memory_pages position
          { k1.proc.memory_pages position with status := INMEMORY, va := va } }
      let p3 : Proc :=
        match algo with
        | .SCFIFO => set_scfifo p2 position
        | _ => { p2 with
            memory_pages := upd p2.memory_pages position (set_counter algo (p2.memory_pages position)) }
      .ok () { k1 with proc := { p3 with num_of_phys_pages := p3.num_of_phys_pages + 1 } }

/-- The function `page_fault`, for `p = myproc()`. -/
def page_fault (algo : SwapAlgo) (k : Kernel) (va : Nat) : Res Int :=
  (walk k k.proc.pagetable va 0).bind fun pte k1 =>
    match pte with
    | none => .stop .null_deref
    | some (t, i) =>
      if k1.mem t i &&& PTE_PG = 0 then .ok 0 k1
      else
        match kalloc k1 with
        | (mem, k2) =>
          match findPageLocation k2.proc.swapfile_pages va with
          | none => .stop .cant_find_page
          | some (position, pages) =>
            let k3 : Kernel := { k2 with proc := { k2.proc with swapfile_pages := pages } }
            match mem with
            | none => .stop .null_deref
            | some mem =>
              let k4 := readFromSwapFile k3 mem (position * PGSIZE)
              (allocate_page algo k4 k4.proc.pagetable va).bind fun _ k5 =>
                let k6 := k5.write t i ((PA2PTE mem ||| PTE_FLAGS (k5.mem t i)) % U64)
                let k7 := k6.write t i (k6.mem t i &&& NOT64 PTE_PG)
                let k8 := k7.write t i (k7.mem t i ||| PTE_V)
                .ok 3 k8

/-- The loop of `update_counters`, from slot `i` for `n` slots. -/
def update_counters_loop : Nat → Nat → Kernel → Res Unit
  | 0, _, k => .ok () k
  | n + 1, i, k =>
    if (k.proc.memory_pages i).status = INMEMORY then
      (walk k k.proc.pagetable (k.proc.memory_pages i).va 0).bind fun pte k1 =>
        -- page->counter = page->counter >> 1;
        let k2 : Kernel := { k1 with proc := { k1.proc with
          memory_pages := upd k1.proc.memory_pages i
            { k1.proc.memory_pages i with counter := (k1.proc.memory_pages i).counter >>> 1 } } }
        match pte with
        | none => .stop .null_deref
        | some (t, x) =>
          if k2.mem t x &&& PTE_A ≠ 0 then
            -- page->counter |= 0x8000000000000000; *pte &= ~PTE_A;
            let k3 : Kernel := { k2 with proc := { k2.proc with
              memory_pages := upd k2.proc.memory_pages i
                { k2.proc.memory_pages i with
                  counter := (k2.proc.memory_pages i).counter ||| 0x8000000000000000 } } }
            update_counters_loop n (i + 1) (k3.write t x (k3.mem t x &&& NOT64 PTE_A))
          else update_counters_loop n (i + 1) k2
    else update_counters_loop n (i + 1) k

/-- The function `update_counters`, for `p = myproc()`. -/
def update_counters (k : Kernel) : Res Unit :=
  update_counters_loop MAX_PSYC_PAGES 0 k

/-! ## Address-space lifecycle -/

/-- The paging part of the `do_free` branch of `uvmunmap`: the resident slot
of `a` is released when the process takes part in paging and `pagetable` is
its own. -/
def uvmunmap_resident (algo : SwapAlgo) (k : Kernel) (pagetable a sh_init : Nat) : Res Unit :=
  if algo ≠ .NONE ∧ sh_init ≠ 0 ∧ pagetable = k.proc.pagetable then
    match freePage k.proc.memory_pages a with
    | none => .stop .couldnt_find_page
    | some (position, pages) =>
      let p1 : Proc := { k.proc with memory_pages := pages }
      if algo = .SCFIFO then
        match remove_scfifo p1 position with
        | none => .stop .null_deref
        | some p2 =>
          .ok () { k with proc := { p2 with num_of_phys_pages := p2.num_of_phys_pages - 1 } }
      else
        .ok () { k with proc := { p1 with num_of_phys_pages := p1.num_of_phys_pages - 1 } }
  else .ok () k

/-- The loop of `uvmunmap`; every iteration calls `walk`, which stops the
kernel at `MAXVA`, so `fuel` bounds the iterations. -/
def uvmunmap_loop (algo : SwapAlgo) (fuel : Nat) (k : Kernel)
    (pagetable a bound do_free sh_init : Nat) : Res Unit :=
  match fuel with
  | 0 => .nofuel
  | fuel + 1 =>
    if a < bound then
      (walk k pagetable a 0).bind fun pte k1 =>
        match pte with
        | none => .stop .uvmunmap_walk
        | some (t, i) =>
          if k1.mem t i &&& (PTE_V ||| PTE_PG) = 0 then .stop .uvmunmap_not_mapped
          else if PTE_FLAGS (k1.mem t i) = PTE_V then .stop .uvmunmap_not_a_leaf
          else
            (if do_free ≠ 0 ∧ k1.mem t i &&& PTE_V ≠ 0 then
              (uvmunmap_resident algo k1 pagetable a sh_init).bind fun _ k2 =>
                .ok () (kfree k2 (PTE2PA (k2.mem t i)))
             else .ok () k1 : Res Unit).bind fun _ k3 =>
              (if algo ≠ .NONE ∧ sh_init ≠ 0 ∧ pagetable = k3.proc.pagetable
                  ∧ k3.mem t i &&& PTE_PG ≠ 0 then
                match freePage k3.proc.swapfile_pages a with
                | none => .stop .couldnt_find_page
                | some (_, pages) =>
                  .ok () { k3 with proc := { k3.proc with swapfile_pages := pages } }
               else .ok () k3 : Res Unit).bind fun _ k4 =>
                uvmunmap_loop algo fuel (k4.write t i 0) pagetable ((a + PGSIZE) % U64) bound
                  do_free sh_init
    else .ok () k

/-- The function `uvmunmap`. -/
def uvmunmap (algo : SwapAlgo) (k : Kernel) (pagetable va npages do_free : Nat) : Res Unit :=
  let sh_init := sh_or_init k.proc
  if va % PGSIZE ≠ 0 then .stop .uvmunmap_not_aligned
  else
    uvmunmap_loop algo (MAXVA / PGSIZE + 2) k pagetable va ((va + npages * PGSIZE) % U64)
      do_free sh_init

/-- The conversion of `int npages` to the `uint64` parameter of `uvmunmap`. -/
def intToU64 (x : Nat) : Nat :=
  if x % 2 ^ 32 < 2 ^ 31 then x % 2 ^ 32 else x % 2 ^ 32 + (2 ^ 64 - 2 ^ 32)

/-- The function `uvmdealloc`. -/
def uvmdealloc (algo : SwapAlgo) (k : Kernel) (pagetable oldsz newsz : Nat) : Res Nat :=
  if newsz ≥ oldsz then .ok oldsz k
  else if PGROUNDUP newsz < PGROUNDUP oldsz then
    let npages := intToU64 ((PGROUNDUP oldsz - PGROUNDUP newsz) / PGSIZE)
    (uvmunmap algo k pagetable (PGROUNDUP newsz) npages 1).bind fun _ k1 => .ok newsz k1
  else .ok newsz k

/-- The loop of `uvmalloc`; every iteration calls `walk` through `mappages`,
which stops the kernel at `MAXVA`, so `fuel` bounds the iterations. -/
def uvmalloc_loop (algo : SwapAlgo) (fuel : Nat) (k : Kernel)
    (pagetable a oldsz newsz xperm sh_init : Nat) : Res Nat :=
  match fuel with
  | 0 => .nofuel
  | fuel + 1 =>
    if a < newsz then
      match kalloc k with
      | (none, k1) =>
        (uvmdealloc algo k1 pagetable a oldsz).bind fun _ k2 => .ok 0 k2
      | (some mem, k1) =>
        (mappages (k1.zero mem) pagetable a PGSIZE mem (PTE_R ||| PTE_U ||| xperm)).bind
          fun r k2 =>
            if r ≠ 0 then
              (uvmdealloc algo (kfree k2 mem) pagetable a oldsz).bind fun _ k3 => .ok 0 k3
            else
              (if algo ≠ .NONE ∧ sh_init ≠ 0 then allocate_page algo k2 pagetable a
               else .ok () k2 : Res Unit).bind fun _ k3 =>
                uvmalloc_loop algo fuel k3 pagetable ((a + PGSIZE) % U64) oldsz newsz xperm
                  sh_init
    else .ok newsz k

/-- The function `uvmalloc`. -/
def uvmalloc (algo : SwapAlgo) (k : Kernel) (pagetable oldsz newsz xperm : Nat) : Res Nat :=
  let sh_init := sh_or_init k.proc
  if algo ≠ .NONE ∧ sh_init ≠ 0 ∧ newsz ≥ MAX_TOTAL_PAGES * PGSIZE then .ok 0 k
  else if newsz < oldsz then .ok oldsz k
  else
    uvmalloc_loop algo (MAXVA / PGSIZE + 2) k pagetable (PGROUNDUP oldsz) (PGROUNDUP oldsz)
      newsz xperm sh_init

/-- The loop of `uvmcopy`.  A normal return carries the value of `i` and
whether the loop ended at `err`. -/
def uvmcopy_loop (fuel : Nat) (k : Kernel) (old new i sz : Nat) : Res (Nat × Bool) :=
  match fuel with
  | 0 => .nofuel
  | fuel + 1 =>
    if i < sz then
      (walk k old i 0).bind fun pte k1 =>
        match pte with
        | none => .stop .uvmcopy_pte_should_exist
        | some (t, x) =>
          if k1.mem t x &&& (PTE_V ||| PTE_PG) = 0 then .stop .uvmcopy_page_not_present
          else if k1.mem t x &&& PTE_V ≠ 0 then
            let pa := PTE2PA (k1.mem t x)
            let flags := PTE_FLAGS (k1.mem t x) % 2 ^ 32
            match kalloc k1 with
            | (none, k2) => .ok (i, true) k2
            | (some mem, k2) =>
              (mappages (k2.copy mem pa) new i PGSIZE mem flags).bind fun r k3 =>
                if r ≠ 0 then .ok (i, true) (kfree k3 mem)
                else uvmcopy_loop fuel k3 old new ((i + PGSIZE) % U64) sz
          else
            (walk k1 new i 0).bind fun npte k2 =>
              match npte with
              | none => .stop .null_deref
              | some (nt, nx) =>
                uvmcopy_loop fuel (k2.write nt nx (k2.mem nt nx ||| PTE_FLAGS (k2.mem t x)))
                  old new ((i + PGSIZE) % U64) sz
    else .ok (i, false) k

/-- The function `uvmcopy`. -/
def uvmcopy (algo : SwapAlgo) (k : Kernel) (old new sz : Nat) : Res Int :=
  (uvmcopy_loop (MAXVA / PGSIZE + 2) k old new 0 sz).bind fun r k1 =>
    match r with
    | (_, false) => .ok 0 k1
    | (i, true) => (uvmunmap algo k1 new 0 (i / PGSIZE) 1).bind fun _ k2 => .ok (-1) k2

/-- The function `uvmclear`. -/
def uvmclear (k : Kernel) (pagetable va : Nat) : Res Unit :=
  (walk k pagetable va 0).bind fun pte k1 =>
    match pte with
    | none => .stop .uvmclear
    | some (t, i) => .ok () (k1.write t i (k1.mem t i &&& NOT64 PTE_U))

/-! ## The page table as a tree in memory -/

/-- A position in the tree of tables of a page table: the root, the table under
root entry `a`, or the leaf-level table under entry `b` of that table. -/
inductive Pos where
  | root
  | l1 (a : Nat)
  | l0 (a b : Nat)
  deriving DecidableEq, Repr

/-- The frame of the table at a position, when the entries that lead to it are
Valid. -/
def frameAt (k : Kernel) (pt : Nat) : Pos → Option Nat
  | .root => some pt
  | .l1 a =>
    if a < 512 ∧ k.mem pt a &&& PTE_V ≠ 0 then some (PTE2PA (k.mem pt a)) else none
  | .l0 a b =>
    if a < 512 ∧ k.mem pt a &&& PTE_V ≠ 0 then
      if b < 512 ∧ k.mem (PTE2PA (k.mem pt a)) b &&& PTE_V ≠ 0 then
        some (PTE2PA (k.mem (PTE2PA (k.mem pt a)) b))
      else none
    else none

/-- A page table in the sense of the data model: the tables reachable from the
root are pairwise distinct frames (a tree, no node shared), none of them is
on the free list of the allocator, and the free list holds distinct,
page-aligned frames. -/
structure PTWf (k : Kernel) (pt : Nat) : Prop where
  inj : ∀ p q f, frameAt k pt p = some f → frameAt k pt q = some f → p = q
  fresh : ∀ p f, frameAt k pt p = some f → f ∉ k.freelist
  nodup : k.freelist.Nodup
  aligned : ∀ f ∈ k.freelist, f % 4096 = 0 ∧ f < U64

/-- The address of the leaf PTE of `va`, read from memory without change:
what `walk` computes when `alloc` is 0. -/
def leaf (k : Kernel) (pt va : Nat) : Option (Nat × Nat) :=
  if k.mem pt (PX 2 va) &&& PTE_V ≠ 0 then
    if k.mem (PTE2PA (k.mem pt (PX 2 va))) (PX 1 va) &&& PTE_V ≠ 0 then
      some (PTE2PA (k.mem (PTE2PA (k.mem pt (PX 2 va))) (PX 1 va)), PX 0 va)
    else none
  else none

/-- The leaf PTE of `va`; 0 when the leaf-level table does not exist. -/
def pteOf (k : Kernel) (pt va : Nat) : Nat :=
  match leaf k pt va with
  | some (t, i) => k.mem t i
  | none => 0

/-- The state after `walk` has taken frame `f` from the free list, cleared it
and stored the entry that points to it at `&t[i]`. -/
def allocNode (k : Kernel) (f : Nat) (rest : List Nat) (t i : Nat) : Kernel :=
  (({ k with freelist := rest } : Kernel).zero f).write t i (PA2PTE f ||| PTE_V)

/-- What a call that only adds tables to the page table `pt` leaves in place:
the page table is still a tree, every leaf PTE reads as before, the tables
that existed are where they were, new tables come from the free list, and
no frame outside the page table and the free list is written. -/
structure Step (k k' : Kernel) (pt : Nat) : Prop where
  wf : PTWf k' pt
  pte : ∀ va, pteOf k' pt va = pteOf k pt va
  proc : k'.proc = k.proc
  suffix : k'.freelist <:+ k.freelist
  mono : ∀ p g, frameAt k pt p = some g → frameAt k' pt p = some g
  tables : ∀ p g, frameAt k' pt p = some g → (∃ q, frameAt k pt q = some g) ∨ g ∈ k.freelist
  other : ∀ t, t ∉ k.freelist → (∀ p, frameAt k pt p ≠ some t) → ∀ i, k'.mem t i = k.mem t i

/-- What a call that adds tables and stores leaf PTEs leaves in place: as
`Step`, but the leaf PTEs may change. -/
structure Grow (k k' : Kernel) (pt : Nat) : Prop where
  wf : PTWf k' pt
  proc : k'.proc = k.proc
  suffix : k'.freelist <:+ k.freelist
  mono : ∀ p g, frameAt k pt p = some g → frameAt k' pt p = some g
  tables : ∀ p g, frameAt k' pt p = some g → (∃ q, frameAt k pt q = some g) ∨ g ∈ k.freelist
  other : ∀ t, t ∉ k.freelist → (∀ p, frameAt k pt p ≠ some t) → ∀ i, k'.mem t i = k.mem t i

/-- The leaf PTE `mappages` stores for frame `pa` and permissions `perm`. -/
def leafEntry (pa perm : Nat) : Nat := (PA2PTE pa ||| perm ||| PTE_V) % U64

/-! ## Concrete states used to instantiate the theorems -/

/-- A process with empty rosters and no resident page, page table at `pt`. -/
def emptyProc (name : List Nat) (pt : Nat) : Proc where
  name := name
  pagetable := pt
  memory_pages := fun _ => ⟨0, UNUSED, 0⟩
  swapfile_pages := fun _ => ⟨0, UNUSED, 0⟩
  num_of_phys_pages := 0
  scfifo := fun _ => ⟨0, none, none⟩
  oldest := none
  newest := none
  swapFile := fun _ _ => 0

/-- A kernel whose memory is all zero: the page table at 0x1000 is empty, and
the allocator holds the given frames. -/
def emptyKernel (name : List Nat) (frames : List Nat) : Kernel where
  mem := fun _ _ => 0
  freelist := frames
  proc := emptyProc name 0x1000

/-- The state after a normal return, or `k` itself otherwise. -/
def Res.stateOr {α : Type} (r : Res α) (k : Kernel) : Kernel :=
  match r with
  | .ok _ k' => k'
  | _ => k

/-- An empty page table and four free frames. -/
def wK0 : Kernel := emptyKernel [] [0x2000, 0x3000, 0x4000, 0x5000]

/-- The state `wK0` after mapping two pages at 0 to the frames at 0x80000000. -/
def wK1 : Kernel := (mappages wK0 0x1000 0 0x2000 0x80000000 (PTE_R ||| PTE_U)).stateOr wK0

/-- An empty page table and two free frames, after mapping the page at
0x200000: both frames are now tables and the free list is empty. -/
def wK2 : Kernel :=
  (mappages (emptyKernel [] [0x2000, 0x3000]) 0x1000 0x200000 0x1000 0x80000000 PTE_R).stateOr
    (emptyKernel [] [])

/-! ## Observations and scenarios -/

/-- The function `uvmcreate`: the new root, or `none` when out of memory. -/
def uvmcreate (k : Kernel) : Res (Option Nat) :=
  match kalloc k with
  | (none, k1) => .ok none k1
  | (some pagetable, k1) => .ok (some pagetable) (k1.zero pagetable)

/-- The number of resident-roster slots whose status is `INMEMORY`. -/
def inMemoryCount (p : Proc) : Nat :=
  ((List.range MAX_PSYC_PAGES).filter (fun i => (p.memory_pages i).status = INMEMORY)).length

/-- The hardware sets the accessed bit of the leaf PTE when the process
refers to a resident page. -/
def hw_access (k : Kernel) (va : Nat) : Kernel :=
  match leaf k k.proc.pagetable va with
  | none => k
  | some (t, i) => k.write t i (k.mem t i ||| PTE_A)

/-- Forty free frames from 0x80000000. -/
def frames40 : List Nat := (List.range 40).map (fun i => 0x80000000 + i * 4096)

/-- The name "test" of a process that takes part in paging. -/
def testName : List Nat := [116, 101, 115, 116]

/-- A process "test" with an empty page table at 0x1000 and forty free frames. -/
def bK0 : Kernel := emptyKernel testName frames40

/-- Under NFUA: the process has grown to 17 pages; page 0 was evicted. -/
def bK17 : Kernel := (uvmalloc .NFUA bK0 0x1000 0 (17 * PGSIZE) PTE_W).stateOr bK0

/-- The state `bK17` with a fresh root for a child, and that root. -/
def bFork : Res (Option Nat) := uvmcreate bK17

/-- From `bK17`: the process refers to page 16, a tick ages the counters, the
process faults page 0 back in (page 1 is evicted, page 0 takes slot 1), and
shrinks by one page (slot 0, which held page 16, is released). -/
def bK10 : Kernel :=
  (((update_counters (hw_access bK17 (16 * PGSIZE))).bind fun _ k =>
      page_fault .NFUA k 0).bind fun _ k =>
        uvmdealloc .NFUA k 0x1000 (17 * PGSIZE) (16 * PGSIZE)).stateOr bK0

/-- The resident roster agrees with the page table: the page table is a tree,
every `INMEMORY` slot records an address below `MAXVA` that has a leaf PTE,
and no two `INMEMORY` slots record the same page. -/
structure RosterOK (k : Kernel) : Prop where
  wf : PTWf k k.proc.pagetable
  mapped : ∀ i, i < MAX_PSYC_PAGES → (k.proc.memory_pages i).status = INMEMORY →
    (k.proc.memory_pages i).va < MAXVA
      ∧ leaf k k.proc.pagetable (k.proc.memory_pages i).va ≠ none
  distinct : ∀ i j, i < MAX_PSYC_PAGES → j < MAX_PSYC_PAGES → i ≠ j →
    (k.proc.memory_pages i).status = INMEMORY → (k.proc.memory_pages j).status = INMEMORY →
    (k.proc.memory_pages i).va / PGSIZE ≠ (k.proc.memory_pages j).va / PGSIZE

/-- The counter of a resident page after one call of `update_counters`:
shifted right by one, with the top bit set when the page was accessed. -/
def aged (counter : Nat) (accessed : Bool) : Nat :=
  if accessed then (counter >>> 1) ||| 0x8000000000000000 else counter >>> 1

/-- The state after the slots `lo ≤ j < hi` of the resident roster have been
aged by `update_counters`, starting from `k`. -/
structure AgedPost (k k' : Kernel) (lo hi : Nat) : Prop where
  wf : PTWf k' k.proc.pagetable
  pt : k'.proc.pagetable = k.proc.pagetable
  leaf_eq : ∀ va, leaf k' k.proc.pagetable va = leaf k k.proc.pagetable va
  slot_in : ∀ j, lo ≤ j → j < hi → (k.proc.memory_pages j).status = INMEMORY →
    k'.proc.memory_pages j = { k.proc.memory_pages j with
      counter := aged (k.proc.memory_pages j).counter
        (decide (pteOf k k.proc.pagetable (k.proc.memory_pages j).va &&& PTE_A ≠ 0)) }
  slot_out : ∀ j, ¬ (lo ≤ j ∧ j < hi ∧ (k.proc.memory_pages j).status = INMEMORY) →
    k'.proc.memory_pages j = k.proc.memory_pages j
  pte_in : ∀ va, va < MAXVA →
    (∃ j, lo ≤ j ∧ j < hi ∧ (k.proc.memory_pages j).status = INMEMORY
      ∧ (k.proc.memory_pages j).va / PGSIZE = va / PGSIZE) →
    pteOf k' k.proc.pagetable va &&& PTE_A = 0
  pte_out : ∀ va, va < MAXVA →
    ¬ (∃ j, lo ≤ j ∧ j < hi ∧ (k.proc.memory_pages j).status = INMEMORY
      ∧ (k.proc.memory_pages j).va / PGSIZE = va / PGSIZE) →
    pteOf k' k.proc.pagetable va = pteOf k k.proc.pagetable va

/-- The state after the body of the loop of `update_counters` for an
`INMEMORY` slot `i` whose leaf PTE is at `&t[x]`. -/
def ageSlot (k : Kernel) (i t x : Nat) : Kernel :=
  let k2 : Kernel := { k with proc := { k.proc with
    memory_pages := upd k.proc.memory_pages i
      { k.proc.memory_pages i with counter := (k.proc.memory_pages i).counter >>> 1 } } }
  if k2.mem t x &&& PTE_A ≠ 0 then
    let k3 : Kernel := { k2 with proc := { k2.proc with
      memory_pages := upd k2.proc.memory_pages i
        { k2.proc.memory_pages i with
          counter := (k2.proc.memory_pages i).counter ||| 0x8000000000000000 } } }
    k3.write t x (k3.mem t x &&& NOT64 PTE_A)
  else k2

/-- A process "test" with pages 0 and 0x1000 mapped; slot 0 of the resident
roster records page 0x1000 with counter 0, slot 3 records page 0 with
counter 6. -/
def wK6 : Kernel :=
  { wK1 with proc := { emptyProc testName 0x1000 with
      memory_pages := upd (upd (emptyProc testName 0x1000).memory_pages 0 ⟨0x1000, INMEMORY, 0⟩)
        3 ⟨0, INMEMORY, 6⟩,
      num_of_phys_pages := 2 } }

/-! ## The second-chance list as a sequence -/

/-- The links of the nodes of `l`, from oldest to newest, are those of a
doubly-linked list that comes after the node `prev` and ends at `last`. -/
def Chain (sc : Nat → Scfifo) : Option Nat → List Nat → Option Nat → Prop
  | prev, [], last => last = prev
  | prev, a :: rest, last =>
    (sc a).position = a ∧ (sc a).older = prev ∧ (sc a).newer = rest.head?
      ∧ Chain sc (some a) rest last

/-- The second-chance list of the process is the sequence `l` of slots, oldest
first: a well-formed list. -/
def IsList (p : Proc) (l : List Nat) : Prop :=
  l.Nodup ∧ p.oldest = l.head? ∧ Chain p.scfifo none l p.newest

/-- A process "test" with pages A = 0, B = 0x1000, C = 0x2000 mapped. -/
def wK5a : Kernel :=
  (mappages (emptyKernel testName [0x2000, 0x3000, 0x4000]) 0x1000 0 0x3000 0x80000000
    (PTE_R ||| PTE_U)).stateOr (emptyKernel testName [])

/-- The state `wK5a` after the pages were admitted under SCFIFO in the order
A, B, C (slots 0, 1, 2). -/
def wK5b : Kernel :=
  (((allocate_page .SCFIFO wK5a 0x1000 0).bind fun _ k =>
    allocate_page .SCFIFO k 0x1000 0x1000).bind fun _ k =>
    allocate_page .SCFIFO k 0x1000 0x2000).stateOr wK5a

/-- The state `wK5b` after the process referred to page A. -/
def wK5 : Kernel := hw_access wK5b 0

/-- What `findPageToEvict` leaves in place: the rosters, the counts, the swap
file and the free list; the page table, where only accessed bits of leaf PTEs
may have been cleared; and every frame that is not a table. -/
structure EvictScan (k ke : Kernel) : Prop where
  memory_pages : ke.proc.memory_pages = k.proc.memory_pages
  swapfile_pages : ke.proc.swapfile_pages = k.proc.swapfile_pages
  num : ke.proc.num_of_phys_pages = k.proc.num_of_phys_pages
  pagetable : ke.proc.pagetable = k.proc.pagetable
  swapFile : ke.proc.swapFile = k.proc.swapFile
  freelist : ke.freelist = k.freelist
  wf : PTWf ke k.proc.pagetable
  leaf_eq : ∀ va, leaf ke k.proc.pagetable va = leaf k k.proc.pagetable va
  frames : ∀ p, frameAt ke k.proc.pagetable p = frameAt k k.proc.pagetable p
  pte : ∀ va, pteOf ke k.proc.pagetable va = pteOf k k.proc.pagetable va
    ∨ pteOf ke k.proc.pagetable va = pteOf k k.proc.pagetable va &&& NOT64 PTE_A
  other : ∀ t, (∀ p, frameAt k k.proc.pagetable p ≠ some t) → ∀ i, ke.mem t i = k.mem t i

/-- A consistent process state: the page table is a tree; the count of
resident pages is the number of `INMEMORY` slots; every `INMEMORY` slot
records an address below `MAXVA` whose leaf PTE is Valid and not Swapped and
whose frame is not a table of the page table; `INMEMORY` slots record
distinct pages; and no swap slot in use records a resident page. -/
structure Consistent (k : Kernel) : Prop where
  wf : PTWf k k.proc.pagetable
  num : k.proc.num_of_phys_pages = inMemoryCount k.proc
  resident : ∀ i, i < MAX_PSYC_PAGES → (k.proc.memory_pages i).status = INMEMORY →
    (k.proc.memory_pages i).va < MAXVA
      ∧ pteOf k k.proc.pagetable (k.proc.memory_pages i).va &&& PTE_V ≠ 0
      ∧ pteOf k k.proc.pagetable (k.proc.memory_pages i).va &&& PTE_PG = 0
      ∧ ∀ p, frameAt k k.proc.pagetable p
          ≠ some (PTE2PA (pteOf k k.proc.pagetable (k.proc.memory_pages i).va))
  distinct : ∀ i j, i < MAX_PSYC_PAGES → j < MAX_PSYC_PAGES → i ≠ j →
    (k.proc.memory_pages i).status = INMEMORY → (k.proc.memory_pages j).status = INMEMORY →
    (k.proc.memory_pages i).va / PGSIZE ≠ (k.proc.memory_pages j).va / PGSIZE
  swapped : ∀ i j, i < MAX_PSYC_PAGES → j < MAX_PAGED_PAGES →
    (k.proc.memory_pages i).status = INMEMORY → (k.proc.swapfile_pages j).status ≠ UNUSED →
    (k.proc.swapfile_pages j).va ≠ (k.proc.memory_pages i).va

/-- The number of set bits among the low `n` bits of `c`. -/
def popcountBelow (n c : Nat) : Nat :=
  ((List.range n).filter (fun j => c.testBit j)).length

/-- The population count of a 64-bit counter. -/
def popcount64 (c : Nat) : Nat := popcountBelow 64 c

/-- The order in which LAPA looks for its victim among the slots of a roster:
fewer set bits in the counter first, then the smaller counter, then the
lower slot index. -/
def lapaLe (pages : Nat → Page) (m j : Nat) : Prop :=
  popcount64 (pages m).counter < popcount64 (pages j).counter
    ∨ (popcount64 (pages m).counter = popcount64 (pages j).counter
      ∧ ((pages m).counter < (pages j).counter
        ∨ ((pages m).counter = (pages j).counter ∧ m ≤ j)))

/-- The slots met by following the `newer` links from node `a`, at most `n`
of them. -/
def fifoWalk (sc : Nat → Scfifo) : Nat → Option Nat → List Nat
  | 0, _ => []
  | _ + 1, none => []
  | n + 1, some a => a :: fifoWalk sc n (sc a).newer

/-- The second-chance list of a process, read from `oldest` along the `newer`
links. -/
def fifoOrder (p : Proc) : List Nat := fifoWalk p.scfifo (MAX_PSYC_PAGES + 1) p.oldest

/-- The `INMEMORY` slots of the resident roster. -/
def inMemorySlots (p : Proc) : List Nat :=
  (List.range MAX_PSYC_PAGES).filter (fun i => (p.memory_pages i).status = INMEMORY)

/-- The state `bK0` with pages 0 and 0x1000 mapped (rosters empty). -/
def bK2 : Kernel := (mappages bK0 0x1000 0 (2 * PGSIZE) 0x90000000 (PTE_R ||| PTE_U)).stateOr bK0

/-- Under SCFIFO: `allocate_page` of page 0, of page 0x1000, then `swap_out`. -/
def bSeq19 : Res Unit :=
  ((allocate_page .SCFIFO bK2 0x1000 0).bind fun _ k =>
    allocate_page .SCFIFO k 0x1000 0x1000).bind fun _ k => swap_out .SCFIFO k 0x1000

/-! ## Copies between kernel buffers and user memory -/

/-- The byte at physical address `pa`: byte `pa % 8` of the little-endian word
that holds it. -/
def loadByte (k : Kernel) (pa : Nat) : Nat :=
  (k.mem (pa / PGSIZE * PGSIZE) (pa % PGSIZE / 8) >>> (8 * (pa % 8))) % 256

/-- Store of the byte `b` at physical address `pa`. -/
def storeByte (k : Kernel) (pa b : Nat) : Kernel :=
  k.write (pa / PGSIZE * PGSIZE) (pa % PGSIZE / 8)
    ((k.mem (pa / PGSIZE * PGSIZE) (pa % PGSIZE / 8) &&& NOT64 (255 <<< (8 * (pa % 8))))
      ||| ((b % 256) <<< (8 * (pa % 8))))

/-- Modelled from the spec: string.c is not in src; `memmove(pa, src + s, n)`
from a kernel buffer to physical memory (the two do not overlap). -/
def memmove_to (k : Kernel) (pa : Nat) (src : Nat → Nat) (s : Nat) : Nat → Kernel
  | 0 => k
  | n + 1 => storeByte (memmove_to k pa src s n) (pa + n) (src (s + n))

/-- Modelled from the spec: string.c is not in src; `memmove(dst + d, pa, n)`
from physical memory to a kernel buffer. -/
def memmove_from (k : Kernel) (dst : Nat → Nat) (d pa n : Nat) : Nat → Nat :=
  fun j => if d ≤ j ∧ j < d + n then loadByte k (pa + (j - d)) else dst j

/-- The `while` loop of `copyout`; `s` is how far `src` has advanced.  Every
iteration moves `dstva` to the next page and `walkaddr` refuses `MAXVA`, so
`fuel` bounds the iterations. -/
def copyout_loop (fuel : Nat) (k : Kernel) (pagetable dstva : Nat) (src : Nat → Nat)
    (s len : Nat) : Res Int :=
  match fuel with
  | 0 => .nofuel
  | fuel + 1 =>
    if len > 0 then
      let va0 := PGROUNDDOWN dstva
      (walkaddr k pagetable va0).bind fun pa0 k1 =>
        if pa0 = 0 then .ok (-1) k1
        else
          let n := if PGSIZE - (dstva - va0) > len then len else PGSIZE - (dstva - va0)
          let k2 := memmove_to k1 ((pa0 + (dstva - va0)) % U64) src s n
          copyout_loop fuel k2 pagetable ((va0 + PGSIZE) % U64) src (s + n) (len - n)
    else .ok 0 k

/-- The function `copyout`; `src` is the kernel buffer, a map from index to
byte. -/
def copyout (k : Kernel) (pagetable dstva : Nat) (src : Nat → Nat) (len : Nat) : Res Int :=
  copyout_loop (MAXVA / PGSIZE + 2) k pagetable dstva src 0 len

/-- The `while` loop of `copyin`; `d` is how far `dst` has advanced.  The
result carries the kernel buffer. -/
def copyin_loop (fuel : Nat) (k : Kernel) (pagetable : Nat) (dst : Nat → Nat)
    (d srcva len : Nat) : Res (Int × (Nat → Nat)) :=
  match fuel with
  | 0 => .nofuel
  | fuel + 1 =>
    if len > 0 then
      let va0 := PGROUNDDOWN srcva
      (walkaddr k pagetable va0).bind fun pa0 k1 =>
        if pa0 = 0 then .ok (-1, dst) k1
        else
          let n := if PGSIZE - (srcva - va0) > len then len else PGSIZE - (srcva - va0)
          let dst2 := memmove_from k1 dst d ((pa0 + (srcva - va0)) % U64) n
          copyin_loop fuel k1 pagetable dst2 (d + n) ((va0 + PGSIZE) % U64) (len - n)
    else .ok (0, dst) k

/-- The function `copyin`; the kernel buffer `dst` is returned with the
result. -/
def copyin (k : Kernel) (pagetable : Nat) (dst : Nat → Nat) (srcva len : Nat) :
    Res (Int × (Nat → Nat)) :=
  copyin_loop (MAXVA / PGSIZE + 2) k pagetable dst 0 srcva len

/-- The inner `while(n > 0)` loop of `copyinstr`: `got_null`, the buffer, and
how far `dst` and `max` have moved. -/
def copyinstr_inner (k : Kernel) : Nat → Nat → (Nat → Nat) → Nat → Nat →
    Nat × (Nat → Nat) × Nat × Nat
  | 0, _, dst, d, max => (0, dst, d, max)
  | n + 1, p, dst, d, max =>
    if loadByte k p = 0 then (1, upd dst d 0, d, max)
    else copyinstr_inner k n ((p + 1) % U64) (upd dst d (loadByte k p)) (d + 1) (max - 1)

/-- The outer `while` loop of `copyinstr`. -/
def copyinstr_loop (fuel : Nat) (k : Kernel) (pagetable : Nat) (dst : Nat → Nat)
    (d srcva max : Nat) : Res (Int × (Nat → Nat)) :=
  match fuel with
  | 0 => .nofuel
  | fuel + 1 =>
    if max > 0 then
      let va0 := PGROUNDDOWN srcva
      (walkaddr k pagetable va0).bind fun pa0 k1 =>
        if pa0 = 0 then .ok (-1, dst) k1
        else
          let n := if PGSIZE - (srcva - va0) > max then max else PGSIZE - (srcva - va0)
          match copyinstr_inner k1 n ((pa0 + (srcva - va0)) % U64) dst d max with
          | (got_null, dst2, d2, max2) =>
            if got_null ≠ 0 then .ok (0, dst2) k1
            else copyinstr_loop fuel k1 pagetable dst2 d2 ((va0 + PGSIZE) % U64) max2
    else .ok (-1, dst) k

/-- The function `copyinstr`; the kernel buffer `dst` is returned with the
result. -/
def copyinstr (k : Kernel) (pagetable : Nat) (dst : Nat → Nat) (srcva max : Nat) :
    Res (Int × (Nat → Nat)) :=
  copyinstr_loop (MAXVA / PGSIZE + 2) k pagetable dst 0 srcva max

/-- What `walkaddr` returns for `va`: the frame of a Valid, user-accessible
page, otherwise 0. -/
def resolve (k : Kernel) (pagetable va : Nat) : Nat :=
  if va ≥ MAXVA then 0
  else if pteOf k pagetable va &&& PTE_V = 0 then 0
  else if pteOf k pagetable va &&& PTE_U = 0 then 0
  else PTE2PA (pteOf k pagetable va)

/-- The physical address of the byte at virtual address `a` of a resolvable
page. -/
def physAddr (k : Kernel) (pagetable a : Nat) : Nat :=
  resolve k pagetable (a / PGSIZE * PGSIZE) + a % PGSIZE

/-- The user range `[va, va + len)` is backed by memory of its own: the frame
of every resolvable page of the range is not a table of the page table, and
two different resolvable pages of the range have different frames. -/
structure UserRange (k : Kernel) (pagetable va len : Nat) : Prop where
  nontable : ∀ a, va ≤ a → a < va + len → resolve k pagetable (a / PGSIZE * PGSIZE) ≠ 0 →
    ∀ p, frameAt k pagetable p ≠ some (resolve k pagetable (a / PGSIZE * PGSIZE))
  distinct : ∀ a b, va ≤ a → a < va + len → va ≤ b → b < va + len →
    resolve k pagetable (a / PGSIZE * PGSIZE) ≠ 0 →
    resolve k pagetable (b / PGSIZE * PGSIZE) ≠ 0 → a / PGSIZE ≠ b / PGSIZE →
    resolve k pagetable (a / PGSIZE * PGSIZE) ≠ resolve k pagetable (b / PGSIZE * PGSIZE)

/-- A kernel buffer holding the bytes 1, 2, 3, 4. -/
def buf1234 : Nat → Nat := fun j => [1, 2, 3, 4].getD j 0

/-- A kernel buffer of zeros. -/
def buf0 : Nat → Nat := fun _ => 0

/-! ## Invariants of the leaf entries -/

/-- The tables of the page table are pairwise distinct frames. -/
def Tree (k : Kernel) (pagetable : Nat) : Prop :=
  ∀ p q f, frameAt k pagetable p = some f → frameAt k pagetable q = some f → p = q

/-- No leaf PTE of the page table has both Valid and Swapped set. -/
def Excl (k : Kernel) (pagetable : Nat) : Prop :=
  ∀ va, pteOf k pagetable va &&& PTE_V = 0 ∨ pteOf k pagetable va &&& PTE_PG = 0

/-- The state of `uvmcopy` before it copies page `i`, from the state `k0` at
the call: the destination is a tree; the source table, its leaf PTEs and the
rosters are as at the call; no table of the source is free or a table of the
destination; the pages below `i` are copied (a Valid page has a Valid leaf
with the flags of the source, a Swapped page has the flags alone); the pages
from `i` have no leaf PTE; every frame that was free at the call is free, a
table of the destination, or the frame of a copied page; and the destination
has the leaf exclusivity when the source has it. -/
structure CopyInv (k0 k : Kernel) (old new i sz : Nat) : Prop where
  wfN : PTWf k new
  oldF : ∀ p, frameAt k old p = frameAt k0 old p
  oldP : ∀ va, pteOf k old va = pteOf k0 old va
  freshO : ∀ p f, frameAt k0 old p = some f → f ∉ k.freelist
  disj : ∀ p q f, frameAt k0 old p = some f → frameAt k new q ≠ some f
  proc : k.proc = k0.proc
  done : ∀ va, va < i →
    (pteOf k0 old va &&& PTE_V ≠ 0 →
      pteOf k new va &&& PTE_V ≠ 0
        ∧ PTE_FLAGS (pteOf k new va) = PTE_FLAGS (pteOf k0 old va))
    ∧ (pteOf k0 old va &&& PTE_V = 0 → pteOf k new va = PTE_FLAGS (pteOf k0 old va))
  todo : ∀ va, i ≤ va → va < sz → pteOf k new va = 0
  acct : ∀ f, f ∈ k0.freelist → f ∈ k.freelist ∨ (∃ p, frameAt k new p = some f)
    ∨ ∃ va, va < i ∧ pteOf k new va &&& PTE_V ≠ 0 ∧ PTE2PA (pteOf k new va) = f
  excl : Excl k0 old → Excl k new

/-- The state of the `uvmunmap` that `uvmcopy` runs at `err`, before it unmaps
page `a`, where copying stopped at page `ie`: the pages below `a` have no leaf
PTE, the pages from `a` to `ie` are still as copied, and every frame that was
free at the call of `uvmcopy` is free, a table of the destination, or the
frame of a page still to unmap. -/
structure UnmapInv (k0 k : Kernel) (old new a ie sz : Nat) : Prop where
  tree : Tree k new
  oldF : ∀ p, frameAt k old p = frameAt k0 old p
  oldP : ∀ va, pteOf k old va = pteOf k0 old va
  disj : ∀ p q f, frameAt k0 old p = some f → frameAt k new q ≠ some f
  proc : k.proc = k0.proc
  zero : ∀ va, va < a → pteOf k new va = 0
  done : ∀ va, a ≤ va → va < ie →
    (pteOf k0 old va &&& PTE_V ≠ 0 →
      pteOf k new va &&& PTE_V ≠ 0
        ∧ PTE_FLAGS (pteOf k new va) = PTE_FLAGS (pteOf k0 old va))
    ∧ (pteOf k0 old va &&& PTE_V = 0 → pteOf k new va = PTE_FLAGS (pteOf k0 old va))
  todo : ∀ va, ie ≤ va → va < sz → pteOf k new va = 0
  acct : ∀ f, f ∈ k0.freelist → f ∈ k.freelist ∨ (∃ p, frameAt k new p = some f)
    ∨ ∃ va, a ≤ va ∧ va < ie ∧ pteOf k new va &&& PTE_V ≠ 0 ∧ PTE2PA (pteOf k new va) = f

/-! ## Scenarios for `uvmcopy` -/

/-- An empty page table at 0x1000 and five free frames. -/
def cK0 : Kernel := emptyKernel [] [0x2000, 0x3000, 0xA000, 0xB000, 0xC000]

/-- The state `cK0` after mapping two pages at 0 to the frames at 0x80000000:
three frames are still free. -/
def cK1 : Kernel := (mappages cK0 0x1000 0 0x2000 0x80000000 (PTE_R ||| PTE_U)).stateOr cK0

/-- The state in which the loop of `uvmcopy` from the table at 0x1000 to the
empty table at 0x9000 ends, started in `cK1` with two pages to copy. -/
def cK1err : Kernel := (uvmcopy_loop (MAXVA / PGSIZE + 2) cK1 0x1000 0x9000 0 0x2000).stateOr cK1

/-- A memory with two page tables of one page each: the table at 0x1000
(tables 0x2000, 0x3000) holds page 0 as a Swapped leaf with the flags R and
U; the table at 0x9000 (tables 0xA000, 0xB000) holds page 0 as a Valid leaf
for the frame at 0x80000000. -/
def xMem : Nat → Nat → Nat := fun t i =>
  if i = 0 then
    if t = 0x1000 then PA2PTE 0x2000 ||| PTE_V
    else if t = 0x2000 then PA2PTE 0x3000 ||| PTE_V
    else if t = 0x3000 then PTE_PG ||| PTE_R ||| PTE_U
    else if t = 0x9000 then PA2PTE 0xA000 ||| PTE_V
    else if t = 0xA000 then PA2PTE 0xB000 ||| PTE_V
    else if t = 0xB000 then leafEntry 0x80000000 (PTE_R ||| PTE_U)
    else 0
  else 0

/-- The kernel with the memory `xMem` and no free frame. -/
def xK : Kernel := { mem := xMem, freelist := [], proc := emptyProc [] 0x1000 }

/-- A memory with one page table of one page: the table at 0x1000 (tables
0x2000, 0x3000) holds page 0 as a leaf for the frame at 0x80000000 that has
Valid and Swapped both set, with the flags R and U; the frame at 0x9000 is
zero, an empty page table. -/
def yMem : Nat → Nat → Nat := fun t i =>
  if i = 0 then
    if t = 0x1000 then PA2PTE 0x2000 ||| PTE_V
    else if t = 0x2000 then PA2PTE 0x3000 ||| PTE_V
    else if t = 0x3000 then leafEntry 0x80000000 (PTE_R ||| PTE_U ||| PTE_PG)
    else 0
  else 0

/-- The kernel with the memory `yMem` and three free frames. -/
def yK : Kernel :=
  { mem := yMem, freelist := [0xA000, 0xB000, 0xC000], proc := emptyProc [] 0x1000 }

/-- A process "test" with page 0 resident (slot 3 of the resident roster) and
page 0x1000 swapped out (its leaf is Swapped, slot 0 of the swap roster
records it); two frames are free. -/
def pK : Kernel :=
  { wK1.write 0x3000 1 ((wK1.mem 0x3000 1 &&& NOT64 PTE_V) ||| PTE_PG) with
    proc := { emptyProc testName 0x1000 with
      memory_pages := upd (emptyProc testName 0x1000).memory_pages 3 ⟨0, INMEMORY, 6⟩,
      swapfile_pages := upd (emptyProc testName 0x1000).swapfile_pages 0 ⟨0x1000, PAGED, 0⟩,
      num_of_phys_pages := 1 } }

/-! ## The growth loop of `uvmalloc` and its rollback -/

/-- The loop of `uvmalloc` up to its first failure.  A normal return carries
the value of `a` and whether `kalloc` returned 0 or `mappages` returned -1 for
page `a`; the state is then the one in which `uvmalloc` calls `uvmdealloc`. -/
def uvmalloc_grow (algo : SwapAlgo) (fuel : Nat) (k : Kernel)
    (pagetable a newsz xperm sh_init : Nat) : Res (Nat × Bool) :=
  match fuel with
  | 0 => .nofuel
  | fuel + 1 =>
    if a < newsz then
      match kalloc k with
      | (none, k1) => .ok (a, true) k1
      | (some mem, k1) =>
        (mappages (k1.zero mem) pagetable a PGSIZE mem (PTE_R ||| PTE_U ||| xperm)).bind
          fun r k2 =>
            if r ≠ 0 then .ok (a, true) (kfree k2 mem)
            else
              (if algo ≠ .NONE ∧ sh_init ≠ 0 then allocate_page algo k2 pagetable a
               else .ok () k2 : Res Unit).bind fun _ k3 =>
                uvmalloc_grow algo fuel k3 pagetable ((a + PGSIZE) % U64) newsz xperm sh_init
    else .ok (a, false) k

/-- What the rollback of `uvmalloc` relies on when the process takes part in
paging: the page table is the one of the process and has the leaf-level
table of the first pages; no leaf PTE points to a table of the page table;
a slot of the resident roster that is in use records a page that has a leaf
PTE, a slot that is not in use records address 0; under SCFIFO `p->oldest`
is null when `p->newest` is, and the slot of `p->newest` is in use (both hold
for a well-formed second-chance list); and `xperm` does not contain the
Swapped bit. -/
structure Paged (algo : SwapAlgo) (k : Kernel) (pagetable xperm : Nat) : Prop where
  own : pagetable = k.proc.pagetable
  low : leaf k pagetable 0 ≠ none
  leafOff : ∀ va, va < MAXVA → ∀ p, frameAt k pagetable p ≠ some (PTE2PA (pteOf k pagetable va))
  used : ∀ i, i < MAX_PSYC_PAGES → (k.proc.memory_pages i).status ≠ UNUSED →
    (k.proc.memory_pages i).va < MAXVA ∧ pteOf k pagetable (k.proc.memory_pages i).va ≠ 0
  unused : ∀ i, i < MAX_PSYC_PAGES → (k.proc.memory_pages i).status = UNUSED →
    (k.proc.memory_pages i).va = 0
  list : algo = .SCFIFO → (k.proc.newest = none → k.proc.oldest = none)
    ∧ ∀ n, k.proc.newest = some n → n < MAX_PSYC_PAGES →
        (k.proc.memory_pages n).status ≠ UNUSED
  perm : xperm &&& PTE_PG = 0

/-- The state of the page table while `uvmalloc` grows or rolls back, from
the state `k0` at the call: the pages of `[a0, b)` have no leaf PTE, the
pages of `[b, a)` have a Valid leaf PTE of a leaf (not Swapped when `perm`
does not contain the Swapped bit), every other leaf PTE is as at the call,
and every frame that was free at the call is free, a table of the page
table, or the frame of a page of `[b, a)`. -/
structure RollInv (k0 k : Kernel) (pagetable perm a0 b a : Nat) : Prop where
  tree : Tree k pagetable
  zero : ∀ va, a0 ≤ va → va < b → pteOf k pagetable va = 0
  mapped : ∀ va, b ≤ va → va < a → pteOf k pagetable va &&& PTE_V ≠ 0
    ∧ PTE_FLAGS (pteOf k pagetable va) ≠ PTE_V
    ∧ (perm &&& PTE_PG = 0 → pteOf k pagetable va &&& PTE_PG = 0)
  other : ∀ va, va < MAXVA → ¬ (a0 ≤ va ∧ va < a) → pteOf k pagetable va = pteOf k0 pagetable va
  acct : ∀ f, f ∈ k0.freelist → f ∈ k.freelist ∨ (∃ p, frameAt k pagetable p = some f)
    ∨ ∃ va, b ≤ va ∧ va < a ∧ PTE2PA (pteOf k pagetable va) = f

/-- The end of the second-chance list while `uvmalloc` grows or rolls back:
the nodes of the pages of `[b, a)`, in the slots `s`, are linked in the order
of the pages and end at `p->newest`; the node of page `b` is `p->oldest` when
it has no older node, and its older node is none of these nodes. -/
structure TailOK (p : Proc) (s : Nat → Nat) (b a : Nat) : Prop where
  newest : p.newest = some (s (a - 4096))
  oldest : p.oldest ≠ none
  link : ∀ va, b ≤ va → va + 4096 < a → va % 4096 = 0 →
    (p.scfifo (s va)).newer = some (s (va + 4096))
  head : (p.scfifo (s b)).older = none → p.oldest = some (s b)
  pred : ∀ n, (p.scfifo (s b)).older = some n →
    ∀ va, b ≤ va → va < a → va % 4096 = 0 → n ≠ s va

/-- The resident roster while `uvmalloc` grows or rolls back: every page `va`
of `[b, a)` is recorded in the slot `s va`, which is in use and is the first
slot that records its address; under SCFIFO the nodes of these slots are the
end of the second-chance list. -/
structure RosterInv (algo : SwapAlgo) (p : Proc) (pagetable b a : Nat) (s : Nat → Nat) :
    Prop where
  own : p.pagetable = pagetable
  slots : ∀ va, b ≤ va → va < a → va % 4096 = 0 →
    s va < MAX_PSYC_PAGES ∧ (p.memory_pages (s va)).va = va
      ∧ (p.memory_pages (s va)).status ≠ UNUSED
      ∧ ∀ j, j < s va → (p.memory_pages j).va ≠ va
  tail : algo = .SCFIFO → b < a → TailOK p s b a

/-- The state of the growth loop after a page was evicted: the page table of
the process is a tree with the leaf-level table of the first pages, no leaf
PTE points to one of its tables, the resident roster is full, and the free
list starts with a frame that is not one of its tables. -/
structure EvInv (k : Kernel) (pagetable : Nat) : Prop where
  tree : Tree k pagetable
  own : k.proc.pagetable = pagetable
  low : leaf k pagetable 0 ≠ none
  leafOff : ∀ va, va < MAXVA → ∀ p, frameAt k pagetable p ≠ some (PTE2PA (pteOf k pagetable va))
  num : k.proc.num_of_phys_pages = MAX_PSYC_PAGES
  head : ∃ f rest, k.freelist = f :: rest ∧ f % 4096 = 0 ∧ f < U64
    ∧ ∀ p, frameAt k pagetable p ≠ some f

/-- The state of the growth loop of a process that takes part in paging,
before page `b` is added and while no page has been evicted: the pages added
so far are recorded, and the conditions of `Paged` hold. -/
structure AdmitInv (algo : SwapAlgo) (k : Kernel) (pagetable a0 b : Nat) (s : Nat → Nat) :
    Prop where
  roster : RosterInv algo k.proc pagetable a0 b s
  used : ∀ i, i < MAX_PSYC_PAGES → (k.proc.memory_pages i).status ≠ UNUSED →
    (k.proc.memory_pages i).va < MAXVA ∧ pteOf k pagetable (k.proc.memory_pages i).va ≠ 0
  unused : ∀ i, i < MAX_PSYC_PAGES → (k.proc.memory_pages i).status = UNUSED →
    (k.proc.memory_pages i).va = 0
  list : algo = .SCFIFO → (k.proc.newest = none → k.proc.oldest = none)
    ∧ ∀ n, k.proc.newest = some n → n < MAX_PSYC_PAGES →
        (k.proc.memory_pages n).status ≠ UNUSED
  pred : algo = .SCFIFO → a0 < b → ∀ n, (k.proc.scfifo (s a0)).older = some n →
    n < MAX_PSYC_PAGES → (k.proc.memory_pages n).status ≠ UNUSED
  low : leaf k pagetable 0 ≠ none
  leafOff : ∀ va, va < MAXVA → ∀ p, frameAt k pagetable p ≠ some (PTE2PA (pteOf k pagetable va))

/-- A process "test" with an empty page table and three free frames. -/
def gK0 : Kernel := emptyKernel testName [0x2000, 0x3000, 0x4000]

/-- The state `gK0` after page 0 was mapped to the frame at 0x80000000: one
frame is still free. -/
def gK1 : Kernel :=
  (mappages gK0 0x1000 0 PGSIZE 0x80000000 (PTE_R ||| PTE_U ||| PTE_W)).stateOr gK0

/-- The state `gK1` with page 0 recorded in slot 0 of the resident roster. -/
def gK : Kernel :=
  { gK1 with proc := { gK1.proc with
      memory_pages := upd gK1.proc.memory_pages 0 ⟨0, INMEMORY, 0⟩,
      num_of_phys_pages := 1 } }

/-- The state in which the loop of `uvmalloc` fails when the process in state
`gK` grows from one page to three. -/
def gKfail : Kernel :=
  (uvmalloc_grow .NFUA (MAXVA / PGSIZE + 2) gK 0x1000 (PGROUNDUP 0x1000) 0x3000 PTE_W
    (sh_or_init gK.proc)).stateOr gK

/-! ### A state for the second-chance scan -/

/-- The state `wK5b` after the process referred to the pages A, B and C: every
entry of the second-chance list has the accessed bit set. -/
def sK : Kernel := hw_access (hw_access (hw_access wK5b 0) 0x1000) 0x2000

/-! ### Sequences of roster operations -/

theorem U64_val : U64 = 18446744073709551616 := by norm_num [U64]

theorem and_not_mask (a : Nat) (h : a < 2 ^ 64) :
    a &&& ((2 ^ 64 - 1) ^^^ (2 ^ 12 - 1)) = a / 2 ^ 12 * 2 ^ 12 := by
  apply Nat.eq_of_testBit_eq
  intro i
  rw [Nat.testBit_and, Nat.testBit_xor, Nat.testBit_two_pow_sub_one, Nat.testBit_two_pow_sub_one,
    Nat.mul_comm, Nat.testBit_mul_pow_two, ← Nat.shiftRight_eq_div_pow, Nat.testBit_shiftRight]
  by_cases h1 : i < 12
  · have h2 : i < 64 := by omega
    have h3 : ¬ (i ≥ 12) := by omega
    simp [h1, h2, h3]
  · have e : 12 + (i - 12) = i := by omega
    rw [e]
    by_cases h2 : i < 64
    · have h3 : i ≥ 12 := by omega
      simp [h1, h2, h3]
    · have h4 : a.testBit i = false :=
        Nat.testBit_eq_false_of_lt (lt_of_lt_of_le h (Nat.pow_le_pow_right (by norm_num) (by omega)))
      simp [h4]

theorem PGROUNDDOWN_eq (a : Nat) (h : a < U64) : PGROUNDDOWN a = a / 4096 * 4096 := by
  have := and_not_mask a (by simpa [U64] using h)
  simpa [PGROUNDDOWN, NOT64, PGSIZE, U64] using this

theorem PGROUNDUP_eq (sz : Nat) : PGROUNDUP sz = (sz + 4095) % U64 / 4096 * 4096 := by
  have h : (sz + 4095) % U64 < 2 ^ 64 := by
    have := Nat.mod_lt (sz + 4095) (show U64 > 0 by norm_num [U64])
    simpa [U64] using this
  have := and_not_mask _ h
  simpa [PGROUNDUP, NOT64, PGSIZE, U64] using this

theorem PX_eq (level va : Nat) : PX level va = va / 2 ^ (12 + 9 * level) % 512 := by
  have := Nat.and_pow_two_sub_one_eq_mod (va >>> (12 + 9 * level)) 9
  simpa [PX, Nat.shiftRight_eq_div_pow] using this

theorem PX_lt (level va : Nat) : PX level va < 512 := by
  rw [PX_eq]; omega

theorem PTE2PA_eq (pte : Nat) : PTE2PA pte = pte / 1024 * 4096 % U64 := by
  simp [PTE2PA, Nat.shiftRight_eq_div_pow, Nat.shiftLeft_eq]

theorem PA2PTE_eq (pa : Nat) : PA2PTE pa = pa / 4096 * 1024 % U64 := by
  simp [PA2PTE, Nat.shiftRight_eq_div_pow, Nat.shiftLeft_eq]

theorem PTE_FLAGS_eq (pte : Nat) : PTE_FLAGS pte = pte % 1024 := by
  have := Nat.and_pow_two_sub_one_eq_mod pte 10
  simpa [PTE_FLAGS] using this

theorem and_V (pte : Nat) : pte &&& PTE_V = pte % 2 := by
  simp [PTE_V, Nat.and_one_is_mod]

theorem PTE2PA_aligned (pte : Nat) : PTE2PA pte % 4096 = 0 := by
  rw [PTE2PA_eq, U64_val]; omega

theorem PTE2PA_lt (pte : Nat) : PTE2PA pte < U64 := by
  rw [PTE2PA_eq]; exact Nat.mod_lt _ (by norm_num [U64])

/-- The entry `mappages` stores, for a set of permission bits, is the frame
number followed by the flags. -/
theorem leaf_entry_eq (pa perm : Nat) (hperm : perm < 1024) :
    (PA2PTE pa ||| perm ||| PTE_V) % U64 = PA2PTE pa + (perm ||| PTE_V)
      ∧ (perm ||| PTE_V) < 1024 ∧ (perm ||| PTE_V) % 2 = 1 := by
  have h1 : (perm ||| PTE_V) < 2 ^ 10 := Nat.or_lt_two_pow (by simpa using hperm) (by norm_num [PTE_V])
  have h2 : (perm ||| PTE_V) % 2 = 1 := by
    have : (perm ||| PTE_V).testBit 0 = true := by simp [Nat.testBit_or, PTE_V]
    simpa [Nat.testBit_zero] using this
  obtain ⟨q, hq⟩ : ∃ q, PA2PTE pa = 2 ^ 10 * q ∧ q < 2 ^ 54 := by
    refine ⟨pa / 4096 % 2 ^ 54, ?_, Nat.mod_lt _ (by norm_num)⟩
    rw [PA2PTE_eq, U64_val]; omega
  have h3 := Nat.mul_add_lt_is_or h1 q
  rw [Nat.lor_assoc, hq.1, ← h3]
  refine ⟨?_, by simpa using h1, h2⟩
  apply Nat.mod_eq_of_lt
  rw [U64_val]
  have := hq.2
  omega

theorem leaf_entry_PTE2PA (pa perm : Nat) (hperm : perm < 1024) (hal : pa % 4096 = 0)
    (hpa : pa < U64) : PTE2PA ((PA2PTE pa ||| perm ||| PTE_V) % U64) = pa := by
  obtain ⟨h1, h2, _⟩ := leaf_entry_eq pa perm hperm
  rw [h1, PTE2PA_eq, PA2PTE_eq]
  rw [U64_val] at *
  omega

theorem leaf_entry_FLAGS (pa perm : Nat) (hperm : perm < 1024) :
    PTE_FLAGS ((PA2PTE pa ||| perm ||| PTE_V) % U64) = perm ||| PTE_V := by
  obtain ⟨h1, h2, _⟩ := leaf_entry_eq pa perm hperm
  rw [h1, PTE_FLAGS_eq, PA2PTE_eq]
  rw [U64_val] at *
  omega

theorem leaf_entry_valid (pa perm : Nat) (hperm : perm < 1024) :
    (PA2PTE pa ||| perm ||| PTE_V) % U64 % 2 = 1 := by
  obtain ⟨h1, h2, h3⟩ := leaf_entry_eq pa perm hperm
  rw [h1, PA2PTE_eq]
  rw [U64_val] at *
  omega

/-- The entry `walk` stores for a new table points to the table and is Valid. -/
theorem node_entry (f : Nat) (hal : f % 4096 = 0) (hf : f < U64) :
    PTE2PA (PA2PTE f ||| PTE_V) = f ∧ (PA2PTE f ||| PTE_V) % 2 = 1 := by
  have h := leaf_entry_eq f 0 (by norm_num)
  have e : PA2PTE f ||| 0 ||| PTE_V = PA2PTE f ||| PTE_V := by simp
  have e2 : (0 ||| PTE_V) = PTE_V := by simp
  rw [e, e2] at h
  have hlt : PA2PTE f ||| PTE_V < U64 := by
    have : PA2PTE f < 2 ^ 64 := by rw [PA2PTE_eq, U64_val]; omega
    have := Nat.or_lt_two_pow this (show PTE_V < 2 ^ 64 by norm_num [PTE_V])
    simpa [U64] using this
  rw [Nat.mod_eq_of_lt hlt] at h
  constructor
  · rw [h.1, PTE2PA_eq, PA2PTE_eq]; simp only [PTE_V]; rw [U64_val] at *; omega
  · rw [h.1, PA2PTE_eq]; simp only [PTE_V]; rw [U64_val] at *; omega

/-! ## The tree of tables: frame lemmas -/

theorem write_mem_ne (k : Kernel) (t i v t' i' : Nat) (h : t' ≠ t) :
    (k.write t i v).mem t' i' = k.mem t' i' := by
  simp [Kernel.write, h]

theorem write_mem_same (k : Kernel) (t i v : Nat) : (k.write t i v).mem t i = v := by
  simp [Kernel.write]

theorem leaf_eq_frameAt (k : Kernel) (pt va : Nat) :
    leaf k pt va = (frameAt k pt (.l0 (PX 2 va) (PX 1 va))).map (fun t => (t, PX 0 va)) := by
  simp only [leaf, frameAt, PX_lt, true_and]
  split_ifs <;> simp

theorem frameAt_congr (k k' : Kernel) (pt : Nat) (hroot : ∀ i, k'.mem pt i = k.mem pt i)
    (hl1 : ∀ a t, frameAt k pt (.l1 a) = some t → ∀ i, k'.mem t i = k.mem t i) :
    ∀ p, frameAt k' pt p = frameAt k pt p := by
  intro p
  cases p with
  | root => rfl
  | l1 a => simp [frameAt, hroot]
  | l0 a b =>
    by_cases h : a < 512 ∧ k.mem pt a &&& PTE_V ≠ 0
    · have := hl1 a (PTE2PA (k.mem pt a)) (by simp only [frameAt]; rw [if_pos h])
      simp only [frameAt, hroot, this]
    · simp only [frameAt, hroot]; rw [if_neg h, if_neg h]

theorem PTWf_of_frameAt_eq (k k' : Kernel) (pt : Nat)
    (hfa : ∀ p, frameAt k' pt p = frameAt k pt p) (hfl : k'.freelist = k.freelist)
    (hwf : PTWf k pt) : PTWf k' pt := by
  constructor
  · intro p q f hp hq
    rw [hfa] at hp hq
    exact hwf.inj p q f hp hq
  · intro p f hp
    rw [hfa] at hp
    rw [hfl]
    exact hwf.fresh p f hp
  · rw [hfl]; exact hwf.nodup
  · rw [hfl]; exact hwf.aligned

/-- A store to a leaf-level table changes no table of the tree. -/
theorem frameAt_write_l0 (k : Kernel) (pt a b t i v : Nat) (hwf : PTWf k pt)
    (h : frameAt k pt (.l0 a b) = some t) :
    ∀ p, frameAt (k.write t i v) pt p = frameAt k pt p := by
  apply frameAt_congr
  · intro j
    apply write_mem_ne
    intro e
    have := hwf.inj (.l0 a b) .root t h (by simp [frameAt, e])
    cases this
  · intro a' t' ht' j
    apply write_mem_ne
    intro e
    subst e
    have := hwf.inj (.l0 a b) (.l1 a') _ h ht'
    cases this

theorem leaf_frame (k : Kernel) (pt va t i : Nat) (h : leaf k pt va = some (t, i)) :
    frameAt k pt (.l0 (PX 2 va) (PX 1 va)) = some t ∧ i = PX 0 va := by
  rw [leaf_eq_frameAt] at h
  cases hf : frameAt k pt (.l0 (PX 2 va) (PX 1 va)) with
  | none => simp [hf] at h
  | some t' =>
    simp [hf] at h
    simp [h]

theorem leaf_write (k : Kernel) (pt va t i v : Nat) (hwf : PTWf k pt)
    (h : leaf k pt va = some (t, i)) (va' : Nat) :
    leaf (k.write t i v) pt va' = leaf k pt va' := by
  rw [leaf_eq_frameAt, leaf_eq_frameAt, frameAt_write_l0 k pt _ _ t i v hwf (leaf_frame k pt va t i h).1]

theorem PTWf_write (k : Kernel) (pt va t i v : Nat) (hwf : PTWf k pt)
    (h : leaf k pt va = some (t, i)) : PTWf (k.write t i v) pt :=
  PTWf_of_frameAt_eq k _ pt (frameAt_write_l0 k pt _ _ t i v hwf (leaf_frame k pt va t i h).1) rfl hwf

theorem pteOf_write (k : Kernel) (pt va t i v : Nat) (hwf : PTWf k pt)
    (h : leaf k pt va = some (t, i)) (va' : Nat) :
    pteOf (k.write t i v) pt va' = if leaf k pt va' = some (t, i) then v else pteOf k pt va' := by
  unfold pteOf
  rw [leaf_write k pt va t i v hwf h]
  cases hl : leaf k pt va' with
  | none => simp
  | some l =>
    obtain ⟨t', i'⟩ := l
    by_cases e : t' = t ∧ i' = i
    · simp [Kernel.write, e]
    · have : ¬ ((t', i') = (t, i)) := by simpa using e
      simp [Kernel.write, e]

/-- Two addresses with the same leaf PTE have the same three indices. -/
theorem leaf_inj (k : Kernel) (pt va va' : Nat) (l : Nat × Nat) (hwf : PTWf k pt)
    (h : leaf k pt va = some l) (h' : leaf k pt va' = some l) :
    PX 2 va = PX 2 va' ∧ PX 1 va = PX 1 va' ∧ PX 0 va = PX 0 va' := by
  obtain ⟨t, i⟩ := l
  obtain ⟨h1, h2⟩ := leaf_frame k pt va t i h
  obtain ⟨h1', h2'⟩ := leaf_frame k pt va' t i h'
  have := hwf.inj _ _ t h1 h1'
  injection this with e1 e2
  exact ⟨e1, e2, by rw [← h2, ← h2']⟩

theorem PX_inj (va va' : Nat) (h : va < MAXVA) (h' : va' < MAXVA)
    (e : PX 2 va = PX 2 va' ∧ PX 1 va = PX 1 va' ∧ PX 0 va = PX 0 va') :
    va / 4096 = va' / 4096 := by
  simp only [PX_eq] at e
  norm_num at e
  simp only [MAXVA] at h h'
  norm_num at h h'
  omega

theorem PX_of_page_eq (va va' : Nat) (e : va / 4096 = va' / 4096) (l : Nat) (hl : l ≤ 2) :
    PX l va = PX l va' := by
  simp only [PX_eq]
  interval_cases l <;> norm_num <;> omega

theorem leaf_page_eq (k : Kernel) (pt va va' : Nat) (e : va / 4096 = va' / 4096) :
    leaf k pt va = leaf k pt va' := by
  unfold leaf
  rw [PX_of_page_eq va va' e 2 (by norm_num), PX_of_page_eq va va' e 1 (by norm_num),
    PX_of_page_eq va va' e 0 (by norm_num)]

theorem walk_noalloc (k : Kernel) (pt va : Nat) (h : va < MAXVA) :
    walk k pt va 0 = .ok (leaf k pt va) k := by
  unfold walk walk_level leaf
  have : ¬ (va ≥ MAXVA) := by omega
  simp only [this, if_false]
  split_ifs <;> simp [Res.bind] <;> simp_all

/-! ## Allocation of a table by `walk` -/

theorem PTWf_extend (k k' : Kernel) (pt f : Nat) (rest : List Nat) (p0 : Pos) (hwf : PTWf k pt)
    (hfl : k.freelist = f :: rest) (hk' : k'.freelist = rest)
    (hfa : ∀ p, frameAt k' pt p = if p = p0 then some f else frameAt k pt p) : PTWf k' pt := by
  have hnd := hwf.nodup
  rw [hfl] at hnd
  have hfmem : f ∈ k.freelist := by rw [hfl]; simp
  constructor
  · intro p q g hp hq
    rw [hfa] at hp hq
    by_cases e1 : p = p0 <;> by_cases e2 : q = p0
    · rw [e1, e2]
    · simp only [e1, e2, if_true, if_false] at hp hq
      injection hp with hp
      subst hp
      exact absurd hfmem (hwf.fresh q _ hq)
    · simp only [e1, e2, if_true, if_false] at hp hq
      injection hq with hq
      subst hq
      exact absurd hfmem (hwf.fresh p _ hp)
    · simp only [e1, e2, if_false] at hp hq
      exact hwf.inj p q g hp hq
  · intro p g hp
    rw [hfa] at hp
    rw [hk']
    by_cases e1 : p = p0
    · simp only [e1, if_true] at hp
      injection hp with hp
      subst hp
      exact (List.nodup_cons.mp hnd).1
    · simp only [e1, if_false] at hp
      have := hwf.fresh p g hp
      rw [hfl] at this
      exact fun h => this (List.mem_cons_of_mem _ h)
  · rw [hk']; exact (List.nodup_cons.mp hnd).2
  · rw [hk']
    intro g hg
    exact hwf.aligned g (by rw [hfl]; exact List.mem_cons_of_mem _ hg)

theorem allocNode_mem (k : Kernel) (f : Nat) (rest : List Nat) (t i t' i' : Nat) :
    (allocNode k f rest t i).mem t' i' =
      if t' = t ∧ i' = i then PA2PTE f ||| PTE_V else if t' = f then 0 else k.mem t' i' := by
  simp [allocNode, Kernel.write, Kernel.zero]

theorem step_refl (k : Kernel) (pt : Nat) (hwf : PTWf k pt) : Step k k pt :=
  ⟨hwf, fun _ => rfl, rfl, List.suffix_refl _, fun _ _ h => h, fun p _ h => Or.inl ⟨p, h⟩,
    fun _ _ _ _ => rfl⟩

theorem step_trans (k k1 k2 : Kernel) (pt : Nat) (h1 : Step k k1 pt) (h2 : Step k1 k2 pt) :
    Step k k2 pt := by
  constructor
  · exact h2.wf
  · intro va; rw [h2.pte, h1.pte]
  · rw [h2.proc, h1.proc]
  · exact h2.suffix.trans h1.suffix
  · intro p g h; exact h2.mono p g (h1.mono p g h)
  · intro p g h
    rcases h2.tables p g h with ⟨q, hq⟩ | hmem
    · exact h1.tables q g hq
    · exact Or.inr (h1.suffix.subset hmem)
  · intro t ht hnt i
    rw [h2.other t (fun h => ht (h1.suffix.subset h)) ?_ i, h1.other t ht hnt i]
    intro p hp
    rcases h1.tables p t hp with ⟨q, hq⟩ | hmem
    · exact hnt q hq
    · exact ht hmem

theorem entry_valid (f : Nat) (hal : f % 4096 = 0) (hf : f < U64) :
    (PA2PTE f ||| PTE_V) &&& PTE_V ≠ 0 := by
  rw [and_V, (node_entry f hal hf).2]; norm_num

theorem frameAt_alloc_l1 (k : Kernel) (pt a f : Nat) (rest : List Nat) (hwf : PTWf k pt)
    (ha : a < 512) (hinv : k.mem pt a &&& PTE_V = 0) (hfl : k.freelist = f :: rest) :
    ∀ p, frameAt (allocNode k f rest pt a) pt p
      = if p = .l1 a then some f else frameAt k pt p := by
  have hfmem : f ∈ k.freelist := by rw [hfl]; simp
  have hal := hwf.aligned f hfmem
  have hfpt : pt ≠ f := fun e => hwf.fresh .root pt rfl (e ▸ hfmem)
  intro p
  cases p with
  | root => simp [frameAt]
  | l1 a' =>
    by_cases e : a' = a
    · subst e
      simp only [frameAt, allocNode_mem, true_and, and_self, if_true, ha]
      rw [if_pos (entry_valid f hal.1 hal.2), (node_entry f hal.1 hal.2).1]
    · have e' : ¬ (Pos.l1 a' = Pos.l1 a) := by simpa using e
      simp only [frameAt, allocNode_mem, e, and_false, if_false, hfpt, e']
  | l0 a' b' =>
    have e' : ¬ (Pos.l0 a' b' = Pos.l1 a) := by simp
    rw [if_neg e']
    by_cases e : a' = a
    · subst e
      have h0 : (0 : Nat) &&& PTE_V = 0 := by simp
      simp only [frameAt, allocNode_mem, true_and, and_self, if_true, ha, hinv]
      rw [if_pos (entry_valid f hal.1 hal.2), (node_entry f hal.1 hal.2).1]
      simp [hfpt.symm, h0]
    · simp only [frameAt, allocNode_mem, e, and_false, if_false, hfpt]
      by_cases hv : a' < 512 ∧ k.mem pt a' &&& PTE_V ≠ 0
      · rw [if_pos hv, if_pos hv]
        have hl1 : frameAt k pt (.l1 a') = some (PTE2PA (k.mem pt a')) := by
          simp only [frameAt]; rw [if_pos hv]
        have n1 : PTE2PA (k.mem pt a') ≠ pt := fun e =>
          Pos.noConfusion (hwf.inj _ .root _ hl1 (by simp [frameAt, e]))
        have n2 : PTE2PA (k.mem pt a') ≠ f := fun e => hwf.fresh _ _ hl1 (e ▸ hfmem)
        simp only [n1, n2, false_and, if_false]
      · rw [if_neg hv, if_neg hv]

theorem alloc_l1_step (k : Kernel) (pt a f : Nat) (rest : List Nat) (hwf : PTWf k pt)
    (ha : a < 512) (hinv : k.mem pt a &&& PTE_V = 0) (hfl : k.freelist = f :: rest) :
    Step k (allocNode k f rest pt a) pt := by
  have hfa := frameAt_alloc_l1 k pt a f rest hwf ha hinv hfl
  have hfmem : f ∈ k.freelist := by rw [hfl]; simp
  have hnone : frameAt k pt (.l1 a) = none := by simp [frameAt, hinv]
  constructor
  · exact PTWf_extend k _ pt f rest (.l1 a) hwf hfl rfl hfa
  · intro va
    unfold pteOf
    rw [leaf_eq_frameAt, leaf_eq_frameAt, hfa, if_neg (by simp)]
    cases h : frameAt k pt (.l0 (PX 2 va) (PX 1 va)) with
    | none => rfl
    | some t0 =>
      have n1 : t0 ≠ pt := fun e =>
        Pos.noConfusion (hwf.inj _ .root _ h (by simp [frameAt, e]))
      have n2 : t0 ≠ f := fun e => hwf.fresh _ _ h (e ▸ hfmem)
      simp [allocNode_mem, n1, n2]
  · rfl
  · show rest <:+ k.freelist
    rw [hfl]; exact List.suffix_cons f rest
  · intro p g h
    rw [hfa]
    by_cases e : p = .l1 a
    · rw [e, hnone] at h; cases h
    · rw [if_neg e]; exact h
  · intro p g h
    rw [hfa] at h
    by_cases e : p = .l1 a
    · rw [if_pos e] at h; injection h with h; exact Or.inr (h ▸ hfmem)
    · rw [if_neg e] at h; exact Or.inl ⟨p, h⟩
  · intro t ht hnt i
    have n1 : t ≠ pt := fun e => hnt .root (by simp [frameAt, e])
    have n2 : t ≠ f := fun e => ht (e ▸ hfmem)
    simp [allocNode_mem, n1, n2]

theorem frameAt_alloc_l0 (k : Kernel) (pt a b f : Nat) (rest : List Nat) (hwf : PTWf k pt)
    (ha : a < 512) (hv : k.mem pt a &&& PTE_V ≠ 0) (hb : b < 512)
    (hinv : k.mem (PTE2PA (k.mem pt a)) b &&& PTE_V = 0) (hfl : k.freelist = f :: rest) :
    ∀ p, frameAt (allocNode k f rest (PTE2PA (k.mem pt a)) b) pt p
      = if p = .l0 a b then some f else frameAt k pt p := by
  have hfmem : f ∈ k.freelist := by rw [hfl]; simp
  have hal := hwf.aligned f hfmem
  have hfpt : pt ≠ f := fun e => hwf.fresh .root pt rfl (e ▸ hfmem)
  have hl1a : frameAt k pt (.l1 a) = some (PTE2PA (k.mem pt a)) := by
    simp only [frameAt]; rw [if_pos ⟨ha, hv⟩]
  have hpt1 : pt ≠ PTE2PA (k.mem pt a) := fun e =>
    Pos.noConfusion (hwf.inj _ .root _ hl1a (by simp only [frameAt]; rw [← e]))
  have hroot : ∀ j, (allocNode k f rest (PTE2PA (k.mem pt a)) b).mem pt j = k.mem pt j := by
    intro j; simp [allocNode_mem, hpt1, hfpt]
  intro p
  cases p with
  | root => simp [frameAt]
  | l1 a' =>
    have e' : ¬ (Pos.l1 a' = Pos.l0 a b) := by simp
    simp only [frameAt, hroot, e', if_false]
  | l0 a' b' =>
    simp only [frameAt, hroot]
    by_cases hv' : a' < 512 ∧ k.mem pt a' &&& PTE_V ≠ 0
    · rw [if_pos hv', if_pos hv']
      have hl1 : frameAt k pt (.l1 a') = some (PTE2PA (k.mem pt a')) := by
        simp only [frameAt]; rw [if_pos hv']
      have n2 : PTE2PA (k.mem pt a') ≠ f := fun e => hwf.fresh _ _ hl1 (e ▸ hfmem)
      by_cases e : a' = a ∧ b' = b
      · obtain ⟨e1, e2⟩ := e
        subst e1; subst e2
        simp only [allocNode_mem, and_self, if_true, hb, true_and]
        rw [if_pos (entry_valid f hal.1 hal.2), (node_entry f hal.1 hal.2).1]
      · have e' : ¬ (Pos.l0 a' b' = Pos.l0 a b) := by simpa using e
        rw [if_neg e']
        have : ¬ (PTE2PA (k.mem pt a') = PTE2PA (k.mem pt a) ∧ b' = b) := by
          rintro ⟨h1, h2⟩
          apply e
          refine ⟨?_, h2⟩
          have := hwf.inj (.l1 a') (.l1 a) _ hl1 (h1 ▸ hl1a)
          injection this
        simp only [allocNode_mem, this, if_false, n2]
    · rw [if_neg hv', if_neg hv']
      have e' : ¬ (Pos.l0 a' b' = Pos.l0 a b) := by
        intro e; injection e with e1 e2
        exact hv' ⟨e1 ▸ ha, e1 ▸ hv⟩
      rw [if_neg e']

theorem alloc_l0_step (k : Kernel) (pt a b f : Nat) (rest : List Nat) (hwf : PTWf k pt)
    (ha : a < 512) (hv : k.mem pt a &&& PTE_V ≠ 0) (hb : b < 512)
    (hinv : k.mem (PTE2PA (k.mem pt a)) b &&& PTE_V = 0) (hfl : k.freelist = f :: rest) :
    Step k (allocNode k f rest (PTE2PA (k.mem pt a)) b) pt := by
  have hfa := frameAt_alloc_l0 k pt a b f rest hwf ha hv hb hinv hfl
  have hfmem : f ∈ k.freelist := by rw [hfl]; simp
  have hl1a : frameAt k pt (.l1 a) = some (PTE2PA (k.mem pt a)) := by
    simp only [frameAt]; rw [if_pos ⟨ha, hv⟩]
  have hnone : frameAt k pt (.l0 a b) = none := by
    simp only [frameAt]; rw [if_pos ⟨ha, hv⟩, if_neg (by simp [hinv])]
  have hft1 : f ≠ PTE2PA (k.mem pt a) := fun e => hwf.fresh _ _ hl1a (e ▸ hfmem)
  constructor
  · exact PTWf_extend k _ pt f rest (.l0 a b) hwf hfl rfl hfa
  · intro va
    unfold pteOf
    rw [leaf_eq_frameAt, leaf_eq_frameAt, hfa]
    by_cases e : Pos.l0 (PX 2 va) (PX 1 va) = Pos.l0 a b
    · rw [if_pos e, e, hnone]
      simp [allocNode_mem, hft1]
    · rw [if_neg e]
      cases h : frameAt k pt (.l0 (PX 2 va) (PX 1 va)) with
      | none => rfl
      | some t0 =>
        have n1 : t0 ≠ PTE2PA (k.mem pt a) := fun e =>
          Pos.noConfusion (hwf.inj _ (.l1 a) _ h (e ▸ hl1a))
        have n2 : t0 ≠ f := fun e => hwf.fresh _ _ h (e ▸ hfmem)
        simp [allocNode_mem, n1, n2]
  · rfl
  · show rest <:+ k.freelist
    rw [hfl]; exact List.suffix_cons f rest
  · intro p g h
    rw [hfa]
    by_cases e : p = .l0 a b
    · rw [e, hnone] at h; cases h
    · rw [if_neg e]; exact h
  · intro p g h
    rw [hfa] at h
    by_cases e : p = .l0 a b
    · rw [if_pos e] at h; injection h with h; exact Or.inr (h ▸ hfmem)
    · rw [if_neg e] at h; exact Or.inl ⟨p, h⟩
  · intro t ht hnt i
    have n1 : t ≠ PTE2PA (k.mem pt a) := fun e => hnt (.l1 a) (e ▸ hl1a)
    have n2 : t ≠ f := fun e => ht (e ▸ hfmem)
    simp [allocNode_mem, n1, n2]

/-! ## What `walk` does -/

theorem walk_level_alloc_cases (k : Kernel) (t va level : Nat) :
    (k.mem t (PX level va) &&& PTE_V ≠ 0
        ∧ walk_level k t va level 1 = .ok (some (PTE2PA (k.mem t (PX level va)))) k)
      ∨ (k.mem t (PX level va) &&& PTE_V = 0 ∧ k.freelist = []
        ∧ walk_level k t va level 1 = .ok none k)
      ∨ (∃ f rest, k.mem t (PX level va) &&& PTE_V = 0 ∧ k.freelist = f :: rest
        ∧ walk_level k t va level 1 = .ok (some f) (allocNode k f rest t (PX level va))) := by
  by_cases hv : k.mem t (PX level va) &&& PTE_V ≠ 0
  · left
    exact ⟨hv, by simp [walk_level, hv]⟩
  · right
    have hv' : k.mem t (PX level va) &&& PTE_V = 0 := by simpa using hv
    cases hfl : k.freelist with
    | nil =>
      left
      refine ⟨hv', rfl, ?_⟩
      simp [walk_level, hv', kalloc, hfl]
    | cons f rest =>
      right
      refine ⟨f, rest, hv', rfl, ?_⟩
      simp [walk_level, hv', kalloc, hfl, allocNode]

theorem walk_level2_alloc (k : Kernel) (pt va : Nat) (hwf : PTWf k pt) :
    ∃ r k2, walk_level k pt va 2 1 = .ok r k2 ∧ Step k k2 pt
      ∧ (r = none → k2.freelist = [] ∧ k.freelist = [])
      ∧ (∀ t1, r = some t1 →
          k2.mem pt (PX 2 va) &&& PTE_V ≠ 0 ∧ PTE2PA (k2.mem pt (PX 2 va)) = t1)
      ∧ k.freelist.length ≤ k2.freelist.length + 1 := by
  rcases walk_level_alloc_cases k pt va 2 with ⟨hv, h⟩ | ⟨hv, hfl, h⟩ | ⟨f, rest, hv, hfl, h⟩
  · refine ⟨_, _, h, step_refl k pt hwf, by simp, ?_, by omega⟩
    intro t1 e
    injection e with e
    exact ⟨hv, e⟩
  · exact ⟨_, _, h, step_refl k pt hwf, fun _ => ⟨hfl, hfl⟩, by simp, by omega⟩
  · have hfmem : f ∈ k.freelist := by rw [hfl]; simp
    have hal := hwf.aligned f hfmem
    refine ⟨_, _, h, alloc_l1_step k pt _ f rest hwf (PX_lt 2 va) hv hfl, by simp, ?_, ?_⟩
    · intro t1 e
      injection e with e
      subst e
      have : (allocNode k f rest pt (PX 2 va)).mem pt (PX 2 va) = PA2PTE f ||| PTE_V := by
        simp [allocNode_mem]
      rw [this]
      exact ⟨entry_valid f hal.1 hal.2, (node_entry f hal.1 hal.2).1⟩
    · simp [allocNode, Kernel.write, Kernel.zero, hfl]

theorem walk_level1_alloc (k : Kernel) (pt va : Nat) (hwf : PTWf k pt)
    (hv2 : k.mem pt (PX 2 va) &&& PTE_V ≠ 0) :
    ∃ r k1, walk_level k (PTE2PA (k.mem pt (PX 2 va))) va 1 1 = .ok r k1 ∧ Step k k1 pt
      ∧ (r = none → k1.freelist = [] ∧ k.freelist = [])
      ∧ (∀ t0, r = some t0 → leaf k1 pt va = some (t0, PX 0 va))
      ∧ k.freelist.length ≤ k1.freelist.length + 1 := by
  rcases walk_level_alloc_cases k (PTE2PA (k.mem pt (PX 2 va))) va 1 with
    ⟨hv, h⟩ | ⟨hv, hfl, h⟩ | ⟨f, rest, hv, hfl, h⟩
  · refine ⟨_, _, h, step_refl k pt hwf, by simp, ?_, by omega⟩
    intro t0 e
    injection e with e
    simp only [leaf]
    rw [if_pos hv2, if_pos hv, e]
  · exact ⟨_, _, h, step_refl k pt hwf, fun _ => ⟨hfl, hfl⟩, by simp, by omega⟩
  · refine ⟨_, _, h,
      alloc_l0_step k pt _ _ f rest hwf (PX_lt 2 va) hv2 (PX_lt 1 va) hv hfl, by simp, ?_, ?_⟩
    · intro t0 e
      injection e with e
      subst e
      rw [leaf_eq_frameAt,
        frameAt_alloc_l0 k pt _ _ f rest hwf (PX_lt 2 va) hv2 (PX_lt 1 va) hv hfl]
      simp
    · simp [allocNode, Kernel.write, Kernel.zero, hfl]

/-- The effect of `walk` with `alloc` set, on a page table that is a tree: it
returns, the page table is still a tree with every leaf PTE as before, a null
result means the free list is empty, and any other result is the address of
the leaf PTE of `va`. -/
theorem walk_alloc (k : Kernel) (pt va : Nat) (hwf : PTWf k pt) (hva : va < MAXVA) :
    ∃ r k', walk k pt va 1 = .ok r k' ∧ Step k k' pt
      ∧ (r = none → k'.freelist = [] ∧ k.freelist.length ≤ 1)
      ∧ (∀ l, r = some l → leaf k' pt va = some l)
      ∧ k.freelist.length ≤ k'.freelist.length + 2 := by
  have hnot : ¬ (va ≥ MAXVA) := by omega
  obtain ⟨r2, k2, h2, s2, hn2, hs2, hlen2⟩ := walk_level2_alloc k pt va hwf
  cases r2 with
  | none =>
    refine ⟨none, k2, ?_, s2, fun _ => ⟨(hn2 rfl).1, by simp [(hn2 rfl).2]⟩, by simp, by omega⟩
    simp [walk, hnot, h2, Res.bind]
  | some t1 =>
    obtain ⟨hv2, ht1⟩ := hs2 t1 rfl
    obtain ⟨r1, k1, h1, s1, hn1, hs1, hlen1⟩ := walk_level1_alloc k2 pt va s2.wf hv2
    rw [ht1] at h1
    cases r1 with
    | none =>
      have hk2 : k2.freelist.length = 0 := by rw [(hn1 rfl).2]; rfl
      refine ⟨none, k1, ?_, step_trans k k2 k1 pt s2 s1,
        fun _ => ⟨(hn1 rfl).1, by omega⟩, by simp, by omega⟩
      simp [walk, hnot, h2, h1, Res.bind]
    | some t0 =>
      refine ⟨some (t0, PX 0 va), k1, ?_, step_trans k k2 k1 pt s2 s1, by simp, ?_, by omega⟩
      · simp [walk, hnot, h2, h1, Res.bind]
      · intro l e
        injection e with e
        rw [← e]
        exact hs1 t0 rfl

/-! ## What `mappages` does -/

theorem step_grow (k k' : Kernel) (pt : Nat) (h : Step k k' pt) : Grow k k' pt :=
  ⟨h.wf, h.proc, h.suffix, h.mono, h.tables, h.other⟩

theorem grow_refl (k : Kernel) (pt : Nat) (hwf : PTWf k pt) : Grow k k pt :=
  step_grow k k pt (step_refl k pt hwf)

theorem grow_trans (k k1 k2 : Kernel) (pt : Nat) (h1 : Grow k k1 pt) (h2 : Grow k1 k2 pt) :
    Grow k k2 pt := by
  constructor
  · exact h2.wf
  · rw [h2.proc, h1.proc]
  · exact h2.suffix.trans h1.suffix
  · intro p g h; exact h2.mono p g (h1.mono p g h)
  · intro p g h
    rcases h2.tables p g h with ⟨q, hq⟩ | hmem
    · exact h1.tables q g hq
    · exact Or.inr (h1.suffix.subset hmem)
  · intro t ht hnt i
    rw [h2.other t (fun h => ht (h1.suffix.subset h)) ?_ i, h1.other t ht hnt i]
    intro p hp
    rcases h1.tables p t hp with ⟨q, hq⟩ | hmem
    · exact hnt q hq
    · exact ht hmem

/-- A store to a leaf PTE keeps the tree. -/
theorem grow_write (k : Kernel) (pt va t i v : Nat) (hwf : PTWf k pt)
    (h : leaf k pt va = some (t, i)) : Grow k (k.write t i v) pt := by
  have hfa := frameAt_write_l0 k pt _ _ t i v hwf (leaf_frame k pt va t i h).1
  constructor
  · exact PTWf_write k pt va t i v hwf h
  · rfl
  · exact List.suffix_refl _
  · intro p g hp; rw [hfa]; exact hp
  · intro p g hp; rw [hfa] at hp; exact Or.inl ⟨p, hp⟩
  · intro t' _ hnt j
    apply write_mem_ne
    intro e
    exact hnt _ (e ▸ (leaf_frame k pt va t i h).1)

theorem leaf_same_page_iff (k : Kernel) (pt a va' : Nat) (l : Nat × Nat) (hwf : PTWf k pt)
    (ha : a % 4096 = 0) (haM : a < MAXVA) (hva' : va' < MAXVA) (hl : leaf k pt a = some l) :
    leaf k pt va' = some l ↔ (a ≤ va' ∧ va' < a + 4096) := by
  constructor
  · intro h
    have := PX_inj a va' haM hva' (leaf_inj k pt a va' l hwf hl h)
    omega
  · intro h
    rw [← hl]
    apply leaf_page_eq
    omega

theorem mappages_loop_spec (fuel : Nat) (pt last perm : Nat) (hlast : last % 4096 = 0)
    (hlastM : last < MAXVA) :
    ∀ (k : Kernel) (a pa : Nat), PTWf k pt → a % 4096 = 0 → a ≤ last → (last - a) / 4096 < fuel
      → pa < U64 →
      (∃ k', mappages_loop fuel k pt a last pa perm = .ok 0 k' ∧ Grow k k' pt
          ∧ (∀ va', va' < MAXVA → pteOf k' pt va'
              = if a ≤ va' ∧ va' < last + 4096
                then leafEntry ((pa + (va' / 4096 * 4096 - a)) % U64) perm
                else pteOf k pt va')
          ∧ (∀ va', a ≤ va' → va' < last + 4096 →
              leaf k' pt va' ≠ none ∧ pteOf k pt va' &&& PTE_V = 0)
          ∧ k.freelist.length ≤ k'.freelist.length + 2 * ((last - a) / 4096 + 1))
      ∨ (∃ k', mappages_loop fuel k pt a last pa perm = .ok (-1) k' ∧ Grow k k' pt
          ∧ k'.freelist = [] ∧ k.freelist.length < 2 * ((last - a) / 4096 + 1))
      ∨ (mappages_loop fuel k pt a last pa perm = .stop .mappages_remap
          ∧ ∃ va', a ≤ va' ∧ va' ≤ last ∧ va' % 4096 = 0 ∧ pteOf k pt va' &&& PTE_V ≠ 0) := by
  have hM : MAXVA = 274877906944 := by norm_num [MAXVA]
  induction fuel with
  | zero => intro k a pa _ _ _ hf; omega
  | succ fuel ih =>
    intro k a pa hwf ha hle hf hpa
    have haM : a < MAXVA := by omega
    obtain ⟨r, k1, hw, s1, hnone, hsome, hlen⟩ := walk_alloc k pt a hwf haM
    cases r with
    | none =>
      right; left
      refine ⟨k1, ?_, (step_grow _ _ pt s1), (hnone rfl).1, ?_⟩
      · simp [mappages_loop, hw, Res.bind]
      · have := (hnone rfl).2
        omega
    | some l =>
      obtain ⟨t, i⟩ := l
      have hl := hsome (t, i) rfl
      have hpte1 : pteOf k1 pt a = k1.mem t i := by simp [pteOf, hl]
      by_cases hv : k1.mem t i &&& PTE_V ≠ 0
      · right; right
        refine ⟨?_, a, le_refl _, hle, ha, ?_⟩
        · simp [mappages_loop, hw, Res.bind, hv]
        · rw [← s1.pte, hpte1]; exact hv
      · have hv' : k1.mem t i &&& PTE_V = 0 := by simpa using hv
        have g2 : Grow k (k1.write t i (leafEntry pa perm)) pt :=
          grow_trans k k1 _ pt (step_grow _ _ pt s1) (grow_write k1 pt a t i _ s1.wf hl)
        have hpte2 : ∀ va', va' < MAXVA → pteOf (k1.write t i (leafEntry pa perm)) pt va'
            = if a ≤ va' ∧ va' < a + 4096 then leafEntry pa perm else pteOf k pt va' := by
          intro va' hva'
          rw [pteOf_write k1 pt a t i _ s1.wf hl, s1.pte]
          by_cases e : a ≤ va' ∧ va' < a + 4096
          · rw [if_pos e, if_pos ((leaf_same_page_iff k1 pt a va' _ s1.wf ha haM hva' hl).mpr e)]
          · rw [if_neg e,
              if_neg (fun h => e ((leaf_same_page_iff k1 pt a va' _ s1.wf ha haM hva' hl).mp h))]
        have hleaf2 : ∀ va', leaf (k1.write t i (leafEntry pa perm)) pt va' = leaf k1 pt va' :=
          leaf_write k1 pt a t i _ s1.wf hl
        by_cases hlast' : a = last
        · left
          refine ⟨_, ?_, g2, ?_, ?_, ?_⟩
          · simp only [mappages_loop, hw, Res.bind, leafEntry]
            rw [if_neg hv, if_pos hlast']
          · intro va' hva'
            rw [hpte2 va' hva', ← hlast']
            by_cases e : a ≤ va' ∧ va' < a + 4096
            · rw [if_pos e, if_pos e]
              have : (pa + (va' / 4096 * 4096 - a)) % U64 = pa := by
                have : va' / 4096 * 4096 - a = 0 := by omega
                rw [this]; exact Nat.mod_eq_of_lt hpa
              rw [this]
            · rw [if_neg e, if_neg e]
          · intro va' h1 h2
            rw [← hlast'] at h2
            have e : a / 4096 = va' / 4096 := by omega
            constructor
            · rw [hleaf2, ← leaf_page_eq k1 pt a va' e, hl]; simp
            · have : pteOf k pt va' = pteOf k pt a := by
                unfold pteOf
                rw [← leaf_page_eq k pt a va' e]
              rw [this, ← s1.pte, hpte1]; exact hv'
          · have := g2.suffix
            simp only [Kernel.write] at *
            omega
        · have hlt : a + 4096 ≤ last := by omega
          have hmod : (a + PGSIZE) % U64 = a + 4096 := by
            rw [U64_val]; simp only [PGSIZE]; omega
          have hstep : mappages_loop (fuel + 1) k pt a last pa perm
              = mappages_loop fuel (k1.write t i (leafEntry pa perm)) pt (a + 4096) last
                  ((pa + PGSIZE) % U64) perm := by
            simp only [mappages_loop, hw, Res.bind, leafEntry]
            rw [if_neg hv, if_neg hlast', hmod]
          have hpa' : (pa + PGSIZE) % U64 < U64 := Nat.mod_lt _ (by norm_num [U64])
          rcases ih _ (a + 4096) ((pa + PGSIZE) % U64) g2.wf (by omega) hlt (by omega) hpa' with
            ⟨k', hr, g', hp', hq', hlen'⟩ | ⟨k', hr, g', hfl', hlen'⟩ | ⟨hr, va', h1, h2, h3, h4⟩
          · left
            refine ⟨k', by rw [hstep, hr], grow_trans k _ k' pt g2 g', ?_, ?_, ?_⟩
            · intro va' hva'
              rw [hp' va' hva', hpte2 va' hva']
              by_cases e1 : a + 4096 ≤ va' ∧ va' < last + 4096
              · have e2 : a ≤ va' ∧ va' < last + 4096 := by omega
                rw [if_pos e1, if_pos e2]
                have : ((pa + PGSIZE) % U64 + (va' / 4096 * 4096 - (a + 4096))) % U64
                    = (pa + (va' / 4096 * 4096 - a)) % U64 := by
                  rw [U64_val]; simp only [PGSIZE]; omega
                rw [this]
              · rw [if_neg e1]
                by_cases e2 : a ≤ va' ∧ va' < a + 4096
                · have e3 : a ≤ va' ∧ va' < last + 4096 := by omega
                  rw [if_pos e2, if_pos e3]
                  have : (pa + (va' / 4096 * 4096 - a)) % U64 = pa := by
                    have : va' / 4096 * 4096 - a = 0 := by omega
                    rw [this]; exact Nat.mod_eq_of_lt hpa
                  rw [this]
                · have e3 : ¬ (a ≤ va' ∧ va' < last + 4096) := by omega
                  rw [if_neg e2, if_neg e3]
            · intro va' h1 h2
              by_cases e : va' < a + 4096
              · have e' : a / 4096 = va' / 4096 := by omega
                constructor
                · intro hn
                  have h2l : leaf (k1.write t i (leafEntry pa perm)) pt va' = some (t, i) := by
                    rw [hleaf2, ← leaf_page_eq k1 pt a va' e', hl]
                  have hm := g'.mono _ t (leaf_frame _ pt va' t i h2l).1
                  rw [leaf_eq_frameAt, hm] at hn
                  simp at hn
                · have : pteOf k pt va' = pteOf k pt a := by
                    unfold pteOf
                    rw [← leaf_page_eq k pt a va' e']
                  rw [this, ← s1.pte, hpte1]; exact hv'
              · obtain ⟨hA, hB⟩ := hq' va' (by omega) h2
                refine ⟨hA, ?_⟩
                have hvaM : va' < MAXVA := by omega
                rw [hpte2 va' hvaM, if_neg (by omega)] at hB
                exact hB
            · have := g2.suffix
              have hl2 : (k1.write t i (leafEntry pa perm)).freelist = k1.freelist := rfl
              rw [hl2] at hlen'
              have : (last - a) / 4096 = (last - (a + 4096)) / 4096 + 1 := by omega
              omega
          · right; left
            refine ⟨k', by rw [hstep, hr], grow_trans k _ k' pt g2 g', hfl', ?_⟩
            have hl2 : (k1.write t i (leafEntry pa perm)).freelist = k1.freelist := rfl
            rw [hl2] at hlen'
            have : (last - a) / 4096 = (last - (a + 4096)) / 4096 + 1 := by omega
            omega
          · right; right
            refine ⟨by rw [hstep, hr], va', by omega, h2, h3, ?_⟩
            have hvaM : va' < MAXVA := by omega
            rw [hpte2 va' hvaM, if_neg (by omega)] at h4
            exact h4

/-! ## C1, C2: `mappages` -/

theorem flag_iff (x i : Nat) : x &&& 2 ^ i ≠ 0 ↔ x.testBit i = true := by
  rw [Nat.and_two_pow]
  cases x.testBit i <;> simp

theorem and_flag_of_FLAGS (x f : Nat) (hf : f < 1024) : x &&& f = PTE_FLAGS x &&& f := by
  have h1 : (0x3FF : Nat) &&& f = f := by
    have := Nat.and_pow_two_sub_one_eq_mod f 10
    rw [Nat.land_comm] at this
    rw [show (0x3FF : Nat) = 2 ^ 10 - 1 by norm_num, this]
    exact Nat.mod_eq_of_lt (by simpa using hf)
  rw [PTE_FLAGS, Nat.land_assoc, h1]

/-- An all-zero root frame is an empty page table. -/
theorem PTWf_empty (k : Kernel) (pt : Nat) (hz : ∀ i, k.mem pt i = 0) (hnd : k.freelist.Nodup)
    (hal : ∀ f ∈ k.freelist, f % 4096 = 0 ∧ f < U64) (hpt : pt ∉ k.freelist) : PTWf k pt := by
  have hfa : ∀ p f, frameAt k pt p = some f → p = .root ∧ f = pt := by
    intro p f h
    cases p with
    | root => simp [frameAt] at h; exact ⟨rfl, h.symm⟩
    | l1 a => simp [frameAt, hz] at h
    | l0 a b => simp [frameAt, hz] at h
  constructor
  · intro p q f hp hq
    rw [(hfa p f hp).1, (hfa q f hq).1]
  · intro p f hp
    rw [(hfa p f hp).2]; exact hpt
  · exact hnd
  · exact hal

theorem mappages_args (va size : Nat) (hsize : 0 < size) (hrange : va + size ≤ MAXVA) :
    PGROUNDDOWN va = va / 4096 * 4096
      ∧ PGROUNDDOWN ((va + size - 1) % U64) = (va + size - 1) / 4096 * 4096 := by
  have hM : MAXVA = 274877906944 := by norm_num [MAXVA]
  have h1 : va < U64 := by rw [U64_val]; omega
  have h2 : (va + size - 1) % U64 = va + size - 1 := by
    apply Nat.mod_eq_of_lt; rw [U64_val]; omega
  rw [h2, PGROUNDDOWN_eq _ h1, PGROUNDDOWN_eq _ (by rw [U64_val]; omega)]
  exact ⟨rfl, rfl⟩

/-- C1 (translation round-trip).  On a page table that is a tree, with the
whole range below `MAXVA`, `pa` page-aligned and `perm` a set of the ten flag
bits: if `mappages` returns 0 then `walk` with `alloc` 0 finds, for the page
number `j` of the range, a leaf PTE whose frame is `pa + j * PGSIZE` (as a
`uint64`) and whose flags are exactly `perm | PTE_V`, and `walkaddr` returns
that frame when `perm` has the user bit. -/
theorem mappages_walk_roundtrip (k k' : Kernel) (pt va size pa perm : Nat)
    (hwf : PTWf k pt) (hsize : 0 < size) (hrange : va + size ≤ MAXVA)
    (hal : pa % PGSIZE = 0) (hpa : pa < U64) (hperm : perm < 1024)
    (hret : mappages k pt va size pa perm = .ok 0 k') (j : Nat)
    (hj : PGROUNDDOWN va + j * PGSIZE ≤ va + size - 1) :
    ∃ t i, walk k' pt (PGROUNDDOWN va + j * PGSIZE) 0 = .ok (some (t, i)) k'
      ∧ PTE2PA (k'.mem t i) = (pa + j * PGSIZE) % U64
      ∧ PTE_FLAGS (k'.mem t i) = perm ||| PTE_V
      ∧ (perm &&& PTE_U ≠ 0 →
          walkaddr k' pt (PGROUNDDOWN va + j * PGSIZE) = .ok ((pa + j * PGSIZE) % U64) k') := by
  have hM : MAXVA = 274877906944 := by norm_num [MAXVA]
  obtain ⟨ea, el⟩ := mappages_args va size hsize hrange
  have hsz : ¬ (size = 0) := by omega
  simp only [mappages, hsz, if_false, ea, el] at hret
  simp only [ea, PGSIZE] at hj ⊢
  simp only [PGSIZE] at hal
  have hfuel : MAXVA / PGSIZE + 1 = 67108865 := by norm_num [MAXVA, PGSIZE]
  rw [hfuel] at hret
  have hpageM : va / 4096 * 4096 + j * 4096 < MAXVA := by omega
  rcases mappages_loop_spec 67108865 pt ((va + size - 1) / 4096 * 4096) perm (by omega) (by omega)
      k (va / 4096 * 4096) pa hwf (by omega) (by omega) (by omega) hpa with
    ⟨k'', hr, g, hp, hq, _⟩ | ⟨k'', hr, _, _, _⟩ | ⟨hr, _⟩
  · rw [hr] at hret
    injection hret with _ hk
    subst hk
    have hin : va / 4096 * 4096 ≤ va / 4096 * 4096 + j * 4096
        ∧ va / 4096 * 4096 + j * 4096 < (va + size - 1) / 4096 * 4096 + 4096 := by omega
    obtain ⟨hleaf, _⟩ := hq _ hin.1 hin.2
    have hpte := hp _ hpageM
    rw [if_pos hin] at hpte
    have hoff : (pa + ((va / 4096 * 4096 + j * 4096) / 4096 * 4096 - va / 4096 * 4096)) % U64
        = (pa + j * 4096) % U64 := by
      have : (va / 4096 * 4096 + j * 4096) / 4096 * 4096 - va / 4096 * 4096 = j * 4096 := by
        omega
      rw [this]
    rw [hoff] at hpte
    cases hl : leaf k'' pt (va / 4096 * 4096 + j * 4096) with
    | none => exact absurd hl hleaf
    | some l =>
      obtain ⟨t, i⟩ := l
      have hmem : k''.mem t i = leafEntry ((pa + j * 4096) % U64) perm := by
        rw [← hpte]; simp [pteOf, hl]
      have hal' : (pa + j * 4096) % U64 % 4096 = 0 := by rw [U64_val]; omega
      have hlt' : (pa + j * 4096) % U64 < U64 := Nat.mod_lt _ (by norm_num [U64])
      have hPA : PTE2PA (k''.mem t i) = (pa + j * 4096) % U64 := by
        rw [hmem]; exact leaf_entry_PTE2PA _ perm hperm hal' hlt'
      have hFL : PTE_FLAGS (k''.mem t i) = perm ||| PTE_V := by
        rw [hmem]; exact leaf_entry_FLAGS _ perm hperm
      have hwalk := walk_noalloc k'' pt _ hpageM
      rw [hl] at hwalk
      refine ⟨t, i, hwalk, hPA, hFL, ?_⟩
      intro hu
      have hnot : ¬ (va / 4096 * 4096 + j * 4096 ≥ MAXVA) := by omega
      have hV : ¬ (k''.mem t i &&& PTE_V = 0) := by
        rw [and_V, hmem]
        have := leaf_entry_valid ((pa + j * 4096) % U64) perm hperm
        simp only [leafEntry]; omega
      have hU : ¬ (k''.mem t i &&& PTE_U = 0) := by
        rw [and_flag_of_FLAGS _ PTE_U (by norm_num [PTE_U]), hFL]
        have h4 : PTE_U = 2 ^ 4 := by norm_num [PTE_U]
        rw [h4] at hu ⊢
        have hu' := (flag_iff perm 4).mp hu
        have : (perm ||| PTE_V) &&& 2 ^ 4 ≠ 0 := by
          rw [flag_iff, Nat.testBit_or, hu']; rfl
        exact this
      simp only [walkaddr, hnot, if_false, hwalk, Res.bind, hV, hU, hPA]
  · rw [hr] at hret
    injection hret with hv _
    exact absurd hv (by decide)
  · rw [hr] at hret
    cases hret

theorem wK0_wf : PTWf wK0 0x1000 :=
  PTWf_empty wK0 0x1000 (fun _ => rfl) (by decide) (by decide) (by decide)

theorem mappages_walk_roundtrip_witness :
    ∃ t i, walk wK1 0x1000 (PGROUNDDOWN 0 + 1 * PGSIZE) 0 = .ok (some (t, i)) wK1
      ∧ PTE2PA (wK1.mem t i) = (0x80000000 + 1 * PGSIZE) % U64
      ∧ PTE_FLAGS (wK1.mem t i) = (PTE_R ||| PTE_U) ||| PTE_V
      ∧ ((PTE_R ||| PTE_U) &&& PTE_U ≠ 0 →
          walkaddr wK1 0x1000 (PGROUNDDOWN 0 + 1 * PGSIZE)
            = .ok ((0x80000000 + 1 * PGSIZE) % U64) wK1) :=
  mappages_walk_roundtrip wK0 wK1 0x1000 0 0x2000 0x80000000 (PTE_R ||| PTE_U) wK0_wf
    (by decide) (by decide) (by decide) (by decide) (by decide) rfl 1 (by decide)

theorem leafEntry_valid (pa perm : Nat) : leafEntry pa perm &&& PTE_V ≠ 0 := by
  have h : PTE_V = 2 ^ 0 := by norm_num [PTE_V]
  rw [h, flag_iff, leafEntry, U64, Nat.testBit_mod_two_pow, Nat.testBit_or]
  simp [PTE_V]

theorem walk_alloc_of_leaf (k : Kernel) (pt va : Nat) (l : Nat × Nat) (hva : va < MAXVA)
    (h : leaf k pt va = some l) : walk k pt va 1 = .ok (some l) k := by
  have hnot : ¬ (va ≥ MAXVA) := by omega
  unfold leaf at h
  by_cases h2 : k.mem pt (PX 2 va) &&& PTE_V ≠ 0
  · rw [if_pos h2] at h
    by_cases h1 : k.mem (PTE2PA (k.mem pt (PX 2 va))) (PX 1 va) &&& PTE_V ≠ 0
    · rw [if_pos h1] at h
      injection h with h
      simp only [walk, hnot, if_false, walk_level]
      rw [if_pos h2]
      simp only [Res.bind]
      rw [if_pos h1]
      simp only [h]
    · rw [if_neg h1] at h; cases h
  · rw [if_neg h2] at h; cases h

/-- A call of `mappages` that returns keeps the page table a tree. -/
theorem mappages_grow (k k' : Kernel) (pt va size pa perm : Nat) (v : Int)
    (hwf : PTWf k pt) (hsize : 0 < size) (hrange : va + size ≤ MAXVA) (hpa : pa < U64)
    (hret : mappages k pt va size pa perm = .ok v k') : Grow k k' pt := by
  have hM : MAXVA = 274877906944 := by norm_num [MAXVA]
  obtain ⟨ea, el⟩ := mappages_args va size hsize hrange
  have hsz : ¬ (size = 0) := by omega
  have hfuel : MAXVA / PGSIZE + 1 = 67108865 := by norm_num [MAXVA, PGSIZE]
  simp only [mappages, hsz, if_false, ea, el, hfuel] at hret
  rcases mappages_loop_spec 67108865 pt ((va + size - 1) / 4096 * 4096) perm (by omega)
      (by omega) k (va / 4096 * 4096) pa hwf (by omega) (by omega) (by omega) hpa with
    ⟨k'', hr, g, _⟩ | ⟨k'', hr, g, _, _⟩ | ⟨hr, _⟩
  · rw [hr] at hret
    injection hret with _ hk
    exact hk ▸ g
  · rw [hr] at hret
    injection hret with _ hk
    exact hk ▸ g
  · rw [hr] at hret
    cases hret

theorem wK1_wf : PTWf wK1 0x1000 :=
  (mappages_grow wK0 wK1 0x1000 0 0x2000 0x80000000 (PTE_R ||| PTE_U) 0 wK0_wf
    (by decide) (by decide) (by decide) rfl).wf

/-- C2 (no remap), as amended.  On a page table that is a tree, for a range
below `MAXVA` one of whose pages has a Valid leaf PTE, `mappages` never
returns 0: it stops the kernel with "mappages: remap", or it returns -1
because `walk` found the free list empty at an earlier page of the range.
In particular, after `mappages` returned 0, a second call that starts in a
page of the range it mapped stops the kernel with "mappages: remap". -/
theorem mappages_no_remap (k : Kernel) (pt va size pa perm : Nat)
    (hwf : PTWf k pt) (hsize : 0 < size) (hrange : va + size ≤ MAXVA) (hpa : pa < U64) :
    (∀ va', PGROUNDDOWN va ≤ va' → va' ≤ va + size - 1 → pteOf k pt va' &&& PTE_V ≠ 0 →
        mappages k pt va size pa perm = .stop .mappages_remap
          ∨ ∃ k', mappages k pt va size pa perm = .ok (-1) k' ∧ k'.freelist = [])
      ∧ (∀ k1, mappages k pt va size pa perm = .ok 0 k1 →
          ∀ va2 size2 pa2 perm2, PGROUNDDOWN va ≤ va2 → va2 ≤ va + size - 1 → 0 < size2 →
            mappages k1 pt va2 size2 pa2 perm2 = .stop .mappages_remap) := by
  have hM : MAXVA = 274877906944 := by norm_num [MAXVA]
  obtain ⟨ea, el⟩ := mappages_args va size hsize hrange
  have hsz : ¬ (size = 0) := by omega
  have hfuel : MAXVA / PGSIZE + 1 = 67108865 := by norm_num [MAXVA, PGSIZE]
  have hm : mappages k pt va size pa perm = mappages_loop 67108865 k pt (va / 4096 * 4096)
      ((va + size - 1) / 4096 * 4096) pa perm := by
    simp only [mappages, hsz, if_false, ea, el, hfuel]
  rw [hm, ea]
  have hspec := mappages_loop_spec 67108865 pt ((va + size - 1) / 4096 * 4096) perm (by omega)
    (by omega) k (va / 4096 * 4096) pa hwf (by omega) (by omega) (by omega) hpa
  constructor
  · intro va' h1 h2 hv
    rcases hspec with ⟨k'', _, _, _, hq, _⟩ | ⟨k'', hr, _, hfl, _⟩ | ⟨hr, _⟩
    · exact absurd (hq va' h1 (by omega)).2 hv
    · exact Or.inr ⟨k'', hr, hfl⟩
    · exact Or.inl hr
  · intro k1 hret va2 size2 pa2 perm2 h1 h2 hs2
    rcases hspec with ⟨k'', hr, g, hp, hq, _⟩ | ⟨k'', hr, _, _, _⟩ | ⟨hr, _⟩
    · rw [hr] at hret
      injection hret with _ hk
      subst hk
      have hva2 : va2 < U64 := by rw [U64_val]; omega
      have e2 : PGROUNDDOWN va2 = va2 / 4096 * 4096 := PGROUNDDOWN_eq va2 hva2
      have hin : va / 4096 * 4096 ≤ va2 / 4096 * 4096
          ∧ va2 / 4096 * 4096 < (va + size - 1) / 4096 * 4096 + 4096 := by omega
      have hpte := hp (va2 / 4096 * 4096) (by omega)
      rw [if_pos hin] at hpte
      obtain ⟨hleaf, _⟩ := hq _ hin.1 hin.2
      cases hl : leaf k'' pt (va2 / 4096 * 4096) with
      | none => exact absurd hl hleaf
      | some l =>
        obtain ⟨t, i⟩ := l
        have hmem : k''.mem t i &&& PTE_V ≠ 0 := by
          have : k''.mem t i = pteOf k'' pt (va2 / 4096 * 4096) := by simp [pteOf, hl]
          rw [this, hpte]
          exact leafEntry_valid _ _
        have hw := walk_alloc_of_leaf k'' pt _ (t, i) (by omega) hl
        have hs2' : ¬ (size2 = 0) := by omega
        have hfuel' : MAXVA / PGSIZE + 1 = 67108864 + 1 := by norm_num [MAXVA, PGSIZE]
        simp only [mappages, hs2', if_false, e2]
        rw [hfuel', mappages_loop]
        simp only [hw, Res.bind]
        rw [if_pos hmem]
    · rw [hr] at hret
      injection hret with hv _
      exact absurd hv (by decide)
    · rw [hr] at hret
      cases hret

theorem mappages_no_remap_witness :
    (pteOf wK1 0x1000 0x1000 &&& PTE_V ≠ 0
        ∧ (mappages wK1 0x1000 0 0x2000 0x80000000 PTE_R = .stop .mappages_remap
          ∨ ∃ k', mappages wK1 0x1000 0 0x2000 0x80000000 PTE_R = .ok (-1) k'
            ∧ k'.freelist = []))
      ∧ mappages wK1 0x1000 0x1000 1 0x90000000 PTE_W = .stop .mappages_remap :=
  ⟨⟨by decide,
      (mappages_no_remap wK1 0x1000 0 0x2000 0x80000000 PTE_R wK1_wf
        (by decide) (by decide) (by decide)).1 0x1000 (by decide) (by decide) (by decide)⟩,
    (mappages_no_remap wK0 0x1000 0 0x2000 0x80000000 (PTE_R ||| PTE_U) wK0_wf
      (by decide) (by decide) (by decide)).2 wK1 rfl 0x1000 1 0x90000000 PTE_W
      (by decide) (by decide) (by decide)⟩

/-- C2 as stated fails: the page at 0x200000 has a Valid leaf PTE, the free
list is empty, and `mappages` over the two pages from 0x1FF000 returns -1
(no table for the first page can be allocated) instead of stopping the
kernel. -/
theorem mappages_remap_counterexample :
    pteOf wK2 0x1000 0x200000 &&& PTE_V ≠ 0
      ∧ (mappages wK2 0x1000 0x1FF000 0x2000 0x80000000 PTE_R).val? = some (-1)
      ∧ (mappages wK2 0x1000 0x1FF000 0x2000 0x80000000 PTE_R).stop? = none := by
  decide

/-! ## C6: `update_counters` -/

theorem frameAt_mem_eq (k k' : Kernel) (pt : Nat) (h : k'.mem = k.mem) :
    ∀ p, frameAt k' pt p = frameAt k pt p := by
  intro p
  cases p <;> simp [frameAt, h]

theorem PTWf_congr (k k' : Kernel) (pt : Nat) (hm : k'.mem = k.mem)
    (hf : k'.freelist = k.freelist) (hwf : PTWf k pt) : PTWf k' pt :=
  PTWf_of_frameAt_eq k k' pt (frameAt_mem_eq k k' pt hm) hf hwf

theorem leaf_congr (k k' : Kernel) (pt va : Nat) (hm : k'.mem = k.mem) :
    leaf k' pt va = leaf k pt va := by
  simp [leaf, hm]

theorem pteOf_congr (k k' : Kernel) (pt va : Nat) (hm : k'.mem = k.mem) :
    pteOf k' pt va = pteOf k pt va := by
  simp [pteOf, leaf, hm]

theorem clear_flag (x i : Nat) (hi : i < 64) : (x &&& NOT64 (2 ^ i)) &&& 2 ^ i = 0 := by
  by_contra h
  have := (flag_iff _ i).mp h
  rw [Nat.testBit_and, NOT64, U64, Nat.testBit_xor, Nat.testBit_two_pow_sub_one,
    Nat.testBit_two_pow] at this
  simp [hi] at this

theorem clear_flag_other (x i j : Nat) (hj : j < 64) (hij : i ≠ j) :
    (x &&& NOT64 (2 ^ i)) &&& 2 ^ j = x &&& 2 ^ j := by
  rw [Nat.and_two_pow, Nat.and_two_pow, Nat.testBit_and, NOT64, U64, Nat.testBit_xor,
    Nat.testBit_two_pow_sub_one, Nat.testBit_two_pow]
  simp [hj, hij]

theorem pteOf_same_page (k : Kernel) (pt va va' : Nat) (e : va / 4096 = va' / 4096) :
    pteOf k pt va = pteOf k pt va' := by
  unfold pteOf
  rw [leaf_page_eq k pt va va' e]

/-- One slot of `update_counters`, then the others. -/
theorem update_counters_loop_spec (n : Nat) :
    ∀ (i : Nat) (k : Kernel), i + n = MAX_PSYC_PAGES → RosterOK k →
      ∃ k', update_counters_loop n i k = .ok () k' ∧ AgedPost k k' i (i + n)
        ∧ k'.freelist = k.freelist := by
  induction n with
  | zero =>
    intro i k _ hok
    refine ⟨k, rfl, ?_, rfl⟩
    exact ⟨hok.wf, rfl, fun _ => rfl, fun j h1 h2 => by omega, fun _ _ => rfl,
      fun va _ ⟨j, h1, h2, _⟩ => by omega, fun _ _ _ => rfl⟩
  | succ n ih =>
    intro i k hin hok
    have hi16 : i < MAX_PSYC_PAGES := by omega
    by_cases hst : (k.proc.memory_pages i).status = INMEMORY
    · obtain ⟨hvaM, hleaf⟩ := hok.mapped i hi16 hst
      cases hl : leaf k k.proc.pagetable (k.proc.memory_pages i).va with
      | none => exact absurd hl hleaf
      | some l =>
        obtain ⟨t, x⟩ := l
        have hw := walk_noalloc k k.proc.pagetable _ hvaM
        rw [hl] at hw
        have hpte : pteOf k k.proc.pagetable (k.proc.memory_pages i).va = k.mem t x := by
          simp [pteOf, hl]
        -- the state after slot `i`
        obtain ⟨k2, hk2, hmp, hpt2, hfl2, hwf2, hleaf2, hp_in, hp_out⟩ :
            ∃ k2, update_counters_loop (n + 1) i k = update_counters_loop n (i + 1) k2
              ∧ k2.proc.memory_pages = upd k.proc.memory_pages i
                  { k.proc.memory_pages i with
                    counter := aged (k.proc.memory_pages i).counter
                      (decide (k.mem t x &&& PTE_A ≠ 0)) }
              ∧ k2.proc.pagetable = k.proc.pagetable
              ∧ k2.freelist = k.freelist
              ∧ PTWf k2 k.proc.pagetable
              ∧ (∀ va, leaf k2 k.proc.pagetable va = leaf k k.proc.pagetable va)
              ∧ (∀ va, va < MAXVA → (k.proc.memory_pages i).va / 4096 = va / 4096 →
                  pteOf k2 k.proc.pagetable va &&& PTE_A = 0)
              ∧ (∀ va, va < MAXVA → (k.proc.memory_pages i).va / 4096 ≠ va / 4096 →
                  pteOf k2 k.proc.pagetable va = pteOf k k.proc.pagetable va) := by
          refine ⟨ageSlot k i t x, ?_, ?_⟩
          · rw [update_counters_loop, if_pos hst, hw]
            simp only [Res.bind, ageSlot]
            by_cases hA : k.mem t x &&& PTE_A ≠ 0
            · rw [if_pos hA, if_pos hA]
            · rw [if_neg hA, if_neg hA]
          by_cases hA : k.mem t x &&& PTE_A ≠ 0
          · let kp : Kernel := { k with proc := { k.proc with
                memory_pages := upd k.proc.memory_pages i
                  { k.proc.memory_pages i with
                    counter := aged (k.proc.memory_pages i).counter true } } }
            have hk2 : ageSlot k i t x = kp.write t x (k.mem t x &&& NOT64 PTE_A) := by
              simp only [ageSlot]
              rw [if_pos hA]
              simp only [Kernel.write, aged, if_true, kp]
              congr 2
              funext j
              by_cases e : j = i <;> simp [upd, e]
            have hwfp : PTWf kp k.proc.pagetable := PTWf_congr k kp _ rfl rfl hok.wf
            have hlp : leaf kp k.proc.pagetable (k.proc.memory_pages i).va = some (t, x) := by
              rw [leaf_congr k kp _ _ rfl]; exact hl
            rw [hk2]
            refine ⟨?_, ?_, ?_, ?_, ?_, ?_, ?_⟩
            · simp [Kernel.write, hA, kp]
            · rfl
            · rfl
            · exact PTWf_write kp _ _ t x _ hwfp hlp
            · intro va
              rw [leaf_write kp _ _ t x _ hwfp hlp]
              exact leaf_congr k kp _ _ rfl
            · intro va hva e
              rw [pteOf_write kp _ _ t x _ hwfp hlp]
              have : leaf kp k.proc.pagetable va = some (t, x) := by
                rw [leaf_congr k kp _ _ rfl, ← leaf_page_eq k _ _ va e]; exact hl
              rw [if_pos this]
              exact clear_flag _ 6 (by norm_num)
            · intro va hva e
              rw [pteOf_write kp _ _ t x _ hwfp hlp]
              have : ¬ (leaf kp k.proc.pagetable va = some (t, x)) := by
                intro h
                rw [leaf_congr k kp _ _ rfl] at h
                have := PX_inj _ va hvaM hva (leaf_inj k _ _ va _ hok.wf hl h)
                exact e this
              rw [if_neg this]
              exact pteOf_congr k kp _ _ rfl
          · have hA' : k.mem t x &&& PTE_A = 0 := by simpa using hA
            let kq : Kernel := { k with proc := { k.proc with
                memory_pages := upd k.proc.memory_pages i
                  { k.proc.memory_pages i with
                    counter := aged (k.proc.memory_pages i).counter false } } }
            have hk2 : ageSlot k i t x = kq := by
              simp only [ageSlot]
              rw [if_neg hA]
              simp [aged, kq]
            rw [hk2]
            refine ⟨?_, ?_, ?_, ?_, ?_, ?_, ?_⟩
            · simp [hA, kq]
            · rfl
            · rfl
            · exact PTWf_congr k kq _ rfl rfl hok.wf
            · intro va; exact leaf_congr k kq _ _ rfl
            · intro va hva e
              rw [pteOf_congr k kq _ _ rfl, ← pteOf_same_page k _ _ va e, hpte]
              exact hA'
            · intro va hva e
              exact pteOf_congr k kq _ _ rfl
        have hmpj : ∀ j, j ≠ i → k2.proc.memory_pages j = k.proc.memory_pages j := by
          intro j hj; rw [hmp]; simp [upd, hj]
        have hmpi : k2.proc.memory_pages i = { k.proc.memory_pages i with
            counter := aged (k.proc.memory_pages i).counter (decide (k.mem t x &&& PTE_A ≠ 0)) } := by
          rw [hmp]; simp [upd]
        have hsame : ∀ j, (k2.proc.memory_pages j).status = (k.proc.memory_pages j).status
            ∧ (k2.proc.memory_pages j).va = (k.proc.memory_pages j).va := by
          intro j
          by_cases e : j = i
          · rw [e, hmpi]; exact ⟨rfl, rfl⟩
          · rw [hmpj j e]; exact ⟨rfl, rfl⟩
        have hok2 : RosterOK k2 := by
          constructor
          · rw [hpt2]; exact hwf2
          · intro j hj hs
            rw [(hsame j).1] at hs
            rw [(hsame j).2, hpt2, hleaf2]
            exact hok.mapped j hj hs
          · intro a b ha hb hab hsa hsb
            rw [(hsame a).1] at hsa
            rw [(hsame b).1] at hsb
            rw [(hsame a).2, (hsame b).2]
            exact hok.distinct a b ha hb hab hsa hsb
        obtain ⟨k', hr, post, hfl⟩ := ih (i + 1) k2 (by omega) hok2
        refine ⟨k', by rw [hk2, hr], ?_, by rw [hfl, hfl2]⟩
        have hdist : ∀ j, i < j → j < i + 1 + n → (k.proc.memory_pages j).status = INMEMORY →
            (k.proc.memory_pages i).va / 4096 ≠ (k.proc.memory_pages j).va / 4096 := by
          intro j h1 h2 hs
          exact hok.distinct i j hi16 (by omega) (by omega) hst hs
        constructor
        · rw [← hpt2]; exact post.wf
        · rw [post.pt, hpt2]
        · intro va
          have := post.leaf_eq va
          rw [hpt2] at this
          rw [this, hleaf2]
        · intro j h1 h2 hs
          by_cases e : j = i
          · subst e
            rw [post.slot_out j (by omega), hmpi, hpte]
          · have hs2 : (k2.proc.memory_pages j).status = INMEMORY := by rw [(hsame j).1]; exact hs
            rw [post.slot_in j (by omega) (by omega) hs2, hmpj j e, hpt2]
            have hjM := (hok.mapped j (by omega) hs).1
            rw [hp_out _ hjM (hdist j (by omega) (by omega) hs)]
        · intro j hj
          by_cases e : j = i
          · exact absurd ⟨by omega, by omega, e ▸ hst⟩ hj
          · rw [post.slot_out j (by rw [(hsame j).1]; omega), hmpj j e]
        · intro va hva ⟨j, h1, h2, hs, hpg⟩
          by_cases e : j = i
          · rw [e] at hpg
            simp only [PGSIZE] at hpg
            have hno : ¬ (∃ j', i + 1 ≤ j' ∧ j' < i + 1 + n
                ∧ (k2.proc.memory_pages j').status = INMEMORY
                ∧ (k2.proc.memory_pages j').va / PGSIZE = va / PGSIZE) := by
              rintro ⟨j', g1, g2, gs, gp⟩
              rw [(hsame j').1] at gs
              rw [(hsame j').2] at gp
              simp only [PGSIZE] at gp
              exact hdist j' (by omega) g2 gs (by omega)
            have := post.pte_out va hva hno
            rw [hpt2] at this
            rw [this]
            exact hp_in va hva hpg
          · have := post.pte_in va hva ⟨j, by omega, by omega,
              by rw [(hsame j).1]; exact hs, by rw [(hsame j).2]; exact hpg⟩
            rw [hpt2] at this
            exact this
        · intro va hva hno
          have hno2 : ¬ (∃ j', i + 1 ≤ j' ∧ j' < i + 1 + n
              ∧ (k2.proc.memory_pages j').status = INMEMORY
              ∧ (k2.proc.memory_pages j').va / PGSIZE = va / PGSIZE) := by
            rintro ⟨j', g1, g2, gs, gp⟩
            rw [(hsame j').1] at gs
            rw [(hsame j').2] at gp
            exact hno ⟨j', by omega, by omega, gs, gp⟩
          have := post.pte_out va hva hno2
          rw [hpt2] at this
          rw [this]
          apply hp_out va hva
          intro e
          exact hno ⟨i, le_refl _, by omega, hst, by simpa [PGSIZE] using e⟩
    · obtain ⟨k', hr, post, hfl⟩ := ih (i + 1) k (by omega) hok
      refine ⟨k', ?_, ?_, hfl⟩
      · rw [update_counters_loop, if_neg hst, hr]
      · constructor
        · exact post.wf
        · exact post.pt
        · exact post.leaf_eq
        · intro j h1 h2 hs
          have : j ≠ i := fun e => hst (e ▸ hs)
          exact post.slot_in j (by omega) (by omega) hs
        · intro j hj
          apply post.slot_out j
          intro ⟨g1, g2, g3⟩
          exact hj ⟨by omega, by omega, g3⟩
        · intro va hva ⟨j, h1, h2, hs, hpg⟩
          have : j ≠ i := fun e => hst (e ▸ hs)
          exact post.pte_in va hva ⟨j, by omega, by omega, hs, hpg⟩
        · intro va hva hno
          apply post.pte_out va hva
          rintro ⟨j, g1, g2, g3, g4⟩
          exact hno ⟨j, by omega, by omega, g3, g4⟩

theorem update_counters_spec (k : Kernel) (hok : RosterOK k) :
    ∃ k', update_counters k = .ok () k' ∧ AgedPost k k' 0 MAX_PSYC_PAGES ∧ RosterOK k' := by
  obtain ⟨k', hr, post, _⟩ := update_counters_loop_spec MAX_PSYC_PAGES 0 k (by simp) hok
  rw [Nat.zero_add] at post
  have hslot : ∀ j, (k'.proc.memory_pages j).status = (k.proc.memory_pages j).status
      ∧ (k'.proc.memory_pages j).va = (k.proc.memory_pages j).va := by
    intro j
    by_cases h : 0 ≤ j ∧ j < MAX_PSYC_PAGES ∧ (k.proc.memory_pages j).status = INMEMORY
    · rw [post.slot_in j h.1 h.2.1 h.2.2]; exact ⟨rfl, rfl⟩
    · rw [post.slot_out j h]; exact ⟨rfl, rfl⟩
  refine ⟨k', hr, post, ?_⟩
  constructor
  · rw [post.pt]; exact post.wf
  · intro i hi hs
    rw [(hslot i).1] at hs
    rw [(hslot i).2, post.pt, post.leaf_eq]
    exact hok.mapped i hi hs
  · intro a b ha hb hab hsa hsb
    rw [(hslot a).1] at hsa
    rw [(hslot b).1] at hsb
    rw [(hslot a).2, (hslot b).2]
    exact hok.distinct a b ha hb hab hsa hsb

theorem set_flag (x i : Nat) : (x ||| 2 ^ i) &&& 2 ^ i ≠ 0 := by
  rw [flag_iff, Nat.testBit_or, Nat.testBit_two_pow]
  simp

theorem RosterOK_hw_access (k : Kernel) (va : Nat) (hok : RosterOK k) :
    RosterOK (hw_access k va) ∧ (hw_access k va).proc = k.proc
      ∧ (∀ va', leaf (hw_access k va) k.proc.pagetable va' = leaf k k.proc.pagetable va')
      ∧ (leaf k k.proc.pagetable va ≠ none →
          pteOf (hw_access k va) k.proc.pagetable va &&& PTE_A ≠ 0) := by
  unfold hw_access
  cases hl : leaf k k.proc.pagetable va with
  | none => exact ⟨hok, rfl, fun _ => rfl, fun h => absurd rfl h⟩
  | some l =>
    obtain ⟨t, i⟩ := l
    simp only
    have hleaf := leaf_write k _ va t i (k.mem t i ||| PTE_A) hok.wf hl
    refine ⟨⟨PTWf_write k _ va t i _ hok.wf hl, ?_, hok.distinct⟩, rfl, hleaf, ?_⟩
    · intro j hj hs
      have := hok.mapped j hj hs
      refine ⟨this.1, ?_⟩
      show leaf (k.write t i (k.mem t i ||| PTE_A)) k.proc.pagetable _ ≠ none
      rw [hleaf]; exact this.2
    · intro _
      rw [pteOf_write k _ va t i _ hok.wf hl, if_pos hl]
      exact set_flag _ 6

/-- One tick after the process referred to the page of slot `i`. -/
theorem tick_spec (k : Kernel) (i : Nat) (hok : RosterOK k) (hi : i < MAX_PSYC_PAGES)
    (hs : (k.proc.memory_pages i).status = INMEMORY) :
    ∃ k1, update_counters (hw_access k (k.proc.memory_pages i).va) = .ok () k1 ∧ RosterOK k1
      ∧ k1.proc.memory_pages i = { k.proc.memory_pages i with
          counter := aged (k.proc.memory_pages i).counter true } := by
  obtain ⟨hok', hproc, _, hA⟩ := RosterOK_hw_access k (k.proc.memory_pages i).va hok
  obtain ⟨k1, hr, post, hok1⟩ := update_counters_spec _ hok'
  refine ⟨k1, hr, hok1, ?_⟩
  have := post.slot_in i (Nat.zero_le _) hi (by rw [hproc]; exact hs)
  rw [hproc] at this
  rw [this]
  have hA' := hA (hok.mapped i hi hs).2
  simp [hA']

/-- C6 (counter aging).  On a state whose resident roster agrees with the
page table, `update_counters` returns; the counter `c` of every `INMEMORY`
slot becomes `(c >> 1) | (2^63 if the accessed bit of its leaf PTE was set,
else 0)`, which is below `2^64` when `c` is; its accessed bit is clear
afterwards; every other slot is unchanged.  A page whose counter is 0 and
which the process refers to before each of three calls has counter
`0xE000000000000000` after the third. -/
theorem update_counters_aging (k : Kernel) (hok : RosterOK k) :
    (∃ k', update_counters k = .ok () k' ∧ RosterOK k' ∧
      ∀ i, i < MAX_PSYC_PAGES →
        ((k.proc.memory_pages i).status = INMEMORY →
          (k'.proc.memory_pages i).counter
              = ((k.proc.memory_pages i).counter >>> 1) |||
                (if pteOf k k.proc.pagetable (k.proc.memory_pages i).va &&& PTE_A ≠ 0
                  then 2 ^ 63 else 0)
            ∧ ((k.proc.memory_pages i).counter < U64 → (k'.proc.memory_pages i).counter < U64)
            ∧ (k'.proc.memory_pages i).va = (k.proc.memory_pages i).va
            ∧ (k'.proc.memory_pages i).status = INMEMORY
            ∧ pteOf k' k.proc.pagetable (k.proc.memory_pages i).va &&& PTE_A = 0)
        ∧ ((k.proc.memory_pages i).status ≠ INMEMORY →
            k'.proc.memory_pages i = k.proc.memory_pages i))
      ∧ (∀ i, i < MAX_PSYC_PAGES → (k.proc.memory_pages i).status = INMEMORY →
          (k.proc.memory_pages i).counter = 0 →
          ∃ k3, ((update_counters (hw_access k (k.proc.memory_pages i).va)).bind fun _ k1 =>
                  (update_counters (hw_access k1 (k.proc.memory_pages i).va)).bind fun _ k2 =>
                    update_counters (hw_access k2 (k.proc.memory_pages i).va)) = .ok () k3
            ∧ (k3.proc.memory_pages i).counter = 0xE000000000000000) := by
  constructor
  · obtain ⟨k', hr, post, hok'⟩ := update_counters_spec k hok
    refine ⟨k', hr, hok', ?_⟩
    intro i hi
    constructor
    · intro hs
      have hslot := post.slot_in i (Nat.zero_le _) hi hs
      have hcnt : (k'.proc.memory_pages i).counter
          = ((k.proc.memory_pages i).counter >>> 1) |||
            (if pteOf k k.proc.pagetable (k.proc.memory_pages i).va &&& PTE_A ≠ 0
              then 2 ^ 63 else 0) := by
        rw [hslot]
        by_cases hA : pteOf k k.proc.pagetable (k.proc.memory_pages i).va &&& PTE_A ≠ 0
        · simp [aged, hA]
        · simp [aged, hA]
      refine ⟨hcnt, ?_, by rw [hslot], by rw [hslot]; exact hs, ?_⟩
      · intro hc
        rw [hcnt]
        have h1 : (k.proc.memory_pages i).counter >>> 1 < 2 ^ 64 := by
          rw [Nat.shiftRight_eq_div_pow]
          simp only [U64] at hc
          omega
        have h2 : (if pteOf k k.proc.pagetable (k.proc.memory_pages i).va &&& PTE_A ≠ 0
            then 2 ^ 63 else 0) < 2 ^ 64 := by
          split_ifs <;> norm_num
        exact Nat.or_lt_two_pow h1 h2
      · exact post.pte_in _ (hok.mapped i hi hs).1 ⟨i, Nat.zero_le _, hi, hs, rfl⟩
    · intro hs
      exact post.slot_out i (fun h => hs h.2.2)
  · intro i hi hs hc
    obtain ⟨k1, hr1, hok1, hm1⟩ := tick_spec k i hok hi hs
    have hs1 : (k1.proc.memory_pages i).status = INMEMORY := by rw [hm1]; exact hs
    have hva1 : (k1.proc.memory_pages i).va = (k.proc.memory_pages i).va := by rw [hm1]
    obtain ⟨k2, hr2, hok2, hm2⟩ := tick_spec k1 i hok1 hi hs1
    have hs2 : (k2.proc.memory_pages i).status = INMEMORY := by rw [hm2]; exact hs1
    have hva2 : (k2.proc.memory_pages i).va = (k.proc.memory_pages i).va := by rw [hm2]; exact hva1
    obtain ⟨k3, hr3, _, hm3⟩ := tick_spec k2 i hok2 hi hs2
    rw [hva1] at hr2
    rw [hva2] at hr3
    refine ⟨k3, ?_, ?_⟩
    · simp only [hr1, Res.bind, hr2, hr3]
    · rw [hm3, hm2, hm1, hc]
      show aged (aged (aged 0 true) true) true = 0xE000000000000000
      decide

theorem wK6_ok : RosterOK wK6 := by
  refine ⟨PTWf_congr wK1 wK6 0x1000 rfl rfl wK1_wf, by decide, ?_⟩
  have h : ∀ i, i < MAX_PSYC_PAGES → ∀ j, j < MAX_PSYC_PAGES →
      (i = j ∨ (wK6.proc.memory_pages i).status ≠ INMEMORY
        ∨ (wK6.proc.memory_pages j).status ≠ INMEMORY
        ∨ (wK6.proc.memory_pages i).va / PGSIZE ≠ (wK6.proc.memory_pages j).va / PGSIZE) := by
    decide
  intro i j hi hj hij hsi hsj
  rcases h i hi j hj with h1 | h1 | h1 | h1
  · exact absurd h1 hij
  · exact absurd hsi h1
  · exact absurd hsj h1
  · exact h1

theorem update_counters_aging_witness :
    (∃ k', update_counters wK6 = .ok () k' ∧ RosterOK k' ∧
      ∀ i, i < MAX_PSYC_PAGES →
        ((wK6.proc.memory_pages i).status = INMEMORY →
          (k'.proc.memory_pages i).counter
              = ((wK6.proc.memory_pages i).counter >>> 1) |||
                (if pteOf wK6 wK6.proc.pagetable (wK6.proc.memory_pages i).va &&& PTE_A ≠ 0
                  then 2 ^ 63 else 0)
            ∧ ((wK6.proc.memory_pages i).counter < U64 → (k'.proc.memory_pages i).counter < U64)
            ∧ (k'.proc.memory_pages i).va = (wK6.proc.memory_pages i).va
            ∧ (k'.proc.memory_pages i).status = INMEMORY
            ∧ pteOf k' wK6.proc.pagetable (wK6.proc.memory_pages i).va &&& PTE_A = 0)
        ∧ ((wK6.proc.memory_pages i).status ≠ INMEMORY →
            k'.proc.memory_pages i = wK6.proc.memory_pages i))
      ∧ (∃ k3, ((update_counters (hw_access wK6 (wK6.proc.memory_pages 0).va)).bind fun _ k1 =>
                  (update_counters (hw_access k1 (wK6.proc.memory_pages 0).va)).bind fun _ k2 =>
                    update_counters (hw_access k2 (wK6.proc.memory_pages 0).va)) = .ok () k3
            ∧ (k3.proc.memory_pages 0).counter = 0xE000000000000000) :=
  ⟨(update_counters_aging wK6 wK6_ok).1,
    (update_counters_aging wK6 wK6_ok).2 0 (by decide) (by decide) (by decide)⟩

/-! ## C5: second chance -/

theorem chain_congr (sc sc' : Nat → Scfifo) (l : List Nat) :
    ∀ (prev last : Option Nat), (∀ s ∈ l, sc' s = sc s) →
      (Chain sc' prev l last ↔ Chain sc prev l last) := by
  induction l with
  | nil => intro prev last _; simp [Chain]
  | cons a rest ih =>
    intro prev last h
    simp only [Chain]
    rw [h a (List.mem_cons_self a rest), ih (some a) last (fun s hs => h s (List.mem_cons_of_mem a hs))]

/-- The last node of a chain is its `last`. -/
theorem chain_last_mem (sc : Nat → Scfifo) (rest : List Nat) :
    ∀ (a : Nat) (prev last : Option Nat), Chain sc prev (a :: rest) last →
      ∃ x, last = some x ∧ ((rest = [] ∧ x = a) ∨ x ∈ rest) := by
  induction rest with
  | nil =>
    intro a prev last h
    simp only [Chain] at h
    exact ⟨a, h.2.2.2, Or.inl ⟨rfl, rfl⟩⟩
  | cons b r ih =>
    intro a prev last h
    simp only [Chain] at h
    obtain ⟨x, hx, hm⟩ := ih b (some a) last (by simp only [Chain]; exact h.2.2.2)
    refine ⟨x, hx, Or.inr ?_⟩
    rcases hm with ⟨_, e⟩ | hm
    · rw [e]; exact List.mem_cons_self b r
    · exact List.mem_cons_of_mem b hm

/-- Appending the node `a` as `set_scfifo` does. -/
theorem chain_snoc (sc : Nat → Scfifo) (a : Nat) (l : List Nat) :
    ∀ (prev last : Option Nat), Chain sc prev l last → (l ++ [a]).Nodup → prev ≠ some a →
      Chain (match last with
              | none => upd sc a ⟨a, none, last⟩
              | some n => upd (upd sc a ⟨a, none, last⟩) n
                  { (upd sc a ⟨a, none, last⟩) n with newer := some a })
        prev (l ++ [a]) (some a) := by
  induction l with
  | nil =>
    intro prev last h _ hp
    simp only [Chain] at h
    subst h
    cases last with
    | none => simp [Chain, upd]
    | some n =>
      have : a ≠ n := fun e => hp (by rw [e])
      simp [Chain, upd, this]
  | cons x rest ih =>
    intro prev last h hnd hp
    simp only [Chain] at h
    obtain ⟨h1, h2, h3, h4⟩ := h
    have hnd' : (rest ++ [a]).Nodup := (List.nodup_cons.mp hnd).2
    have hxa : x ≠ a := by
      intro e
      have := (List.nodup_cons.mp hnd).1
      exact this (by simp [e])
    have hxrest : x ∉ rest := by
      intro hm
      exact (List.nodup_cons.mp hnd).1 (List.mem_append_left _ hm)
    have ih' := ih (some x) last h4 hnd' (by simpa using hxa)
    simp only [List.cons_append, Chain]
    refine ⟨?_, ?_, ?_, ih'⟩
    all_goals
      cases rest with
      | nil =>
        simp only [Chain] at h4
        subst h4
        simp [upd, hxa, h1, h2]
      | cons y r =>
        obtain ⟨z, hz, hzm⟩ := chain_last_mem sc r y (some x) last h4
        subst hz
        have hzm' : z ∈ y :: r := by
          rcases hzm with ⟨_, e⟩ | hm
          · rw [e]; exact List.mem_cons_self y r
          · exact List.mem_cons_of_mem y hm
        have hxz : x ≠ z := fun e => hxrest (e ▸ hzm')
        simp [upd, hxa, hxz, h1, h2, h3]

theorem set_scfifo_fields (p : Proc) (a : Nat) :
    (set_scfifo p a).memory_pages = p.memory_pages
      ∧ (set_scfifo p a).pagetable = p.pagetable
      ∧ (set_scfifo p a).swapfile_pages = p.swapfile_pages
      ∧ (set_scfifo p a).num_of_phys_pages = p.num_of_phys_pages := by
  unfold set_scfifo
  cases hn : p.newest <;> cases ho : p.oldest <;> simp [hn, ho]

/-- Requeueing the oldest node, as the loop of `findPageToEvict` does: the
list is rotated by one, and nothing but the list changes. -/
theorem scfifo_rotate (p : Proc) (a : Nat) (rest : List Nat) (h : IsList p (a :: rest)) :
    ∃ p', remove_scfifo p a = some p' ∧ IsList (set_scfifo p' a) (rest ++ [a])
      ∧ (set_scfifo p' a).memory_pages = p.memory_pages
      ∧ (set_scfifo p' a).pagetable = p.pagetable
      ∧ (set_scfifo p' a).swapfile_pages = p.swapfile_pages
      ∧ (set_scfifo p' a).num_of_phys_pages = p.num_of_phys_pages := by
  obtain ⟨hnd, hold, hch⟩ := h
  simp only [List.head?_cons] at hold
  cases rest with
  | nil =>
    simp only [Chain] at hch
    obtain ⟨h1, h2, h3, h4⟩ := hch
    have hrem : remove_scfifo p a = some { p with
        oldest := none, newest := none,
        scfifo := upd p.scfifo a { p.scfifo a with newer := none, older := none } } := by
      simp [remove_scfifo, h4, hold]
    have hf := set_scfifo_fields { p with
        oldest := none, newest := none,
        scfifo := upd p.scfifo a { p.scfifo a with newer := none, older := none } } a
    refine ⟨_, hrem, ?_, hf.1, hf.2.1, hf.2.2.1, hf.2.2.2⟩
    refine ⟨by simp, ?_, ?_⟩
    · simp [set_scfifo]
    · simp [set_scfifo, Chain, upd]
  | cons b r =>
    have hch' := hch
    simp only [Chain] at hch
    obtain ⟨h1, h2, h3, h5, h6, h7, h8⟩ := hch
    obtain ⟨z, hz, hzm⟩ := chain_last_mem p.scfifo r b (some a) p.newest
      (by simp only [Chain]; exact ⟨h5, h6, h7, h8⟩)
    have hzbr : z ∈ b :: r := by
      rcases hzm with ⟨_, e⟩ | hm
      · rw [e]; exact List.mem_cons_self b r
      · exact List.mem_cons_of_mem b hm
    have ha_notin : a ∉ b :: r := (List.nodup_cons.mp hnd).1
    have hza : z ≠ a := fun e => ha_notin (e ▸ hzbr)
    have hba : b ≠ a := fun e => ha_notin (by rw [e]; exact List.mem_cons_self a r)
    have hnd2 : (b :: r).Nodup := (List.nodup_cons.mp hnd).2
    have hb_notin : b ∉ r := (List.nodup_cons.mp hnd2).1
    have hnew : ¬ (p.newest = some a) := by rw [hz]; simpa using hza
    simp only [List.head?_cons] at h3
    -- the state after `remove_scfifo`
    let sc1 : Nat → Scfifo := upd (upd p.scfifo b { p.scfifo b with older := none }) a
      { (upd p.scfifo b { p.scfifo b with older := none }) a with newer := none, older := none }
    have hrem : remove_scfifo p a
        = some { p with oldest := some b, scfifo := sc1 } := by
      simp only [remove_scfifo]
      rw [if_neg (fun hc => hnew hc.1), if_pos hold, h3]
    have hch1 : Chain sc1 none (b :: r) (some z) := by
      simp only [Chain]
      refine ⟨?_, ?_, ?_, ?_⟩
      · simp [sc1, upd, hba, h5]
      · simp [sc1, upd, hba]
      · simp [sc1, upd, hba, h7]
      · rw [chain_congr p.scfifo sc1 r (some b) (some z)]
        · rw [← hz]; exact h8
        · intro s hs
          have hsa : s ≠ a := fun e => ha_notin (e ▸ List.mem_cons_of_mem b hs)
          have hsb : s ≠ b := fun e => hb_notin (e ▸ hs)
          simp [sc1, upd, hsa, hsb]
    have hnd3 : ((b :: r) ++ [a]).Nodup := by
      rw [List.nodup_append]
      refine ⟨hnd2, by simp, ?_⟩
      intro x hx hx'
      simp only [List.mem_singleton] at hx'
      exact ha_notin (hx' ▸ hx)
    have hsnoc := chain_snoc sc1 a (b :: r) none (some z) hch1 hnd3 (by simp)
    have hf := set_scfifo_fields { p with oldest := some b, scfifo := sc1 } a
    refine ⟨_, hrem, ?_, hf.1, hf.2.1, hf.2.2.1, hf.2.2.2⟩
    refine ⟨hnd3, ?_, ?_⟩
    · simp [set_scfifo, hz]
    · simp only [set_scfifo, hz]
      exact hsnoc

theorem nodup_length_le (l : List Nat) (n : Nat) (hnd : l.Nodup) (h : ∀ x ∈ l, x < n) :
    l.length ≤ n := by
  have hsub : l ⊆ List.range n := fun x hx => List.mem_range.mpr (h x hx)
  have := (List.subperm_of_subset hnd hsub).length_le
  simpa using this

/-- The loop of `findPageToEvict` under SCFIFO: the entries of `pre` are
accessed, `v` is not. -/
theorem findPageToEvict_scfifo_spec (v : Nat) (pre : List Nat) :
    ∀ (k : Kernel) (post : List Nat) (fuel : Nat), pre.length < fuel →
      PTWf k k.proc.pagetable → IsList k.proc (pre ++ v :: post) →
      (∀ s ∈ pre ++ [v], (k.proc.memory_pages s).va < MAXVA
        ∧ leaf k k.proc.pagetable (k.proc.memory_pages s).va ≠ none) →
      (pre ++ [v]).Pairwise (fun s s' =>
        (k.proc.memory_pages s).va / 4096 ≠ (k.proc.memory_pages s').va / 4096) →
      (∀ s ∈ pre, pteOf k k.proc.pagetable (k.proc.memory_pages s).va &&& PTE_A ≠ 0) →
      pteOf k k.proc.pagetable (k.proc.memory_pages v).va &&& PTE_A = 0 →
      ∃ k', findPageToEvict_scfifo fuel k = .ok v k' ∧ IsList k'.proc (v :: post ++ pre)
        ∧ k'.proc.memory_pages = k.proc.memory_pages
        ∧ k'.proc.pagetable = k.proc.pagetable
        ∧ PTWf k' k.proc.pagetable
        ∧ (∀ va, leaf k' k.proc.pagetable va = leaf k k.proc.pagetable va)
        ∧ (∀ s ∈ pre, pteOf k' k.proc.pagetable (k.proc.memory_pages s).va &&& PTE_A = 0)
        ∧ (∀ va, va < MAXVA →
            (∀ s ∈ pre, (k.proc.memory_pages s).va / 4096 ≠ va / 4096) →
            pteOf k' k.proc.pagetable va = pteOf k k.proc.pagetable va) := by
  induction pre with
  | nil =>
    intro k post fuel hf hwf hlist hmap _ _ hclr
    obtain ⟨fuel, rfl⟩ : ∃ f, fuel = f + 1 := ⟨fuel - 1, by simp at hf; omega⟩
    have hlist0 := hlist
    obtain ⟨_, hold, hch⟩ := hlist
    simp only [List.nil_append, List.head?_cons, Chain] at hold hch
    obtain ⟨hvM, hleaf⟩ := hmap v (by simp)
    cases hl : leaf k k.proc.pagetable (k.proc.memory_pages v).va with
    | none => exact absurd hl hleaf
    | some l =>
      obtain ⟨t, i⟩ := l
      have hw := walk_noalloc k k.proc.pagetable _ hvM
      rw [hl] at hw
      have hpte : pteOf k k.proc.pagetable (k.proc.memory_pages v).va = k.mem t i := by
        simp [pteOf, hl]
      rw [hpte] at hclr
      refine ⟨k, ?_, ?_, rfl, rfl, hwf, fun _ => rfl, by simp, fun _ _ _ => rfl⟩
      · simp only [findPageToEvict_scfifo, hold, hch.1, hw, Res.bind]
        rw [if_pos hclr]
      · simpa using hlist0
  | cons a pre' ih =>
    intro k post fuel hf hwf hlist hmap hpw hacc hclr
    obtain ⟨fuel, rfl⟩ : ∃ f, fuel = f + 1 := ⟨fuel - 1, by simp at hf; omega⟩
    have hlist' := hlist
    obtain ⟨_, hold, hch⟩ := hlist
    simp only [List.cons_append, List.head?_cons, Chain] at hold hch
    obtain ⟨haM, hleaf⟩ := hmap a (by simp)
    cases hl : leaf k k.proc.pagetable (k.proc.memory_pages a).va with
    | none => exact absurd hl hleaf
    | some l =>
      obtain ⟨t, i⟩ := l
      have hw := walk_noalloc k k.proc.pagetable _ haM
      rw [hl] at hw
      have hpte : pteOf k k.proc.pagetable (k.proc.memory_pages a).va = k.mem t i := by
        simp [pteOf, hl]
      have hA := hacc a (by simp)
      rw [hpte] at hA
      have hA' : ¬ (k.mem t i &&& PTE_A = 0) := hA
      obtain ⟨p', hrem, hrot, hf1, hf2, _, _⟩ :=
        scfifo_rotate k.proc a (pre' ++ v :: post) hlist'
      -- the state after one iteration
      let k2 : Kernel := k.write t i (k.mem t i &&& NOT64 PTE_A)
      let k3 : Kernel := { k2 with proc := set_scfifo p' a }
      have hstep : findPageToEvict_scfifo (fuel + 1) k = findPageToEvict_scfifo fuel k3 := by
        simp only [findPageToEvict_scfifo, hold, hch.1, hw, Res.bind]
        rw [if_neg hA']
        have : (k.write t i (k.mem t i &&& NOT64 PTE_A)).proc = k.proc := rfl
        rw [this, hrem]
      have hmp3 : k3.proc.memory_pages = k.proc.memory_pages := hf1
      have hpt3 : k3.proc.pagetable = k.proc.pagetable := hf2
      have hwf2 : PTWf k2 k.proc.pagetable := PTWf_write k _ _ t i _ hwf hl
      have hwf3 : PTWf k3 k.proc.pagetable := PTWf_congr k2 k3 _ rfl rfl hwf2
      have hleaf3 : ∀ va, leaf k3 k.proc.pagetable va = leaf k k.proc.pagetable va := by
        intro va
        rw [leaf_congr k2 k3 _ _ rfl]
        exact leaf_write k _ _ t i _ hwf hl va
      have hpte3 : ∀ va, va < MAXVA → pteOf k3 k.proc.pagetable va
          = if (k.proc.memory_pages a).va / 4096 = va / 4096
            then k.mem t i &&& NOT64 PTE_A else pteOf k k.proc.pagetable va := by
        intro va hva
        rw [pteOf_congr k2 k3 _ _ rfl, pteOf_write k _ _ t i _ hwf hl]
        by_cases e : (k.proc.memory_pages a).va / 4096 = va / 4096
        · rw [if_pos e, if_pos (by rw [← leaf_page_eq k _ _ va e]; exact hl)]
        · rw [if_neg e, if_neg]
          intro h
          exact e (PX_inj _ va haM hva (leaf_inj k _ _ va _ hwf hl h))
      have hpw' : (∀ s' ∈ pre' ++ [v],
            (k.proc.memory_pages a).va / 4096 ≠ (k.proc.memory_pages s').va / 4096)
          ∧ (pre' ++ [v]).Pairwise (fun s s' =>
            (k.proc.memory_pages s).va / 4096 ≠ (k.proc.memory_pages s').va / 4096) :=
        List.pairwise_cons.mp hpw
      have hlist3 : IsList k3.proc (pre' ++ v :: (post ++ [a])) := by
        simpa using hrot
      obtain ⟨k', hr, hl', hmp', hpt', hwf', hleaf', hclr', hfr'⟩ :=
        ih k3 (post ++ [a]) fuel (by simp at hf; omega) (by rw [hpt3]; exact hwf3) hlist3
          (by
            intro s hs
            rw [hmp3, hpt3, hleaf3]
            exact hmap s (by simp at hs ⊢; tauto))
          (by rw [hmp3]; exact hpw'.2)
          (by
            intro s hs
            rw [hmp3, hpt3, hpte3 _ (hmap s (by simp [hs])).1,
              if_neg (hpw'.1 s (by simp [hs]))]
            exact hacc s (by simp [hs]))
          (by
            rw [hmp3, hpt3, hpte3 _ (hmap v (by simp)).1, if_neg (hpw'.1 v (by simp))]
            exact hclr)
      rw [hmp3, hpt3] at *
      refine ⟨k', by rw [hstep, hr], ?_, hmp', hpt', hwf', ?_, ?_, ?_⟩
      · simpa using hl'
      · intro va; rw [hleaf', hleaf3]
      · intro s hs
        rcases List.mem_cons.mp hs with e | hs'
        · subst e
          rw [hfr' _ haM (fun s' hs' => (hpw'.1 s' (by simp [hs'])).symm), hpte3 _ haM,
            if_pos rfl]
          exact clear_flag _ 6 (by norm_num)
        · exact hclr' s hs'
      · intro va hva hno
        rw [hfr' va hva (fun s hs => hno s (List.mem_cons_of_mem a hs)), hpte3 va hva,
          if_neg (hno a (List.mem_cons_self a pre'))]

theorem PTWf_hw_access (k : Kernel) (va : Nat) (h : PTWf k k.proc.pagetable) :
    PTWf (hw_access k va) k.proc.pagetable := by
  unfold hw_access
  cases hl : leaf k k.proc.pagetable va with
  | none => exact h
  | some l =>
    obtain ⟨t, i⟩ := l
    exact PTWf_write k _ va t i _ h hl

/-- C5 (second-chance correctness).  Under SCFIFO, for a well-formed list
`pre ++ v :: post` of resident slots (oldest first) on a page table that is
a tree, where the pages of `pre` and `v` are distinct pages with leaf PTEs,
every entry of `pre` has the accessed bit set and `v` has it clear:
`findPageToEvict` returns the slot `v`, and on return the list is
`v :: post ++ pre` (the skipped entries at the newest end, in their
original order) with the accessed bits of the pages of `pre` clear; the
roster is unchanged. -/
theorem findPageToEvict_second_chance (k : Kernel) (pre post : List Nat) (v : Nat)
    (hwf : PTWf k k.proc.pagetable) (hlist : IsList k.proc (pre ++ v :: post))
    (hslots : ∀ s ∈ pre ++ v :: post, s < MAX_PSYC_PAGES)
    (hmapped : ∀ s ∈ pre ++ [v], (k.proc.memory_pages s).va < MAXVA
      ∧ leaf k k.proc.pagetable (k.proc.memory_pages s).va ≠ none)
    (hdistinct : (pre ++ [v]).Pairwise (fun s s' =>
      (k.proc.memory_pages s).va / PGSIZE ≠ (k.proc.memory_pages s').va / PGSIZE))
    (hacc : ∀ s ∈ pre, pteOf k k.proc.pagetable (k.proc.memory_pages s).va &&& PTE_A ≠ 0)
    (hclear : pteOf k k.proc.pagetable (k.proc.memory_pages v).va &&& PTE_A = 0) :
    ∃ k', findPageToEvict .SCFIFO k = .ok v k' ∧ IsList k'.proc (v :: post ++ pre)
      ∧ (∀ s ∈ pre, pteOf k' k.proc.pagetable (k.proc.memory_pages s).va &&& PTE_A = 0)
      ∧ k'.proc.memory_pages = k.proc.memory_pages := by
  have hlen := nodup_length_le _ MAX_PSYC_PAGES hlist.1 hslots
  have hfuel : pre.length < MAX_PSYC_PAGES + 1 := by
    simp only [List.length_append, List.length_cons] at hlen
    omega
  obtain ⟨k', hr, hl', hmp', _, _, _, hclr', _⟩ :=
    findPageToEvict_scfifo_spec v pre k post (MAX_PSYC_PAGES + 1) hfuel hwf hlist hmapped
      (by simpa [PGSIZE] using hdistinct) hacc hclear
  exact ⟨k', by simp only [findPageToEvict, hr], hl', hclr', hmp'⟩

theorem wK5a_wf : PTWf wK5a 0x1000 :=
  (mappages_grow (emptyKernel testName [0x2000, 0x3000, 0x4000]) wK5a 0x1000 0 0x3000 0x80000000
    (PTE_R ||| PTE_U) 0
    (PTWf_empty _ 0x1000 (fun _ => rfl) (by decide) (by decide) (by decide))
    (by decide) (by decide) (by decide) rfl).wf

theorem wK5_wf : PTWf wK5 0x1000 :=
  PTWf_hw_access wK5b 0 (PTWf_congr wK5a wK5b 0x1000 rfl rfl wK5a_wf)

theorem wK5_list : IsList wK5.proc ([0] ++ 1 :: [2]) := by
  refine ⟨by decide, by decide, ?_⟩
  simp only [Chain, List.cons_append, List.nil_append]
  decide

theorem findPageToEvict_second_chance_witness :
    ∃ k', findPageToEvict .SCFIFO wK5 = .ok 1 k' ∧ IsList k'.proc (1 :: [2] ++ [0])
      ∧ (∀ s ∈ [0], pteOf k' wK5.proc.pagetable (wK5.proc.memory_pages s).va &&& PTE_A = 0)
      ∧ k'.proc.memory_pages = wK5.proc.memory_pages :=
  findPageToEvict_second_chance wK5 [0] [2] 1 wK5_wf wK5_list (by decide) (by decide)
    (by decide) (by decide) (by decide)

/-! ## C7: exempt processes -/

theorem tb_NOT64 (f j : Nat) : (NOT64 f).testBit j = (decide (j < 64) ^^ f.testBit j) := by
  rw [NOT64, U64, Nat.testBit_xor, Nat.testBit_two_pow_sub_one]

theorem tb_PTE2PA (y j : Nat) :
    (PTE2PA y).testBit j
      = (decide (j < 64) && (decide (12 ≤ j) && y.testBit (10 + (j - 12)))) := by
  rw [PTE2PA, U64, Nat.testBit_mod_two_pow, Nat.testBit_shiftLeft, Nat.testBit_shiftRight]

theorem tb_PA2PTE (y j : Nat) :
    (PA2PTE y).testBit j
      = (decide (j < 64) && (decide (10 ≤ j) && y.testBit (12 + (j - 10)))) := by
  rw [PA2PTE, U64, Nat.testBit_mod_two_pow, Nat.testBit_shiftLeft, Nat.testBit_shiftRight]

theorem tb_FLAGS (y j : Nat) : (PTE_FLAGS y).testBit j = (decide (j < 10) && y.testBit j) := by
  rw [PTE_FLAGS_eq, show (1024 : Nat) = 2 ^ 10 by norm_num, Nat.testBit_mod_two_pow]

theorem perm_mask : PTE_R ||| PTE_W ||| PTE_X ||| PTE_U = 30 := by decide

theorem tb_perm (j : Nat) : (30 : Nat).testBit j = decide (1 ≤ j ∧ j ≤ 4) := by
  by_cases h : j ≤ 4
  · interval_cases j <;> decide
  · have hlt : (30 : Nat) < 2 ^ j :=
      lt_of_lt_of_le (by norm_num : (30 : Nat) < 2 ^ 5) (Nat.pow_le_pow_right (by norm_num) (by omega))
    rw [Nat.testBit_lt_two_pow hlt]
    simp; omega

/-- The PTE that `page_fault` stores, from the PTE `e0` that `swap_out` found:
the same frame, Valid, not Swapped, the same permission bits. -/
theorem fault_entry (e0 : Nat) :
    PTE2PA ((((PA2PTE (PTE2PA e0) ||| PTE_FLAGS ((e0 &&& NOT64 PTE_V) ||| PTE_PG)) % U64)
        &&& NOT64 PTE_PG) ||| PTE_V) = PTE2PA e0
      ∧ ((((PA2PTE (PTE2PA e0) ||| PTE_FLAGS ((e0 &&& NOT64 PTE_V) ||| PTE_PG)) % U64)
        &&& NOT64 PTE_PG) ||| PTE_V) &&& PTE_V ≠ 0
      ∧ ((((PA2PTE (PTE2PA e0) ||| PTE_FLAGS ((e0 &&& NOT64 PTE_V) ||| PTE_PG)) % U64)
        &&& NOT64 PTE_PG) ||| PTE_V) &&& PTE_PG = 0
      ∧ ((((PA2PTE (PTE2PA e0) ||| PTE_FLAGS ((e0 &&& NOT64 PTE_V) ||| PTE_PG)) % U64)
        &&& NOT64 PTE_PG) ||| PTE_V) &&& (PTE_R ||| PTE_W ||| PTE_X ||| PTE_U)
          = e0 &&& (PTE_R ||| PTE_W ||| PTE_X ||| PTE_U) := by
  have hV : PTE_V = 2 ^ 0 := by norm_num [PTE_V]
  have hPG : PTE_PG = 2 ^ 9 := by norm_num [PTE_PG]
  refine ⟨?_, ?_, ?_, ?_⟩
  · apply Nat.eq_of_testBit_eq
    intro j
    simp only [tb_PTE2PA, Nat.testBit_or, Nat.testBit_and, tb_NOT64, U64,
      Nat.testBit_mod_two_pow, tb_PA2PTE, tb_FLAGS, hV, hPG, Nat.testBit_two_pow]
    by_cases h1 : j < 64 <;> by_cases h2 : 12 ≤ j <;> simp [h1, h2]
    have a1 : 10 + (j - 12) < 64 := by omega
    have a2 : ¬ (9 = 10 + (j - 12)) := by omega
    have a3 : ¬ (0 = 10 + (j - 12)) := by omega
    simp [a1, a2, a3]
  · rw [hV]; exact set_flag _ 0
  · rw [hPG, Nat.and_two_pow]
    simp only [Nat.testBit_or, Nat.testBit_and, tb_NOT64, U64, Nat.testBit_mod_two_pow,
      tb_PA2PTE, tb_FLAGS, hV, Nat.testBit_two_pow]
    simp
  · rw [perm_mask]
    apply Nat.eq_of_testBit_eq
    intro j
    simp only [Nat.testBit_and, tb_perm, Nat.testBit_or, tb_NOT64, U64,
      Nat.testBit_mod_two_pow, tb_PA2PTE, tb_FLAGS, hV, hPG, Nat.testBit_two_pow]
    by_cases h1 : 1 ≤ j ∧ j ≤ 4
    · have a1 : j < 64 := by omega
      have a2 : ¬ (10 ≤ j) := by omega
      have a3 : j < 10 := by omega
      have a4 : ¬ (0 = j) := by omega
      have a5 : ¬ (9 = j) := by omega
      simp [h1, a1, a2, a3, a4, a5]
    · simp [h1]

/-- Clearing the accessed bit keeps the frame and the other flags. -/
theorem clearA_entry (x : Nat) :
    PTE2PA (x &&& NOT64 PTE_A) = PTE2PA x
      ∧ ((x &&& NOT64 PTE_A) &&& PTE_V = x &&& PTE_V)
      ∧ ((x &&& NOT64 PTE_A) &&& PTE_PG = x &&& PTE_PG)
      ∧ (x &&& NOT64 PTE_A) &&& (PTE_R ||| PTE_W ||| PTE_X ||| PTE_U)
          = x &&& (PTE_R ||| PTE_W ||| PTE_X ||| PTE_U)
      ∧ (x &&& NOT64 PTE_A) &&& NOT64 PTE_A = x &&& NOT64 PTE_A := by
  have hA : PTE_A = 2 ^ 6 := by norm_num [PTE_A]
  have hV : PTE_V = 2 ^ 0 := by norm_num [PTE_V]
  have hPG : PTE_PG = 2 ^ 9 := by norm_num [PTE_PG]
  refine ⟨?_, ?_, ?_, ?_, ?_⟩
  · apply Nat.eq_of_testBit_eq
    intro j
    simp only [tb_PTE2PA, Nat.testBit_and, tb_NOT64, hA, Nat.testBit_two_pow]
    by_cases h1 : j < 64 <;> by_cases h2 : 12 ≤ j <;> simp [h1, h2]
    have a1 : 10 + (j - 12) < 64 := by omega
    have a2 : ¬ (6 = 10 + (j - 12)) := by omega
    simp [a1, a2]
  · rw [hA, hV]; exact clear_flag_other x 6 0 (by norm_num) (by norm_num)
  · rw [hA, hPG]; exact clear_flag_other x 6 9 (by norm_num) (by norm_num)
  · rw [perm_mask]
    apply Nat.eq_of_testBit_eq
    intro j
    simp only [Nat.testBit_and, tb_perm, tb_NOT64, hA, Nat.testBit_two_pow]
    by_cases h1 : 1 ≤ j ∧ j ≤ 4
    · have a1 : j < 64 := by omega
      have a2 : ¬ (6 = j) := by omega
      simp [h1, a1, a2]
    · simp [h1]
  · rw [Nat.land_assoc, Nat.and_self]

theorem walk_noalloc_inv (k k' : Kernel) (pt va : Nat) (r : Option (Nat × Nat))
    (h : walk k pt va 0 = .ok r k') : k' = k ∧ r = leaf k pt va ∧ va < MAXVA := by
  by_cases hva : va < MAXVA
  · rw [walk_noalloc k pt va hva] at h
    injection h with h1 h2
    exact ⟨h2.symm, h1.symm, hva⟩
  · unfold walk at h
    rw [if_pos (by omega)] at h
    cases h

theorem remove_scfifo_fields (p p' : Proc) (a : Nat) (h : remove_scfifo p a = some p') :
    p'.memory_pages = p.memory_pages ∧ p'.pagetable = p.pagetable
      ∧ p'.swapfile_pages = p.swapfile_pages ∧ p'.num_of_phys_pages = p.num_of_phys_pages
      ∧ p'.swapFile = p.swapFile := by
  unfold remove_scfifo at h
  simp only at h
  split_ifs at h
  · injection h with h; rw [← h]; exact ⟨rfl, rfl, rfl, rfl, rfl⟩
  · cases hn : (p.scfifo a).newer with
    | none => simp [hn] at h
    | some o => simp only [hn] at h; injection h with h; rw [← h]; exact ⟨rfl, rfl, rfl, rfl, rfl⟩
  · cases hn : (p.scfifo a).older with
    | none => simp [hn] at h
    | some o => simp only [hn] at h; injection h with h; rw [← h]; exact ⟨rfl, rfl, rfl, rfl, rfl⟩
  · cases ho : (p.scfifo a).older with
    | none => simp [ho] at h
    | some o =>
      simp only [ho] at h
      split at h
      · cases h
      · injection h with h; rw [← h]; exact ⟨rfl, rfl, rfl, rfl, rfl⟩

theorem set_scfifo_swapFile (p : Proc) (a : Nat) : (set_scfifo p a).swapFile = p.swapFile := by
  unfold set_scfifo
  cases hn : p.newest <;> cases ho : p.oldest <;> simp [hn, ho]

theorem evictScan_refl (k : Kernel) (hwf : PTWf k k.proc.pagetable) : EvictScan k k :=
  ⟨rfl, rfl, rfl, rfl, rfl, rfl, hwf, fun _ => rfl, fun _ => rfl, fun _ => Or.inl rfl,
    fun _ _ _ => rfl⟩

theorem findPageToEvict_scfifo_scan (fuel : Nat) :
    ∀ (k ke : Kernel) (m : Nat), PTWf k k.proc.pagetable →
      findPageToEvict_scfifo fuel k = .ok m ke → EvictScan k ke := by
  induction fuel with
  | zero => intro k ke m _ h; simp [findPageToEvict_scfifo] at h
  | succ fuel ih =>
    intro k ke m hwf h
    rw [findPageToEvict_scfifo] at h
    cases ho : k.proc.oldest with
    | none => simp [ho] at h
    | some o =>
      simp only [ho] at h
      cases hw : walk k k.proc.pagetable
          (k.proc.memory_pages (k.proc.scfifo o).position).va 0 with
      | stop e => simp [hw, Res.bind] at h
      | nofuel => simp [hw, Res.bind] at h
      | ok r k1 =>
        obtain ⟨hk1, hr, hvaM⟩ := walk_noalloc_inv k k1 _ _ r hw
        subst hk1
        simp only [hw, Res.bind] at h
        cases r with
        | none => simp at h
        | some l =>
          obtain ⟨t, i⟩ := l
          simp only at h
          by_cases hA : k1.mem t i &&& PTE_A = 0
          · rw [if_pos hA] at h
            injection h with _ hk
            rw [← hk]
            exact evictScan_refl k1 hwf
          · rw [if_neg hA] at h
            have hl : leaf k1 k1.proc.pagetable
                (k1.proc.memory_pages (k1.proc.scfifo o).position).va = some (t, i) := hr.symm
            cases hrem : remove_scfifo (k1.write t i (k1.mem t i &&& NOT64 PTE_A)).proc
                (k1.proc.scfifo o).position with
            | none => simp [hrem] at h
            | some p3 =>
              simp only [hrem] at h
              have hf3 := remove_scfifo_fields _ p3 _ hrem
              have hs3 := set_scfifo_fields p3 (k1.proc.scfifo o).position
              have hsw3 := set_scfifo_swapFile p3 (k1.proc.scfifo o).position
              let k2 : Kernel := k1.write t i (k1.mem t i &&& NOT64 PTE_A)
              let k3 : Kernel := { k2 with proc := set_scfifo p3 (k1.proc.scfifo o).position }
              have hpt3 : k3.proc.pagetable = k1.proc.pagetable := by
                show (set_scfifo p3 _).pagetable = _
                rw [hs3.2.1, hf3.2.1]; rfl
              have hwf2 : PTWf k2 k1.proc.pagetable := PTWf_write k1 _ _ t i _ hwf hl
              have hwf3 : PTWf k3 k1.proc.pagetable := PTWf_congr k2 k3 _ rfl rfl hwf2
              have hscan := ih k3 ke m (by rw [hpt3]; exact hwf3) h
              have hs_wf : PTWf ke k1.proc.pagetable := hpt3 ▸ hscan.wf
              have hs_leaf : ∀ va, leaf ke k1.proc.pagetable va = leaf k3 k1.proc.pagetable va :=
                hpt3 ▸ hscan.leaf_eq
              have hs_frames : ∀ p, frameAt ke k1.proc.pagetable p
                  = frameAt k3 k1.proc.pagetable p := hpt3 ▸ hscan.frames
              have hs_pte : ∀ va, pteOf ke k1.proc.pagetable va = pteOf k3 k1.proc.pagetable va
                  ∨ pteOf ke k1.proc.pagetable va
                    = pteOf k3 k1.proc.pagetable va &&& NOT64 PTE_A := hpt3 ▸ hscan.pte
              have hs_other : ∀ t, (∀ p, frameAt k3 k1.proc.pagetable p ≠ some t) →
                  ∀ i, ke.mem t i = k3.mem t i := hpt3 ▸ hscan.other
              have hfr2 : ∀ p, frameAt k3 k1.proc.pagetable p = frameAt k1 k1.proc.pagetable p := by
                intro p
                rw [frameAt_mem_eq k2 k3 _ rfl]
                exact frameAt_write_l0 k1 _ _ _ t i _ hwf (leaf_frame k1 _ _ t i hl).1 p
              constructor
              · rw [hscan.memory_pages]
                show (set_scfifo p3 _).memory_pages = _
                rw [hs3.1, hf3.1]; rfl
              · rw [hscan.swapfile_pages]
                show (set_scfifo p3 _).swapfile_pages = _
                rw [hs3.2.2.1, hf3.2.2.1]; rfl
              · rw [hscan.num]
                show (set_scfifo p3 _).num_of_phys_pages = _
                rw [hs3.2.2.2, hf3.2.2.2.1]; rfl
              · rw [hscan.pagetable, hpt3]
              · rw [hscan.swapFile]
                show (set_scfifo p3 _).swapFile = _
                rw [hsw3, hf3.2.2.2.2]; rfl
              · rw [hscan.freelist]; rfl
              · exact hs_wf
              · intro va
                rw [hs_leaf, leaf_congr k2 k3 _ _ rfl]
                exact leaf_write k1 _ _ t i _ hwf hl va
              · intro p
                rw [hs_frames, hfr2]
              · intro va
                have h3 : pteOf k3 k1.proc.pagetable va
                    = if leaf k1 k1.proc.pagetable va = some (t, i)
                      then k1.mem t i &&& NOT64 PTE_A else pteOf k1 k1.proc.pagetable va := by
                  rw [pteOf_congr k2 k3 _ _ rfl]
                  exact pteOf_write k1 _ _ t i _ hwf hl va
                have h1 : leaf k1 k1.proc.pagetable va = some (t, i) →
                    pteOf k1 k1.proc.pagetable va = k1.mem t i := by
                  intro e; simp [pteOf, e]
                by_cases e : leaf k1 k1.proc.pagetable va = some (t, i)
                · rw [if_pos e, ← h1 e] at h3
                  right
                  rcases hs_pte va with h4 | h4
                  · rw [h4, h3]
                  · rw [h4, h3, (clearA_entry _).2.2.2.2]
                · rw [if_neg e] at h3
                  rcases hs_pte va with h4 | h4
                  · left; rw [h4, h3]
                  · right; rw [h4, h3]
              · intro t' hnt j
                rw [hs_other t' (fun p => by rw [hfr2]; exact hnt p) j]
                apply write_mem_ne
                intro e
                exact hnt _ (e ▸ (leaf_frame k1 _ _ t i hl).1)

theorem findPageToEvict_evictScan (algo : SwapAlgo) (k ke : Kernel) (m : Nat)
    (hwf : PTWf k k.proc.pagetable) (h : findPageToEvict algo k = .ok m ke) :
    EvictScan k ke := by
  unfold findPageToEvict at h
  cases algo with
  | SCFIFO => exact findPageToEvict_scfifo_scan _ k ke m hwf h
  | NONE =>
    simp only at h
    split at h <;>
      first
        | (injection h with _ hk; rw [← hk]; exact evictScan_refl k hwf)
        | cases h
  | NFUA =>
    simp only at h
    split at h <;>
      first
        | (injection h with _ hk; rw [← hk]; exact evictScan_refl k hwf)
        | cases h
  | LAPA =>
    simp only at h
    split at h <;>
      first
        | (injection h with _ hk; rw [← hk]; exact evictScan_refl k hwf)
        | cases h

theorem firstSlot_inv (P : Nat → Bool) (n : Nat) :
    ∀ (i q : Nat), firstSlot P n i = some q →
      i ≤ q ∧ q < i + n ∧ P q = true ∧ ∀ j, i ≤ j → j < q → P j = false := by
  induction n with
  | zero => intro i q h; simp [firstSlot] at h
  | succ n ih =>
    intro i q h
    rw [firstSlot] at h
    by_cases hP : P i = true
    · rw [if_pos hP] at h
      injection h with h
      subst h
      exact ⟨le_refl _, by omega, hP, fun j h1 h2 => by omega⟩
    · rw [if_neg hP] at h
      obtain ⟨h1, h2, h3, h4⟩ := ih (i + 1) q h
      refine ⟨by omega, by omega, h3, ?_⟩
      intro j hj1 hj2
      by_cases e : j = i
      · rw [e]; simpa using hP
      · exact h4 j (by omega) hj2

theorem firstSlot_of (P : Nat → Bool) (n : Nat) :
    ∀ (i q : Nat), i ≤ q → q < i + n → P q = true → (∀ j, i ≤ j → j < q → P j = false) →
      firstSlot P n i = some q := by
  induction n with
  | zero => intro i q h1 h2; omega
  | succ n ih =>
    intro i q h1 h2 hP hb
    rw [firstSlot]
    by_cases e : q = i
    · rw [← e, if_pos hP]
    · have : P i = false := hb i (le_refl _) (by omega)
      rw [if_neg (by simp [this])]
      exact ih (i + 1) q (by omega) (by omega) hP (fun j hj1 hj2 => hb j (by omega) hj2)

theorem firstSlot_exists (P : Nat → Bool) (n i j : Nat) (h1 : i ≤ j) (h2 : j < i + n)
    (hP : P j = true) : ∃ q, firstSlot P n i = some q ∧ q ≤ j := by
  induction n generalizing i with
  | zero => omega
  | succ n ih =>
    rw [firstSlot]
    by_cases hi : P i = true
    · exact ⟨i, by rw [if_pos hi], h1⟩
    · rw [if_neg hi]
      have : j ≠ i := fun e => hi (e ▸ hP)
      exact ih (i + 1) (by omega) (by omega)

theorem inMemoryCount_le (p : Proc) : inMemoryCount p ≤ MAX_PSYC_PAGES := by
  unfold inMemoryCount
  have := List.length_filter_le (fun i => decide ((p.memory_pages i).status = INMEMORY))
    (List.range MAX_PSYC_PAGES)
  simpa using this

theorem upd_same {α : Type} (f : Nat → α) (i : Nat) (v : α) : upd f i v i = v := by
  simp [upd]

theorem upd_ne {α : Type} (f : Nat → α) (i j : Nat) (v : α) (h : j ≠ i) : upd f i v j = f j := by
  simp [upd, h]

/-- What `swap_out` does once the victim `m` is chosen (state `ke`) and the
leaf PTE of the victim page is `&t[i]`. -/
theorem swap_out_spec (algo : SwapAlgo) (k ke : Kernel) (pt s m t i : Nat)
    (hs : findFree k.proc.swapfile_pages = some s)
    (he : findPageToEvict algo k = .ok m ke)
    (hva : (ke.proc.memory_pages m).va < MAXVA)
    (hl : leaf ke pt (ke.proc.memory_pages m).va = some (t, i)) :
    ∃ k1, swap_out algo k pt = .ok () k1
      ∧ k1.mem = (fun t' i' =>
          if t' = t ∧ i' = i then (ke.mem t i &&& NOT64 PTE_V) ||| PTE_PG else ke.mem t' i')
      ∧ k1.freelist = PTE2PA (ke.mem t i) :: ke.freelist
      ∧ k1.proc.pagetable = ke.proc.pagetable
      ∧ k1.proc.memory_pages
          = upd ke.proc.memory_pages m { ke.proc.memory_pages m with va := 0, status := UNUSED }
      ∧ k1.proc.swapfile_pages
          = upd ke.proc.swapfile_pages s
              { ke.proc.swapfile_pages s with va := (ke.proc.memory_pages m).va, status := PAGED }
      ∧ k1.proc.num_of_phys_pages = ke.proc.num_of_phys_pages - 1
      ∧ k1.proc.swapFile
          = upd ke.proc.swapFile (s * PGSIZE) (ke.mem (PTE2PA (ke.mem t i))) := by
  unfold swap_out
  rw [hs]
  simp only
  rw [he]
  simp only [Res.bind, upd_same]
  rw [walk_noalloc _ _ _ hva]
  simp only [Res.bind]
  have hl' : ∀ k3 : Kernel, k3.mem = ke.mem →
      leaf k3 pt (ke.proc.memory_pages m).va = some (t, i) :=
    fun k3 h => (leaf_congr ke k3 pt _ h).trans hl
  rw [hl']
  · simp only
    refine ⟨_, rfl, ?_, rfl, rfl, rfl, rfl, rfl, rfl⟩
    funext t' i'
    simp only [kfree, Kernel.write, writeToSwapFile]
    by_cases e : t' = t ∧ i' = i
    · simp [e]
    · simp [e]
  · rfl

/-- What `allocate_page` does when the resident roster is not full. -/
theorem allocate_page_spec (algo : SwapAlgo) (k : Kernel) (pt va q : Nat)
    (hnum : k.proc.num_of_phys_pages ≠ MAX_PSYC_PAGES)
    (hq : findFree k.proc.memory_pages = some q) :
    ∃ k', allocate_page algo k pt va = .ok () k'
      ∧ k'.mem = k.mem ∧ k'.freelist = k.freelist
      ∧ k'.proc.pagetable = k.proc.pagetable
      ∧ k'.proc.swapfile_pages = k.proc.swapfile_pages
      ∧ (k'.proc.memory_pages q).status = INMEMORY
      ∧ (k'.proc.memory_pages q).va = va
      ∧ ∀ j, j ≠ q → k'.proc.memory_pages j = k.proc.memory_pages j := by
  unfold allocate_page
  rw [if_neg hnum]
  simp only [Res.bind]
  rw [hq]
  simp only
  cases algo with
  | SCFIFO =>
    refine ⟨_, rfl, rfl, rfl, ?_, ?_, ?_, ?_, ?_⟩
    · simp only [(set_scfifo_fields _ q).2.1]
    · simp only [(set_scfifo_fields _ q).2.2.1]
    · simp only [(set_scfifo_fields _ q).1, upd_same]
    · simp only [(set_scfifo_fields _ q).1, upd_same]
    · intro j hj
      simp only [(set_scfifo_fields _ q).1, upd_ne _ _ _ _ hj]
  | NONE =>
    refine ⟨_, rfl, rfl, rfl, rfl, rfl, ?_, ?_, ?_⟩
    · simp [upd_same, set_counter]
    · simp [upd_same, set_counter]
    · intro j hj
      simp [upd_ne _ _ _ _ hj]
  | NFUA =>
    refine ⟨_, rfl, rfl, rfl, rfl, rfl, ?_, ?_, ?_⟩
    · simp [upd_same, set_counter]
    · simp [upd_same, set_counter]
    · intro j hj
      simp [upd_ne _ _ _ _ hj]
  | LAPA =>
    refine ⟨_, rfl, rfl, rfl, rfl, rfl, ?_, ?_, ?_⟩
    · simp [upd_same, set_counter]
    · simp [upd_same, set_counter]
    · intro j hj
      simp [upd_ne _ _ _ _ hj]

/-- What `page_fault` does on a Swapped page whose leaf PTE is `&t[i]`, when the
allocator hands out frame `pa`, the swap roster records the page in slot `s`
first, and the resident roster is not full. -/
theorem page_fault_spec (algo : SwapAlgo) (k1 : Kernel) (va t i pa s q : Nat) (rest : List Nat)
    (hva : va < MAXVA) (hl : leaf k1 k1.proc.pagetable va = some (t, i))
    (hpg : k1.mem t i &&& PTE_PG ≠ 0)
    (hfl : k1.freelist = pa :: rest)
    (hloc : firstSlot (fun j => (k1.proc.swapfile_pages j).va = va) MAX_PSYC_PAGES 0 = some s)
    (hnum : k1.proc.num_of_phys_pages ≠ MAX_PSYC_PAGES)
    (hq : findFree k1.proc.memory_pages = some q)
    (hne : t ≠ pa) :
    ∃ kf, page_fault algo k1 va = .ok 3 kf
      ∧ kf.mem t i
          = ((((PA2PTE pa ||| PTE_FLAGS (k1.mem t i)) % U64) &&& NOT64 PTE_PG) ||| PTE_V)
      ∧ (∀ t' i', ¬ (t' = t ∧ i' = i) →
          kf.mem t' i' = upd k1.mem pa (k1.proc.swapFile (s * PGSIZE)) t' i')
      ∧ kf.freelist = rest
      ∧ kf.proc.pagetable = k1.proc.pagetable
      ∧ kf.proc.swapfile_pages
          = upd k1.proc.swapfile_pages s { k1.proc.swapfile_pages s with status := UNUSED }
      ∧ (kf.proc.memory_pages q).status = INMEMORY
      ∧ (kf.proc.memory_pages q).va = va
      ∧ ∀ j, j ≠ q → kf.proc.memory_pages j = k1.proc.memory_pages j := by
  unfold page_fault
  rw [walk_noalloc _ _ _ hva]
  simp only [Res.bind]
  rw [hl]
  simp only
  rw [if_neg hpg]
  have hk : kalloc k1 = (some pa, { k1 with freelist := rest }) := by
    unfold kalloc
    rw [hfl]
  rw [hk]
  simp only
  unfold findPageLocation
  rw [hloc]
  simp only
  obtain ⟨k5, h5, hmem, hfree, hpt, hsp, hst, hv, hoth⟩ :=
    allocate_page_spec algo
      (readFromSwapFile
        { k1 with freelist := rest, proc := { k1.proc with
            swapfile_pages := upd k1.proc.swapfile_pages s
              { k1.proc.swapfile_pages s with status := UNUSED } } }
        pa (s * PGSIZE))
      k1.proc.pagetable va q hnum hq
  have h5' := h5
  simp only [readFromSwapFile] at h5' hmem
  simp only [readFromSwapFile]
  rw [h5']
  simp only [Res.bind]
  have hti : k5.mem t i = k1.mem t i := by
    rw [hmem]
    simp [upd, hne]
  refine ⟨_, rfl, ?_, ?_, hfree, hpt, hsp, hst, hv, hoth⟩
  · simp [Kernel.write, hti]
  · intro t' i' hn
    simp only [Kernel.write, if_neg hn]
    rw [hmem]

/-- Stores outside the root and the level-1 tables leave the tree of tables
where it is. -/
theorem frameAt_off_tables (ke kf : Kernel) (pt t pa a b : Nat) (hwf : PTWf ke pt)
    (ht : frameAt ke pt (.l0 a b) = some t) (hpa : ∀ p, frameAt ke pt p ≠ some pa)
    (hmem : ∀ t' i', t' ≠ t → t' ≠ pa → kf.mem t' i' = ke.mem t' i') :
    ∀ p, frameAt kf pt p = frameAt ke pt p := by
  apply frameAt_congr
  · intro j
    apply hmem
    · intro e
      have := hwf.inj (.l0 a b) .root t ht (by simp [frameAt, e])
      cases this
    · intro e
      exact hpa .root (by simp [frameAt, e])
  · intro a' t' ht' j
    apply hmem
    · intro e
      rw [e] at ht'
      have := hwf.inj (.l0 a b) (.l1 a') t ht ht'
      cases this
    · intro e
      rw [e] at ht'
      exact hpa _ ht'

theorem leaf_of_valid (k : Kernel) (pt va : Nat) (h : pteOf k pt va &&& PTE_V ≠ 0) :
    ∃ t i, leaf k pt va = some (t, i) ∧ pteOf k pt va = k.mem t i := by
  unfold pteOf at h ⊢
  cases hl : leaf k pt va with
  | none => rw [hl] at h; simp at h
  | some l =>
    obtain ⟨t, i⟩ := l
    exact ⟨t, i, rfl, rfl⟩

/-- C4: in a consistent state in which `swap_out` finds the free swap slot `s`
and evicts the resident slot `m`, recording page `P`, `swap_out` copies the
frame of `P` to swap offset `s * PGSIZE` and a following `page_fault` on `P`
returns 3; afterwards the leaf PTE of `P` is Valid and not Swapped, has the
permission bits it had before the eviction, and points to a frame that holds
what the frame of `P` held; exactly one `INMEMORY` slot records `P`, and no
`PAGED` swap slot records `P`. -/
theorem swap_out_page_fault_idempotent (algo : SwapAlgo) (k ke : Kernel) (s m : Nat)
    (hc : Consistent k) (hs : findFree k.proc.swapfile_pages = some s)
    (he : findPageToEvict algo k = .ok m ke) (hm : m < MAX_PSYC_PAGES)
    (hst : (k.proc.memory_pages m).status = INMEMORY) :
    ∃ k1 kf, swap_out algo k k.proc.pagetable = .ok () k1
      ∧ k1.proc.swapFile (s * PGSIZE)
          = k.mem (PTE2PA (pteOf k k.proc.pagetable (k.proc.memory_pages m).va))
      ∧ page_fault algo k1 (k.proc.memory_pages m).va = .ok 3 kf
      ∧ pteOf kf k.proc.pagetable (k.proc.memory_pages m).va &&& PTE_V ≠ 0
      ∧ pteOf kf k.proc.pagetable (k.proc.memory_pages m).va &&& PTE_PG = 0
      ∧ pteOf kf k.proc.pagetable (k.proc.memory_pages m).va
            &&& (PTE_R ||| PTE_W ||| PTE_X ||| PTE_U)
          = pteOf k k.proc.pagetable (k.proc.memory_pages m).va
            &&& (PTE_R ||| PTE_W ||| PTE_X ||| PTE_U)
      ∧ kf.mem (PTE2PA (pteOf kf k.proc.pagetable (k.proc.memory_pages m).va))
          = k.mem (PTE2PA (pteOf k k.proc.pagetable (k.proc.memory_pages m).va))
      ∧ (∃ q, q < MAX_PSYC_PAGES
          ∧ (kf.proc.memory_pages q).status = INMEMORY
          ∧ (kf.proc.memory_pages q).va = (k.proc.memory_pages m).va
          ∧ ∀ j, j < MAX_PSYC_PAGES → (kf.proc.memory_pages j).status = INMEMORY →
              (kf.proc.memory_pages j).va = (k.proc.memory_pages m).va → j = q)
      ∧ ∀ j, j < MAX_PAGED_PAGES → (kf.proc.swapfile_pages j).status = PAGED →
          (kf.proc.swapfile_pages j).va ≠ (k.proc.memory_pages m).va := by
  have hscan := findPageToEvict_evictScan algo k ke m hc.wf he
  obtain ⟨hPva, hPV, hPPG, hPnt⟩ := hc.resident m hm hst
  obtain ⟨t, i, hleaf, hx⟩ := leaf_of_valid k _ _ hPV
  have hmp := hscan.memory_pages
  have hsp := hscan.swapfile_pages
  have hleafe : leaf ke k.proc.pagetable (k.proc.memory_pages m).va = some (t, i) := by
    rw [hscan.leaf_eq]; exact hleaf
  have he0 : pteOf ke k.proc.pagetable (k.proc.memory_pages m).va = ke.mem t i := by
    unfold pteOf; rw [hleafe]
  -- the PTE that `swap_out` finds names the same frame with the same flags
  have hpa : PTE2PA (ke.mem t i) = PTE2PA (k.mem t i) := by
    rcases hscan.pte (k.proc.memory_pages m).va with h | h
    · rw [← he0, h, hx]
    · rw [← he0, h, hx, (clearA_entry _).1]
  have hperm : ke.mem t i &&& (PTE_R ||| PTE_W ||| PTE_X ||| PTE_U)
      = k.mem t i &&& (PTE_R ||| PTE_W ||| PTE_X ||| PTE_U) := by
    rcases hscan.pte (k.proc.memory_pages m).va with h | h
    · rw [← he0, h, hx]
    · rw [← he0, h, hx, (clearA_entry _).2.2.2.1]
  rw [hx] at hPnt
  have hnt : ∀ p, frameAt ke k.proc.pagetable p ≠ some (PTE2PA (ke.mem t i)) := by
    intro p
    rw [hscan.frames, hpa]
    exact hPnt p
  have htf := (leaf_frame ke _ _ t i hleafe).1
  have hne : t ≠ PTE2PA (ke.mem t i) := by
    intro e
    exact hnt _ (e ▸ htf)
  -- swap_out
  obtain ⟨k1, h1, h1mem, h1fl, h1pt, h1mp, h1sp, h1num, h1sf⟩ :=
    swap_out_spec algo k ke k.proc.pagetable s m t i hs he (by rw [hmp]; exact hPva)
      (by rw [hmp]; exact hleafe)
  rw [hscan.pagetable] at h1pt
  rw [hmp] at h1mp
  rw [hsp, hmp] at h1sp
  have h1ti : k1.mem t i = (ke.mem t i &&& NOT64 PTE_V) ||| PTE_PG := by
    rw [h1mem]; simp
  have h1oth : ∀ t' i', ¬ (t' = t ∧ i' = i) → k1.mem t' i' = ke.mem t' i' := by
    intro t' i' hn
    rw [h1mem]
    simp only [if_neg hn]
  -- the hypotheses of page_fault
  have hl1 : leaf k1 k1.proc.pagetable (k.proc.memory_pages m).va = some (t, i) := by
    rw [h1pt]
    have e1 : k1.mem = (ke.write t i ((ke.mem t i &&& NOT64 PTE_V) ||| PTE_PG)).mem := by
      rw [h1mem]; rfl
    rw [leaf_congr _ k1 _ _ e1, leaf_write ke _ _ t i _ hscan.wf hleafe]
    exact hleafe
  have hpg : k1.mem t i &&& PTE_PG ≠ 0 := by
    rw [h1ti]
    exact set_flag _ 9
  obtain ⟨_, hs16, hsU, hsbefore⟩ := firstSlot_inv _ _ _ _ hs
  have hloc : firstSlot (fun j => (k1.proc.swapfile_pages j).va = (k.proc.memory_pages m).va)
      MAX_PSYC_PAGES 0 = some s := by
    apply firstSlot_of
    · exact Nat.zero_le _
    · exact hs16
    · rw [h1sp]; simp [upd_same]
    · intro j _ hj
      have hU := hsbefore j (Nat.zero_le _) hj
      have hU' : (k.proc.swapfile_pages j).status ≠ UNUSED := by simpa using hU
      have := hc.swapped m j hm (by simp only [MAX_PAGED_PAGES]; simp only [MAX_PSYC_PAGES] at hs16; omega)
        hst hU'
      rw [h1sp, upd_ne _ _ _ _ (by omega)]
      simpa using this
  have hnum : k1.proc.num_of_phys_pages ≠ MAX_PSYC_PAGES := by
    rw [h1num, hscan.num, hc.num]
    have := inMemoryCount_le k.proc
    simp only [MAX_PSYC_PAGES] at this ⊢
    omega
  obtain ⟨q, hq, hqm⟩ := firstSlot_exists
    (fun j => (k1.proc.memory_pages j).status = UNUSED) MAX_PSYC_PAGES 0 m (Nat.zero_le _)
    (by omega) (by rw [h1mp]; simp [upd_same])
  -- page_fault
  obtain ⟨kf, hf, hfti, hfoth, _, hfpt, hfsp, hfst, hfva, hfmp⟩ :=
    page_fault_spec algo k1 (k.proc.memory_pages m).va t i (PTE2PA (ke.mem t i)) s q ke.freelist
      hPva hl1 hpg h1fl hloc hnum hq hne
  rw [h1ti] at hfti
  have hframes : ∀ p, frameAt kf k.proc.pagetable p = frameAt ke k.proc.pagetable p := by
    apply frameAt_off_tables ke kf _ t (PTE2PA (ke.mem t i)) _ _ hscan.wf htf hnt
    intro t' i' h1 h2
    rw [hfoth t' i' (fun h => h1 h.1), upd_ne _ _ _ _ h2, h1oth t' i' (fun h => h1 h.1)]
  have hleaff : leaf kf k.proc.pagetable (k.proc.memory_pages m).va = some (t, i) := by
    rw [leaf_eq_frameAt, hframes, ← leaf_eq_frameAt]
    exact hleafe
  have hpf : pteOf kf k.proc.pagetable (k.proc.memory_pages m).va
      = ((((PA2PTE (PTE2PA (ke.mem t i))
            ||| PTE_FLAGS ((ke.mem t i &&& NOT64 PTE_V) ||| PTE_PG)) % U64)
          &&& NOT64 PTE_PG) ||| PTE_V) := by
    unfold pteOf
    rw [hleaff]
    exact hfti
  obtain ⟨f1, f2, f3, f4⟩ := fault_entry (ke.mem t i)
  have hsw : k1.proc.swapFile (s * PGSIZE) = k.mem (PTE2PA (k.mem t i)) := by
    rw [h1sf, upd_same, hpa]
    funext w
    exact hscan.other _ hPnt w
  refine ⟨k1, kf, h1, ?_, hf, ?_, ?_, ?_, ?_, ?_, ?_⟩
  · rw [hx]; exact hsw
  · rw [hpf]; exact f2
  · rw [hpf]; exact f3
  · rw [hpf, f4, hx]; exact hperm
  · rw [hpf, f1, hx]
    funext w
    rw [hfoth _ w (fun h => hne h.1.symm), upd_same, hsw]
  · refine ⟨q, by omega, hfst, hfva, ?_⟩
    intro j hj hjst hjva
    by_contra hjq
    rw [hfmp j hjq, h1mp] at hjst hjva
    by_cases hjm : j = m
    · rw [hjm, upd_same] at hjst
      simp [UNUSED, INMEMORY] at hjst
    · rw [upd_ne _ _ _ _ hjm] at hjst hjva
      exact hc.distinct j m hj hm hjm hjst hst (by rw [hjva])
  · intro j hj hjst hjva
    rw [hfsp, h1sp] at hjst hjva
    by_cases hjs : j = s
    · rw [hjs, upd_same] at hjst
      simp [UNUSED, PAGED] at hjst
    · rw [upd_ne _ _ _ _ hjs, upd_ne _ _ _ _ hjs] at hjst hjva
      exact hc.swapped m j hm hj hst (by rw [hjst]; simp [UNUSED, PAGED]) hjva

theorem wK1_tables (p : Pos) (g : Nat) (h : frameAt wK1 0x1000 p = some g) : g < 0x80000000 := by
  have hg := mappages_grow wK0 wK1 0x1000 0 0x2000 0x80000000 (PTE_R ||| PTE_U) 0 wK0_wf
    (by decide) (by decide) (by decide) rfl
  rcases hg.tables p g h with ⟨q, hq⟩ | hmem
  · have : g = 0x1000 := by
      cases q with
      | root => simp [frameAt] at hq; exact hq.symm
      | l1 a =>
        have hz : wK0.mem 0x1000 a = 0 := rfl
        simp [frameAt, hz] at hq
      | l0 a b =>
        have hz : wK0.mem 0x1000 a = 0 := rfl
        simp [frameAt, hz] at hq
    omega
  · have hfl : wK0.freelist = [0x2000, 0x3000, 0x4000, 0x5000] := rfl
    rw [hfl] at hmem
    simp at hmem
    omega

theorem wK6_consistent : Consistent wK6 := by
  have hdec : ∀ i, i < MAX_PSYC_PAGES → (wK6.proc.memory_pages i).status = INMEMORY →
      (wK6.proc.memory_pages i).va < MAXVA
        ∧ pteOf wK6 wK6.proc.pagetable (wK6.proc.memory_pages i).va &&& PTE_V ≠ 0
        ∧ pteOf wK6 wK6.proc.pagetable (wK6.proc.memory_pages i).va &&& PTE_PG = 0
        ∧ 0x80000000 ≤ PTE2PA (pteOf wK6 wK6.proc.pagetable (wK6.proc.memory_pages i).va) := by
    decide
  refine ⟨wK6_ok.wf, by decide, ?_, wK6_ok.distinct, ?_⟩
  · intro i hi hst
    obtain ⟨h1, h2, h3, h4⟩ := hdec i hi hst
    refine ⟨h1, h2, h3, ?_⟩
    intro p hp
    have hp' : frameAt wK1 0x1000 p
        = some (PTE2PA (pteOf wK6 wK6.proc.pagetable (wK6.proc.memory_pages i).va)) := by
      rw [← frameAt_mem_eq wK1 wK6 0x1000 rfl p]
      exact hp
    have := wK1_tables p _ hp'
    omega
  · intro i j _ _ _ hj
    exact absurd rfl hj

theorem swap_out_page_fault_idempotent_witness :
    ∃ k1 kf, swap_out .NFUA wK6 wK6.proc.pagetable = .ok () k1
      ∧ k1.proc.swapFile (0 * PGSIZE)
          = wK6.mem (PTE2PA (pteOf wK6 wK6.proc.pagetable (wK6.proc.memory_pages 0).va))
      ∧ page_fault .NFUA k1 (wK6.proc.memory_pages 0).va = .ok 3 kf
      ∧ pteOf kf wK6.proc.pagetable (wK6.proc.memory_pages 0).va &&& PTE_V ≠ 0
      ∧ pteOf kf wK6.proc.pagetable (wK6.proc.memory_pages 0).va &&& PTE_PG = 0
      ∧ pteOf kf wK6.proc.pagetable (wK6.proc.memory_pages 0).va
            &&& (PTE_R ||| PTE_W ||| PTE_X ||| PTE_U)
          = pteOf wK6 wK6.proc.pagetable (wK6.proc.memory_pages 0).va
            &&& (PTE_R ||| PTE_W ||| PTE_X ||| PTE_U)
      ∧ kf.mem (PTE2PA (pteOf kf wK6.proc.pagetable (wK6.proc.memory_pages 0).va))
          = wK6.mem (PTE2PA (pteOf wK6 wK6.proc.pagetable (wK6.proc.memory_pages 0).va))
      ∧ (∃ q, q < MAX_PSYC_PAGES
          ∧ (kf.proc.memory_pages q).status = INMEMORY
          ∧ (kf.proc.memory_pages q).va = (wK6.proc.memory_pages 0).va
          ∧ ∀ j, j < MAX_PSYC_PAGES → (kf.proc.memory_pages j).status = INMEMORY →
              (kf.proc.memory_pages j).va = (wK6.proc.memory_pages 0).va → j = q)
      ∧ ∀ j, j < MAX_PAGED_PAGES → (kf.proc.swapfile_pages j).status = PAGED →
          (kf.proc.swapfile_pages j).va ≠ (wK6.proc.memory_pages 0).va :=
  swap_out_page_fault_idempotent .NFUA wK6 wK6 0 0 wK6_consistent (by decide) rfl (by decide)
    (by decide)

/-! ## C11: what a failed `walk` leaves behind -/

theorem walk_alloc_ne (k : Kernel) (pt va alloc : Nat) (h : alloc ≠ 0) :
    walk k pt va alloc = walk k pt va 1 := by
  unfold walk walk_level
  simp [h]

/-- The two ways `walk` returns null when asked to allocate: the free list was
empty, or it held one frame, which is now the table under the root entry. -/
theorem walk_none_cases (k k' : Kernel) (pt va : Nat) (h : walk k pt va 1 = .ok none k') :
    (k.freelist = [] ∧ k' = k)
      ∨ ∃ f, k.freelist = [f] ∧ k.mem pt (PX 2 va) &&& PTE_V = 0
          ∧ k' = allocNode k f [] pt (PX 2 va) := by
  unfold walk at h
  by_cases hva : va ≥ MAXVA
  · rw [if_pos hva] at h; cases h
  rw [if_neg hva] at h
  rcases walk_level_alloc_cases k pt va 2 with ⟨_, e2⟩ | ⟨_, hfl, e2⟩ | ⟨f, rest, hv, hfl, e2⟩
  · rw [e2] at h
    simp only [Res.bind] at h
    rcases walk_level_alloc_cases k (PTE2PA (k.mem pt (PX 2 va))) va 1 with
      ⟨_, e1⟩ | ⟨_, hfl, e1⟩ | ⟨f, rest, _, _, e1⟩
    · rw [e1] at h; simp at h
    · rw [e1] at h
      simp only at h
      injection h with _ hk
      exact Or.inl ⟨hfl, hk.symm⟩
    · rw [e1] at h; simp at h
  · rw [e2] at h
    simp only [Res.bind] at h
    injection h with _ hk
    exact Or.inl ⟨hfl, hk.symm⟩
  · rw [e2] at h
    simp only [Res.bind] at h
    rcases walk_level_alloc_cases (allocNode k f rest pt (PX 2 va)) f va 1 with
      ⟨_, e1⟩ | ⟨_, hfl1, e1⟩ | ⟨g, rest1, _, _, e1⟩
    · rw [e1] at h; simp at h
    · rw [e1] at h
      simp only at h
      injection h with _ hk
      have hrest : rest = [] := hfl1
      refine Or.inr ⟨f, by rw [hfl, hrest], hv, ?_⟩
      rw [← hk, hrest]
    · rw [e1] at h; simp at h

/-- C11, as amended.  On a page table that is a tree, for `va < MAXVA`, when
`walk` returns null: with `alloc` 0, or with an empty free list, the state is
unchanged; in every case no leaf PTE of the page table changes, the page
table is still a tree and the rosters are untouched; and the state is either
unchanged or the free list held exactly one frame, which `walk` took, cleared
and linked from the root entry of `va` as a level-1 table, where it stays
after the level-0 allocation failed. -/
theorem walk_failure_effect (k k' : Kernel) (pt va alloc : Nat) (hwf : PTWf k pt)
    (hva : va < MAXVA) (h : walk k pt va alloc = .ok none k') :
    (alloc = 0 → k' = k)
      ∧ (k.freelist = [] → k' = k)
      ∧ (∀ va', pteOf k' pt va' = pteOf k pt va')
      ∧ PTWf k' pt
      ∧ k'.proc = k.proc
      ∧ (k' = k
          ∨ ∃ f, k.freelist = [f] ∧ k'.freelist = [] ∧ k.mem pt (PX 2 va) &&& PTE_V = 0
              ∧ k' = allocNode k f [] pt (PX 2 va)
              ∧ k'.mem pt (PX 2 va) = PA2PTE f ||| PTE_V) := by
  by_cases ha : alloc = 0
  · rw [ha, walk_noalloc k pt va hva] at h
    injection h with _ hk
    rw [← hk]
    exact ⟨fun _ => rfl, fun _ => rfl, fun _ => rfl, hwf, rfl, Or.inl rfl⟩
  · rw [walk_alloc_ne k pt va alloc ha] at h
    obtain ⟨r, k2, h2, hstep, _, _, _⟩ := walk_alloc k pt va hwf hva
    rw [h] at h2
    injection h2 with _ hk
    rw [← hk] at hstep
    rcases walk_none_cases k k' pt va h with ⟨hfl, e⟩ | ⟨f, hfl, hv, e⟩
    · exact ⟨fun _ => e, fun _ => e, hstep.pte, hstep.wf, hstep.proc, Or.inl e⟩
    · refine ⟨fun h0 => absurd h0 ha, ?_, hstep.pte, hstep.wf, hstep.proc,
        Or.inr ⟨f, hfl, ?_, hv, e, ?_⟩⟩
      · intro h0
        rw [hfl] at h0
        cases h0
      · rw [e]; rfl
      · rw [e]; simp [allocNode_mem]

theorem walk_failure_effect_witness :
    (1 = 0 → allocNode (emptyKernel [] [0x2000]) 0x2000 [] 0x1000 0 = emptyKernel [] [0x2000])
      ∧ ((emptyKernel [] [0x2000]).freelist = [] →
          allocNode (emptyKernel [] [0x2000]) 0x2000 [] 0x1000 0 = emptyKernel [] [0x2000])
      ∧ (∀ va', pteOf (allocNode (emptyKernel [] [0x2000]) 0x2000 [] 0x1000 0) 0x1000 va'
          = pteOf (emptyKernel [] [0x2000]) 0x1000 va')
      ∧ PTWf (allocNode (emptyKernel [] [0x2000]) 0x2000 [] 0x1000 0) 0x1000
      ∧ (allocNode (emptyKernel [] [0x2000]) 0x2000 [] 0x1000 0).proc
          = (emptyKernel [] [0x2000]).proc
      ∧ (allocNode (emptyKernel [] [0x2000]) 0x2000 [] 0x1000 0 = emptyKernel [] [0x2000]
          ∨ ∃ f, (emptyKernel [] [0x2000]).freelist = [f]
              ∧ (allocNode (emptyKernel [] [0x2000]) 0x2000 [] 0x1000 0).freelist = []
              ∧ (emptyKernel [] [0x2000]).mem 0x1000 (PX 2 0) &&& PTE_V = 0
              ∧ allocNode (emptyKernel [] [0x2000]) 0x2000 [] 0x1000 0
                  = allocNode (emptyKernel [] [0x2000]) f [] 0x1000 (PX 2 0)
              ∧ (allocNode (emptyKernel [] [0x2000]) 0x2000 [] 0x1000 0).mem 0x1000 (PX 2 0)
                  = PA2PTE f ||| PTE_V) :=
  walk_failure_effect (emptyKernel [] [0x2000])
    (allocNode (emptyKernel [] [0x2000]) 0x2000 [] 0x1000 0) 0x1000 0 1
    (PTWf_empty _ 0x1000 (fun _ => rfl) (by decide) (by decide) (by decide)) (by decide) rfl

/-- C11 as stated fails: with one free frame and an empty page table, `walk`
with `alloc` set returns null after it has stored a new root entry, and the
frame it took stays allocated. -/
theorem walk_failure_counterexample :
    ∃ k', walk (emptyKernel [] [0x2000]) 0x1000 0 1 = .ok none k'
      ∧ k'.mem 0x1000 0 ≠ (emptyKernel [] [0x2000]).mem 0x1000 0
      ∧ (emptyKernel [] [0x2000]).freelist = [0x2000]
      ∧ k'.freelist = [] :=
  ⟨allocNode (emptyKernel [] [0x2000]) 0x2000 [] 0x1000 0, rfl, by decide, rfl, rfl⟩

/-! ## C16: the victim under NFUA -/

theorem nfua_scan_step (pages : Nat → Page) (n i : Nat) (mp : Option Nat) (mo : Nat) :
    findPageToEvict_scan .NFUA pages (n + 1) i mp mo
      = if (pages i).status = INMEMORY then
          match mp with
          | none => findPageToEvict_scan .NFUA pages n (i + 1) (some i) mo
          | some m =>
            if (pages i).counter < (pages m).counter then
              findPageToEvict_scan .NFUA pages n (i + 1) (some i) mo
            else findPageToEvict_scan .NFUA pages n (i + 1) mp mo
        else findPageToEvict_scan .NFUA pages n (i + 1) mp mo := by
  cases mp <;> rfl

/-- The state of the NFUA scan after the slots below `i`: `mp` is the first
`INMEMORY` slot with the least counter, or null when there is none. -/
theorem nfua_scan_spec (pages : Nat → Page) (n : Nat) :
    ∀ (i : Nat) (mp : Option Nat) (mo : Nat),
      (mp = none → ∀ j, j < i → (pages j).status ≠ INMEMORY) →
      (∀ m, mp = some m → m < i ∧ (pages m).status = INMEMORY
        ∧ (∀ j, j < i → (pages j).status = INMEMORY → (pages m).counter ≤ (pages j).counter)
        ∧ (∀ j, j < m → (pages j).status = INMEMORY → (pages m).counter < (pages j).counter)) →
      ∃ mp', findPageToEvict_scan .NFUA pages n i mp mo = some mp'
        ∧ (mp' = none → ∀ j, j < i + n → (pages j).status ≠ INMEMORY)
        ∧ (∀ m, mp' = some m → m < i + n ∧ (pages m).status = INMEMORY
          ∧ (∀ j, j < i + n → (pages j).status = INMEMORY →
              (pages m).counter ≤ (pages j).counter)
          ∧ (∀ j, j < m → (pages j).status = INMEMORY →
              (pages m).counter < (pages j).counter)) := by
  induction n with
  | zero =>
    intro i mp mo h0 h1
    exact ⟨mp, rfl, h0, h1⟩
  | succ n ih =>
    intro i mp mo h0 h1
    rw [nfua_scan_step]
    have hi : i + (n + 1) = (i + 1) + n := by omega
    rw [hi]
    by_cases hst : (pages i).status = INMEMORY
    · rw [if_pos hst]
      cases mp with
      | none =>
        simp only
        apply ih
        · intro e; cases e
        · intro m e
          injection e with e
          subst e
          refine ⟨by omega, hst, ?_, ?_⟩
          · intro j hj hjs
            by_cases e : j = i
            · rw [e]
            · exact absurd hjs (h0 rfl j (by omega))
          · intro j hj hjs
            exact absurd hjs (h0 rfl j hj)
      | some m =>
        obtain ⟨hm, hms, hle, hlt⟩ := h1 m rfl
        simp only
        by_cases hc : (pages i).counter < (pages m).counter
        · rw [if_pos hc]
          apply ih
          · intro e; cases e
          · intro m' e
            injection e with e
            subst e
            refine ⟨by omega, hst, ?_, ?_⟩
            · intro j hj hjs
              by_cases e : j = i
              · rw [e]
              · have := hle j (by omega) hjs
                omega
            · intro j hj hjs
              have := hle j hj hjs
              omega
        · rw [if_neg hc]
          apply ih
          · intro e; cases e
          · intro m' e
            injection e with e
            subst e
            refine ⟨by omega, hms, ?_, hlt⟩
            intro j hj hjs
            by_cases e : j = i
            · rw [e]; omega
            · exact hle j (by omega) hjs
    · rw [if_neg hst]
      apply ih
      · intro e j hj
        by_cases e' : j = i
        · rw [e']; exact hst
        · exact h0 e j (by omega)
      · intro m e
        obtain ⟨hm, hms, hle, hlt⟩ := h1 m e
        refine ⟨by omega, hms, ?_, hlt⟩
        intro j hj hjs
        by_cases e' : j = i
        · rw [e'] at hjs; exact absurd hjs hst
        · exact hle j (by omega) hjs

/-- C16: under NFUA, when some slot of the resident roster is `INMEMORY`,
`findPageToEvict` returns an `INMEMORY` slot whose counter is the least among
the `INMEMORY` slots, the one of lowest index among those with that counter,
and changes nothing; when no slot is `INMEMORY` the kernel stops with
"no min page". -/
theorem findPageToEvict_nfua (k : Kernel) :
    ((∃ j, j < MAX_PSYC_PAGES ∧ (k.proc.memory_pages j).status = INMEMORY) →
        ∃ m, findPageToEvict .NFUA k = .ok m k ∧ m < MAX_PSYC_PAGES
          ∧ (k.proc.memory_pages m).status = INMEMORY
          ∧ (∀ j, j < MAX_PSYC_PAGES → (k.proc.memory_pages j).status = INMEMORY →
              (k.proc.memory_pages m).counter ≤ (k.proc.memory_pages j).counter)
          ∧ (∀ j, j < MAX_PSYC_PAGES → (k.proc.memory_pages j).status = INMEMORY →
              (k.proc.memory_pages j).counter = (k.proc.memory_pages m).counter → m ≤ j))
      ∧ ((∀ j, j < MAX_PSYC_PAGES → (k.proc.memory_pages j).status ≠ INMEMORY) →
          findPageToEvict .NFUA k = .stop .no_min_page) := by
  obtain ⟨mp, hscan, hnone, hsome⟩ :=
    nfua_scan_spec k.proc.memory_pages MAX_PSYC_PAGES 0 none 100
      (fun _ j hj => absurd hj (Nat.not_lt_zero j)) (fun m e => by cases e)
  have hfe : findPageToEvict .NFUA k
      = match mp with
        | none => .stop .no_min_page
        | some m => .ok m k := by
    simp only [findPageToEvict, hscan]
    cases mp <;> rfl
  rw [Nat.zero_add] at hnone hsome
  constructor
  · rintro ⟨j, hj, hjs⟩
    cases mp with
    | none => exact absurd hjs (hnone rfl j hj)
    | some m =>
      obtain ⟨hm, hms, hle, hlt⟩ := hsome m rfl
      refine ⟨m, hfe, hm, hms, hle, ?_⟩
      intro j' hj' hjs' hc
      by_contra hlt'
      have := hlt j' (by omega) hjs'
      omega
  · intro hall
    cases mp with
    | none => exact hfe
    | some m =>
      obtain ⟨hm, hms, _, _⟩ := hsome m rfl
      exact absurd hms (hall m hm)

theorem findPageToEvict_nfua_witness :
    (∃ m, findPageToEvict .NFUA wK6 = .ok m wK6 ∧ m < MAX_PSYC_PAGES
        ∧ (wK6.proc.memory_pages m).status = INMEMORY
        ∧ (∀ j, j < MAX_PSYC_PAGES → (wK6.proc.memory_pages j).status = INMEMORY →
            (wK6.proc.memory_pages m).counter ≤ (wK6.proc.memory_pages j).counter)
        ∧ (∀ j, j < MAX_PSYC_PAGES → (wK6.proc.memory_pages j).status = INMEMORY →
            (wK6.proc.memory_pages j).counter = (wK6.proc.memory_pages m).counter → m ≤ j))
      ∧ findPageToEvict .NFUA (emptyKernel testName []) = .stop .no_min_page :=
  ⟨(findPageToEvict_nfua wK6).1 ⟨0, by decide, by decide⟩,
    (findPageToEvict_nfua (emptyKernel testName [])).2 (fun _ _ h => by cases h)⟩

/-! ## C15: the victim under LAPA -/

theorem popcountBelow_succ (n c : Nat) :
    popcountBelow (n + 1) c = c % 2 + popcountBelow n (c / 2) := by
  unfold popcountBelow
  rw [List.range_succ_eq_map, List.filter_cons, List.filter_map]
  have hf : ((fun j => c.testBit j) ∘ Nat.succ) = (fun j => (c / 2).testBit j) := by
    funext j
    simp [Nat.testBit_succ]
  rw [hf]
  rcases Nat.mod_two_eq_zero_or_one c with h | h
  · simp [h]
  · simp [h]; omega

theorem popcountBelow_le (n c : Nat) : popcountBelow n c ≤ n := by
  unfold popcountBelow
  have := List.length_filter_le (fun j => c.testBit j) (List.range n)
  simpa using this

theorem popcountBelow_zero (n : Nat) : popcountBelow n 0 = 0 := by
  unfold popcountBelow
  simp

theorem ones_loop_spec (fuel : Nat) :
    ∀ (c acc : Nat), c < 2 ^ fuel → acc + fuel < 2 ^ 32 →
      ones_loop fuel c acc = acc + popcountBelow fuel c := by
  induction fuel with
  | zero =>
    intro c acc _ _
    simp [ones_loop, popcountBelow]
  | succ fuel ih =>
    intro c acc hc hacc
    rw [ones_loop]
    by_cases h0 : c ≠ 0
    · rw [if_pos h0, Nat.and_one_is_mod, Nat.shiftRight_succ, Nat.shiftRight_zero]
      have h2 : c % 2 < 2 := Nat.mod_lt _ (by norm_num)
      have hm : (acc + c % 2) % 2 ^ 32 = acc + c % 2 := Nat.mod_eq_of_lt (by omega)
      rw [hm, ih (c / 2) (acc + c % 2) (by rw [pow_succ] at hc; omega) (by omega),
        popcountBelow_succ]
      omega
    · have : c = 0 := by simpa using h0
      rw [if_neg h0, this, popcountBelow_zero]
      rfl

theorem popcountBelow_mod (n m c : Nat) (h : n ≤ m) :
    popcountBelow n (c % 2 ^ m) = popcountBelow n c := by
  unfold popcountBelow
  congr 1
  apply List.filter_congr
  intro j hj
  rw [List.mem_range] at hj
  simp [Nat.testBit_mod_two_pow]
  intro h'
  omega

theorem ones_eq_popcount (c : Nat) : ones c = popcount64 c := by
  unfold ones popcount64
  rw [ones_loop_spec 64 (c % U64) 0 (by rw [U64]; exact Nat.mod_lt _ (by norm_num))
    (by norm_num), Nat.zero_add, U64, popcountBelow_mod 64 64 c (le_refl _)]

theorem ones_le (c : Nat) : ones c ≤ 64 := by
  rw [ones_eq_popcount]
  exact popcountBelow_le 64 c

theorem lapa_scan_step (pages : Nat → Page) (n i : Nat) (mp : Option Nat) (mo : Nat) :
    findPageToEvict_scan .LAPA pages (n + 1) i mp mo
      = if (pages i).status = INMEMORY then
          if ones (pages i).counter < mo then
            findPageToEvict_scan .LAPA pages n (i + 1) (some i) (ones (pages i).counter)
          else if ones (pages i).counter = mo then
            match mp with
            | none => none
            | some m =>
              if (pages i).counter < (pages m).counter then
                findPageToEvict_scan .LAPA pages n (i + 1) (some i) (ones (pages i).counter)
              else findPageToEvict_scan .LAPA pages n (i + 1) mp mo
          else findPageToEvict_scan .LAPA pages n (i + 1) mp mo
        else findPageToEvict_scan .LAPA pages n (i + 1) mp mo := by
  cases mp <;> rfl

/-- The state of the LAPA scan after the slots below `i`: `mp` is the least
`INMEMORY` slot in the order (set bits, counter, index) and `mo` the number of
set bits of its counter, or `mp` is null and `mo` is 100. -/
theorem lapa_scan_spec (pages : Nat → Page) (n : Nat) :
    ∀ (i : Nat) (mp : Option Nat) (mo : Nat),
      (mp = none → mo = 100 ∧ ∀ j, j < i → (pages j).status ≠ INMEMORY) →
      (∀ m, mp = some m → m < i ∧ (pages m).status = INMEMORY ∧ mo = ones (pages m).counter
        ∧ ∀ j, j < i → (pages j).status = INMEMORY →
            (ones (pages m).counter < ones (pages j).counter
              ∨ (ones (pages m).counter = ones (pages j).counter
                ∧ ((pages m).counter < (pages j).counter
                  ∨ ((pages m).counter = (pages j).counter ∧ m ≤ j))))) →
      ∃ mp', findPageToEvict_scan .LAPA pages n i mp mo = some mp'
        ∧ (mp' = none → ∀ j, j < i + n → (pages j).status ≠ INMEMORY)
        ∧ (∀ m, mp' = some m → m < i + n ∧ (pages m).status = INMEMORY
          ∧ ∀ j, j < i + n → (pages j).status = INMEMORY →
              (ones (pages m).counter < ones (pages j).counter
                ∨ (ones (pages m).counter = ones (pages j).counter
                  ∧ ((pages m).counter < (pages j).counter
                    ∨ ((pages m).counter = (pages j).counter ∧ m ≤ j))))) := by
  induction n with
  | zero =>
    intro i mp mo h0 h1
    refine ⟨mp, rfl, fun e => (h0 e).2, ?_⟩
    intro m e
    obtain ⟨a, b, _, d⟩ := h1 m e
    exact ⟨a, b, d⟩
  | succ n ih =>
    intro i mp mo h0 h1
    rw [lapa_scan_step]
    have hi : i + (n + 1) = (i + 1) + n := by omega
    rw [hi]
    have h64 := ones_le (pages i).counter
    by_cases hst : (pages i).status = INMEMORY
    · rw [if_pos hst]
      cases mp with
      | none =>
        obtain ⟨hmo, hno⟩ := h0 rfl
        rw [if_pos (by omega)]
        apply ih
        · intro e; cases e
        · intro m e
          injection e with e
          subst e
          refine ⟨by omega, hst, rfl, ?_⟩
          intro j hj hjs
          by_cases e : j = i
          · rw [e]; right; exact ⟨rfl, Or.inr ⟨rfl, le_refl _⟩⟩
          · exact absurd hjs (hno j (by omega))
      | some m =>
        obtain ⟨hm, hms, hmo, hle⟩ := h1 m rfl
        by_cases hlt : ones (pages i).counter < mo
        · rw [if_pos hlt]
          apply ih
          · intro e; cases e
          · intro m' e
            injection e with e
            subst e
            refine ⟨by omega, hst, rfl, ?_⟩
            intro j hj hjs
            by_cases e : j = i
            · rw [e]; right; exact ⟨rfl, Or.inr ⟨rfl, le_refl _⟩⟩
            · have := hle j (by omega) hjs
              omega
        · rw [if_neg hlt]
          by_cases heq : ones (pages i).counter = mo
          · rw [if_pos heq]
            simp only
            by_cases hc : (pages i).counter < (pages m).counter
            · rw [if_pos hc]
              apply ih
              · intro e; cases e
              · intro m' e
                injection e with e
                subst e
                refine ⟨by omega, hst, rfl, ?_⟩
                intro j hj hjs
                by_cases e : j = i
                · rw [e]; right; exact ⟨rfl, Or.inr ⟨rfl, le_refl _⟩⟩
                · have := hle j (by omega) hjs
                  omega
            · rw [if_neg hc]
              apply ih
              · intro e; cases e
              · intro m' e
                injection e with e
                subst e
                refine ⟨by omega, hms, hmo, ?_⟩
                intro j hj hjs
                by_cases e : j = i
                · rw [e]; omega
                · exact hle j (by omega) hjs
          · rw [if_neg heq]
            apply ih
            · intro e; cases e
            · intro m' e
              injection e with e
              subst e
              refine ⟨by omega, hms, hmo, ?_⟩
              intro j hj hjs
              by_cases e : j = i
              · rw [e]; omega
              · exact hle j (by omega) hjs
    · rw [if_neg hst]
      apply ih
      · intro e
        refine ⟨(h0 e).1, ?_⟩
        intro j hj
        by_cases e' : j = i
        · rw [e']; exact hst
        · exact (h0 e).2 j (by omega)
      · intro m e
        obtain ⟨hm, hms, hmo, hle⟩ := h1 m e
        refine ⟨by omega, hms, hmo, ?_⟩
        intro j hj hjs
        by_cases e' : j = i
        · rw [e'] at hjs; exact absurd hjs hst
        · exact hle j (by omega) hjs

/-- C15: `ones` is the population count of the 64-bit counter, and under LAPA,
when some slot of the resident roster is `INMEMORY`, `findPageToEvict` returns
the `INMEMORY` slot that is least in the order (set bits of the counter,
counter, slot index), and changes nothing. -/
theorem findPageToEvict_lapa (k : Kernel) :
    (∀ c, ones c = popcount64 c)
      ∧ ((∃ j, j < MAX_PSYC_PAGES ∧ (k.proc.memory_pages j).status = INMEMORY) →
          ∃ m, findPageToEvict .LAPA k = .ok m k ∧ m < MAX_PSYC_PAGES
            ∧ (k.proc.memory_pages m).status = INMEMORY
            ∧ ∀ j, j < MAX_PSYC_PAGES → (k.proc.memory_pages j).status = INMEMORY →
                lapaLe k.proc.memory_pages m j) := by
  refine ⟨ones_eq_popcount, ?_⟩
  obtain ⟨mp, hscan, hnone, hsome⟩ :=
    lapa_scan_spec k.proc.memory_pages MAX_PSYC_PAGES 0 none 100
      (fun _ => ⟨rfl, fun j hj => absurd hj (Nat.not_lt_zero j)⟩) (fun m e => by cases e)
  have hfe : findPageToEvict .LAPA k
      = match mp with
        | none => .stop .no_min_page
        | some m => .ok m k := by
    simp only [findPageToEvict, hscan]
    cases mp <;> rfl
  rw [Nat.zero_add] at hnone hsome
  rintro ⟨j, hj, hjs⟩
  cases mp with
  | none => exact absurd hjs (hnone rfl j hj)
  | some m =>
    obtain ⟨hm, hms, hle⟩ := hsome m rfl
    refine ⟨m, hfe, hm, hms, ?_⟩
    intro j' hj' hjs'
    have := hle j' hj' hjs'
    unfold lapaLe
    rw [← ones_eq_popcount, ← ones_eq_popcount]
    exact this

theorem findPageToEvict_lapa_witness :
    (∀ c, ones c = popcount64 c)
      ∧ ∃ m, findPageToEvict .LAPA wK6 = .ok m wK6 ∧ m < MAX_PSYC_PAGES
          ∧ (wK6.proc.memory_pages m).status = INMEMORY
          ∧ ∀ j, j < MAX_PSYC_PAGES → (wK6.proc.memory_pages j).status = INMEMORY →
              lapaLe wK6.proc.memory_pages m j :=
  ⟨(findPageToEvict_lapa wK6).1, (findPageToEvict_lapa wK6).2 ⟨0, by decide, by decide⟩⟩

/-! ## C8, C9, C10, C19: the code at the failing inputs -/

set_option maxRecDepth 100000 in
/-- C8 (page ceiling on grow): the code rejects the request for exactly 32
pages when `newsz` is page-aligned, and accepts a request for 32 pages when it
is not. -/
theorem uvmalloc_ceiling_failing :
    sh_or_init bK0.proc = 1
      ∧ PGROUNDUP (32 * PGSIZE) / PGSIZE = 32
      ∧ (uvmalloc .NFUA bK0 0x1000 0 (32 * PGSIZE) PTE_W).val? = some 0
      ∧ (uvmalloc .NFUA bK0 0x1000 0 (32 * PGSIZE) PTE_W).state?.map (fun k => k.freelist)
          = some bK0.freelist
      ∧ PGROUNDUP (31 * PGSIZE + 1) / PGSIZE = 32
      ∧ (uvmalloc .NFUA bK0 0x1000 0 (31 * PGSIZE + 1) PTE_W).val? = some (31 * PGSIZE + 1) := by
  decide

/-- C9 (fork-copy postcondition): with page 0 of the source Swapped and a
freshly created destination, `uvmcopy` dereferences the null pointer that
`walk(new, 0, 0)` returns. -/
theorem uvmcopy_swapped_failing :
    pteOf bK17 0x1000 0 &&& PTE_PG ≠ 0 ∧ pteOf bK17 0x1000 0 &&& PTE_V = 0
      ∧ (∀ i ∈ List.range 17, pteOf bK17 0x1000 (i * PGSIZE) &&& (PTE_V ||| PTE_PG) ≠ 0)
      ∧ (bFork.bind fun new k =>
          uvmcopy .NFUA k 0x1000 (new.getD 0) (17 * PGSIZE)).stop? = some .null_deref := by
  decide

/-- C10 (unmap releases roster slots): page 0 is Valid and recorded in
resident slot 1, slot 0 is `UNUSED` with `va` 0.  `uvmunmap` of page 0 with
`do_free` releases slot 0 again: slot 1 still records page 0 as `INMEMORY`,
and `num_of_phys_pages` is 14 with 15 `INMEMORY` slots. -/
theorem uvmunmap_page0_failing :
    sh_or_init bK10.proc = 1
      ∧ pteOf bK10 0x1000 0 &&& PTE_V ≠ 0
      ∧ bK10.proc.memory_pages 0 = ⟨0, UNUSED, 0⟩
      ∧ bK10.proc.memory_pages 1 = ⟨0, INMEMORY, 0⟩
      ∧ bK10.proc.num_of_phys_pages = 15 ∧ inMemoryCount bK10.proc = 15
      ∧ (uvmunmap .NFUA bK10 0x1000 0 1 1).state?.map (fun k => k.proc.memory_pages 1)
          = some ⟨0, INMEMORY, 0⟩
      ∧ (uvmunmap .NFUA bK10 0x1000 0 1 1).state?.map (fun k => k.proc.num_of_phys_pages)
          = some 14
      ∧ (uvmunmap .NFUA bK10 0x1000 0 1 1).state?.map (fun k => inMemoryCount k.proc)
          = some 15 := by
  decide

/-- C19 (FIFO list invariant) fails.  Under SCFIFO, after `allocate_page` of
pages 0 and 0x1000 the list is slot 0, slot 1; `swap_out` then evicts slot 0
and completes, but leaves the list as it was: `oldest` is still slot 0, which
is `UNUSED`, and the only `INMEMORY` slot is slot 1. -/
theorem fifo_list_failing :
    ((allocate_page .SCFIFO bK2 0x1000 0).bind fun _ k =>
        allocate_page .SCFIFO k 0x1000 0x1000).state?.map (fun k => fifoOrder k.proc)
        = some [0, 1]
      ∧ bSeq19.stop? = none
      ∧ bSeq19.state?.map (fun k => inMemorySlots k.proc) = some [1]
      ∧ bSeq19.state?.map (fun k => fifoOrder k.proc) = some [0, 1]
      ∧ bSeq19.state?.map (fun k => k.proc.oldest) = some (some 0)
      ∧ bSeq19.state?.map (fun k => (k.proc.memory_pages 0).status) = some UNUSED := by
  decide

/-! ## Bytes in physical memory -/

theorem tb_byte (x s j : Nat) :
    ((x >>> s) % 256).testBit j = (decide (j < 8) && x.testBit (s + j)) := by
  rw [show (256 : Nat) = 2 ^ 8 by norm_num, Nat.testBit_mod_two_pow, Nat.testBit_shiftRight]

theorem tb_255 (i : Nat) : (255 : Nat).testBit i = decide (i < 8) := by
  rw [show (255 : Nat) = 2 ^ 8 - 1 by norm_num, Nat.testBit_two_pow_sub_one]

/-- The word after a byte store, read back byte by byte. -/
theorem byte_of_store (w b c c' : Nat) (hc : c < 8) (hc' : c' < 8) :
    (((w &&& NOT64 (255 <<< (8 * c))) ||| ((b % 256) <<< (8 * c))) >>> (8 * c')) % 256
      = if c' = c then b % 256 else (w >>> (8 * c')) % 256 := by
  apply Nat.eq_of_testBit_eq
  intro j
  by_cases e : c' = c
  · rw [if_pos e, e, tb_byte, Nat.testBit_or, Nat.testBit_and, tb_NOT64, Nat.testBit_shiftLeft,
      Nat.testBit_shiftLeft, tb_255, show (256 : Nat) = 2 ^ 8 by norm_num,
      Nat.testBit_mod_two_pow, Nat.testBit_mod_two_pow]
    by_cases hj : j < 8
    · have h1 : 8 * c + j < 64 := by omega
      have h2 : 8 * c + j ≥ 8 * c := by omega
      have h3 : 8 * c + j - 8 * c = j := by omega
      simp [hj, h1, h2, h3]
    · simp [hj]
  · rw [if_neg e, tb_byte, tb_byte, Nat.testBit_or, Nat.testBit_and, tb_NOT64,
      Nat.testBit_shiftLeft, Nat.testBit_shiftLeft, tb_255,
      show (256 : Nat) = 2 ^ 8 by norm_num, Nat.testBit_mod_two_pow]
    by_cases hj : j < 8
    · have h1 : 8 * c' + j < 64 := by omega
      by_cases h2 : 8 * c' + j ≥ 8 * c
      · have h3 : ¬ (8 * c' + j - 8 * c < 8) := by omega
        simp [hj, h1, h2, h3]
      · simp [hj, h1, h2]
    · simp [hj]

theorem loadByte_storeByte (k : Kernel) (pa b pa' : Nat) :
    loadByte (storeByte k pa b) pa' = if pa' = pa then b % 256 else loadByte k pa' := by
  unfold loadByte storeByte
  have h8 : pa % 8 < 8 := Nat.mod_lt _ (by norm_num)
  have h8' : pa' % 8 < 8 := Nat.mod_lt _ (by norm_num)
  by_cases hc : pa' / PGSIZE * PGSIZE = pa / PGSIZE * PGSIZE ∧ pa' % PGSIZE / 8 = pa % PGSIZE / 8
  · simp only [Kernel.write, if_pos hc]
    rw [byte_of_store _ _ _ _ h8 h8', hc.1, hc.2]
    have : (pa' = pa) ↔ pa' % 8 = pa % 8 := by
      simp only [PGSIZE] at hc
      omega
    by_cases e : pa' % 8 = pa % 8
    · rw [if_pos e, if_pos (this.2 e)]
    · rw [if_neg e, if_neg (fun h => e (this.1 h))]
  · simp only [Kernel.write, if_neg hc]
    have : pa' ≠ pa := by
      intro e
      rw [e] at hc
      exact hc ⟨rfl, rfl⟩
    rw [if_neg this]

theorem storeByte_mem (k : Kernel) (pa b f w : Nat)
    (h : ¬ (f = pa / PGSIZE * PGSIZE ∧ w = pa % PGSIZE / 8)) :
    (storeByte k pa b).mem f w = k.mem f w := by
  simp only [storeByte, Kernel.write, if_neg h]

theorem memmove_to_load (k : Kernel) (pa : Nat) (src : Nat → Nat) (s n pa' : Nat) :
    loadByte (memmove_to k pa src s n) pa'
      = if pa ≤ pa' ∧ pa' < pa + n then src (s + (pa' - pa)) % 256 else loadByte k pa' := by
  induction n with
  | zero =>
    rw [if_neg (by omega)]
    rfl
  | succ n ih =>
    rw [memmove_to, loadByte_storeByte, ih]
    by_cases e : pa' = pa + n
    · rw [if_pos e, if_pos (by omega), e]
      congr 2
      omega
    · rw [if_neg e]
      by_cases h : pa ≤ pa' ∧ pa' < pa + n
      · rw [if_pos h, if_pos (by omega)]
      · rw [if_neg h, if_neg (by omega)]

theorem memmove_to_mem (k : Kernel) (pa : Nat) (src : Nat → Nat) (s n f w : Nat)
    (h : ∀ j, j < n → f ≠ (pa + j) / PGSIZE * PGSIZE) :
    (memmove_to k pa src s n).mem f w = k.mem f w := by
  induction n with
  | zero => rfl
  | succ n ih =>
    rw [memmove_to, storeByte_mem _ _ _ _ _ (fun e => h n (by omega) e.1)]
    exact ih (fun j hj => h j (by omega))

theorem memmove_to_rest (k : Kernel) (pa : Nat) (src : Nat → Nat) (s n : Nat) :
    (memmove_to k pa src s n).freelist = k.freelist
      ∧ (memmove_to k pa src s n).proc = k.proc := by
  induction n with
  | zero => exact ⟨rfl, rfl⟩
  | succ n ih => exact ih

/-! ## `walkaddr` and the stability of the page table under data stores -/

theorem walkaddr_eq (k : Kernel) (pt va : Nat) : walkaddr k pt va = .ok (resolve k pt va) k := by
  unfold walkaddr resolve
  by_cases hva : va ≥ MAXVA
  · rw [if_pos hva, if_pos hva]
  · rw [if_neg hva, if_neg hva, walk_noalloc k pt va (by omega)]
    simp only [Res.bind]
    unfold pteOf
    cases hl : leaf k pt va with
    | none => simp
    | some l =>
      obtain ⟨t, i⟩ := l
      simp only
      by_cases hv : k.mem t i &&& PTE_V = 0
      · rw [if_pos hv, if_pos hv]
      · rw [if_neg hv, if_neg hv]
        by_cases hu : k.mem t i &&& PTE_U = 0
        · rw [if_pos hu, if_pos hu]
        · rw [if_neg hu, if_neg hu]

theorem resolve_bounds (k : Kernel) (pt a : Nat) (h : resolve k pt a ≠ 0) :
    a < MAXVA ∧ resolve k pt a % 4096 = 0 ∧ resolve k pt a + 4096 ≤ U64
      ∧ pteOf k pt a &&& PTE_V ≠ 0 ∧ pteOf k pt a &&& PTE_U ≠ 0
      ∧ resolve k pt a = PTE2PA (pteOf k pt a) := by
  unfold resolve at h ⊢
  by_cases hva : a ≥ MAXVA
  · rw [if_pos hva] at h; exact absurd rfl h
  · rw [if_neg hva] at h ⊢
    by_cases hv : pteOf k pt a &&& PTE_V = 0
    · rw [if_pos hv] at h; exact absurd rfl h
    · rw [if_neg hv] at h ⊢
      by_cases hu : pteOf k pt a &&& PTE_U = 0
      · rw [if_pos hu] at h; exact absurd rfl h
      · rw [if_neg hu] at h ⊢
        have h1 := PTE2PA_aligned (pteOf k pt a)
        have h2 := PTE2PA_lt (pteOf k pt a)
        rw [U64_val] at h2 ⊢
        exact ⟨by omega, h1, by omega, hv, hu, rfl⟩

/-- Stores that miss every table of the page table leave every translation
as it was. -/
theorem tables_stable (k k' : Kernel) (pt : Nat)
    (h : ∀ p t, frameAt k pt p = some t → ∀ i, k'.mem t i = k.mem t i) :
    (∀ p, frameAt k' pt p = frameAt k pt p) ∧ (∀ a, pteOf k' pt a = pteOf k pt a)
      ∧ ∀ a, resolve k' pt a = resolve k pt a := by
  have hfa : ∀ p, frameAt k' pt p = frameAt k pt p :=
    frameAt_congr k k' pt (h .root pt rfl) (fun a t ht => h (.l1 a) t ht)
  have hpte : ∀ a, pteOf k' pt a = pteOf k pt a := by
    intro a
    unfold pteOf
    have hl : leaf k' pt a = leaf k pt a := by
      rw [leaf_eq_frameAt, leaf_eq_frameAt, hfa]
    rw [hl]
    cases hl' : leaf k pt a with
    | none => rfl
    | some l =>
      obtain ⟨t, i⟩ := l
      exact h _ t (leaf_frame k pt a t i hl').1 i
  refine ⟨hfa, hpte, ?_⟩
  intro a
  unfold resolve
  rw [hpte]

theorem physAddr_same_page (k : Kernel) (pt va j : Nat) (h : va % 4096 + j < 4096) :
    physAddr k pt (va + j) = resolve k pt (va / 4096 * 4096) + va % 4096 + j := by
  unfold physAddr
  simp only [PGSIZE]
  have h1 : (va + j) / 4096 = va / 4096 := by omega
  have h2 : (va + j) % 4096 = va % 4096 + j := by omega
  rw [h1, h2, Nat.add_assoc]

theorem physAddr_frame (k : Kernel) (pt a : Nat) (h : resolve k pt (a / 4096 * 4096) ≠ 0) :
    physAddr k pt a / 4096 * 4096 = resolve k pt (a / 4096 * 4096) := by
  obtain ⟨_, hal, _⟩ := resolve_bounds k pt _ h
  unfold physAddr
  simp only [PGSIZE]
  omega

/-- One `memmove` of `copyout`: `n` bytes into the frame of the page of `va`,
from offset `va % 4096`. -/
theorem copy_page (k : Kernel) (pt va : Nat) (src : Nat → Nat) (s n : Nat)
    (hres : resolve k pt (va / 4096 * 4096) ≠ 0)
    (hnt : ∀ p, frameAt k pt p ≠ some (resolve k pt (va / 4096 * 4096)))
    (hn : va % 4096 + n ≤ 4096) :
    (∀ a, resolve (memmove_to k (resolve k pt (va / 4096 * 4096) + va % 4096) src s n) pt a
        = resolve k pt a)
      ∧ (∀ p, frameAt (memmove_to k (resolve k pt (va / 4096 * 4096) + va % 4096) src s n) pt p
          = frameAt k pt p)
      ∧ (∀ j, j < n →
          loadByte (memmove_to k (resolve k pt (va / 4096 * 4096) + va % 4096) src s n)
            (physAddr k pt (va + j)) = src (s + j) % 256)
      ∧ (∀ pa, (∀ j, j < n → pa ≠ physAddr k pt (va + j)) →
          loadByte (memmove_to k (resolve k pt (va / 4096 * 4096) + va % 4096) src s n) pa
            = loadByte k pa)
      ∧ (∀ f w, f ≠ resolve k pt (va / 4096 * 4096) →
          (memmove_to k (resolve k pt (va / 4096 * 4096) + va % 4096) src s n).mem f w
            = k.mem f w) := by
  obtain ⟨_, hal, _⟩ := resolve_bounds k pt _ hres
  have hmem : ∀ f w, f ≠ resolve k pt (va / 4096 * 4096) →
      (memmove_to k (resolve k pt (va / 4096 * 4096) + va % 4096) src s n).mem f w
        = k.mem f w := by
    intro f w hf
    apply memmove_to_mem
    intro j hj e
    apply hf
    rw [e]
    simp only [PGSIZE]
    omega
  have hst := tables_stable k
    (memmove_to k (resolve k pt (va / 4096 * 4096) + va % 4096) src s n) pt
    (fun p t ht i => hmem t i (fun e => hnt p (e ▸ ht)))
  refine ⟨hst.2.2, hst.1, ?_, ?_, hmem⟩
  · intro j hj
    rw [memmove_to_load, physAddr_same_page k pt va j (by omega), if_pos (by omega)]
    congr 2
    omega
  · intro pa hpa
    rw [memmove_to_load, if_neg]
    rintro ⟨h1, h2⟩
    apply hpa (pa - (resolve k pt (va / 4096 * 4096) + va % 4096)) (by omega)
    rw [physAddr_same_page k pt va _ (by omega)]
    omega

theorem userRange_congr (k k' : Kernel) (pt va len va' len' : Nat)
    (hr : ∀ a, resolve k' pt a = resolve k pt a) (hf : ∀ p, frameAt k' pt p = frameAt k pt p)
    (hlo : len' ≠ 0 → va ≤ va') (hhi : len' ≠ 0 → va' + len' ≤ va + len)
    (h : UserRange k pt va len) :
    UserRange k' pt va' len' := by
  constructor
  · intro a h1 h2 h3 p
    rw [hr] at h3 ⊢
    rw [hf]
    have := hlo (by omega)
    have := hhi (by omega)
    exact h.nontable a (by omega) (by omega) h3 p
  · intro a b h1 h2 h3 h4 h5 h6 h7
    rw [hr] at h5 ⊢
    rw [hr] at h6 ⊢
    have := hlo (by omega)
    have := hhi (by omega)
    exact h.distinct a b (by omega) (by omega) (by omega) (by omega) h5 h6 h7

/-- The chunk `copyout` and `copyin` take from the page of `va`. -/
theorem chunk_spec (va len : Nat) (hva : va < U64) (hlen : 0 < len) :
    ∃ n, (if PGSIZE - (va - PGROUNDDOWN va) > len then len else PGSIZE - (va - PGROUNDDOWN va)) = n
      ∧ 0 < n ∧ n ≤ len ∧ va % 4096 + n ≤ 4096 ∧ (n < len → va % 4096 + n = 4096) := by
  rw [PGROUNDDOWN_eq va hva]
  simp only [PGSIZE]
  by_cases h : 4096 - (va - va / 4096 * 4096) > len
  · exact ⟨len, by rw [if_pos h], hlen, le_refl _, by omega, by omega⟩
  · exact ⟨4096 - (va - va / 4096 * 4096), by rw [if_neg h], by omega, by omega, by omega,
      by omega⟩

/-- What the loop of `copyout` does: it copies the `m` bytes that lie before
the first page that `walkaddr` does not resolve, and nothing else. -/
theorem copyout_loop_spec (pt : Nat) (src : Nat → Nat) (fuel : Nat) :
    ∀ (k : Kernel) (va s len : Nat), va < U64 →
      2 ≤ fuel → (va < 274877906944 → 67108866 ≤ fuel + va / 4096) →
      UserRange k pt va len →
      ∃ m k', copyout_loop fuel k pt va src s len = .ok (if m = len then 0 else -1) k'
        ∧ m ≤ len
        ∧ (∀ j, j < m → resolve k pt ((va + j) / 4096 * 4096) ≠ 0)
        ∧ (m < len → resolve k pt ((va + m) / 4096 * 4096) = 0)
        ∧ (∀ j, j < m → loadByte k' (physAddr k pt (va + j)) = src (s + j) % 256)
        ∧ (∀ pa, (∀ j, j < m → pa ≠ physAddr k pt (va + j)) → loadByte k' pa = loadByte k pa)
        ∧ (∀ f w, (∀ j, j < m → f ≠ resolve k pt ((va + j) / 4096 * 4096)) →
            k'.mem f w = k.mem f w)
        ∧ k'.freelist = k.freelist ∧ k'.proc = k.proc := by
  induction fuel with
  | zero =>
    intro k va s len _ hfuel _ _
    omega
  | succ fuel ih =>
    intro k va s len hva hfuel2 hfuel hur
    rw [copyout_loop]
    by_cases hlen : len > 0
    swap
    · rw [if_neg hlen]
      have : len = 0 := by omega
      refine ⟨0, k, by rw [if_pos this.symm], by omega, ?_, by omega, ?_, fun _ _ => rfl,
        fun _ _ _ => rfl, rfl, rfl⟩
      · intro j hj; omega
      · intro j hj; omega
    rw [if_pos hlen]
    simp only
    obtain ⟨n, hn, hn0, hnl, hnp, hnf⟩ := chunk_spec va len hva hlen
    rw [hn, PGROUNDDOWN_eq va hva, walkaddr_eq]
    simp only [Res.bind]
    by_cases hpa : resolve k pt (va / 4096 * 4096) = 0
    · rw [if_pos hpa]
      refine ⟨0, k, by rw [if_neg (by omega)], by omega, ?_, fun _ => hpa, ?_, fun _ _ => rfl,
        fun _ _ _ => rfl, rfl, rfl⟩
      · intro j hj; omega
      · intro j hj; omega
    rw [if_neg hpa]
    obtain ⟨hvaM, hal, hlt, _, _, _⟩ := resolve_bounds k pt _ hpa
    have hM : MAXVA = 274877906944 := by norm_num [MAXVA]
    rw [hM] at hvaM
    rw [U64_val] at hlt hva
    have hfuel' := hfuel (by omega)
    have e1 : (resolve k pt (va / 4096 * 4096) + (va - va / 4096 * 4096)) % U64
        = resolve k pt (va / 4096 * 4096) + va % 4096 := by
      rw [U64_val]; omega
    have e2 : (va / 4096 * 4096 + PGSIZE) % U64 = va / 4096 * 4096 + 4096 := by
      rw [U64_val]; simp only [PGSIZE]; omega
    rw [e1, e2]
    have hnt := hur.nontable va (le_refl _) (by omega) hpa
    simp only [PGSIZE] at hnt
    obtain ⟨c1, c2, c3, c4, c5⟩ := copy_page k pt va src s n hpa hnt hnp
    have hur2 := userRange_congr k _ pt va len (va / 4096 * 4096 + 4096) (len - n) c1 c2
      (by omega) (by omega) hur
    obtain ⟨m', k', r1, r2, r3, r4, r5, r6, r7, r8, r9⟩ :=
      ih _ (va / 4096 * 4096 + 4096) (s + n) (len - n) (by rw [U64_val]; omega) (by omega)
        (fun _ => by omega) hur2
    have hsame : ∀ j, j < n → (va + j) / 4096 = va / 4096 := fun j hj => by omega
    have hnext : 0 < m' → ∀ j, va / 4096 * 4096 + 4096 + j = va + (n + j) := by
      intro hm' j
      have := hnf (by omega)
      omega
    refine ⟨n + m', k', ?_, by omega, ?_, ?_, ?_, ?_, ?_, ?_, ?_⟩
    · rw [r1]
      by_cases e : m' = len - n
      · rw [if_pos e, if_pos (by omega)]
      · rw [if_neg e, if_neg (by omega)]
    · intro j hj
      by_cases hjn : j < n
      · rw [hsame j hjn]; exact hpa
      · have := r3 (j - n) (by omega)
        rw [c1, hnext (by omega)] at this
        rw [show va + j = va + (n + (j - n)) by omega]
        exact this
    · intro hm
      have := r4 (by omega)
      rw [c1] at this
      have e := hnf (by omega)
      rw [show va + (n + m') = va / 4096 * 4096 + 4096 + m' by omega]
      exact this
    · intro j hj
      by_cases hjn : j < n
      · rw [r6, c3 j hjn]
        intro j' hj' e
        have hr' := r3 j' hj'
        have f1 := physAddr_frame _ pt _ hr'
        have f2 := physAddr_frame k pt (va + j) (by rw [hsame j hjn]; exact hpa)
        rw [← e, f2, c1] at f1
        have hd := hur.distinct va (va / 4096 * 4096 + 4096 + j') (le_refl _) (by omega)
          (by omega) (by rw [hnext (by omega)]; omega)
          (by simp only [PGSIZE]; exact hpa)
          (by simp only [PGSIZE]; rw [← c1]; exact hr')
          (by simp only [PGSIZE]; omega)
        simp only [PGSIZE] at hd
        rw [hsame j hjn] at f1
        exact hd f1
      · have := r5 (j - n) (by omega)
        have e : physAddr (memmove_to k (resolve k pt (va / 4096 * 4096) + va % 4096) src s n)
            pt (va / 4096 * 4096 + 4096 + (j - n)) = physAddr k pt (va + j) := by
          unfold physAddr
          rw [c1, hnext (by omega), show n + (j - n) = j by omega]
        rw [e] at this
        rw [this, show s + n + (j - n) = s + j by omega]
    · intro pa hpa'
      rw [r6, c4]
      · intro j hj
        exact hpa' j (by omega)
      · intro j' hj'
        have := hpa' (n + j') (by omega)
        have e : physAddr (memmove_to k (resolve k pt (va / 4096 * 4096) + va % 4096) src s n)
            pt (va / 4096 * 4096 + 4096 + j') = physAddr k pt (va + (n + j')) := by
          unfold physAddr
          rw [c1, hnext (by omega)]
        rw [e]
        exact this
    · intro f w hf
      rw [r7, c5]
      · have := hf 0 (by omega)
        rw [Nat.add_zero] at this
        exact this
      · intro j' hj'
        have := hf (n + j') (by omega)
        rw [c1, hnext (by omega)]
        exact this
    · rw [r8]
      exact (memmove_to_rest _ _ _ _ _).1
    · rw [r9]
      exact (memmove_to_rest _ _ _ _ _).2

/-- What the loop of `copyin` does: it copies the `m` bytes that lie before the
first page that `walkaddr` does not resolve, and leaves the state alone. -/
theorem copyin_loop_spec (pt : Nat) (k : Kernel) (fuel : Nat) :
    ∀ (dst : Nat → Nat) (d va len : Nat), va < U64 →
      2 ≤ fuel → (va < 274877906944 → 67108866 ≤ fuel + va / 4096) →
      ∃ m dst', copyin_loop fuel k pt dst d va len = .ok (if m = len then 0 else -1, dst') k
        ∧ m ≤ len
        ∧ (∀ j, j < m → resolve k pt ((va + j) / 4096 * 4096) ≠ 0)
        ∧ (m < len → resolve k pt ((va + m) / 4096 * 4096) = 0)
        ∧ (∀ j, j < m → dst' (d + j) = loadByte k (physAddr k pt (va + j)))
        ∧ (∀ i, (i < d ∨ d + m ≤ i) → dst' i = dst i) := by
  induction fuel with
  | zero =>
    intro dst d va len _ hfuel _
    omega
  | succ fuel ih =>
    intro dst d va len hva hfuel2 hfuel
    rw [copyin_loop]
    by_cases hlen : len > 0
    swap
    · rw [if_neg hlen]
      have : len = 0 := by omega
      refine ⟨0, dst, by rw [if_pos this.symm], by omega, ?_, by omega, ?_, fun _ _ => rfl⟩
      · intro j hj; omega
      · intro j hj; omega
    rw [if_pos hlen]
    simp only
    obtain ⟨n, hn, hn0, hnl, hnp, hnf⟩ := chunk_spec va len hva hlen
    rw [hn, PGROUNDDOWN_eq va hva, walkaddr_eq]
    simp only [Res.bind]
    by_cases hpa : resolve k pt (va / 4096 * 4096) = 0
    · rw [if_pos hpa]
      refine ⟨0, dst, by rw [if_neg (by omega)], by omega, ?_, fun _ => hpa, ?_, fun _ _ => rfl⟩
      · intro j hj; omega
      · intro j hj; omega
    rw [if_neg hpa]
    obtain ⟨hvaM, hal, hlt, _, _, _⟩ := resolve_bounds k pt _ hpa
    have hM : MAXVA = 274877906944 := by norm_num [MAXVA]
    rw [hM] at hvaM
    rw [U64_val] at hlt hva
    have hfuel' := hfuel (by omega)
    have e1 : (resolve k pt (va / 4096 * 4096) + (va - va / 4096 * 4096)) % U64
        = resolve k pt (va / 4096 * 4096) + va % 4096 := by
      rw [U64_val]; omega
    have e2 : (va / 4096 * 4096 + PGSIZE) % U64 = va / 4096 * 4096 + 4096 := by
      rw [U64_val]; simp only [PGSIZE]; omega
    rw [e1, e2]
    obtain ⟨m', dst', r1, r2, r3, r4, r5, r6⟩ :=
      ih (memmove_from k dst d (resolve k pt (va / 4096 * 4096) + va % 4096) n) (d + n)
        (va / 4096 * 4096 + 4096) (len - n) (by rw [U64_val]; omega) (by omega)
        (fun _ => by omega)
    have hsame : ∀ j, j < n → (va + j) / 4096 = va / 4096 := fun j hj => by omega
    have hnext : 0 < m' → ∀ j, va / 4096 * 4096 + 4096 + j = va + (n + j) := by
      intro hm' j
      have := hnf (by omega)
      omega
    refine ⟨n + m', dst', ?_, by omega, ?_, ?_, ?_, ?_⟩
    · rw [r1]
      by_cases e : m' = len - n
      · rw [if_pos e, if_pos (by omega)]
      · rw [if_neg e, if_neg (by omega)]
    · intro j hj
      by_cases hjn : j < n
      · rw [hsame j hjn]; exact hpa
      · have := r3 (j - n) (by omega)
        rw [hnext (by omega)] at this
        rw [show va + j = va + (n + (j - n)) by omega]
        exact this
    · intro hm
      have := r4 (by omega)
      have e := hnf (by omega)
      rw [show va + (n + m') = va / 4096 * 4096 + 4096 + m' by omega]
      exact this
    · intro j hj
      by_cases hjn : j < n
      · rw [r6 (d + j) (Or.inl (by omega))]
        simp only [memmove_from]
        rw [if_pos (by omega), physAddr_same_page k pt va j (by omega),
          show d + j - d = j by omega]
      · have := r5 (j - n) (by omega)
        rw [hnext (by omega), show d + n + (j - n) = d + j by omega,
          show n + (j - n) = j by omega] at this
        exact this
    · intro i hi
      rw [r6 i (by omega)]
      simp only [memmove_from]
      rw [if_neg (by omega)]

theorem copy_fuel : MAXVA / PGSIZE + 2 = 67108866 := by norm_num [MAXVA, PGSIZE]

theorem resolve_of_flags (k : Kernel) (pt a : Nat) (hM : a < MAXVA)
    (hV : pteOf k pt a &&& PTE_V ≠ 0) (hU : pteOf k pt a &&& PTE_U ≠ 0)
    (hF : PTE2PA (pteOf k pt a) ≠ 0) : resolve k pt (a / 4096 * 4096) ≠ 0 := by
  have e : pteOf k pt (a / 4096 * 4096) = pteOf k pt a :=
    pteOf_same_page k pt _ _ (by omega)
  unfold resolve
  rw [e, if_neg (by omega), if_neg hV, if_neg hU]
  exact hF

/-- The length of the prefix that lies before the first unresolvable page is
determined by the range. -/
theorem prefix_unique (R : Nat → Prop) (len m1 m2 : Nat) (h1 : m1 ≤ len) (h2 : m2 ≤ len)
    (a1 : ∀ j, j < m1 → R j) (b1 : m1 < len → ¬ R m1)
    (a2 : ∀ j, j < m2 → R j) (b2 : m2 < len → ¬ R m2) : m1 = m2 := by
  rcases Nat.lt_trichotomy m1 m2 with h | h | h
  · exact absurd (a2 m1 h) (b1 (by omega))
  · exact h
  · exact absurd (a1 m2 h) (b2 (by omega))

theorem kernel_ext (k k' : Kernel) (h1 : ∀ f w, k'.mem f w = k.mem f w)
    (h2 : k'.freelist = k.freelist) (h3 : k'.proc = k.proc) : k' = k := by
  cases k
  cases k'
  simp only at h1 h2 h3
  have : ∀ (m m' : Nat → Nat → Nat), (∀ f w, m' f w = m f w) → m' = m :=
    fun m m' h => funext fun f => funext fun w => h f w
  rw [this _ _ h1, h2, h3]

/-! ## C12: copy round trip -/

/-- C12: when every page of `[va, va + len)` is below `MAXVA`, Valid and
user-accessible, and the pages have frames of their own (`UserRange`),
`copyout` returns 0; afterwards the bytes of the range are the `len` bytes of
`src`, every other byte of physical memory and every word outside the frames
of the range is as before, as are the page table, the free list and the
rosters; a following `copyin` returns 0 with `dst[0..len)` equal to `src` and
the rest of `dst` unchanged.  With `len = 0` nothing changes. -/
theorem copy_round_trip (k : Kernel) (pt va len : Nat) (src dst : Nat → Nat)
    (hva : va < U64) (hur : UserRange k pt va len)
    (hres : ∀ j, j < len → va + j < MAXVA ∧ pteOf k pt (va + j) &&& PTE_V ≠ 0
      ∧ pteOf k pt (va + j) &&& PTE_U ≠ 0 ∧ PTE2PA (pteOf k pt (va + j)) ≠ 0)
    (hsrc : ∀ j, j < len → src j < 256) :
    ∃ k', copyout k pt va src len = .ok 0 k'
      ∧ (∀ j, j < len → loadByte k' (physAddr k pt (va + j)) = src j)
      ∧ (∀ pa, (∀ j, j < len → pa ≠ physAddr k pt (va + j)) → loadByte k' pa = loadByte k pa)
      ∧ (∀ f w, (∀ j, j < len → f ≠ PTE2PA (pteOf k pt (va + j))) → k'.mem f w = k.mem f w)
      ∧ (∀ a, pteOf k' pt a = pteOf k pt a)
      ∧ k'.freelist = k.freelist ∧ k'.proc = k.proc
      ∧ (len = 0 → k' = k)
      ∧ ∃ dst', copyin k' pt dst va len = .ok (0, dst') k'
          ∧ (∀ j, j < len → dst' j = src j) ∧ (∀ j, len ≤ j → dst' j = dst j) := by
  have hR : ∀ j, j < len → resolve k pt ((va + j) / 4096 * 4096) ≠ 0 := by
    intro j hj
    obtain ⟨a, b, c, d⟩ := hres j hj
    exact resolve_of_flags k pt _ a b c d
  have hRv : ∀ j, j < len →
      resolve k pt ((va + j) / 4096 * 4096) = PTE2PA (pteOf k pt (va + j)) := by
    intro j hj
    rw [(resolve_bounds k pt _ (hR j hj)).2.2.2.2.2, pteOf_same_page k pt _ (va + j) (by omega)]
  obtain ⟨m, k', r1, r2, r3, r4, r5, r6, r7, r8, r9⟩ :=
    copyout_loop_spec pt src 67108866 k va 0 len hva (by norm_num) (fun _ => by omega) hur
  have hm : m = len := by
    by_contra hne
    exact hR m (by omega) (r4 (by omega))
  rw [hm] at r1 r5 r6 r7
  rw [if_pos rfl] at r1
  have hmem : ∀ f w, (∀ j, j < len → f ≠ PTE2PA (pteOf k pt (va + j))) →
      k'.mem f w = k.mem f w := by
    intro f w hf
    apply r7
    intro j hj
    rw [hRv j hj]
    exact hf j hj
  have hst := tables_stable k k' pt (by
    intro p t ht i
    apply r7
    intro j hj e
    have := hur.nontable (va + j) (by omega) (by omega) (by simp only [PGSIZE]; exact hR j hj) p
    simp only [PGSIZE] at this
    exact this (e ▸ ht))
  obtain ⟨m2, dst', q1, q2, q3, q4, q5, q6⟩ :=
    copyin_loop_spec pt k' 67108866 dst 0 va len hva (by norm_num) (fun _ => by omega)
  have hm2 : m2 = len := by
    by_contra hne
    have := q4 (by omega)
    rw [hst.2.2] at this
    exact hR m2 (by omega) this
  rw [hm2] at q1 q5 q6
  rw [if_pos rfl] at q1
  refine ⟨k', ?_, ?_, r6, hmem, hst.2.1, r8, r9, ?_, dst', ?_, ?_, ?_⟩
  · unfold copyout
    rw [copy_fuel]
    exact r1
  · intro j hj
    rw [r5 j hj, Nat.zero_add]
    exact Nat.mod_eq_of_lt (hsrc j hj)
  · intro h0
    apply kernel_ext k k' _ r8 r9
    intro f w
    apply r7
    intro j hj
    omega
  · unfold copyin
    rw [copy_fuel]
    exact q1
  · intro j hj
    have := q5 j hj
    rw [Nat.zero_add] at this
    have e : physAddr k' pt (va + j) = physAddr k pt (va + j) := by
      unfold physAddr
      rw [hst.2.2]
    rw [this, e, r5 j hj, Nat.zero_add]
    exact Nat.mod_eq_of_lt (hsrc j hj)
  · intro j hj
    exact q6 j (Or.inr (by omega))

theorem wK1_resolve (a : Nat) (h1 : 0xFFE ≤ a) (h2 : a < 0x1002) :
    resolve wK1 0x1000 (a / PGSIZE * PGSIZE) = 0x80000000 + a / 4096 * 4096 := by
  interval_cases a <;> decide

theorem wK1_range : UserRange wK1 0x1000 0xFFE 4 := by
  constructor
  · intro a h1 h2 _ p hp
    rw [wK1_resolve a h1 (by omega)] at hp
    have := wK1_tables p _ hp
    omega
  · intro a b h1 h2 h3 h4 _ _ hne
    rw [wK1_resolve a h1 (by omega), wK1_resolve b h3 (by omega)]
    simp only [PGSIZE] at hne
    omega

theorem copy_round_trip_witness :
    ∃ k', copyout wK1 0x1000 0xFFE buf1234 4 = .ok 0 k'
      ∧ (∀ j, j < 4 → loadByte k' (physAddr wK1 0x1000 (0xFFE + j)) = buf1234 j)
      ∧ (∀ pa, (∀ j, j < 4 → pa ≠ physAddr wK1 0x1000 (0xFFE + j)) →
          loadByte k' pa = loadByte wK1 pa)
      ∧ (∀ f w, (∀ j, j < 4 → f ≠ PTE2PA (pteOf wK1 0x1000 (0xFFE + j))) →
          k'.mem f w = wK1.mem f w)
      ∧ (∀ a, pteOf k' 0x1000 a = pteOf wK1 0x1000 a)
      ∧ k'.freelist = wK1.freelist ∧ k'.proc = wK1.proc
      ∧ (4 = 0 → k' = wK1)
      ∧ ∃ dst', copyin k' 0x1000 buf0 0xFFE 4 = .ok (0, dst') k'
          ∧ (∀ j, j < 4 → dst' j = buf1234 j) ∧ (∀ j, 4 ≤ j → dst' j = buf0 j) :=
  copy_round_trip wK1 0x1000 0xFFE 4 buf1234 buf0 (by decide) wK1_range (by decide) (by decide)

/-! ## C13: where a copy fails -/

/-- C13: for a range whose resolvable pages have frames of their own
(`UserRange`), `copyout` and `copyin` return the same result, 0 or -1; it is
-1 exactly when some byte of the range lies in a page that `walkaddr` does
not resolve.  With `m` the offset of the first such byte (`len` if there is
none; `m` is 0 or `va + m` is the start of that page), `copyout` has stored
`src[0..m)` in the range and changed no other byte, no word outside the frames
of the pages before it, and no PTE; `copyin` has stored the first `m` bytes of
the range in `dst[0..m)` and changed nothing else of `dst`. -/
theorem copy_failure_boundary (k : Kernel) (pt va len : Nat) (src dst : Nat → Nat)
    (hva : va < U64) (hur : UserRange k pt va len) :
    ∃ m k' dst' r, copyout k pt va src len = .ok r k'
      ∧ copyin k pt dst va len = .ok (r, dst') k
      ∧ (r = 0 ∨ r = -1)
      ∧ (r = -1 ↔ 0 < len ∧ ∃ j, j < len ∧ resolve k pt ((va + j) / PGSIZE * PGSIZE) = 0)
      ∧ m ≤ len ∧ (r = 0 ↔ m = len)
      ∧ (∀ j, j < m → resolve k pt ((va + j) / PGSIZE * PGSIZE) ≠ 0)
      ∧ (m < len → resolve k pt ((va + m) / PGSIZE * PGSIZE) = 0
          ∧ (m = 0 ∨ (va + m) % PGSIZE = 0))
      ∧ (∀ j, j < m → loadByte k' (physAddr k pt (va + j)) = src j % 256)
      ∧ (∀ pa, (∀ j, j < m → pa ≠ physAddr k pt (va + j)) → loadByte k' pa = loadByte k pa)
      ∧ (∀ f w, (∀ j, j < m → f ≠ resolve k pt ((va + j) / PGSIZE * PGSIZE)) →
          k'.mem f w = k.mem f w)
      ∧ (∀ a, pteOf k' pt a = pteOf k pt a)
      ∧ (∀ j, j < m → dst' j = loadByte k (physAddr k pt (va + j)))
      ∧ (∀ j, m ≤ j → dst' j = dst j) := by
  simp only [PGSIZE]
  obtain ⟨m, k', r1, r2, r3, r4, r5, r6, r7, r8, r9⟩ :=
    copyout_loop_spec pt src 67108866 k va 0 len hva (by norm_num) (fun _ => by omega) hur
  obtain ⟨m2, dst', q1, q2, q3, q4, q5, q6⟩ :=
    copyin_loop_spec pt k 67108866 dst 0 va len hva (by norm_num) (fun _ => by omega)
  have hmm : m2 = m :=
    prefix_unique (fun j => resolve k pt ((va + j) / 4096 * 4096) ≠ 0) len m2 m q2 r2 q3
      (fun h => not_not.mpr (q4 h)) r3 (fun h => not_not.mpr (r4 h))
  rw [hmm] at q1 q5 q6
  have hst := tables_stable k k' pt (by
    intro p t ht i
    apply r7
    intro j hj e
    have := hur.nontable (va + j) (by omega) (by omega) (by simp only [PGSIZE]; exact r3 j hj) p
    simp only [PGSIZE] at this
    exact this (e ▸ ht))
  refine ⟨m, k', dst', if m = len then 0 else -1, ?_, ?_, ?_, ?_, r2, ?_, r3, ?_, ?_, r6, r7,
    hst.2.1, ?_, ?_⟩
  · unfold copyout
    rw [copy_fuel]
    exact r1
  · unfold copyin
    rw [copy_fuel]
    exact q1
  · by_cases e : m = len
    · left; rw [if_pos e]
    · right; rw [if_neg e]
  · constructor
    · intro h
      have hne : m ≠ len := by
        intro e
        rw [if_pos e] at h
        cases h
      exact ⟨by omega, m, by omega, r4 (by omega)⟩
    · rintro ⟨_, j, hj, hz⟩
      have hne : m ≠ len := by
        intro e
        rw [e] at r3
        exact r3 j hj hz
      rw [if_neg hne]
  · constructor
    · intro h
      by_contra hne
      rw [if_neg hne] at h
      cases h
    · intro e
      rw [if_pos e]
  · intro hm
    refine ⟨r4 hm, ?_⟩
    by_cases h0 : m = 0
    · exact Or.inl h0
    · right
      by_contra hmod
      have hsame : (va + m) / 4096 = (va + (m - 1)) / 4096 := by omega
      have := r3 (m - 1) (by omega)
      rw [← hsame] at this
      exact this (r4 hm)
  · intro j hj
    have := r5 j hj
    rw [Nat.zero_add] at this
    exact this
  · intro j hj
    have := q5 j hj
    rw [Nat.zero_add] at this
    exact this
  · intro j hj
    exact q6 j (Or.inr (by omega))

theorem wK1_resolve_tail (a : Nat) (h1 : 0x1FFE ≤ a) (h2 : a < 0x2002) :
    resolve wK1 0x1000 (a / PGSIZE * PGSIZE) = if a < 0x2000 then 0x80001000 else 0 := by
  interval_cases a <;> decide

theorem wK1_range_tail : UserRange wK1 0x1000 0x1FFE 4 := by
  constructor
  · intro a h1 h2 hr p hp
    rw [wK1_resolve_tail a h1 (by omega)] at hp hr
    by_cases ha : a < 0x2000
    · rw [if_pos ha] at hp
      have := wK1_tables p _ hp
      omega
    · rw [if_neg ha] at hr
      exact hr rfl
  · intro a b h1 h2 h3 h4 ha hb hne
    rw [wK1_resolve_tail a h1 (by omega)] at ha
    rw [wK1_resolve_tail b h3 (by omega)] at hb
    simp only [PGSIZE] at hne
    by_cases ha' : a < 0x2000
    · by_cases hb' : b < 0x2000
      · omega
      · rw [if_neg hb'] at hb
        exact absurd rfl hb
    · rw [if_neg ha'] at ha
      exact absurd rfl ha

theorem copy_failure_boundary_witness :
    ∃ m k' dst' r, copyout wK1 0x1000 0x1FFE buf1234 4 = .ok r k'
      ∧ copyin wK1 0x1000 buf0 0x1FFE 4 = .ok (r, dst') wK1
      ∧ (r = 0 ∨ r = -1)
      ∧ (r = -1 ↔ 0 < 4 ∧ ∃ j, j < 4 ∧ resolve wK1 0x1000 ((0x1FFE + j) / PGSIZE * PGSIZE) = 0)
      ∧ m ≤ 4 ∧ (r = 0 ↔ m = 4)
      ∧ (∀ j, j < m → resolve wK1 0x1000 ((0x1FFE + j) / PGSIZE * PGSIZE) ≠ 0)
      ∧ (m < 4 → resolve wK1 0x1000 ((0x1FFE + m) / PGSIZE * PGSIZE) = 0
          ∧ (m = 0 ∨ (0x1FFE + m) % PGSIZE = 0))
      ∧ (∀ j, j < m → loadByte k' (physAddr wK1 0x1000 (0x1FFE + j)) = buf1234 j % 256)
      ∧ (∀ pa, (∀ j, j < m → pa ≠ physAddr wK1 0x1000 (0x1FFE + j)) →
          loadByte k' pa = loadByte wK1 pa)
      ∧ (∀ f w, (∀ j, j < m → f ≠ resolve wK1 0x1000 ((0x1FFE + j) / PGSIZE * PGSIZE)) →
          k'.mem f w = wK1.mem f w)
      ∧ (∀ a, pteOf k' 0x1000 a = pteOf wK1 0x1000 a)
      ∧ (∀ j, j < m → dst' j = loadByte wK1 (physAddr wK1 0x1000 (0x1FFE + j)))
      ∧ (∀ j, m ≤ j → dst' j = buf0 j) :=
  copy_failure_boundary wK1 0x1000 0x1FFE 4 buf1234 buf0 (by decide) wK1_range_tail

/-! ## C14: `copyinstr` -/

/-- The inner loop of `copyinstr` over `n` bytes from physical address `p`: it
stops at the first zero byte, at offset `c`, or after `n` non-zero bytes. -/
theorem copyinstr_inner_spec (k : Kernel) (n : Nat) :
    ∀ (p : Nat) (dst : Nat → Nat) (d max : Nat), p + n ≤ U64 → n ≤ max →
      ∃ g dst' c, copyinstr_inner k n p dst d max = (g, dst', d + c, max - c)
        ∧ c ≤ n ∧ (g = 0 ∨ g = 1)
        ∧ (∀ i, i < c → loadByte k (p + i) ≠ 0)
        ∧ (g = 1 → c < n ∧ loadByte k (p + c) = 0 ∧ dst' (d + c) = 0)
        ∧ (g = 0 → c = n)
        ∧ (∀ i, i < c → dst' (d + i) = loadByte k (p + i))
        ∧ (∀ i, (i < d ∨ d + c + g ≤ i) → dst' i = dst i) := by
  induction n with
  | zero =>
    intro p dst d max _ _
    refine ⟨0, dst, 0, rfl, le_refl _, Or.inl rfl, ?_, ?_, fun _ => rfl, ?_, fun _ _ => rfl⟩
    · intro i hi; omega
    · intro h; cases h
    · intro i hi; omega
  | succ n ih =>
    intro p dst d max hp hmax
    rw [copyinstr_inner]
    by_cases hz : loadByte k p = 0
    · rw [if_pos hz]
      refine ⟨1, upd dst d 0, 0, rfl, by omega, Or.inr rfl, ?_, ?_, ?_, ?_, ?_⟩
      · intro i hi; omega
      · intro _
        exact ⟨by omega, hz, upd_same _ _ _⟩
      · intro h; cases h
      · intro i hi; omega
      · intro i hi
        exact upd_ne _ _ _ _ (by omega)
    · rw [if_neg hz]
      have hp' : n = 0 ∨ (p + 1) % U64 = p + 1 := by
        by_cases h0 : n = 0
        · exact Or.inl h0
        · right
          apply Nat.mod_eq_of_lt
          omega
      have hB : ∀ i, i < n → loadByte k ((p + 1) % U64 + i) = loadByte k (p + (i + 1)) := by
        intro i hi
        rcases hp' with h | h
        · omega
        · rw [h, Nat.add_assoc, Nat.add_comm 1 i]
      obtain ⟨g, dst', c, r1, r2, r3, r4, r5, r6, r7, r8⟩ :=
        ih ((p + 1) % U64) (upd dst d (loadByte k p)) (d + 1) (max - 1)
          (by
            rcases hp' with h | h
            · rw [h, Nat.add_zero]
              exact Nat.le_of_lt (Nat.mod_lt _ (by norm_num [U64]))
            · rw [h]; omega)
          (by omega)
      refine ⟨g, dst', c + 1, ?_, by omega, r3, ?_, ?_, ?_, ?_, ?_⟩
      · rw [r1]
        rw [show d + 1 + c = d + (c + 1) by omega, show max - 1 - c = max - (c + 1) by omega]
      · intro i hi
        by_cases h0 : i = 0
        · rw [h0, Nat.add_zero]; exact hz
        · have := r4 (i - 1) (by omega)
          rw [hB (i - 1) (by omega), show i - 1 + 1 = i by omega] at this
          exact this
      · intro hg
        obtain ⟨a, b, c'⟩ := r5 hg
        refine ⟨by omega, ?_, ?_⟩
        · rw [hB c a] at b
          exact b
        · rw [show d + (c + 1) = d + 1 + c by omega]
          exact c'
      · intro hg
        have := r6 hg
        omega
      · intro i hi
        by_cases h0 : i = 0
        · rw [h0, Nat.add_zero, r8 d (Or.inl (by omega)), upd_same]
          rfl
        · have := r7 (i - 1) (by omega)
          rw [hB (i - 1) (by omega), show i - 1 + 1 = i by omega,
            show d + 1 + (i - 1) = d + i by omega] at this
          exact this
      · intro i hi
        rw [r8 i (by omega), upd_ne _ _ _ _ (by omega)]

/-- What the loop of `copyinstr` does: `c` bytes are copied, all non-zero and
from resolvable pages; then either the terminator is found and stored
(`g = 1`), or `max` is used up or the next page is not resolvable (`g = 0`). -/
theorem copyinstr_loop_spec (pt : Nat) (k : Kernel) (fuel : Nat) :
    ∀ (dst : Nat → Nat) (d va max : Nat), va < U64 →
      2 ≤ fuel → (va < 274877906944 → 67108866 ≤ fuel + va / 4096) →
      ∃ c g dst', copyinstr_loop fuel k pt dst d va max = .ok (if g = 1 then 0 else -1, dst') k
        ∧ c ≤ max ∧ (g = 0 ∨ g = 1)
        ∧ (∀ j, j < c → resolve k pt ((va + j) / 4096 * 4096) ≠ 0
            ∧ loadByte k (physAddr k pt (va + j)) ≠ 0)
        ∧ (g = 1 → c < max ∧ resolve k pt ((va + c) / 4096 * 4096) ≠ 0
            ∧ loadByte k (physAddr k pt (va + c)) = 0 ∧ dst' (d + c) = 0)
        ∧ (g = 0 → c = max ∨ resolve k pt ((va + c) / 4096 * 4096) = 0)
        ∧ (∀ j, j < c → dst' (d + j) = loadByte k (physAddr k pt (va + j)))
        ∧ (∀ i, (i < d ∨ d + c + g ≤ i) → dst' i = dst i) := by
  induction fuel with
  | zero =>
    intro dst d va max _ hfuel _
    omega
  | succ fuel ih =>
    intro dst d va max hva hfuel2 hfuel
    rw [copyinstr_loop]
    by_cases hmax : max > 0
    swap
    · rw [if_neg hmax]
      refine ⟨0, 0, dst, rfl, by omega, Or.inl rfl, ?_, ?_, fun _ => Or.inl (by omega), ?_,
        fun _ _ => rfl⟩
      · intro j hj; omega
      · intro h; cases h
      · intro j hj; omega
    rw [if_pos hmax]
    simp only
    obtain ⟨n, hn, hn0, hnl, hnp, hnf⟩ := chunk_spec va max hva hmax
    rw [hn, PGROUNDDOWN_eq va hva, walkaddr_eq]
    simp only [Res.bind]
    by_cases hpa : resolve k pt (va / 4096 * 4096) = 0
    · rw [if_pos hpa]
      refine ⟨0, 0, dst, rfl, by omega, Or.inl rfl, ?_, ?_, fun _ => Or.inr hpa, ?_,
        fun _ _ => rfl⟩
      · intro j hj; omega
      · intro h; cases h
      · intro j hj; omega
    rw [if_neg hpa]
    obtain ⟨hvaM, hal, hlt, _, _, _⟩ := resolve_bounds k pt _ hpa
    have hM : MAXVA = 274877906944 := by norm_num [MAXVA]
    rw [hM] at hvaM
    have hlt' := hlt
    rw [U64_val] at hlt' hva
    have hfuel' := hfuel (by omega)
    have e1 : (resolve k pt (va / 4096 * 4096) + (va - va / 4096 * 4096)) % U64
        = resolve k pt (va / 4096 * 4096) + va % 4096 := by
      rw [U64_val]; omega
    have e2 : (va / 4096 * 4096 + PGSIZE) % U64 = va / 4096 * 4096 + 4096 := by
      rw [U64_val]; simp only [PGSIZE]; omega
    rw [e1, e2]
    obtain ⟨g1, dst2, c1, i1, i2, i3, i4, i5, i6, i7, i8⟩ :=
      copyinstr_inner_spec k n (resolve k pt (va / 4096 * 4096) + va % 4096) dst d max
        (by omega) hnl
    rw [i1]
    simp only
    have hsame : ∀ j, j < n → (va + j) / 4096 = va / 4096 := fun j hj => by omega
    have hphys : ∀ j, j < n →
        physAddr k pt (va + j) = resolve k pt (va / 4096 * 4096) + va % 4096 + j :=
      fun j hj => physAddr_same_page k pt va j (by omega)
    rcases i3 with hg | hg
    swap
    · -- the terminator is in this page
      rw [if_pos (by omega)]
      obtain ⟨a1, a2, a3⟩ := i5 hg
      refine ⟨c1, 1, dst2, by rw [if_pos rfl], by omega, Or.inr rfl, ?_, ?_, ?_, ?_, ?_⟩
      · intro j hj
        rw [hsame j (by omega), hphys j (by omega)]
        exact ⟨hpa, i4 j hj⟩
      · intro _
        rw [hsame c1 a1, hphys c1 a1]
        exact ⟨by omega, hpa, a2, a3⟩
      · intro h; cases h
      · intro j hj
        rw [hphys j (by omega)]
        exact i7 j hj
      · intro i hi
        rw [hg] at i8
        exact i8 i hi
    · -- the page is used up
      rw [if_neg (by omega)]
      have hc1 : c1 = n := i6 hg
      rw [hc1] at i4 i7 i8
      rw [hg] at i8
      rw [hc1]
      obtain ⟨c', g', dst', r1, r2, r3, r4, r5, r6, r7, r8⟩ :=
        ih dst2 (d + n) (va / 4096 * 4096 + 4096) (max - n) (by rw [U64_val]; omega) (by omega)
          (fun _ => by omega)
      have hnext : n < max → ∀ j, va / 4096 * 4096 + 4096 + j = va + (n + j) := by
        intro hlt2 j
        have := hnf hlt2
        omega
      refine ⟨n + c', g', dst', r1, by omega, r3, ?_, ?_, ?_, ?_, ?_⟩
      · intro j hj
        by_cases hjn : j < n
        · rw [hsame j hjn, hphys j hjn]
          exact ⟨hpa, i4 j hjn⟩
        · have := r4 (j - n) (by omega)
          rw [hnext (by omega), show n + (j - n) = j by omega] at this
          exact this
      · intro hg'
        obtain ⟨b1, b2, b3, b4⟩ := r5 hg'
        rw [hnext (by omega)] at b2 b3
        exact ⟨by omega, b2, b3, by rw [show d + (n + c') = d + n + c' by omega]; exact b4⟩
      · intro hg'
        by_cases hlt2 : n < max
        · rcases r6 hg' with h | h
          · left; omega
          · right
            rw [hnext hlt2] at h
            exact h
        · left; omega
      · intro j hj
        by_cases hjn : j < n
        · rw [r8 (d + j) (Or.inl (by omega)), hphys j hjn]
          exact i7 j hjn
        · have := r7 (j - n) (by omega)
          rw [hnext (by omega), show n + (j - n) = j by omega,
            show d + n + (j - n) = d + j by omega] at this
          exact this
      · intro i hi
        rw [r8 i (by omega)]
        exact i8 i (by omega)

/-- C14: `copyinstr` returns 0 or -1 and leaves the state alone.  It returns 0
exactly when there is an offset `k0 < max` at which the user byte is 0, no
earlier byte is 0, and every page of `[srcva, srcva + k0]` is resolvable by
`walkaddr`; then `dst[0..k0]` holds the user bytes (so `dst[k0] = 0`) and `dst`
is unchanged after index `k0`.  With `max = 0`, or when the first `max` bytes
are all non-zero, it returns -1. -/
theorem copyinstr_contract (k : Kernel) (pt : Nat) (dst : Nat → Nat) (srcva max : Nat)
    (hva : srcva < U64) :
    ∃ r dst', copyinstr k pt dst srcva max = .ok (r, dst') k
      ∧ (r = 0 ∨ r = -1)
      ∧ (r = 0 ↔ ∃ k0, k0 < max
          ∧ (∀ j, j ≤ k0 → resolve k pt ((srcva + j) / PGSIZE * PGSIZE) ≠ 0)
          ∧ loadByte k (physAddr k pt (srcva + k0)) = 0
          ∧ ∀ j, j < k0 → loadByte k (physAddr k pt (srcva + j)) ≠ 0)
      ∧ (∀ k0, k0 < max →
          (∀ j, j ≤ k0 → resolve k pt ((srcva + j) / PGSIZE * PGSIZE) ≠ 0) →
          loadByte k (physAddr k pt (srcva + k0)) = 0 →
          (∀ j, j < k0 → loadByte k (physAddr k pt (srcva + j)) ≠ 0) →
          (∀ j, j ≤ k0 → dst' j = loadByte k (physAddr k pt (srcva + j)))
            ∧ dst' k0 = 0 ∧ ∀ i, k0 < i → dst' i = dst i)
      ∧ (max = 0 → r = -1)
      ∧ ((∀ j, j < max → loadByte k (physAddr k pt (srcva + j)) ≠ 0) → r = -1) := by
  simp only [PGSIZE]
  obtain ⟨c, g, dst', r1, r2, r3, r4, r5, r6, r7, r8⟩ :=
    copyinstr_loop_spec pt k 67108866 dst 0 srcva max hva (by norm_num) (fun _ => by omega)
  have hiff : g = 1 ↔ ∃ k0, k0 < max
      ∧ (∀ j, j ≤ k0 → resolve k pt ((srcva + j) / 4096 * 4096) ≠ 0)
      ∧ loadByte k (physAddr k pt (srcva + k0)) = 0
      ∧ ∀ j, j < k0 → loadByte k (physAddr k pt (srcva + j)) ≠ 0 := by
    constructor
    · intro hg
      obtain ⟨a1, a2, a3, _⟩ := r5 hg
      refine ⟨c, a1, ?_, a3, fun j hj => (r4 j hj).2⟩
      intro j hj
      by_cases e : j = c
      · rw [e]; exact a2
      · exact (r4 j (by omega)).1
    · rintro ⟨k0, b1, b2, b3, b4⟩
      rcases r3 with hg | hg
      · exfalso
        by_cases hck : c ≤ k0
        · rcases r6 hg with h | h
          · omega
          · exact b2 c hck h
        · exact (r4 k0 (by omega)).2 b3
      · exact hg
  have hc : ∀ k0, k0 < max →
      (∀ j, j ≤ k0 → resolve k pt ((srcva + j) / 4096 * 4096) ≠ 0) →
      loadByte k (physAddr k pt (srcva + k0)) = 0 →
      (∀ j, j < k0 → loadByte k (physAddr k pt (srcva + j)) ≠ 0) → g = 1 ∧ c = k0 := by
    intro k0 b1 b2 b3 b4
    have hg : g = 1 := hiff.2 ⟨k0, b1, b2, b3, b4⟩
    obtain ⟨a1, a2, a3, _⟩ := r5 hg
    refine ⟨hg, ?_⟩
    rcases Nat.lt_trichotomy c k0 with h | h | h
    · exact absurd a3 (b4 c h)
    · exact h
    · exact absurd b3 (r4 k0 h).2
  have hr0 : (if g = 1 then (0 : Int) else -1) = 0 ↔ g = 1 := by
    by_cases e : g = 1
    · rw [if_pos e]; simp [e]
    · rw [if_neg e]; simp [e]
  refine ⟨if g = 1 then 0 else -1, dst', ?_, ?_, ?_, ?_, ?_, ?_⟩
  · unfold copyinstr
    rw [copy_fuel]
    exact r1
  · by_cases e : g = 1
    · left; rw [if_pos e]
    · right; rw [if_neg e]
  · rw [hr0]; exact hiff
  · intro k0 b1 b2 b3 b4
    obtain ⟨hg, hck⟩ := hc k0 b1 b2 b3 b4
    obtain ⟨a1, a2, a3, a4⟩ := r5 hg
    rw [hck] at a4 r7 r8
    rw [Nat.zero_add] at a4
    refine ⟨?_, a4, ?_⟩
    · intro j hj
      by_cases e : j = k0
      · rw [e, a4, b3]
      · have := r7 j (by omega)
        rw [Nat.zero_add] at this
        exact this
    · intro i hi
      exact r8 i (Or.inr (by omega))
  · intro h0
    have : g ≠ 1 := by
      intro hg
      have := (r5 hg).1
      omega
    rw [if_neg this]
  · intro hall
    have : g ≠ 1 := by
      intro hg
      obtain ⟨a1, _, a3, _⟩ := r5 hg
      exact hall c a1 a3
    rw [if_neg this]

theorem copyinstr_contract_witness :
    ∃ r dst', copyinstr wK1 0x1000 buf1234 0xFFE 8 = .ok (r, dst') wK1
      ∧ (r = 0 ∨ r = -1)
      ∧ (r = 0 ↔ ∃ k0, k0 < 8
          ∧ (∀ j, j ≤ k0 → resolve wK1 0x1000 ((0xFFE + j) / PGSIZE * PGSIZE) ≠ 0)
          ∧ loadByte wK1 (physAddr wK1 0x1000 (0xFFE + k0)) = 0
          ∧ ∀ j, j < k0 → loadByte wK1 (physAddr wK1 0x1000 (0xFFE + j)) ≠ 0)
      ∧ (∀ k0, k0 < 8 →
          (∀ j, j ≤ k0 → resolve wK1 0x1000 ((0xFFE + j) / PGSIZE * PGSIZE) ≠ 0) →
          loadByte wK1 (physAddr wK1 0x1000 (0xFFE + k0)) = 0 →
          (∀ j, j < k0 → loadByte wK1 (physAddr wK1 0x1000 (0xFFE + j)) ≠ 0) →
          (∀ j, j ≤ k0 → dst' j = loadByte wK1 (physAddr wK1 0x1000 (0xFFE + j)))
            ∧ dst' k0 = 0 ∧ ∀ i, k0 < i → dst' i = buf1234 i)
      ∧ (8 = 0 → r = -1)
      ∧ ((∀ j, j < 8 → loadByte wK1 (physAddr wK1 0x1000 (0xFFE + j)) ≠ 0) → r = -1) :=
  copyinstr_contract wK1 0x1000 buf1234 0xFFE 8 (by decide)

/-! ## Stores to leaf PTEs on a tree of tables -/

theorem tree_of_wf (k : Kernel) (pt : Nat) (h : PTWf k pt) : Tree k pt := h.inj

theorem wf_nofree (k : Kernel) (pt : Nat) (h : Tree k pt) :
    PTWf { k with freelist := [] } pt :=
  ⟨h, fun _ _ _ hm => (by cases hm), List.nodup_nil, fun _ hm => (by cases hm)⟩

theorem tree_congr (k k' : Kernel) (pt : Nat) (hf : ∀ p, frameAt k' pt p = frameAt k pt p)
    (h : Tree k pt) : Tree k' pt := by
  intro p q f hp hq
  rw [hf] at hp hq
  exact h p q f hp hq

/-- A store to the leaf PTE `&t[i]` of `va`: the tables stay, and the leaf PTEs
read as before except the one stored. -/
theorem tree_write (k : Kernel) (pt va t i v : Nat) (h : Tree k pt)
    (hl : leaf k pt va = some (t, i)) :
    (∀ p, frameAt (k.write t i v) pt p = frameAt k pt p)
      ∧ Tree (k.write t i v) pt
      ∧ (∀ va', leaf (k.write t i v) pt va' = leaf k pt va')
      ∧ ∀ va', pteOf (k.write t i v) pt va'
          = if leaf k pt va' = some (t, i) then v else pteOf k pt va' := by
  have hwf := wf_nofree k pt h
  have hl0 : leaf { k with freelist := [] } pt va = some (t, i) := hl
  have hfa : ∀ p, frameAt (k.write t i v) pt p = frameAt k pt p :=
    frameAt_write_l0 { k with freelist := [] } pt _ _ t i v hwf
      (leaf_frame _ pt va t i hl0).1
  refine ⟨hfa, tree_congr k _ pt hfa h, ?_, ?_⟩
  · exact leaf_write { k with freelist := [] } pt va t i v hwf hl0
  · exact pteOf_write { k with freelist := [] } pt va t i v hwf hl0

/-- A store of a value that is not both Valid and Swapped keeps the leaf
exclusivity. -/
theorem excl_write (k : Kernel) (pt va t i v : Nat) (h : Tree k pt) (he : Excl k pt)
    (hl : leaf k pt va = some (t, i)) (hv : v &&& PTE_V = 0 ∨ v &&& PTE_PG = 0) :
    Tree (k.write t i v) pt ∧ Excl (k.write t i v) pt := by
  obtain ⟨_, h2, _, h4⟩ := tree_write k pt va t i v h hl
  refine ⟨h2, ?_⟩
  intro va'
  rw [h4]
  by_cases e : leaf k pt va' = some (t, i)
  · rw [if_pos e]; exact hv
  · rw [if_neg e]; exact he va'

theorem excl_congr (k k' : Kernel) (pt : Nat) (hp : ∀ va, pteOf k' pt va = pteOf k pt va)
    (h : Excl k pt) : Excl k' pt := by
  intro va
  rw [hp]
  exact h va

theorem pteOf_of_leaf (k : Kernel) (pt va t i : Nat) (h : leaf k pt va = some (t, i)) :
    pteOf k pt va = k.mem t i := by
  unfold pteOf
  rw [h]

/-- States with the same memory have the same tables and leaf PTEs. -/
theorem mem_eq_facts (k k' : Kernel) (pt : Nat) (hm : k'.mem = k.mem) :
    (∀ p, frameAt k' pt p = frameAt k pt p) ∧ (∀ va, leaf k' pt va = leaf k pt va)
      ∧ (∀ va, pteOf k' pt va = pteOf k pt va) ∧ (Tree k pt → Tree k' pt)
      ∧ (Excl k pt → Excl k' pt) :=
  ⟨frameAt_mem_eq k k' pt hm, fun va => leaf_congr k k' pt va hm,
    fun va => pteOf_congr k k' pt va hm,
    tree_congr k k' pt (frameAt_mem_eq k k' pt hm),
    excl_congr k k' pt (fun va => pteOf_congr k k' pt va hm)⟩

/-! ## Leaf exclusivity, operation by operation -/

theorem bind_ok_inv {α β : Type} (r : Res α) (f : α → Kernel → Res β) (v : β) (k' : Kernel)
    (h : r.bind f = .ok v k') : ∃ u k1, r = .ok u k1 ∧ f u k1 = .ok v k' := by
  cases r with
  | ok u k1 => exact ⟨u, k1, rfl, h⟩
  | stop e => cases h
  | nofuel => cases h

theorem flag_zero_iff (x i : Nat) : x &&& 2 ^ i = 0 ↔ x.testBit i = false := by
  rw [Nat.and_two_pow]
  cases x.testBit i <;> simp

theorem excl_val_iff (v : Nat) :
    (v &&& PTE_V = 0 ∨ v &&& PTE_PG = 0) ↔ (v.testBit 0 = false ∨ v.testBit 9 = false) := by
  rw [show PTE_V = 2 ^ 0 by norm_num [PTE_V], show PTE_PG = 2 ^ 9 by norm_num [PTE_PG],
    flag_zero_iff, flag_zero_iff]

theorem write_write (k : Kernel) (t i a b : Nat) : (k.write t i a).write t i b = k.write t i b := by
  apply kernel_ext
  · intro f w
    simp only [Kernel.write]
    by_cases e : f = t ∧ w = i
    · rw [if_pos e, if_pos e]
    · rw [if_neg e, if_neg e, if_neg e]
  · rfl
  · rfl

/-- Clearing a flag other than Valid and Swapped keeps the exclusivity of the
value. -/
theorem excl_clear (x j : Nat) (h0 : j ≠ 0) (h9 : j ≠ 9)
    (h : x &&& PTE_V = 0 ∨ x &&& PTE_PG = 0) :
    (x &&& NOT64 (2 ^ j)) &&& PTE_V = 0 ∨ (x &&& NOT64 (2 ^ j)) &&& PTE_PG = 0 := by
  rw [excl_val_iff] at h ⊢
  simp only [Nat.testBit_and, tb_NOT64, Nat.testBit_two_pow]
  have e0 : ¬ (j = 0) := h0
  have e9 : ¬ (j = 9) := h9
  simpa [e0, e9] using h

/-- The function `uvmclear` keeps the tree and the leaf exclusivity. -/
theorem uvmclear_excl (k k' : Kernel) (pt va : Nat) (ht : Tree k pt) (he : Excl k pt)
    (h : uvmclear k pt va = .ok () k') : Tree k' pt ∧ Excl k' pt := by
  unfold uvmclear at h
  obtain ⟨r, k1, hw, h2⟩ := bind_ok_inv _ _ _ _ h
  obtain ⟨e1, e2, _⟩ := walk_noalloc_inv k k1 pt va r hw
  subst e1
  cases r with
  | none => cases h2
  | some l =>
    obtain ⟨t, i⟩ := l
    simp only at h2
    injection h2 with _ hk
    rw [← hk]
    apply excl_write k1 pt va t i _ ht he e2.symm
    have := he va
    rw [pteOf_of_leaf k1 pt va t i e2.symm] at this
    exact excl_clear _ 4 (by norm_num) (by norm_num) this

/-- The loop of `update_counters` keeps the tree and the leaf exclusivity. -/
theorem update_counters_loop_excl (pt : Nat) (n : Nat) :
    ∀ (i : Nat) (k k' : Kernel), k.proc.pagetable = pt → Tree k pt → Excl k pt →
      update_counters_loop n i k = .ok () k' →
      Tree k' pt ∧ Excl k' pt ∧ k'.proc.pagetable = pt := by
  induction n with
  | zero =>
    intro i k k' hpt ht he h
    rw [update_counters_loop] at h
    injection h with _ hk
    rw [← hk]
    exact ⟨ht, he, hpt⟩
  | succ n ih =>
    intro i k k' hpt ht he h
    rw [update_counters_loop] at h
    by_cases hst : (k.proc.memory_pages i).status = INMEMORY
    · rw [if_pos hst] at h
      obtain ⟨r, k1, hw, h2⟩ := bind_ok_inv _ _ _ _ h
      obtain ⟨e1, e2, _⟩ := walk_noalloc_inv k k1 _ _ r hw
      subst e1
      rw [hpt] at e2
      cases r with
      | none => cases h2
      | some l =>
        obtain ⟨t, x⟩ := l
        simp only at h2
        by_cases ha : k1.mem t x &&& PTE_A ≠ 0
        · rw [if_pos ha] at h2
          have hv : (k1.mem t x &&& NOT64 PTE_A) &&& PTE_V = 0
              ∨ (k1.mem t x &&& NOT64 PTE_A) &&& PTE_PG = 0 := by
            have := he (k1.proc.memory_pages i).va
            rw [pteOf_of_leaf k1 pt _ t x e2.symm] at this
            exact excl_clear _ 6 (by norm_num) (by norm_num) this
          refine ih _ _ k' ?_ ?_ ?_ h2
          · exact hpt
          · exact (excl_write _ pt _ t x _ ((mem_eq_facts k1 _ pt rfl).2.2.2.1 ht)
              ((mem_eq_facts k1 _ pt rfl).2.2.2.2 he) e2.symm hv).1
          · exact (excl_write _ pt _ t x _ ((mem_eq_facts k1 _ pt rfl).2.2.2.1 ht)
              ((mem_eq_facts k1 _ pt rfl).2.2.2.2 he) e2.symm hv).2
        · rw [if_neg ha] at h2
          refine ih _ _ k' ?_ ?_ ?_ h2
          · exact hpt
          · exact (mem_eq_facts k1 _ pt rfl).2.2.2.1 ht
          · exact (mem_eq_facts k1 _ pt rfl).2.2.2.2 he
    · rw [if_neg hst] at h
      exact ih _ k k' hpt ht he h

theorem uvmunmap_resident_mem (algo : SwapAlgo) (k k2 : Kernel) (pt a sh : Nat)
    (h : uvmunmap_resident algo k pt a sh = .ok () k2) :
    k2.mem = k.mem ∧ k2.freelist = k.freelist := by
  unfold uvmunmap_resident at h
  by_cases h1 : algo ≠ .NONE ∧ sh ≠ 0 ∧ pt = k.proc.pagetable
  · rw [if_pos h1] at h
    cases hfp : freePage k.proc.memory_pages a with
    | none => rw [hfp] at h; cases h
    | some pp =>
      obtain ⟨position, pages⟩ := pp
      rw [hfp] at h
      simp only at h
      by_cases h2 : algo = .SCFIFO
      · rw [if_pos h2] at h
        split at h
        · cases h
        · injection h with _ hk
          rw [← hk]
          exact ⟨rfl, rfl⟩
      · rw [if_neg h2] at h
        injection h with _ hk
        rw [← hk]
        exact ⟨rfl, rfl⟩
  · rw [if_neg h1] at h
    injection h with _ hk
    rw [← hk]
    exact ⟨rfl, rfl⟩

/-- The release of the frame in one iteration of `uvmunmap` leaves memory as
it is. -/
theorem uvmunmap_free_mem (algo : SwapAlgo) (k1 k3 : Kernel) (pt a t i do_free sh : Nat)
    (h : (if do_free ≠ 0 ∧ k1.mem t i &&& PTE_V ≠ 0 then
            (uvmunmap_resident algo k1 pt a sh).bind fun _ k2 =>
              .ok () (kfree k2 (PTE2PA (k2.mem t i)))
           else .ok () k1 : Res Unit) = .ok () k3) :
    k3.mem = k1.mem := by
  split_ifs at h with hc
  · obtain ⟨_, k2, hr, hk⟩ := bind_ok_inv _ _ _ _ h
    injection hk with _ hk
    rw [← hk]
    exact (uvmunmap_resident_mem algo k1 k2 pt a sh hr).1
  · injection h with _ hk
    rw [← hk]

/-- The release of the swap slot in one iteration of `uvmunmap` leaves memory
and the free list as they are. -/
theorem uvmunmap_swap_mem (algo : SwapAlgo) (k3 k4 : Kernel) (pt a t i sh : Nat)
    (h : (if algo ≠ .NONE ∧ sh ≠ 0 ∧ pt = k3.proc.pagetable ∧ k3.mem t i &&& PTE_PG ≠ 0 then
            match freePage k3.proc.swapfile_pages a with
            | none => .stop .couldnt_find_page
            | some (_, pages) =>
              .ok () { k3 with proc := { k3.proc with swapfile_pages := pages } }
           else .ok () k3 : Res Unit) = .ok () k4) :
    k4.mem = k3.mem ∧ k4.freelist = k3.freelist := by
  split_ifs at h with hc
  · split at h
    · cases h
    · injection h with _ hk
      rw [← hk]
      exact ⟨rfl, rfl⟩
  · injection h with _ hk
    rw [← hk]
    exact ⟨rfl, rfl⟩

/-- The loop of `uvmunmap` keeps the tree and the leaf exclusivity. -/
theorem uvmunmap_loop_excl (algo : SwapAlgo) (pt bound do_free sh : Nat) (fuel : Nat) :
    ∀ (k : Kernel) (a : Nat) (k' : Kernel), Tree k pt → Excl k pt →
      uvmunmap_loop algo fuel k pt a bound do_free sh = .ok () k' →
      Tree k' pt ∧ Excl k' pt := by
  induction fuel with
  | zero =>
    intro k a k' _ _ h
    rw [uvmunmap_loop] at h
    cases h
  | succ fuel ih =>
    intro k a k' ht he h
    rw [uvmunmap_loop] at h
    by_cases hab : a < bound
    swap
    · rw [if_neg hab] at h
      injection h with _ hk
      rw [← hk]
      exact ⟨ht, he⟩
    rw [if_pos hab] at h
    obtain ⟨r, k1, hw, h2⟩ := bind_ok_inv _ _ _ _ h
    obtain ⟨e1, e2, _⟩ := walk_noalloc_inv k k1 _ _ r hw
    subst e1
    cases r with
    | none => cases h2
    | some l =>
      obtain ⟨t, i⟩ := l
      simp only at h2
      by_cases c1 : k1.mem t i &&& (PTE_V ||| PTE_PG) = 0
      · rw [if_pos c1] at h2; cases h2
      rw [if_neg c1] at h2
      by_cases c2 : PTE_FLAGS (k1.mem t i) = PTE_V
      · rw [if_pos c2] at h2; cases h2
      rw [if_neg c2] at h2
      obtain ⟨_, k3, hx, h3⟩ := bind_ok_inv _ _ _ _ h2
      obtain ⟨_, k4, hy, hl⟩ := bind_ok_inv _ _ _ _ h3
      have hm3 := uvmunmap_free_mem algo k1 k3 pt a t i do_free sh hx
      have hm4 := (uvmunmap_swap_mem algo k3 k4 pt a t i sh hy).1
      obtain ⟨_, f2, _, f4, f5⟩ := mem_eq_facts k1 k4 pt (hm4.trans hm3)
      have := excl_write k4 pt a t i 0 (f4 ht) (f5 he) (by rw [f2]; exact e2.symm)
        (Or.inl (by simp))
      exact ih _ _ k' this.1 this.2 hl

theorem leaf_value_excl (pa perm : Nat) (hperm : perm &&& PTE_PG = 0) :
    ((PA2PTE pa ||| perm ||| PTE_V) % U64) &&& PTE_V = 0
      ∨ ((PA2PTE pa ||| perm ||| PTE_V) % U64) &&& PTE_PG = 0 := by
  right
  rw [show PTE_PG = 2 ^ 9 by norm_num [PTE_PG], flag_zero_iff] at hperm ⊢
  rw [U64, Nat.testBit_mod_two_pow, Nat.testBit_or, Nat.testBit_or, tb_PA2PTE, hperm]
  have : Nat.testBit PTE_V 9 = false := by decide
  simp [this]

/-- The loop of `mappages`, for permissions without the Swapped bit, keeps the
tree and the leaf exclusivity, whatever it returns. -/
theorem mappages_loop_excl (pt last perm : Nat) (hperm : perm &&& PTE_PG = 0) (fuel : Nat) :
    ∀ (k : Kernel) (a pa : Nat) (v : Int) (k' : Kernel), PTWf k pt → Excl k pt →
      mappages_loop fuel k pt a last pa perm = .ok v k' → PTWf k' pt ∧ Excl k' pt := by
  induction fuel with
  | zero =>
    intro k a pa v k' _ _ h
    rw [mappages_loop] at h
    cases h
  | succ fuel ih =>
    intro k a pa v k' hwf he h
    rw [mappages_loop] at h
    obtain ⟨r, k1, hw, h2⟩ := bind_ok_inv _ _ _ _ h
    by_cases haM : a < MAXVA
    swap
    · unfold walk at hw
      rw [if_pos (by omega)] at hw
      cases hw
    obtain ⟨r', k1', hw', hstep, _, hleaf, _⟩ := walk_alloc k pt a hwf haM
    rw [hw] at hw'
    injection hw' with e1 e2
    subst e1
    subst e2
    have he1 : Excl k1 pt := excl_congr k k1 pt hstep.pte he
    cases r with
    | none =>
      simp only at h2
      injection h2 with _ hk
      rw [← hk]
      exact ⟨hstep.wf, he1⟩
    | some l =>
      obtain ⟨t, i⟩ := l
      simp only at h2
      have hl := hleaf (t, i) rfl
      by_cases hv : k1.mem t i &&& PTE_V ≠ 0
      · rw [if_pos hv] at h2; cases h2
      rw [if_neg hv] at h2
      have hwf2 := PTWf_write k1 pt a t i ((PA2PTE pa ||| perm ||| PTE_V) % U64) hstep.wf hl
      have he2 := (excl_write k1 pt a t i ((PA2PTE pa ||| perm ||| PTE_V) % U64) hstep.wf.inj
        he1 hl (leaf_value_excl pa perm hperm)).2
      by_cases hlast : a = last
      · rw [if_pos hlast] at h2
        injection h2 with _ hk
        rw [← hk]
        exact ⟨hwf2, he2⟩
      · rw [if_neg hlast] at h2
        exact ih _ _ _ v k' hwf2 he2 h2

/-- The function `mappages`, for permissions without the Swapped bit, keeps the
tree and the leaf exclusivity. -/
theorem mappages_excl (k k' : Kernel) (pt va size pa perm : Nat) (v : Int)
    (hperm : perm &&& PTE_PG = 0) (hwf : PTWf k pt) (he : Excl k pt)
    (h : mappages k pt va size pa perm = .ok v k') : PTWf k' pt ∧ Excl k' pt := by
  unfold mappages at h
  by_cases hs : size = 0
  · rw [if_pos hs] at h; cases h
  · rw [if_neg hs] at h
    exact mappages_loop_excl pt _ perm hperm _ k _ pa v k' hwf he h

theorem evictScan_excl (k ke : Kernel) (h : EvictScan k ke) (he : Excl k k.proc.pagetable) :
    Excl ke k.proc.pagetable := by
  intro va
  rcases h.pte va with e | e
  · rw [e]; exact he va
  · rw [e]; exact excl_clear _ 6 (by norm_num) (by norm_num) (he va)

/-- What a completed `swap_out` leaves: the tables as they were, a tree, the
leaf exclusivity, and the leaf of the victim Swapped and not Valid. -/
theorem swap_out_excl (algo : SwapAlgo) (k k1 : Kernel) (hwf : PTWf k k.proc.pagetable)
    (he : Excl k k.proc.pagetable) (h : swap_out algo k k.proc.pagetable = .ok () k1) :
    Tree k1 k.proc.pagetable ∧ Excl k1 k.proc.pagetable
      ∧ k1.proc.pagetable = k.proc.pagetable
      ∧ (∀ p, frameAt k1 k.proc.pagetable p = frameAt k k.proc.pagetable p)
      ∧ ∃ m ke, findPageToEvict algo k = .ok m ke
          ∧ pteOf k1 k.proc.pagetable (ke.proc.memory_pages m).va &&& PTE_PG ≠ 0
          ∧ pteOf k1 k.proc.pagetable (ke.proc.memory_pages m).va &&& PTE_V = 0 := by
  have h0 := h
  unfold swap_out at h
  cases hs : findFree k.proc.swapfile_pages with
  | none => rw [hs] at h; cases h
  | some s =>
    rw [hs] at h
    simp only at h
    obtain ⟨m, ke, hev, h2⟩ := bind_ok_inv _ _ _ _ h
    obtain ⟨r, k4, hw, h3⟩ := bind_ok_inv _ _ _ _ h2
    obtain ⟨e1, e2, e3⟩ := walk_noalloc_inv _ k4 _ _ r hw
    simp only [upd_same] at e2 e3
    cases r with
    | none => cases h3
    | some l =>
      obtain ⟨t, i⟩ := l
      have hscan := findPageToEvict_evictScan algo k ke m hwf hev
      have hl : leaf ke k.proc.pagetable (ke.proc.memory_pages m).va = some (t, i) := by
        rw [e2]
        exact (leaf_congr ke _ _ _ rfl).symm
      obtain ⟨k1', s1, s2, _, s4, _⟩ :=
        swap_out_spec algo k ke k.proc.pagetable s m t i hs hev e3 hl
      rw [h0] at s1
      injection s1 with _ hk
      rw [← hk] at s2 s4
      have hm : k1.mem = (ke.write t i ((ke.mem t i &&& NOT64 PTE_V) ||| PTE_PG)).mem := by
        rw [s2]; rfl
      obtain ⟨w1, w2, w3, w4⟩ :=
        tree_write ke k.proc.pagetable _ t i ((ke.mem t i &&& NOT64 PTE_V) ||| PTE_PG)
          hscan.wf.inj hl
      obtain ⟨f1, f2, f3, f4, f5⟩ := mem_eq_facts _ k1 k.proc.pagetable hm
      have hval : ((ke.mem t i &&& NOT64 PTE_V) ||| PTE_PG) &&& PTE_V = 0 := by
        rw [show PTE_V = 2 ^ 0 by norm_num [PTE_V], flag_zero_iff, Nat.testBit_or,
          Nat.testBit_and, tb_NOT64]
        have : Nat.testBit PTE_PG 0 = false := by decide
        simp [this]
      have hex := (excl_write ke k.proc.pagetable _ t i _ hscan.wf.inj
        (evictScan_excl k ke hscan he) hl (Or.inl hval)).2
      refine ⟨f4 w2, f5 hex, ?_, ?_, m, ke, hev, ?_, ?_⟩
      · rw [s4]; exact hscan.pagetable
      · intro p
        rw [f1, w1, hscan.frames]
      · rw [f3, w4, if_pos hl]
        exact set_flag _ 9
      · rw [f3, w4, if_pos hl]
        exact hval

/-- What a completed `allocate_page` leaves of the page table. -/
theorem allocate_page_excl (algo : SwapAlgo) (k k5 : Kernel) (va : Nat)
    (hwf : PTWf k k.proc.pagetable) (he : Excl k k.proc.pagetable)
    (h : allocate_page algo k k.proc.pagetable va = .ok () k5) :
    Tree k5 k.proc.pagetable ∧ Excl k5 k.proc.pagetable
      ∧ k5.proc.pagetable = k.proc.pagetable
      ∧ ∀ p, frameAt k5 k.proc.pagetable p = frameAt k k.proc.pagetable p := by
  unfold allocate_page at h
  obtain ⟨_, k1, h1, h2⟩ := bind_ok_inv _ _ _ _ h
  have hk1 : Tree k1 k.proc.pagetable ∧ Excl k1 k.proc.pagetable
      ∧ k1.proc.pagetable = k.proc.pagetable
      ∧ ∀ p, frameAt k1 k.proc.pagetable p = frameAt k k.proc.pagetable p := by
    by_cases hn : k.proc.num_of_phys_pages = MAX_PSYC_PAGES
    · rw [if_pos hn] at h1
      obtain ⟨a, b, c, d, _⟩ := swap_out_excl algo k k1 hwf he h1
      exact ⟨a, b, c, d⟩
    · rw [if_neg hn] at h1
      injection h1 with _ hk
      rw [← hk]
      exact ⟨hwf.inj, he, rfl, fun _ => rfl⟩
  obtain ⟨a, b, c, d⟩ := hk1
  cases hq : findFree k1.proc.memory_pages with
  | none => rw [hq] at h2; cases h2
  | some q =>
    rw [hq] at h2
    simp only at h2
    injection h2 with _ hk
    have hm : k5.mem = k1.mem := by rw [← hk]
    obtain ⟨f1, _, _, f4, f5⟩ := mem_eq_facts k1 k5 k.proc.pagetable hm
    refine ⟨f4 a, f5 b, ?_, fun p => (f1 p).trans (d p)⟩
    rw [← hk]
    cases algo with
    | SCFIFO =>
      simp only
      rw [(set_scfifo_fields _ q).2.1]
      exact c
    | NONE => exact c
    | NFUA => exact c
    | LAPA => exact c

theorem fault_value (x : Nat) :
    ((x &&& NOT64 PTE_PG) ||| PTE_V) &&& PTE_V ≠ 0
      ∧ ((x &&& NOT64 PTE_PG) ||| PTE_V) &&& PTE_PG = 0 := by
  constructor
  · exact set_flag _ 0
  · rw [show PTE_PG = 2 ^ 9 by norm_num [PTE_PG], flag_zero_iff, Nat.testBit_or,
      Nat.testBit_and, tb_NOT64, Nat.testBit_two_pow]
    have : Nat.testBit PTE_V 9 = false := by decide
    simp [this]

/-- What a completed `page_fault` leaves: a tree, the leaf exclusivity, and
when it returns 3 the faulted leaf Valid and not Swapped; it returns 0
without a change when the leaf is not Swapped. -/
theorem page_fault_excl (algo : SwapAlgo) (k kf : Kernel) (va : Nat) (r : Int)
    (hwf : PTWf k k.proc.pagetable) (he : Excl k k.proc.pagetable)
    (h : page_fault algo k va = .ok r kf) :
    Tree kf k.proc.pagetable ∧ Excl kf k.proc.pagetable ∧ (r = 0 ∨ r = 3)
      ∧ (r = 0 → kf = k ∧ pteOf k k.proc.pagetable va &&& PTE_PG = 0)
      ∧ (r = 3 → pteOf kf k.proc.pagetable va &&& PTE_V ≠ 0
          ∧ pteOf kf k.proc.pagetable va &&& PTE_PG = 0) := by
  unfold page_fault at h
  obtain ⟨r1, k1, hw1, h2⟩ := bind_ok_inv _ _ _ _ h
  obtain ⟨e1, e2, _⟩ := walk_noalloc_inv k k1 _ _ r1 hw1
  subst e1
  cases r1 with
  | none => cases h2
  | some l =>
    obtain ⟨t, i⟩ := l
    simp only at h2
    by_cases hpg : k1.mem t i &&& PTE_PG = 0
    · rw [if_pos hpg] at h2
      injection h2 with hr hk
      rw [← hk, ← hr]
      exact ⟨hwf.inj, he, Or.inl rfl,
        fun _ => ⟨rfl, by rw [pteOf_of_leaf _ _ va t i e2.symm]; exact hpg⟩,
        fun h3 => by cases h3⟩
    rw [if_neg hpg] at h2
    unfold kalloc at h2
    cases hfl : k1.freelist with
    | nil =>
      rw [hfl] at h2
      simp only at h2
      split at h2 <;> cases h2
    | cons f rest =>
      rw [hfl] at h2
      simp only at h2
      cases hloc : findPageLocation k1.proc.swapfile_pages va with
      | none => rw [hloc] at h2; cases h2
      | some pp =>
        obtain ⟨position, pages⟩ := pp
        rw [hloc] at h2
        simp only at h2
        obtain ⟨_, k5, ha, h3⟩ := bind_ok_inv _ _ _ _ h2
        injection h3 with hr hk
        -- the frame read from the swap file is not a table
        have hfresh : ∀ p, frameAt k1 k1.proc.pagetable p ≠ some f := by
          intro p hp
          exact hwf.fresh p f hp (by rw [hfl]; simp)
        have hst := tables_stable k1
          (readFromSwapFile
            { k1 with freelist := rest, proc := { k1.proc with swapfile_pages := pages } }
            f (position * PGSIZE)) k1.proc.pagetable (by
              intro p t' ht' j
              simp only [readFromSwapFile, upd]
              rw [if_neg]
              intro e
              exact hfresh p (e ▸ ht'))
        have hwf4 : PTWf (readFromSwapFile
            { k1 with freelist := rest, proc := { k1.proc with swapfile_pages := pages } }
            f (position * PGSIZE)) k1.proc.pagetable := by
          refine ⟨tree_congr k1 _ _ hst.1 hwf.inj, ?_, ?_, ?_⟩
          · intro p g hp hg
            rw [hst.1] at hp
            exact hwf.fresh p g hp (by rw [hfl]; exact List.mem_cons_of_mem _ hg)
          · have := hwf.nodup
            rw [hfl] at this
            exact (List.nodup_cons.mp this).2
          · intro g hg
            exact hwf.aligned g (by rw [hfl]; exact List.mem_cons_of_mem _ hg)
        obtain ⟨a1, a2, a3, a4⟩ := allocate_page_excl algo _ k5 va hwf4
          (excl_congr k1 _ _ hst.2.1 he) ha
        have hl5 : leaf k5 k1.proc.pagetable va = some (t, i) := by
          rw [leaf_eq_frameAt]
          have e5 : frameAt k5 k1.proc.pagetable (.l0 (PX 2 va) (PX 1 va))
              = frameAt k1 k1.proc.pagetable (.l0 (PX 2 va) (PX 1 va)) :=
            (a4 _).trans (hst.1 _)
          rw [e5, ← leaf_eq_frameAt]
          exact e2.symm
        have hk8 : kf = k5.write t i
            ((((PA2PTE f ||| PTE_FLAGS (k5.mem t i)) % U64) &&& NOT64 PTE_PG) ||| PTE_V) := by
          rw [← hk]
          simp only [write_mem_same, write_write]
        have a1' : Tree k5 k1.proc.pagetable := a1
        have a2' : Excl k5 k1.proc.pagetable := a2
        obtain ⟨hv1, hv2⟩ :=
          fault_value ((PA2PTE f ||| PTE_FLAGS (k5.mem t i)) % U64)
        obtain ⟨w1, w2, w3, w4⟩ := tree_write k5 k1.proc.pagetable va t i
          ((((PA2PTE f ||| PTE_FLAGS (k5.mem t i)) % U64) &&& NOT64 PTE_PG) ||| PTE_V) a1' hl5
        have hex := (excl_write k5 k1.proc.pagetable va t i _ a1' a2' hl5 (Or.inr hv2)).2
        rw [hk8]
        refine ⟨w2, hex, Or.inr hr.symm, ?_, ?_⟩
        · intro h0
          rw [h0] at hr
          cases hr
        · intro _
          rw [w4, if_pos hl5]
          exact ⟨hv1, hv2⟩

/-! ## Frames that `walk` takes become tables -/

theorem level2_acct (k k2 : Kernel) (pt va : Nat) (r : Option Nat) (hwf : PTWf k pt)
    (h : walk_level k pt va 2 1 = .ok r k2) :
    ∀ x, x ∈ k.freelist → x ∈ k2.freelist ∨ ∃ p, frameAt k2 pt p = some x := by
  intro x hx
  rcases walk_level_alloc_cases k pt va 2 with ⟨_, e⟩ | ⟨_, _, e⟩ | ⟨f, rest, hv, hfl, e⟩
  · rw [e] at h
    injection h with _ hk
    rw [← hk]
    exact Or.inl hx
  · rw [e] at h
    injection h with _ hk
    rw [← hk]
    exact Or.inl hx
  · rw [e] at h
    injection h with _ hk
    rw [← hk]
    rw [hfl] at hx
    rcases List.mem_cons.mp hx with e1 | e1
    · right
      refine ⟨.l1 (PX 2 va), ?_⟩
      rw [frameAt_alloc_l1 k pt _ f rest hwf (PX_lt 2 va) hv hfl, if_pos rfl, e1]
    · left
      exact e1

theorem level1_acct (k k1 : Kernel) (pt va : Nat) (r : Option Nat) (hwf : PTWf k pt)
    (hv2 : k.mem pt (PX 2 va) &&& PTE_V ≠ 0)
    (h : walk_level k (PTE2PA (k.mem pt (PX 2 va))) va 1 1 = .ok r k1) :
    ∀ x, x ∈ k.freelist → x ∈ k1.freelist ∨ ∃ p, frameAt k1 pt p = some x := by
  intro x hx
  rcases walk_level_alloc_cases k (PTE2PA (k.mem pt (PX 2 va))) va 1 with
    ⟨_, e⟩ | ⟨_, _, e⟩ | ⟨f, rest, hv, hfl, e⟩
  · rw [e] at h
    injection h with _ hk
    rw [← hk]
    exact Or.inl hx
  · rw [e] at h
    injection h with _ hk
    rw [← hk]
    exact Or.inl hx
  · rw [e] at h
    injection h with _ hk
    rw [← hk]
    rw [hfl] at hx
    rcases List.mem_cons.mp hx with e1 | e1
    · right
      refine ⟨.l0 (PX 2 va) (PX 1 va), ?_⟩
      rw [frameAt_alloc_l0 k pt _ _ f rest hwf (PX_lt 2 va) hv2 (PX_lt 1 va) hv hfl,
        if_pos rfl, e1]
    · left
      exact e1

/-- Every frame that `walk` takes from the free list is a table of the page
table afterwards. -/
theorem walk_alloc_acct (k k' : Kernel) (pt va : Nat) (r : Option (Nat × Nat))
    (hwf : PTWf k pt) (h : walk k pt va 1 = .ok r k') :
    ∀ x, x ∈ k.freelist → x ∈ k'.freelist ∨ ∃ p, frameAt k' pt p = some x := by
  unfold walk at h
  by_cases hva : va ≥ MAXVA
  · rw [if_pos hva] at h; cases h
  rw [if_neg hva] at h
  obtain ⟨r2, k2, h2, s2, _, hs2, _⟩ := walk_level2_alloc k pt va hwf
  have a2 := level2_acct k k2 pt va r2 hwf h2
  rw [h2] at h
  simp only [Res.bind] at h
  cases r2 with
  | none =>
    simp only at h
    injection h with _ hk
    rw [← hk]
    exact a2
  | some t1 =>
    simp only at h
    obtain ⟨hv2, ht1⟩ := hs2 t1 rfl
    obtain ⟨r1, k1, h1, s1, _, _, _⟩ := walk_level1_alloc k2 pt va s2.wf hv2
    rw [ht1] at h1
    have a1 := level1_acct k2 k1 pt va r1 s2.wf hv2 (by rw [ht1]; exact h1)
    rw [h1] at h
    have hk : k1 = k' := by
      cases r1 with
      | none =>
        simp only at h
        injection h with _ hk
      | some t0 =>
        simp only at h
        injection h with _ hk
    rw [← hk]
    intro x hx
    rcases a2 x hx with e | ⟨p, hp⟩
    · exact a1 x e
    · exact Or.inr ⟨p, s1.mono p x hp⟩

/-! ## One page of `uvmcopy` -/

/-- The function `mappages` for one page that has no Valid leaf: it returns 0
after storing the leaf PTE, or -1 after `walk` found the free list empty,
with every leaf PTE as before. -/
theorem mappages_page (k : Kernel) (pt a pa perm : Nat) (hwf : PTWf k pt)
    (ha : a % 4096 = 0) (haM : a < MAXVA) (hun : pteOf k pt a &&& PTE_V = 0) :
    (∃ k', mappages k pt a PGSIZE pa perm = .ok 0 k' ∧ Grow k k' pt
        ∧ (∀ va, va < MAXVA → pteOf k' pt va
            = if a ≤ va ∧ va < a + 4096 then (PA2PTE pa ||| perm ||| PTE_V) % U64
              else pteOf k pt va)
        ∧ leaf k' pt a ≠ none
        ∧ ∀ x, x ∈ k.freelist → x ∈ k'.freelist ∨ ∃ p, frameAt k' pt p = some x)
      ∨ (∃ k', mappages k pt a PGSIZE pa perm = .ok (-1) k' ∧ Step k k' pt
          ∧ k'.freelist = []
          ∧ ∀ x, x ∈ k.freelist → x ∈ k'.freelist ∨ ∃ p, frameAt k' pt p = some x) := by
  have hM : MAXVA = 274877906944 := by norm_num [MAXVA]
  have hP : PGSIZE = 4096 := rfl
  obtain ⟨ea, el⟩ := mappages_args a PGSIZE (by norm_num [PGSIZE]) (by rw [hP]; omega)
  have ea' : PGROUNDDOWN a = a := by rw [ea]; omega
  have el' : PGROUNDDOWN ((a + PGSIZE - 1) % U64) = a := by rw [el, hP]; omega
  have hfuel : MAXVA / PGSIZE + 1 = 67108864 + 1 := by norm_num [MAXVA, PGSIZE]
  have hm : mappages k pt a PGSIZE pa perm = mappages_loop (67108864 + 1) k pt a a pa perm := by
    simp only [mappages, ea', el', hfuel]
    rw [if_neg (by norm_num [PGSIZE])]
  rw [hm, mappages_loop]
  obtain ⟨r, k1, hw, hstep, hnone, hleaf, _⟩ := walk_alloc k pt a hwf haM
  have hacct := walk_alloc_acct k k1 pt a r hwf hw
  rw [hw]
  simp only [Res.bind]
  cases r with
  | none =>
    right
    exact ⟨k1, rfl, hstep, (hnone rfl).1, hacct⟩
  | some l =>
    left
    obtain ⟨t, i⟩ := l
    have hl := hleaf (t, i) rfl
    have hp1 : k1.mem t i = pteOf k pt a := by
      rw [← hstep.pte, pteOf_of_leaf k1 pt a t i hl]
    simp only
    rw [if_neg (by rw [hp1]; simpa using hun), if_pos trivial]
    refine ⟨_, rfl, grow_trans k k1 _ pt (step_grow k k1 pt hstep)
      (grow_write k1 pt a t i _ hstep.wf hl), ?_, ?_, ?_⟩
    · intro va hva
      rw [pteOf_write k1 pt a t i _ hstep.wf hl, hstep.pte]
      have := leaf_same_page_iff k1 pt a va (t, i) hstep.wf ha haM hva hl
      by_cases e : a ≤ va ∧ va < a + 4096
      · rw [if_pos (this.2 e), if_pos e]
      · rw [if_neg (fun h => e (this.1 h)), if_neg e]
    · rw [leaf_write k1 pt a t i _ hstep.wf hl, hl]
      simp
    · intro x hx
      rcases hacct x hx with e | ⟨p, hp⟩
      · exact Or.inl e
      · exact Or.inr ⟨p, (grow_write k1 pt a t i _ hstep.wf hl).mono p x hp⟩

/-! ## Allocator steps and the tree -/

theorem PTWf_pop (k k' : Kernel) (pt f : Nat) (rest : List Nat) (hwf : PTWf k pt)
    (hfl : k.freelist = f :: rest) (hfa : ∀ p, frameAt k' pt p = frameAt k pt p)
    (hfl' : k'.freelist = rest) : PTWf k' pt := by
  have hnd := hwf.nodup
  rw [hfl] at hnd
  refine ⟨tree_congr k k' pt hfa hwf.inj, ?_, ?_, ?_⟩
  · intro p g hp hg
    rw [hfa] at hp
    rw [hfl'] at hg
    exact hwf.fresh p g hp (by rw [hfl]; exact List.mem_cons_of_mem _ hg)
  · rw [hfl']
    exact (List.nodup_cons.mp hnd).2
  · intro g hg
    rw [hfl'] at hg
    exact hwf.aligned g (by rw [hfl]; exact List.mem_cons_of_mem _ hg)

theorem PTWf_push (k : Kernel) (pt f : Nat) (hwf : PTWf k pt) (hf : f ∉ k.freelist)
    (hal : f % 4096 = 0 ∧ f < U64) (hnt : ∀ p, frameAt k pt p ≠ some f) :
    PTWf (kfree k f) pt := by
  refine ⟨hwf.inj, ?_, ?_, ?_⟩
  · intro p g hp hg
    have hp' : frameAt k pt p = some g := hp
    rcases List.mem_cons.mp hg with e | e
    · exact hnt p (e ▸ hp')
    · exact hwf.fresh p g hp' e
  · exact List.nodup_cons.mpr ⟨hf, hwf.nodup⟩
  · intro g hg
    rcases List.mem_cons.mp hg with e | e
    · rw [e]; exact hal
    · exact hwf.aligned g e

/-- The flags of a Valid PTE, as `uvmcopy` passes them to `mappages`. -/
theorem valid_flags (x : Nat) (h : x &&& PTE_V ≠ 0) :
    PTE_FLAGS x % 2 ^ 32 = PTE_FLAGS x ∧ PTE_FLAGS x < 1024
      ∧ PTE_FLAGS x ||| PTE_V = PTE_FLAGS x := by
  have hlt : PTE_FLAGS x < 1024 := by rw [PTE_FLAGS_eq]; omega
  refine ⟨Nat.mod_eq_of_lt (by omega), hlt, ?_⟩
  rw [show PTE_V = 2 ^ 0 by norm_num [PTE_V], flag_iff] at h
  apply Nat.eq_of_testBit_eq
  intro j
  rw [Nat.testBit_or, tb_FLAGS]
  by_cases e : j = 0
  · rw [e, h]; simp [PTE_V]
  · have : Nat.testBit PTE_V j = false := by
      rw [show PTE_V = 2 ^ 0 by norm_num [PTE_V], Nat.testBit_two_pow]
      simp; omega
    rw [this]; simp

theorem flags_flag (x i : Nat) (hi : i < 10) : PTE_FLAGS x &&& 2 ^ i = x &&& 2 ^ i := by
  rw [Nat.and_two_pow, Nat.and_two_pow, tb_FLAGS]
  simp [hi]

/-! ## The invariant of `uvmcopy`, branch by branch -/

/-- The frame taken for the copy of a page, filled from the source frame:
both page tables are as before. -/
theorem copy_setup (k0 k : Kernel) (old new i sz f pa : Nat) (rest : List Nat)
    (hinv : CopyInv k0 k old new i sz) (hfl : k.freelist = f :: rest) :
    PTWf (({ k with freelist := rest } : Kernel).copy f pa) new
      ∧ (∀ p, frameAt (({ k with freelist := rest } : Kernel).copy f pa) new p
          = frameAt k new p)
      ∧ (∀ va, pteOf (({ k with freelist := rest } : Kernel).copy f pa) new va
          = pteOf k new va)
      ∧ (∀ p, frameAt (({ k with freelist := rest } : Kernel).copy f pa) old p
          = frameAt k0 old p)
      ∧ (∀ va, pteOf (({ k with freelist := rest } : Kernel).copy f pa) old va
          = pteOf k0 old va)
      ∧ (∀ p, frameAt k0 old p ≠ some f) ∧ (∀ p, frameAt k new p ≠ some f)
      ∧ f ∉ rest ∧ (f % 4096 = 0 ∧ f < U64) := by
  have hfm : f ∈ k.freelist := by rw [hfl]; simp
  have hfO : ∀ p, frameAt k0 old p ≠ some f := fun p hp => hinv.freshO p f hp hfm
  have hfN : ∀ p, frameAt k new p ≠ some f := fun p hp => hinv.wfN.fresh p f hp hfm
  have hmem : ∀ t, t ≠ f → ∀ j,
      (({ k with freelist := rest } : Kernel).copy f pa).mem t j = k.mem t j := by
    intro t ht j
    simp [Kernel.copy, ht]
  have stN := tables_stable k (({ k with freelist := rest } : Kernel).copy f pa) new
    (fun p t ht j => hmem t (fun e => hfN p (e ▸ ht)) j)
  have stO := tables_stable k (({ k with freelist := rest } : Kernel).copy f pa) old
    (fun p t ht j => hmem t (fun e => hfO p (by rw [← hinv.oldF]; exact e ▸ ht)) j)
  have hnd := hinv.wfN.nodup
  rw [hfl] at hnd
  refine ⟨PTWf_pop k _ new f rest hinv.wfN hfl stN.1 rfl, stN.1, stN.2.1, ?_, ?_, hfO, hfN,
    (List.nodup_cons.mp hnd).1, hinv.wfN.aligned f hfm⟩
  · intro p
    rw [stO.1, hinv.oldF]
  · intro va
    rw [stO.2.1, hinv.oldP]

/-- A call that grows the destination table leaves the source table alone. -/
theorem grow_keeps_old (k0 k2 k3 : Kernel) (old new : Nat) (g : Grow k2 k3 new)
    (hoF : ∀ p, frameAt k2 old p = frameAt k0 old p)
    (hoP : ∀ va, pteOf k2 old va = pteOf k0 old va)
    (hfresh : ∀ p f, frameAt k0 old p = some f → f ∉ k2.freelist)
    (hdisj : ∀ p q f, frameAt k0 old p = some f → frameAt k2 new q ≠ some f) :
    (∀ p, frameAt k3 old p = frameAt k0 old p) ∧ (∀ va, pteOf k3 old va = pteOf k0 old va)
      ∧ (∀ p f, frameAt k0 old p = some f → f ∉ k3.freelist)
      ∧ (∀ p q f, frameAt k0 old p = some f → frameAt k3 new q ≠ some f) := by
  have st := tables_stable k2 k3 old (by
    intro p t ht j
    rw [hoF] at ht
    exact g.other t (hfresh p t ht) (fun q => hdisj p q t ht) j)
  refine ⟨fun p => (st.1 p).trans (hoF p), fun va => (st.2.1 va).trans (hoP va), ?_, ?_⟩
  · intro p f hp hf
    exact hfresh p f hp (g.suffix.subset hf)
  · intro p q f hp hq
    rcases g.tables q f hq with ⟨q', hq'⟩ | hm
    · exact hdisj p q' f hp hq'
    · exact hfresh p f hp hm

/-- The Valid branch of `uvmcopy` when `mappages` returns 0: page `i` is
copied. -/
theorem copy_valid_ok (k0 k k3 : Kernel) (old new i sz f : Nat) (rest : List Nat)
    (hinv : CopyInv k0 k old new i sz) (hi : i % 4096 = 0) (hisz : i < sz) (hsz : sz ≤ MAXVA)
    (hv : pteOf k0 old i &&& PTE_V ≠ 0) (hfl : k.freelist = f :: rest)
    (g : Grow (({ k with freelist := rest } : Kernel).copy f (PTE2PA (pteOf k0 old i))) k3 new)
    (hp : ∀ va, va < MAXVA → pteOf k3 new va
      = if i ≤ va ∧ va < i + 4096
        then (PA2PTE f ||| PTE_FLAGS (pteOf k0 old i) % 2 ^ 32 ||| PTE_V) % U64
        else pteOf (({ k with freelist := rest } : Kernel).copy f (PTE2PA (pteOf k0 old i)))
          new va)
    (hacct : ∀ x, x ∈ rest → x ∈ k3.freelist ∨ ∃ p, frameAt k3 new p = some x)
    (hex : Excl k0 old → Excl k3 new) :
    CopyInv k0 k3 old new (i + 4096) sz := by
  have hM : MAXVA = 274877906944 := by norm_num [MAXVA]
  obtain ⟨wf2, nF, nP, oF, oP, hfO, hfN, hfr, hal⟩ :=
    copy_setup k0 k old new i sz f (PTE2PA (pteOf k0 old i)) rest hinv hfl
  obtain ⟨o1, o2, o3, o4⟩ := grow_keeps_old k0 _ k3 old new g oF oP
    (fun p x hx hm => hinv.freshO p x hx (by rw [hfl]; exact List.mem_cons_of_mem _ hm))
    (fun p q x hx hq => hinv.disj p q x hx (by rw [← nF]; exact hq))
  obtain ⟨v1, v2, v3⟩ := valid_flags _ hv
  rw [v1] at hp
  have hentry : ∀ va, i ≤ va → va < i + 4096 →
      pteOf k3 new va = (PA2PTE f ||| PTE_FLAGS (pteOf k0 old i) ||| PTE_V) % U64 := by
    intro va h1 h2
    rw [hp va (by omega), if_pos ⟨h1, h2⟩]
  have hother : ∀ va, va < MAXVA → ¬ (i ≤ va ∧ va < i + 4096) →
      pteOf k3 new va = pteOf k new va := by
    intro va h1 h2
    rw [hp va h1, if_neg h2, nP]
  refine ⟨g.wf, o1, o2, o3, o4, ?_, ?_, ?_, ?_, hex⟩
  · rw [g.proc]
    exact hinv.proc
  · intro va hva
    by_cases hin : i ≤ va
    · have hsame : pteOf k0 old va = pteOf k0 old i :=
        pteOf_same_page k0 old va i (by omega)
      rw [hentry va hin hva, hsame]
      refine ⟨fun _ => ⟨leafEntry_valid f _, ?_⟩, fun h0 => absurd h0 hv⟩
      rw [leaf_entry_FLAGS f _ v2, v3]
    · rw [hother va (by omega) (by omega)]
      exact hinv.done va (by omega)
  · intro va h1 h2
    rw [hother va (by omega) (by omega)]
    exact hinv.todo va (by omega) h2
  · intro x hx
    rcases hinv.acct x hx with e | ⟨p, e⟩ | ⟨va, e1, e2, e3⟩
    · rw [hfl] at e
      rcases List.mem_cons.mp e with e' | e'
      · right; right
        refine ⟨i, by omega, ?_, ?_⟩
        · rw [hentry i (le_refl _) (by omega)]
          exact leafEntry_valid f _
        · rw [hentry i (le_refl _) (by omega), leaf_entry_PTE2PA f _ v2 hal.1 hal.2, e']
      · rcases hacct x e' with h | h
        · exact Or.inl h
        · exact Or.inr (Or.inl h)
    · right; left
      exact ⟨p, g.mono p x (by rw [nF]; exact e)⟩
    · right; right
      refine ⟨va, by omega, ?_, ?_⟩
      · rw [hother va (by omega) (by omega)]; exact e2
      · rw [hother va (by omega) (by omega)]; exact e3

/-- The Valid branch of `uvmcopy` when `mappages` returns -1: the frame of
the copy is released, and page `i` is not copied. -/
theorem copy_valid_fail (k0 k k3 : Kernel) (old new i sz f : Nat) (rest : List Nat)
    (hinv : CopyInv k0 k old new i sz) (hfl : k.freelist = f :: rest)
    (st : Step (({ k with freelist := rest } : Kernel).copy f (PTE2PA (pteOf k0 old i))) k3 new)
    (hfl3 : k3.freelist = [])
    (hacct : ∀ x, x ∈ rest → x ∈ k3.freelist ∨ ∃ p, frameAt k3 new p = some x) :
    CopyInv k0 (kfree k3 f) old new i sz := by
  obtain ⟨wf2, nF, nP, oF, oP, hfO, hfN, hfr, hal⟩ :=
    copy_setup k0 k old new i sz f (PTE2PA (pteOf k0 old i)) rest hinv hfl
  obtain ⟨o1, o2, o3, o4⟩ := grow_keeps_old k0 _ k3 old new (step_grow _ k3 new st) oF oP
    (fun p x hx hm => hinv.freshO p x hx (by rw [hfl]; exact List.mem_cons_of_mem _ hm))
    (fun p q x hx hq => hinv.disj p q x hx (by rw [← nF]; exact hq))
  have hnt : ∀ p, frameAt k3 new p ≠ some f := by
    intro p hp
    rcases st.tables p f hp with ⟨q, hq⟩ | hm
    · rw [nF] at hq
      exact hfN q hq
    · exact hfr hm
  have hpte : ∀ va, pteOf (kfree k3 f) new va = pteOf k new va := by
    intro va
    rw [pteOf_congr k3 (kfree k3 f) new va rfl, st.pte, nP]
  refine ⟨PTWf_push k3 new f st.wf (by rw [hfl3]; simp) hal hnt,
    fun p => (frameAt_mem_eq k3 _ old rfl p).trans (o1 p),
    fun va => (pteOf_congr k3 _ old va rfl).trans (o2 va), ?_, ?_, ?_, ?_, ?_, ?_, ?_⟩
  · intro p x hx hm
    rcases List.mem_cons.mp hm with e | e
    · exact hfO p (e ▸ hx)
    · exact o3 p x hx e
  · intro p q x hx hq
    exact o4 p q x hx ((frameAt_mem_eq k3 _ new rfl q).symm.trans hq)
  · show k3.proc = k0.proc
    rw [st.proc]
    exact hinv.proc
  · intro va hva
    rw [hpte]
    exact hinv.done va hva
  · intro va h1 h2
    rw [hpte]
    exact hinv.todo va h1 h2
  · intro x hx
    rcases hinv.acct x hx with e | ⟨p, e⟩ | ⟨va, e1, e2, e3⟩
    · rw [hfl] at e
      rcases List.mem_cons.mp e with e' | e'
      · left
        rw [e']
        exact List.mem_cons_self _ _
      · rcases hacct x e' with h | ⟨p, h⟩
        · exact Or.inl (List.mem_cons_of_mem _ h)
        · exact Or.inr (Or.inl ⟨p, (frameAt_mem_eq k3 _ new rfl p).trans h⟩)
    · right; left
      exact ⟨p, (frameAt_mem_eq k3 _ new rfl p).trans (st.mono p x (by rw [nF]; exact e))⟩
    · right; right
      exact ⟨va, e1, by rw [hpte]; exact e2, by rw [hpte]; exact e3⟩
  · intro hE
    exact excl_congr k _ new hpte (hinv.excl hE)

/-- The Swapped branch of `uvmcopy`: the flags of the source PTE are stored in
the leaf PTE of the destination. -/
theorem copy_swapped (k0 k : Kernel) (old new i sz nt nx : Nat)
    (hinv : CopyInv k0 k old new i sz) (hi : i % 4096 = 0) (hisz : i < sz) (hsz : sz ≤ MAXVA)
    (hv : pteOf k0 old i &&& PTE_V = 0) (hl : leaf k new i = some (nt, nx)) :
    CopyInv k0 (k.write nt nx (k.mem nt nx ||| PTE_FLAGS (pteOf k0 old i))) old new
      (i + 4096) sz := by
  have hM : MAXVA = 274877906944 := by norm_num [MAXVA]
  have h0 : k.mem nt nx = 0 := by
    rw [← pteOf_of_leaf k new i nt nx hl]
    exact hinv.todo i (le_refl _) hisz
  rw [h0, Nat.zero_or]
  have hg := grow_write k new i nt nx (PTE_FLAGS (pteOf k0 old i)) hinv.wfN hl
  obtain ⟨o1, o2, o3, o4⟩ := grow_keeps_old k0 k _ old new hg hinv.oldF hinv.oldP
    hinv.freshO hinv.disj
  have hpte : ∀ va, va < MAXVA →
      pteOf (k.write nt nx (PTE_FLAGS (pteOf k0 old i))) new va
        = if i ≤ va ∧ va < i + 4096 then PTE_FLAGS (pteOf k0 old i) else pteOf k new va := by
    intro va hva
    rw [pteOf_write k new i nt nx _ hinv.wfN hl]
    have := leaf_same_page_iff k new i va (nt, nx) hinv.wfN hi (by omega) hva hl
    by_cases e : i ≤ va ∧ va < i + 4096
    · rw [if_pos (this.2 e), if_pos e]
    · rw [if_neg (fun h => e (this.1 h)), if_neg e]
  refine ⟨hg.wf, o1, o2, o3, o4, hinv.proc, ?_, ?_, ?_, ?_⟩
  · intro va hva
    by_cases hin : i ≤ va
    · have hsame : pteOf k0 old va = pteOf k0 old i :=
        pteOf_same_page k0 old va i (by omega)
      rw [hpte va (by omega), if_pos ⟨hin, hva⟩, hsame]
      exact ⟨fun h1 => absurd hv h1, fun _ => rfl⟩
    · rw [hpte va (by omega), if_neg (by omega)]
      exact hinv.done va (by omega)
  · intro va h1 h2
    rw [hpte va (by omega), if_neg (by omega)]
    exact hinv.todo va (by omega) h2
  · intro x hx
    rcases hinv.acct x hx with e | ⟨p, e⟩ | ⟨va, e1, e2, e3⟩
    · exact Or.inl e
    · exact Or.inr (Or.inl ⟨p, hg.mono p x e⟩)
    · right; right
      refine ⟨va, by omega, ?_, ?_⟩
      · rw [hpte va (by omega), if_neg (by omega)]; exact e2
      · rw [hpte va (by omega), if_neg (by omega)]; exact e3
  · intro hE
    apply (excl_write k new i nt nx _ hinv.wfN.inj (hinv.excl hE) hl _).2
    left
    rw [show PTE_V = 2 ^ 0 by norm_num [PTE_V], flags_flag _ 0 (by norm_num)]
    rw [show PTE_V = 2 ^ 0 by norm_num [PTE_V]] at hv
    exact hv

/-- The loop of `uvmcopy` keeps its invariant: when it returns, the pages below
the index it returns are copied; it ends at `err` only before `sz`. -/
theorem uvmcopy_loop_inv (k0 : Kernel) (old new sz : Nat) (hsz : sz ≤ MAXVA) (fuel : Nat) :
    ∀ (k : Kernel) (i : Nat) (r : Nat × Bool) (k' : Kernel), i % 4096 = 0 →
      CopyInv k0 k old new i sz → uvmcopy_loop fuel k old new i sz = .ok r k' →
      r.1 % 4096 = 0 ∧ CopyInv k0 k' old new r.1 sz ∧ (r.2 = true → r.1 < sz)
        ∧ (r.2 = false → sz ≤ r.1) := by
  have hM : MAXVA = 274877906944 := by norm_num [MAXVA]
  induction fuel with
  | zero =>
    intro k i r k' _ _ h
    rw [uvmcopy_loop] at h
    cases h
  | succ fuel ih =>
    intro k i r k' hi hinv h
    rw [uvmcopy_loop] at h
    by_cases hisz : i < sz
    swap
    · rw [if_neg hisz] at h
      injection h with hr hk
      rw [← hr, ← hk]
      exact ⟨hi, hinv, fun e => (by cases e), fun _ => (by show sz ≤ i; omega)⟩
    rw [if_pos hisz] at h
    obtain ⟨ro, k1, hw, h2⟩ := bind_ok_inv _ _ _ _ h
    obtain ⟨e1, e2, _⟩ := walk_noalloc_inv k k1 _ _ ro hw
    subst e1
    cases ro with
    | none => cases h2
    | some l =>
      obtain ⟨t, x⟩ := l
      simp only at h2
      have hs : k1.mem t x = pteOf k0 old i := by
        rw [← hinv.oldP, pteOf_of_leaf k1 old i t x e2.symm]
      rw [hs] at h2
      by_cases c1 : pteOf k0 old i &&& (PTE_V ||| PTE_PG) = 0
      · rw [if_pos c1] at h2; cases h2
      rw [if_neg c1] at h2
      have hnext : (i + PGSIZE) % U64 = i + 4096 := by
        rw [U64_val]; simp only [PGSIZE]; omega
      by_cases hv : pteOf k0 old i &&& PTE_V ≠ 0
      · rw [if_pos hv] at h2
        unfold kalloc at h2
        cases hfl : k1.freelist with
        | nil =>
          rw [hfl] at h2
          simp only at h2
          injection h2 with hr hk
          rw [← hr, ← hk]
          exact ⟨hi, hinv, fun _ => hisz, fun e => (by cases e)⟩
        | cons f rest =>
          rw [hfl] at h2
          simp only at h2
          obtain ⟨v, k3, hm, h3⟩ := bind_ok_inv _ _ _ _ h2
          obtain ⟨wf2, nF, nP, _⟩ :=
            copy_setup k0 k1 old new i sz f (PTE2PA (pteOf k0 old i)) rest hinv hfl
          have hun : pteOf (({ k1 with freelist := rest } : Kernel).copy f
              (PTE2PA (pteOf k0 old i))) new i &&& PTE_V = 0 := by
            rw [nP, hinv.todo i (le_refl _) hisz]
            simp
          rcases mappages_page _ new i f (PTE_FLAGS (pteOf k0 old i) % 2 ^ 32) wf2 hi
              (by omega) hun with ⟨k3', hm', g, hp, _, hacct⟩ | ⟨k3', hm', st, hfl3, hacct⟩
          · rw [hm] at hm'
            injection hm' with ev ek
            subst ek
            rw [ev, if_neg (by simp), hnext] at h3
            have hex : Excl k0 old → Excl k3 new := by
              intro hE
              refine (mappages_excl _ k3 new i PGSIZE f _ 0 ?_ wf2
                (excl_congr k1 _ new nP (hinv.excl hE)) (by rw [← ev]; exact hm)).2
              rw [(valid_flags _ hv).1, show PTE_PG = 2 ^ 9 by norm_num [PTE_PG],
                flags_flag _ 9 (by norm_num)]
              rcases hE i with e | e
              · exact absurd e hv
              · rw [show PTE_PG = 2 ^ 9 by norm_num [PTE_PG]] at e
                exact e
            exact ih k3 (i + 4096) r k' (by omega)
              (copy_valid_ok k0 k1 k3 old new i sz f rest hinv hi hisz hsz hv hfl g hp hacct
                hex) h3
          · rw [hm] at hm'
            injection hm' with ev ek
            subst ek
            rw [ev, if_pos (by simp)] at h3
            injection h3 with hr hk
            rw [← hr, ← hk]
            exact ⟨hi, copy_valid_fail k0 k1 k3 old new i sz f rest hinv hfl st hfl3 hacct,
              fun _ => hisz, fun e => (by cases e)⟩
      · rw [if_neg hv] at h2
        obtain ⟨rn, k2, hwn, h3⟩ := bind_ok_inv _ _ _ _ h2
        obtain ⟨e3, e4, _⟩ := walk_noalloc_inv k1 k2 _ _ rn hwn
        subst e3
        cases rn with
        | none => cases h3
        | some ln =>
          obtain ⟨nt, nx⟩ := ln
          simp only at h3
          rw [hs, hnext] at h3
          exact ih _ (i + 4096) r k' (by omega)
            (copy_swapped k0 k2 old new i sz nt nx hinv hi hisz hsz (by simpa using hv)
              e4.symm) h3

/-! ## The `uvmunmap` of `uvmcopy` at `err` -/

theorem leaf_same_page_tree (k : Kernel) (pt a va : Nat) (l : Nat × Nat) (ht : Tree k pt)
    (ha : a % 4096 = 0) (haM : a < MAXVA) (hva : va < MAXVA) (hl : leaf k pt a = some l) :
    leaf k pt va = some l ↔ (a ≤ va ∧ va < a + 4096) :=
  leaf_same_page_iff { k with freelist := [] } pt a va l (wf_nofree k pt ht) ha haM hva hl

theorem flag_or (x i j : Nat) (h : x &&& 2 ^ i ≠ 0) : x &&& (2 ^ i ||| 2 ^ j) ≠ 0 := by
  rw [flag_iff] at h
  intro e
  have : (x &&& (2 ^ i ||| 2 ^ j)).testBit i = false := by rw [e]; simp
  rw [Nat.testBit_and, Nat.testBit_or, Nat.testBit_two_pow, h] at this
  simp at this

theorem flag_or_inv (x i j : Nat) (h : x &&& (2 ^ i ||| 2 ^ j) ≠ 0) (hi : x &&& 2 ^ i = 0) :
    x &&& 2 ^ j ≠ 0 := by
  rw [flag_zero_iff] at hi
  rw [flag_iff]
  by_contra hj
  apply h
  apply Nat.eq_of_testBit_eq
  intro n
  rw [Nat.testBit_and, Nat.testBit_or, Nat.testBit_two_pow, Nat.testBit_two_pow,
    Nat.zero_testBit]
  by_cases e1 : i = n
  · rw [← e1, hi]; simp
  · by_cases e2 : j = n
    · rw [← e2]
      simp at hj
      simp [hj]
    · simp [e1, e2]

theorem flags_idem (x : Nat) : PTE_FLAGS (PTE_FLAGS x) = PTE_FLAGS x := by
  rw [PTE_FLAGS_eq, PTE_FLAGS_eq]
  omega

/-- A copied page is mapped in the destination: its leaf PTE passes the checks
of `uvmunmap`. -/
theorem copied_entry (s e : Nat) (hmapped : s &&& (PTE_V ||| PTE_PG) ≠ 0)
    (hleaf : s &&& PTE_V ≠ 0 → PTE_FLAGS s ≠ PTE_V)
    (hdone : (s &&& PTE_V ≠ 0 → e &&& PTE_V ≠ 0 ∧ PTE_FLAGS e = PTE_FLAGS s)
      ∧ (s &&& PTE_V = 0 → e = PTE_FLAGS s)) :
    e &&& (PTE_V ||| PTE_PG) ≠ 0 ∧ PTE_FLAGS e ≠ PTE_V
      ∧ (e &&& PTE_V ≠ 0 ↔ s &&& PTE_V ≠ 0) := by
  have hV : PTE_V = 2 ^ 0 := by norm_num [PTE_V]
  have hPG : PTE_PG = 2 ^ 9 := by norm_num [PTE_PG]
  by_cases hv : s &&& PTE_V ≠ 0
  · obtain ⟨a, b⟩ := hdone.1 hv
    refine ⟨?_, ?_, ⟨fun _ => hv, fun _ => a⟩⟩
    · rw [hV, hPG]
      rw [hV] at a
      exact flag_or e 0 9 a
    · rw [b]
      exact hleaf hv
  · have hv0 : s &&& PTE_V = 0 := by simpa using hv
    have he := hdone.2 hv0
    rw [hV, hPG] at hmapped
    rw [hV] at hv0
    have hpg := flag_or_inv s 0 9 hmapped hv0
    have hepg : e &&& 2 ^ 9 ≠ 0 := by
      rw [he, flags_flag s 9 (by norm_num)]
      exact hpg
    have hev : e &&& 2 ^ 0 = 0 := by
      rw [he, flags_flag s 0 (by norm_num)]
      exact hv0
    refine ⟨?_, ?_, ?_⟩
    · rw [hV, hPG, Nat.lor_comm]
      exact flag_or e 9 0 hepg
    · intro e1
      have e2 : PTE_FLAGS e &&& 2 ^ 9 ≠ 0 := by
        rw [flags_flag e 9 (by norm_num)]
        exact hepg
      rw [e1] at e2
      exact e2 (by decide)
    · rw [hV]
      constructor
      · intro h1
        exact absurd hev h1
      · intro h1
        exact absurd hv0 (by rw [← hV]; exact h1)

/-- One iteration of the `uvmunmap` at `err`: the leaf PTE of page `a` is
cleared after its frame, if it has one, went back to the free list. -/
theorem unmap_step_inv (k0 k k4 : Kernel) (old new a ie sz t i : Nat)
    (hinv : UnmapInv k0 k old new a ie sz) (ha : a % 4096 = 0) (haie : a < ie)
    (hie : ie % 4096 = 0) (hiesz : ie ≤ sz) (hsz : sz ≤ MAXVA) (hl : leaf k new a = some (t, i))
    (hm : k4.mem = k.mem) (hp : k4.proc = k.proc)
    (hfl : ∀ f, f ∈ k.freelist → f ∈ k4.freelist)
    (hfr : k.mem t i &&& PTE_V ≠ 0 → PTE2PA (k.mem t i) ∈ k4.freelist) :
    UnmapInv k0 (k4.write t i 0) old new (a + 4096) ie sz := by
  have hM : MAXVA = 274877906944 := by norm_num [MAXVA]
  obtain ⟨f1, f2, f3, f4, _⟩ := mem_eq_facts k k4 new hm
  obtain ⟨g1, _, g3, _, _⟩ := mem_eq_facts k k4 old hm
  have hl4 : leaf k4 new a = some (t, i) := by rw [f2]; exact hl
  obtain ⟨w1, w2, w3, w4⟩ := tree_write k4 new a t i 0 (f4 hinv.tree) hl4
  have hpte : ∀ va, va < MAXVA → pteOf (k4.write t i 0) new va
      = if a ≤ va ∧ va < a + 4096 then 0 else pteOf k new va := by
    intro va hva
    rw [w4, f3]
    have := leaf_same_page_tree k4 new a va (t, i) (f4 hinv.tree) ha (by omega) hva hl4
    by_cases e : a ≤ va ∧ va < a + 4096
    · rw [if_pos (this.2 e), if_pos e]
    · rw [if_neg (fun h => e (this.1 h)), if_neg e]
  have hto : frameAt k new (.l0 (PX 2 a) (PX 1 a)) = some t := (leaf_frame k new a t i hl).1
  have st := tables_stable k4 (k4.write t i 0) old (by
    intro p x hx j
    apply write_mem_ne
    intro e
    rw [g1, hinv.oldF] at hx
    exact hinv.disj p _ x hx (e ▸ hto))
  refine ⟨w2, ?_, ?_, ?_, ?_, ?_, ?_, ?_, ?_⟩
  · intro p
    rw [st.1, g1, hinv.oldF]
  · intro va
    rw [st.2.1, g3, hinv.oldP]
  · intro p q x hx hq
    rw [w1, f1] at hq
    exact hinv.disj p q x hx hq
  · show k4.proc = k0.proc
    rw [hp]
    exact hinv.proc
  · intro va hva
    rw [hpte va (by omega)]
    by_cases e : a ≤ va ∧ va < a + 4096
    · rw [if_pos e]
    · rw [if_neg e]
      exact hinv.zero va (by omega)
  · intro va h1 h2
    rw [hpte va (by omega), if_neg (by omega)]
    exact hinv.done va (by omega) h2
  · intro va h1 h2
    rw [hpte va (by omega), if_neg (by omega)]
    exact hinv.todo va h1 h2
  · intro x hx
    rcases hinv.acct x hx with e | ⟨p, e⟩ | ⟨va, e1, e2, e3, e4⟩
    · exact Or.inl (hfl x e)
    · right; left
      exact ⟨p, by rw [w1, f1]; exact e⟩
    · by_cases hin : va < a + 4096
      · left
        have hsame : pteOf k new va = k.mem t i := by
          rw [pteOf_same_page k new va a (by omega), pteOf_of_leaf k new a t i hl]
        rw [hsame] at e3 e4
        rw [← e4]
        exact hfr e3
      · right; right
        refine ⟨va, by omega, e2, ?_, ?_⟩
        · rw [hpte va (by omega), if_neg (by omega)]; exact e3
        · rw [hpte va (by omega), if_neg (by omega)]; exact e4

/-- The `uvmunmap` at `err` runs to its end without a kernel stop and clears
every copied page. -/
theorem unmap_copied (k0 : Kernel) (algo : SwapAlgo) (old new ie sz sh : Nat)
    (hie : ie % 4096 = 0) (hiesz : ie ≤ sz) (hsz : sz ≤ MAXVA)
    (hmapped : ∀ va, va < sz → pteOf k0 old va &&& (PTE_V ||| PTE_PG) ≠ 0)
    (hleaf : ∀ va, va < sz → pteOf k0 old va &&& PTE_V ≠ 0 →
      PTE_FLAGS (pteOf k0 old va) ≠ PTE_V)
    (hne : ¬ (algo ≠ .NONE ∧ sh ≠ 0 ∧ new = k0.proc.pagetable)) (fuel : Nat) :
    ∀ (k : Kernel) (a : Nat), a % 4096 = 0 → a ≤ ie → (ie - a) / 4096 < fuel →
      UnmapInv k0 k old new a ie sz →
      ∃ k', uvmunmap_loop algo fuel k new a ie 1 sh = .ok () k'
        ∧ UnmapInv k0 k' old new ie ie sz := by
  have hM : MAXVA = 274877906944 := by norm_num [MAXVA]
  induction fuel with
  | zero =>
    intro k a _ _ hf _
    omega
  | succ fuel ih =>
    intro k a ha hale hf hinv
    rw [uvmunmap_loop]
    by_cases haie : a < ie
    swap
    · rw [if_neg haie]
      have : a = ie := by omega
      rw [this] at hinv
      exact ⟨k, rfl, hinv⟩
    rw [if_pos haie, walk_noalloc k new a (by omega)]
    simp only [Res.bind]
    obtain ⟨c1, c2, c3⟩ := copied_entry (pteOf k0 old a) (pteOf k new a)
      (hmapped a (by omega)) (hleaf a (by omega)) (hinv.done a (le_refl _) haie)
    cases hl : leaf k new a with
    | none =>
      exfalso
      apply c1
      unfold pteOf
      rw [hl]
      simp
    | some l =>
      obtain ⟨t, i⟩ := l
      have he : pteOf k new a = k.mem t i := pteOf_of_leaf k new a t i hl
      rw [he] at c1 c2 c3
      simp only
      rw [if_neg c1, if_neg c2]
      have hnext : (a + PGSIZE) % U64 = a + 4096 := by
        rw [U64_val]; simp only [PGSIZE]; omega
      have hne' : ¬ (algo ≠ .NONE ∧ sh ≠ 0 ∧ new = k.proc.pagetable) := by
        rw [hinv.proc]; exact hne
      have hres : uvmunmap_resident algo k new a sh = .ok () k := by
        unfold uvmunmap_resident
        rw [if_neg hne']
      by_cases hv : k.mem t i &&& PTE_V ≠ 0
      · rw [if_pos ⟨by norm_num, hv⟩, hres]
        simp only [Res.bind]
        rw [if_neg (by
          intro h
          exact hne' ⟨h.1, h.2.1, h.2.2.1⟩)]
        simp only
        rw [hnext]
        exact ih _ (a + 4096) (by omega) (by omega) (by omega)
          (unmap_step_inv k0 k (kfree k (PTE2PA (k.mem t i))) old new a ie sz t i hinv ha haie
            hie hiesz hsz hl rfl rfl (fun f hf' => List.mem_cons_of_mem _ hf')
            (fun _ => List.mem_cons_self _ _))
      · rw [if_neg (by
          intro h
          exact hv h.2)]
        simp only [Res.bind]
        rw [if_neg (by
          intro h
          exact hne' ⟨h.1, h.2.1, h.2.2.1⟩)]
        simp only
        rw [hnext]
        exact ih _ (a + 4096) (by omega) (by omega) (by omega)
          (unmap_step_inv k0 k k old new a ie sz t i hinv ha haie hie hiesz hsz hl rfl rfl
            (fun f hf' => hf') (fun h => absurd h hv))

/-! ## C18: `uvmcopy` fails atomically -/

theorem copyInv_init (k : Kernel) (old new sz : Nat) (hwfO : PTWf k old) (hwfN : PTWf k new)
    (hdisj : ∀ p q f, frameAt k old p = some f → frameAt k new q ≠ some f)
    (hempty : ∀ va, va < sz → pteOf k new va = 0) (hex : Excl k new) :
    CopyInv k k old new 0 sz :=
  ⟨hwfN, fun _ => rfl, fun _ => rfl, hwfO.fresh, hdisj, rfl,
    fun va hva => absurd hva (Nat.not_lt_zero va), fun va _ h => hempty va h,
    fun _ hf => Or.inl hf, fun _ => hex⟩

theorem unmapInv_init (k0 k : Kernel) (old new i sz : Nat) (h : CopyInv k0 k old new i sz) :
    UnmapInv k0 k old new 0 i sz :=
  ⟨h.wfN.inj, h.oldF, h.oldP, h.disj, h.proc,
    fun va hva => absurd hva (Nat.not_lt_zero va), fun va _ hva => h.done va hva, h.todo,
    fun f hf => by
      rcases h.acct f hf with e | e | ⟨va, e1, e2, e3⟩
      · exact Or.inl e
      · exact Or.inr (Or.inl e)
      · exact Or.inr (Or.inr ⟨va, Nat.zero_le _, e1, e2, e3⟩)⟩

/-- C18: the source table `old` and the destination table `new` are trees with
no table in common, every page below `sz` of the source is Valid or Swapped
(a Valid leaf has a flag besides Valid), the destination has no leaf PTE and
is not the page table of the calling process.  When the loop of `uvmcopy`
ends at `err` while copying page `i` (`kalloc` returned 0, or `mappages`
returned -1 because `walk` could not allocate a table), `uvmcopy` returns -1
without a kernel stop; afterwards no page below `sz` has a leaf PTE in the
destination, every frame that was free at the call is free again or is a
table of the destination, and the source table, its leaf PTEs and the
rosters are unchanged. -/
theorem uvmcopy_fails_atomically (algo : SwapAlgo) (k k1 : Kernel) (old new sz i : Nat)
    (hwfO : PTWf k old) (hwfN : PTWf k new)
    (hdisj : ∀ p q f, frameAt k old p = some f → frameAt k new q ≠ some f)
    (hsz : sz ≤ MAXVA)
    (hmapped : ∀ va, va < sz → pteOf k old va &&& (PTE_V ||| PTE_PG) ≠ 0)
    (hleaf : ∀ va, va < sz → pteOf k old va &&& PTE_V ≠ 0 → PTE_FLAGS (pteOf k old va) ≠ PTE_V)
    (hempty : ∀ va, pteOf k new va = 0)
    (hne : new ≠ k.proc.pagetable)
    (hfail : uvmcopy_loop (MAXVA / PGSIZE + 2) k old new 0 sz = .ok (i, true) k1) :
    ∃ k', uvmcopy algo k old new sz = .ok (-1) k'
      ∧ i < sz
      ∧ (∀ va, va < sz → pteOf k' new va = 0)
      ∧ (∀ f, f ∈ k.freelist → f ∈ k'.freelist ∨ ∃ p, frameAt k' new p = some f)
      ∧ (∀ p, frameAt k' old p = frameAt k old p)
      ∧ (∀ va, pteOf k' old va = pteOf k old va)
      ∧ k'.proc = k.proc := by
  have hM : MAXVA = 274877906944 := by norm_num [MAXVA]
  have hex : Excl k new := fun va => Or.inl (by rw [hempty]; simp)
  obtain ⟨hi, hinv, hlt, _⟩ := uvmcopy_loop_inv k old new sz hsz _ k 0 (i, true) k1 (by norm_num)
    (copyInv_init k old new sz hwfO hwfN hdisj (fun va _ => hempty va) hex) hfail
  have hisz : i < sz := hlt rfl
  simp only at hi hinv
  have hiU : i < U64 := by rw [U64_val]; omega
  obtain ⟨k', hu, hfin⟩ := unmap_copied k algo old new i sz (sh_or_init k1.proc) hi
    (by omega) hsz hmapped hleaf (fun h => hne h.2.2) (MAXVA / PGSIZE + 2) k1 0 (by norm_num)
    (by omega) (by rw [copy_fuel]; omega) (unmapInv_init k k1 old new i sz hinv)
  have hbound : (0 + i / PGSIZE * PGSIZE) % U64 = i := by
    rw [U64_val]; simp only [PGSIZE]; omega
  refine ⟨k', ?_, hisz, ?_, ?_, hfin.oldF, hfin.oldP, hfin.proc⟩
  · unfold uvmcopy
    rw [hfail]
    simp only [Res.bind]
    unfold uvmunmap
    simp only
    rw [if_neg (by simp), hbound, hu]
  · intro va hva
    by_cases e : va < i
    · exact hfin.zero va e
    · exact hfin.todo va (by omega) hva
  · intro f hf
    rcases hfin.acct f hf with e | e | ⟨va, e1, e2, _⟩
    · exact Or.inl e
    · exact Or.inr e
    · omega

theorem res_of_val {α : Type} (r : Res α) (v : α) (k : Kernel) (h : r.val? = some v) :
    r = .ok v (r.stateOr k) := by
  cases r with
  | ok v' k' => simp [Res.val?] at h; simp [Res.stateOr, h]
  | stop s => simp [Res.val?] at h
  | nofuel => simp [Res.val?] at h

theorem cK0_wf : PTWf cK0 0x1000 :=
  PTWf_empty cK0 0x1000 (fun _ => rfl) (by decide) (by decide) (by decide)

theorem cK1_grow : Grow cK0 cK1 0x1000 :=
  mappages_grow cK0 cK1 0x1000 0 0x2000 0x80000000 (PTE_R ||| PTE_U) 0 cK0_wf
    (by decide) (by decide) (by decide) rfl

theorem cK1_tables (p : Pos) (g : Nat) (h : frameAt cK1 0x1000 p = some g) : g ≠ 0x9000 := by
  rcases cK1_grow.tables p g h with ⟨q, hq⟩ | hmem
  · have : g = 0x1000 := by
      cases q with
      | root => simp [frameAt] at hq; exact hq.symm
      | l1 a =>
        have hz : cK0.mem 0x1000 a = 0 := rfl
        simp [frameAt, hz] at hq
      | l0 a b =>
        have hz : cK0.mem 0x1000 a = 0 := rfl
        simp [frameAt, hz] at hq
    omega
  · have hfl : cK0.freelist = [0x2000, 0x3000, 0xA000, 0xB000, 0xC000] := rfl
    rw [hfl] at hmem
    simp at hmem
    omega

theorem cK1_new_zero (i : Nat) : cK1.mem 0x9000 i = 0 := by
  rw [cK1_grow.other 0x9000 (by decide) (fun p hp => by
    cases p with
    | root => simp [frameAt] at hp
    | l1 a =>
      have hz : cK0.mem 0x1000 a = 0 := rfl
      simp [frameAt, hz] at hp
    | l0 a b =>
      have hz : cK0.mem 0x1000 a = 0 := rfl
      simp [frameAt, hz] at hp) i]
  rfl

theorem cK1_new_wf : PTWf cK1 0x9000 :=
  PTWf_empty cK1 0x9000 cK1_new_zero (by decide) (by decide) (by decide)

theorem cK1_new_tables (q : Pos) (f : Nat) (h : frameAt cK1 0x9000 q = some f) : f = 0x9000 := by
  cases q with
  | root => simp [frameAt] at h; exact h.symm
  | l1 a => simp [frameAt, cK1_new_zero] at h
  | l0 a b => simp [frameAt, cK1_new_zero] at h

theorem cK1_new_empty (va : Nat) : pteOf cK1 0x9000 va = 0 := by
  simp [pteOf, leaf, cK1_new_zero]

theorem cK1_pages (va : Nat) (h : va < 0x2000) :
    pteOf cK1 0x1000 va = leafEntry 0x80000000 (PTE_R ||| PTE_U)
      ∨ pteOf cK1 0x1000 va = leafEntry 0x80001000 (PTE_R ||| PTE_U) := by
  by_cases e : va < 4096
  · left
    rw [pteOf_same_page cK1 0x1000 va 0 (by omega)]
    decide
  · right
    rw [pteOf_same_page cK1 0x1000 va 0x1000 (by omega)]
    decide

set_option maxRecDepth 100000 in
theorem cK1_fails :
    uvmcopy_loop (MAXVA / PGSIZE + 2) cK1 0x1000 0x9000 0 0x2000 = .ok (0x1000, true) cK1err :=
  res_of_val _ _ cK1 (by decide)

theorem uvmcopy_fails_atomically_witness :
    ∃ k', uvmcopy .NFUA cK1 0x1000 0x9000 0x2000 = .ok (-1) k'
      ∧ 0x1000 < 0x2000
      ∧ (∀ va, va < 0x2000 → pteOf k' 0x9000 va = 0)
      ∧ (∀ f, f ∈ cK1.freelist → f ∈ k'.freelist ∨ ∃ p, frameAt k' 0x9000 p = some f)
      ∧ (∀ p, frameAt k' 0x1000 p = frameAt cK1 0x1000 p)
      ∧ (∀ va, pteOf k' 0x1000 va = pteOf cK1 0x1000 va)
      ∧ k'.proc = cK1.proc :=
  uvmcopy_fails_atomically .NFUA cK1 cK1err 0x1000 0x9000 0x2000 0x1000 cK1_grow.wf cK1_new_wf
    (fun p q f hp hq => cK1_tables p f hp (cK1_new_tables q f hq))
    (by decide)
    (fun va hva => by rcases cK1_pages va hva with e | e <;> rw [e] <;> decide)
    (fun va hva _ => by rcases cK1_pages va hva with e | e <;> rw [e] <;> decide)
    cK1_new_empty (by decide) cK1_fails

/-! ## C20: leaf exclusivity -/

/-- A run of the loop of `uvmcopy` that returns never reaches `MAXVA` (there
`walk` stops the kernel), so it is a run for the size clipped at `MAXVA`. -/
theorem uvmcopy_loop_clip (old new sz : Nat) (fuel : Nat) :
    ∀ (k : Kernel) (i : Nat) (r : Nat × Bool) (k' : Kernel), i % 4096 = 0 → i ≤ MAXVA →
      uvmcopy_loop fuel k old new i sz = .ok r k' →
      uvmcopy_loop fuel k old new i (min sz MAXVA) = .ok r k' := by
  have hM : MAXVA = 274877906944 := by norm_num [MAXVA]
  induction fuel with
  | zero =>
    intro k i r k' _ _ h
    rw [uvmcopy_loop] at h
    cases h
  | succ fuel ih =>
    intro k i r k' hi hiM h
    rw [uvmcopy_loop] at h ⊢
    by_cases hisz : i < sz
    swap
    · rw [if_neg hisz] at h
      rw [if_neg (by omega)]
      exact h
    rw [if_pos hisz] at h
    obtain ⟨ro, k1, hw, h2⟩ := bind_ok_inv _ _ _ _ h
    obtain ⟨_, _, hva⟩ := walk_noalloc_inv k k1 _ _ ro hw
    rw [if_pos (by omega), hw]
    simp only [Res.bind]
    have hnext : (i + PGSIZE) % U64 = i + 4096 := by
      rw [U64_val]; simp only [PGSIZE]; omega
    cases ro with
    | none => cases h2
    | some l =>
      obtain ⟨t, x⟩ := l
      simp only at h2 ⊢
      by_cases c1 : k1.mem t x &&& (PTE_V ||| PTE_PG) = 0
      · rw [if_pos c1] at h2; cases h2
      rw [if_neg c1] at h2 ⊢
      by_cases hv : k1.mem t x &&& PTE_V ≠ 0
      · rw [if_pos hv] at h2 ⊢
        cases hk : kalloc k1 with
        | mk o k2 =>
          rw [hk] at h2
          cases o with
          | none => exact h2
          | some f =>
            simp only at h2 ⊢
            obtain ⟨v, k3, hm, h3⟩ := bind_ok_inv _ _ _ _ h2
            rw [hm]
            simp only [Res.bind]
            by_cases hr : v ≠ 0
            · rw [if_pos hr] at h3 ⊢
              exact h3
            · rw [if_neg hr, hnext] at h3
              rw [if_neg hr, hnext]
              exact ih k3 _ r k' (by omega) (by omega) h3
      · rw [if_neg hv] at h2 ⊢
        obtain ⟨rn, k2, hw2, h3⟩ := bind_ok_inv _ _ _ _ h2
        rw [hw2]
        simp only [Res.bind]
        cases rn with
        | none => cases h3
        | some l2 =>
          obtain ⟨nt, nx⟩ := l2
          simp only at h3 ⊢
          rw [hnext] at h3 ⊢
          exact ih _ _ r k' (by omega) (by omega) h3

/-- A completed `uvmcopy` into a destination with no leaf PTE below `sz`
keeps the leaf exclusivity of the destination. -/
theorem uvmcopy_excl (algo : SwapAlgo) (k k' : Kernel) (old new sz : Nat) (r : Int)
    (hwfO : PTWf k old) (hwfN : PTWf k new)
    (hdisj : ∀ p q f, frameAt k old p = some f → frameAt k new q ≠ some f)
    (hempty : ∀ va, va < sz → pteOf k new va = 0)
    (heO : Excl k old) (heN : Excl k new)
    (h : uvmcopy algo k old new sz = .ok r k') : Excl k' new := by
  unfold uvmcopy at h
  obtain ⟨ib, k1, hl, h2⟩ := bind_ok_inv _ _ _ _ h
  obtain ⟨i, b⟩ := ib
  have hl2 := uvmcopy_loop_clip old new sz _ k 0 (i, b) k1 (by norm_num) (Nat.zero_le _) hl
  obtain ⟨_, hinv, _, _⟩ := uvmcopy_loop_inv k old new (min sz MAXVA) (Nat.min_le_right _ _) _
    k 0 (i, b) k1 (by norm_num)
    (copyInv_init k old new _ hwfO hwfN hdisj (fun va hva => hempty va (by omega)) heN) hl2
  cases b with
  | false =>
    simp only at h2
    injection h2 with _ hk
    rw [← hk]
    exact hinv.excl heO
  | true =>
    simp only at h2
    obtain ⟨_, k2, hu, h3⟩ := bind_ok_inv _ _ _ _ h2
    injection h3 with _ hk
    rw [← hk]
    unfold uvmunmap at hu
    simp only at hu
    by_cases ha : 0 % PGSIZE ≠ 0
    · rw [if_pos ha] at hu; cases hu
    · rw [if_neg ha] at hu
      exact (uvmunmap_loop_excl algo new _ 1 _ _ k1 0 k2 hinv.wfN.inj (hinv.excl heO) hu).2

/-- C20 (amended): let the page table `pt` be a tree in which no leaf PTE has
both Valid and Swapped set.  Then none has both set after a completed call of
`mappages` with `perm` not containing the Swapped bit, of `uvmunmap`, of
`uvmclear`, and of `uvmcopy` with `pt` as the destination, when the
destination has no leaf PTE below `sz` at the call and the source is a tree
with the same property that shares no table with it; and, when `pt` is the
page table of the process, after a completed `swap_out`, `page_fault` and
`update_counters`.  After `swap_out` the leaf of the victim is Swapped and
not Valid; after `page_fault` the faulted leaf is not Swapped, and it is
Valid when it was Swapped at the call. -/
theorem leaf_exclusivity_invariant (algo : SwapAlgo) (k : Kernel) (pt : Nat)
    (hwf : PTWf k pt) (he : Excl k pt) :
    (∀ va size pa perm v k', perm &&& PTE_PG = 0 →
        mappages k pt va size pa perm = .ok v k' → Excl k' pt)
    ∧ (∀ va npages do_free k', uvmunmap algo k pt va npages do_free = .ok () k' → Excl k' pt)
    ∧ (∀ va k', uvmclear k pt va = .ok () k' → Excl k' pt)
    ∧ (∀ old sz r k', PTWf k old → Excl k old →
        (∀ p q f, frameAt k old p = some f → frameAt k pt q ≠ some f) →
        (∀ va, va < sz → pteOf k pt va = 0) →
        uvmcopy algo k old pt sz = .ok r k' → Excl k' pt)
    ∧ (∀ k', pt = k.proc.pagetable → swap_out algo k pt = .ok () k' →
        Excl k' pt ∧ ∃ m ke, findPageToEvict algo k = .ok m ke
          ∧ pteOf k' pt (ke.proc.memory_pages m).va &&& PTE_PG ≠ 0
          ∧ pteOf k' pt (ke.proc.memory_pages m).va &&& PTE_V = 0)
    ∧ (∀ va r k', pt = k.proc.pagetable → page_fault algo k va = .ok r k' →
        Excl k' pt ∧ pteOf k' pt va &&& PTE_PG = 0
          ∧ (pteOf k pt va &&& PTE_PG ≠ 0 → pteOf k' pt va &&& PTE_V ≠ 0))
    ∧ (∀ k', pt = k.proc.pagetable → update_counters k = .ok () k' → Excl k' pt) := by
  refine ⟨?_, ?_, ?_, ?_, ?_, ?_, ?_⟩
  · intro va size pa perm v k' hperm h
    exact (mappages_excl k k' pt va size pa perm v hperm hwf he h).2
  · intro va npages do_free k' h
    unfold uvmunmap at h
    simp only at h
    by_cases ha : va % PGSIZE ≠ 0
    · rw [if_pos ha] at h; cases h
    · rw [if_neg ha] at h
      exact (uvmunmap_loop_excl algo pt _ do_free _ _ k va k' hwf.inj he h).2
  · intro va k' h
    exact (uvmclear_excl k k' pt va hwf.inj he h).2
  · intro old sz r k' hwfO heO hdisj hempty h
    exact uvmcopy_excl algo k k' old pt sz r hwfO hwf hdisj hempty heO he h
  · intro k' hpt h
    subst hpt
    obtain ⟨_, a2, _, _, a5⟩ := swap_out_excl algo k k' hwf he h
    exact ⟨a2, a5⟩
  · intro va r k' hpt h
    subst hpt
    obtain ⟨_, a2, a3, a4, a5⟩ := page_fault_excl algo k k' va r hwf he h
    refine ⟨a2, ?_, ?_⟩
    · rcases a3 with e | e
      · obtain ⟨e1, e2⟩ := a4 e
        rw [e1]; exact e2
      · exact (a5 e).2
    · intro hpg
      rcases a3 with e | e
      · exact absurd (a4 e).2 hpg
      · exact (a5 e).1
  · intro k' hpt h
    subst hpt
    exact (update_counters_loop_excl k.proc.pagetable _ 0 k k' rfl hwf.inj he h).2.1

theorem pteOf_zero_rows (k : Kernel) (pt va : Nat) (hz : ∀ t i, i ≠ 0 → k.mem t i = 0)
    (h : PX 2 va ≠ 0 ∨ PX 1 va ≠ 0 ∨ PX 0 va ≠ 0) : pteOf k pt va = 0 := by
  rcases h with h | h | h
  · have hl : leaf k pt va = none := by
      unfold leaf
      rw [hz _ _ h]
      simp
    simp [pteOf, hl]
  · have hl : leaf k pt va = none := by
      unfold leaf
      rw [hz _ (PX 1 va) h]
      simp
    simp [pteOf, hl]
  · unfold pteOf
    cases hl : leaf k pt va with
    | none => rfl
    | some l =>
      obtain ⟨t, i⟩ := l
      simp only
      unfold leaf at hl
      split_ifs at hl
      injection hl with hl
      injection hl with _ hi
      rw [← hi]
      exact hz _ _ h

theorem pteOf_page_zero (k : Kernel) (pt va : Nat) (h2 : PX 2 va = 0) (h1 : PX 1 va = 0)
    (h0 : PX 0 va = 0) : pteOf k pt va = pteOf k pt 0 := by
  have e2 : PX 2 0 = 0 := by decide
  have e1 : PX 1 0 = 0 := by decide
  have e0 : PX 0 0 = 0 := by decide
  simp only [pteOf, leaf, h2, h1, h0, e2, e1, e0]

theorem xK_rows (t i : Nat) (h : i ≠ 0) : xK.mem t i = 0 := by
  simp [xK, xMem, h]

theorem xK_excl (pt : Nat) (h0 : pteOf xK pt 0 &&& PTE_V = 0 ∨ pteOf xK pt 0 &&& PTE_PG = 0) :
    Excl xK pt := by
  intro va
  by_cases h : PX 2 va ≠ 0 ∨ PX 1 va ≠ 0 ∨ PX 0 va ≠ 0
  · rw [pteOf_zero_rows xK pt va xK_rows h]
    left; simp
  · rw [pteOf_page_zero xK pt va (by tauto) (by tauto) (by tauto)]
    exact h0

theorem excl_empty (k : Kernel) (pt : Nat) (hz : ∀ i, k.mem pt i = 0) : Excl k pt := by
  intro va
  left
  simp [pteOf, leaf, hz]

theorem wK1_excl : Excl wK1 0x1000 :=
  (mappages_excl wK0 wK1 0x1000 0 0x2000 0x80000000 (PTE_R ||| PTE_U) 0 (by decide) wK0_wf
    (excl_empty wK0 0x1000 (fun _ => rfl)) rfl).2

/-- C20, counterexample: three calls at which the claim, as stated, fails.
(1) In the state `xK` no leaf PTE of the source table at 0x1000 or of the
destination table at 0x9000 has both Valid and Swapped set; page 0 is Swapped
in the source and Valid in the destination; `uvmcopy(0x1000, 0x9000, PGSIZE)`
returns 0, and afterwards the leaf PTE of page 0 in the destination has both
set.  (2) In the state `yK` the destination table at 0x9000 is empty, and
the leaf PTE of page 0 in the source has both set; `uvmcopy` returns 0 and
the leaf PTE of page 0 in the destination has both set.  (3) In the state
`wK1` no leaf PTE has both set and page 0x2000 has no leaf PTE;
`page_fault(0x2000)` returns 0 and the leaf PTE of the faulted page is not
Valid afterwards. -/
theorem leaf_exclusivity_counterexample :
    (Excl xK 0x1000 ∧ Excl xK 0x9000
      ∧ pteOf xK 0x1000 0 &&& PTE_V = 0 ∧ pteOf xK 0x1000 0 &&& PTE_PG ≠ 0
      ∧ pteOf xK 0x9000 0 &&& PTE_V ≠ 0 ∧ pteOf xK 0x9000 0 &&& PTE_PG = 0
      ∧ (uvmcopy .NFUA xK 0x1000 0x9000 PGSIZE).val? = some 0
      ∧ ¬ Excl ((uvmcopy .NFUA xK 0x1000 0x9000 PGSIZE).stateOr xK) 0x9000)
    ∧ (Excl yK 0x9000 ∧ (∀ va, pteOf yK 0x9000 va = 0)
      ∧ (uvmcopy .NFUA yK 0x1000 0x9000 PGSIZE).val? = some 0
      ∧ ¬ Excl ((uvmcopy .NFUA yK 0x1000 0x9000 PGSIZE).stateOr yK) 0x9000)
    ∧ (Excl wK1 0x1000 ∧ wK1.proc.pagetable = 0x1000
      ∧ (page_fault .NFUA wK1 0x2000).val? = some 0
      ∧ pteOf ((page_fault .NFUA wK1 0x2000).stateOr wK1) 0x1000 0x2000 &&& PTE_V = 0) := by
  refine ⟨⟨xK_excl _ (by decide), xK_excl _ (by decide), by decide, by decide, by decide,
    by decide, by decide, ?_⟩, ⟨?_, ?_, by decide, ?_⟩, ⟨wK1_excl, rfl, by decide, by decide⟩⟩
  · intro h
    have h0 := h 0
    revert h0
    decide
  · exact excl_empty yK 0x9000 (fun _ => by simp [yK, yMem])
  · intro va
    simp [pteOf, leaf, yK, yMem]
  · intro h
    have h0 := h 0
    revert h0
    decide

theorem cK1_excl : Excl cK1 0x1000 :=
  (mappages_excl cK0 cK1 0x1000 0 0x2000 0x80000000 (PTE_R ||| PTE_U) 0 (by decide) cK0_wf
    (excl_empty cK0 0x1000 (fun _ => rfl)) rfl).2

theorem pK_facts : PTWf pK 0x1000 ∧ Excl pK 0x1000 := by
  have hl : leaf wK1 0x1000 0x1000 = some (0x3000, 1) := by decide
  obtain ⟨w1, _, _, _⟩ := tree_write wK1 0x1000 0x1000 0x3000 1
    ((wK1.mem 0x3000 1 &&& NOT64 PTE_V) ||| PTE_PG) wK1_wf.inj hl
  have hex := (excl_write wK1 0x1000 0x1000 0x3000 1
    ((wK1.mem 0x3000 1 &&& NOT64 PTE_V) ||| PTE_PG) wK1_wf.inj wK1_excl hl
    (Or.inl (by decide))).2
  have hwf := PTWf_of_frameAt_eq wK1
    (wK1.write 0x3000 1 ((wK1.mem 0x3000 1 &&& NOT64 PTE_V) ||| PTE_PG)) 0x1000 w1 rfl wK1_wf
  have hm : pK.mem
      = (wK1.write 0x3000 1 ((wK1.mem 0x3000 1 &&& NOT64 PTE_V) ||| PTE_PG)).mem := rfl
  have hf : pK.freelist
      = (wK1.write 0x3000 1 ((wK1.mem 0x3000 1 &&& NOT64 PTE_V) ||| PTE_PG)).freelist := rfl
  exact ⟨PTWf_congr _ pK 0x1000 hm hf hwf, (mem_eq_facts _ pK 0x1000 hm).2.2.2.2 hex⟩

set_option maxRecDepth 100000 in
theorem leaf_exclusivity_invariant_witness :
    (mappages wK6 0x1000 0x2000 PGSIZE 0x80002000 (PTE_R ||| PTE_U)).val? = some 0
    ∧ Excl ((mappages wK6 0x1000 0x2000 PGSIZE 0x80002000 (PTE_R ||| PTE_U)).stateOr wK6) 0x1000
    ∧ (uvmunmap .NFUA wK6 0x1000 0x1000 1 0).val? = some ()
    ∧ Excl ((uvmunmap .NFUA wK6 0x1000 0x1000 1 0).stateOr wK6) 0x1000
    ∧ (uvmclear wK6 0x1000 0).val? = some ()
    ∧ Excl ((uvmclear wK6 0x1000 0).stateOr wK6) 0x1000
    ∧ (uvmcopy .NFUA cK1 0x1000 0x9000 PGSIZE).val? = some 0
    ∧ Excl ((uvmcopy .NFUA cK1 0x1000 0x9000 PGSIZE).stateOr cK1) 0x9000
    ∧ (swap_out .NFUA wK6 0x1000).val? = some ()
    ∧ (Excl ((swap_out .NFUA wK6 0x1000).stateOr wK6) 0x1000
        ∧ ∃ m ke, findPageToEvict .NFUA wK6 = .ok m ke
          ∧ pteOf ((swap_out .NFUA wK6 0x1000).stateOr wK6) 0x1000
              (ke.proc.memory_pages m).va &&& PTE_PG ≠ 0
          ∧ pteOf ((swap_out .NFUA wK6 0x1000).stateOr wK6) 0x1000
              (ke.proc.memory_pages m).va &&& PTE_V = 0)
    ∧ (page_fault .NFUA pK 0x1000).val? = some 3
    ∧ pteOf pK 0x1000 0x1000 &&& PTE_PG ≠ 0
    ∧ (Excl ((page_fault .NFUA pK 0x1000).stateOr pK) 0x1000
        ∧ pteOf ((page_fault .NFUA pK 0x1000).stateOr pK) 0x1000 0x1000 &&& PTE_PG = 0
        ∧ (pteOf pK 0x1000 0x1000 &&& PTE_PG ≠ 0 →
            pteOf ((page_fault .NFUA pK 0x1000).stateOr pK) 0x1000 0x1000 &&& PTE_V ≠ 0))
    ∧ (update_counters wK6).val? = some ()
    ∧ Excl ((update_counters wK6).stateOr wK6) 0x1000 :=
  have hA := leaf_exclusivity_invariant .NFUA wK6 0x1000 wK6_ok.wf
    ((mem_eq_facts wK1 wK6 0x1000 rfl).2.2.2.2 wK1_excl)
  have hP := leaf_exclusivity_invariant .NFUA pK 0x1000 pK_facts.1 pK_facts.2
  have hC := leaf_exclusivity_invariant .NFUA cK1 0x9000 cK1_new_wf
    (excl_empty cK1 0x9000 cK1_new_zero)
  ⟨by decide,
    hA.1 _ _ _ _ _ _ (by decide) (res_of_val _ 0 wK6 (by decide)),
    by decide,
    hA.2.1 _ _ _ _ (res_of_val _ () wK6 (by decide)),
    by decide,
    hA.2.2.1 _ _ (res_of_val _ () wK6 (by decide)),
    by decide,
    hC.2.2.2.1 0x1000 PGSIZE 0 _ cK1_grow.wf cK1_excl
      (fun p q f hp hq => cK1_tables p f hp (cK1_new_tables q f hq))
      (fun va _ => cK1_new_empty va) (res_of_val _ 0 cK1 (by decide)),
    by decide,
    hA.2.2.2.2.1 _ rfl (res_of_val _ () wK6 (by decide)),
    by decide,
    by decide,
    hP.2.2.2.2.2.1 0x1000 3 _ rfl (res_of_val _ 3 pK (by decide)),
    by decide,
    hA.2.2.2.2.2.2 _ rfl (res_of_val _ () wK6 (by decide))⟩

/-! ## C17: rollback of `uvmalloc` -/

/-- The loop of `uvmalloc` is its growth loop followed, at a failure, by
`uvmdealloc` and `return 0`. -/
theorem uvmalloc_loop_of_grow (algo : SwapAlgo) (pt oldsz newsz xperm sh : Nat) (fuel : Nat) :
    ∀ (k : Kernel) (b : Nat) (r : Nat × Bool) (kf : Kernel),
      uvmalloc_grow algo fuel k pt b newsz xperm sh = .ok r kf →
      uvmalloc_loop algo fuel k pt b oldsz newsz xperm sh
        = if r.2 = true then (uvmdealloc algo kf pt r.1 oldsz).bind fun _ k2 => .ok 0 k2
          else .ok newsz kf := by
  induction fuel with
  | zero =>
    intro k b r kf h
    rw [uvmalloc_grow] at h
    cases h
  | succ fuel ih =>
    intro k b r kf h
    rw [uvmalloc_grow] at h
    rw [uvmalloc_loop]
    by_cases hb : b < newsz
    swap
    · rw [if_neg hb] at h ⊢
      injection h with hr hk
      rw [← hr, ← hk]
      simp
    rw [if_pos hb] at h ⊢
    cases hk : kalloc k with
    | mk o k1 =>
      rw [hk] at h
      cases o with
      | none =>
        simp only at h ⊢
        injection h with hr hk
        rw [← hr, ← hk]
        simp
      | some f =>
        simp only at h ⊢
        obtain ⟨v, k2, hm, h2⟩ := bind_ok_inv _ _ _ _ h
        rw [hm]
        simp only [Res.bind]
        by_cases hv : v ≠ 0
        · rw [if_pos hv] at h2 ⊢
          injection h2 with hr hk
          rw [← hr, ← hk]
          simp [Res.bind]
        · rw [if_neg hv] at h2 ⊢
          obtain ⟨_, k3, ha, h3⟩ := bind_ok_inv _ _ _ _ h2
          rw [ha]
          simp only [Res.bind]
          exact ih k3 _ r kf h3

/-- One iteration of the rollback: the leaf PTE of page `b` is cleared after
its frame went back to the free list. -/
theorem roll_step (k0 k k4 : Kernel) (pt perm a0 b a t i : Nat)
    (hinv : RollInv k0 k pt perm a0 b a) (hb : b % 4096 = 0) (hab : a0 ≤ b) (hba : b < a)
    (ha : a % 4096 = 0) (haM : a ≤ MAXVA) (hl : leaf k pt b = some (t, i))
    (hm : k4.mem = k.mem) (hfl : ∀ f, f ∈ k.freelist → f ∈ k4.freelist)
    (hfr : PTE2PA (k.mem t i) ∈ k4.freelist) :
    RollInv k0 (k4.write t i 0) pt perm a0 (b + 4096) a := by
  have hM : MAXVA = 274877906944 := by norm_num [MAXVA]
  obtain ⟨f1, f2, f3, f4, _⟩ := mem_eq_facts k k4 pt hm
  have hl4 : leaf k4 pt b = some (t, i) := by rw [f2]; exact hl
  obtain ⟨w1, w2, w3, w4⟩ := tree_write k4 pt b t i 0 (f4 hinv.tree) hl4
  have hpte : ∀ va, va < MAXVA → pteOf (k4.write t i 0) pt va
      = if b ≤ va ∧ va < b + 4096 then 0 else pteOf k pt va := by
    intro va hva
    rw [w4, f3]
    have := leaf_same_page_tree k4 pt b va (t, i) (f4 hinv.tree) hb (by omega) hva hl4
    by_cases e : b ≤ va ∧ va < b + 4096
    · rw [if_pos (this.2 e), if_pos e]
    · rw [if_neg (fun h => e (this.1 h)), if_neg e]
  refine ⟨w2, ?_, ?_, ?_, ?_⟩
  · intro va h1 h2
    rw [hpte va (by omega)]
    by_cases e : b ≤ va ∧ va < b + 4096
    · rw [if_pos e]
    · rw [if_neg e]
      exact hinv.zero va h1 (by omega)
  · intro va h1 h2
    rw [hpte va (by omega), if_neg (by omega)]
    exact hinv.mapped va (by omega) h2
  · intro va hva hout
    rw [hpte va hva, if_neg (by omega)]
    exact hinv.other va hva hout
  · intro x hx
    rcases hinv.acct x hx with e | ⟨p, e⟩ | ⟨va, e1, e2, e4⟩
    · exact Or.inl (hfl x e)
    · right; left
      exact ⟨p, by rw [w1, f1]; exact e⟩
    · by_cases hin : va < b + 4096
      · left
        have hsame : pteOf k pt va = k.mem t i := by
          rw [pteOf_same_page k pt va b (by omega), pteOf_of_leaf k pt b t i hl]
        rw [hsame] at e4
        rw [← e4]
        exact hfr
      · right; right
        refine ⟨va, by omega, e2, ?_⟩
        rw [hpte va (by omega), if_neg (by omega)]; exact e4

/-- The rollback of `uvmalloc` runs to its end without a kernel stop and
clears every page that was added, when the release of the roster slot of
each page (`step`) completes. -/
theorem roll_loop (k0 : Kernel) (algo : SwapAlgo) (pt perm a0 a sh : Nat)
    (ha : a % 4096 = 0) (haM : a ≤ MAXVA) (RI : Proc → Nat → Prop)
    (hstep : ∀ (k : Kernel) (b : Nat), RI k.proc b → a0 ≤ b → b < a → b % 4096 = 0 →
      ∃ k2, uvmunmap_resident algo k pt b sh = .ok () k2 ∧ k2.mem = k.mem
        ∧ k2.freelist = k.freelist ∧ RI k2.proc (b + 4096))
    (hpg : algo ≠ .NONE ∧ sh ≠ 0 → perm &&& PTE_PG = 0) (fuel : Nat) :
    ∀ (k : Kernel) (b : Nat), b % 4096 = 0 → a0 ≤ b → b ≤ a → (a - b) / 4096 < fuel →
      RollInv k0 k pt perm a0 b a → RI k.proc b →
      ∃ k', uvmunmap_loop algo fuel k pt b a 1 sh = .ok () k'
        ∧ RollInv k0 k' pt perm a0 a a ∧ RI k'.proc a := by
  have hM : MAXVA = 274877906944 := by norm_num [MAXVA]
  induction fuel with
  | zero =>
    intro k b _ _ _ hf _ _
    omega
  | succ fuel ih =>
    intro k b hb hab hba hf hinv hri
    rw [uvmunmap_loop]
    by_cases hlt : b < a
    swap
    · rw [if_neg hlt]
      have : b = a := by omega
      rw [this] at hinv hri
      exact ⟨k, rfl, hinv, hri⟩
    rw [if_pos hlt, walk_noalloc k pt b (by omega)]
    simp only [Res.bind]
    obtain ⟨c1, c2, c3⟩ := hinv.mapped b (le_refl _) hlt
    cases hl : leaf k pt b with
    | none =>
      exfalso
      apply c1
      unfold pteOf
      rw [hl]
      simp
    | some l =>
      obtain ⟨t, i⟩ := l
      have he : pteOf k pt b = k.mem t i := pteOf_of_leaf k pt b t i hl
      rw [he] at c1 c2 c3
      simp only
      have c0 : ¬ (k.mem t i &&& (PTE_V ||| PTE_PG) = 0) := by
        rw [show PTE_V = 2 ^ 0 by norm_num [PTE_V], show PTE_PG = 2 ^ 9 by norm_num [PTE_PG]]
        rw [show PTE_V = 2 ^ 0 by norm_num [PTE_V]] at c1
        exact flag_or _ 0 9 c1
      rw [if_neg c0, if_neg c2]
      have hnext : (b + PGSIZE) % U64 = b + 4096 := by
        rw [U64_val]; simp only [PGSIZE]; omega
      obtain ⟨k2, hres, hm2, hfl2, hri2⟩ := hstep k b hri hab hlt hb
      rw [if_pos ⟨by norm_num, c1⟩, hres]
      simp only [Res.bind]
      have hm3 : (kfree k2 (PTE2PA (k2.mem t i))).mem = k.mem := hm2
      rw [if_neg (by
        intro h
        have h4 := h.2.2.2
        rw [hm3] at h4
        exact h4 (c3 (hpg ⟨h.1, h.2.1⟩)))]
      simp only
      rw [hnext]
      exact ih _ (b + 4096) (by omega) (by omega) (by omega) (by omega)
        (roll_step k0 k (kfree k2 (PTE2PA (k2.mem t i))) pt perm a0 b a t i hinv hb hab hlt
          ha haM hl hm3
          (fun f hf' => List.mem_cons_of_mem _ (by rw [hfl2]; exact hf'))
          (by rw [hm2]; exact List.mem_cons_self _ _))
        hri2

/-- The leaf PTE that `uvmalloc` stores for a new page: Valid, a leaf, and
Swapped only if `perm` says so. -/
theorem grow_entry (f perm : Nat) (hperm : perm < 1024) (hR : perm &&& PTE_R ≠ 0) :
    ((PA2PTE f ||| perm ||| PTE_V) % U64) &&& PTE_V ≠ 0
      ∧ PTE_FLAGS ((PA2PTE f ||| perm ||| PTE_V) % U64) ≠ PTE_V
      ∧ (perm &&& PTE_PG = 0 → ((PA2PTE f ||| perm ||| PTE_V) % U64) &&& PTE_PG = 0) := by
  have hV : PTE_V = 2 ^ 0 := by norm_num [PTE_V]
  have hfl := leaf_entry_FLAGS f perm hperm
  refine ⟨leafEntry_valid f perm, ?_, ?_⟩
  · rw [hfl]
    intro e
    rw [show PTE_R = 2 ^ 1 by norm_num [PTE_R], flag_iff] at hR
    have : (perm ||| PTE_V).testBit 1 = true := by
      rw [Nat.testBit_or, hR]; simp
    rw [e] at this
    revert this
    decide
  · intro hpg
    rw [show PTE_PG = 2 ^ 9 by norm_num [PTE_PG]] at hpg ⊢
    rw [← flags_flag _ 9 (by norm_num), hfl, flag_zero_iff, Nat.testBit_or]
    rw [flag_zero_iff] at hpg
    rw [hpg]
    decide

theorem perm_facts (xperm : Nat) (hx : xperm < 1024) :
    (PTE_R ||| PTE_U ||| xperm) < 1024 ∧ (PTE_R ||| PTE_U ||| xperm) &&& PTE_R ≠ 0
      ∧ (xperm &&& PTE_PG = 0 → (PTE_R ||| PTE_U ||| xperm) &&& PTE_PG = 0) := by
  refine ⟨?_, ?_, ?_⟩
  · exact Nat.or_lt_two_pow (n := 10) (by decide) (by simpa using hx)
  · rw [show PTE_R = 2 ^ 1 by norm_num [PTE_R], flag_iff, Nat.testBit_or, Nat.testBit_or]
    have : Nat.testBit (2 ^ 1) 1 = true := by decide
    rw [this]; simp
  · intro h
    rw [show PTE_PG = 2 ^ 9 by norm_num [PTE_PG]] at h ⊢
    rw [flag_zero_iff] at h ⊢
    rw [Nat.testBit_or, Nat.testBit_or, h]
    decide

/-- The frame `kalloc` returned, zeroed: the page table is as before. -/
theorem grow_setup (k : Kernel) (pt f : Nat) (rest : List Nat) (hwf : PTWf k pt)
    (hfl : k.freelist = f :: rest) :
    PTWf (({ k with freelist := rest } : Kernel).zero f) pt
      ∧ (∀ p, frameAt (({ k with freelist := rest } : Kernel).zero f) pt p = frameAt k pt p)
      ∧ (∀ va, pteOf (({ k with freelist := rest } : Kernel).zero f) pt va = pteOf k pt va)
      ∧ (∀ p, frameAt k pt p ≠ some f) ∧ f ∉ rest ∧ (f % 4096 = 0 ∧ f < U64) := by
  have hfm : f ∈ k.freelist := by rw [hfl]; simp
  have hfN : ∀ p, frameAt k pt p ≠ some f := fun p hp => hwf.fresh p f hp hfm
  have hmem : ∀ t, t ≠ f → ∀ j,
      (({ k with freelist := rest } : Kernel).zero f).mem t j = k.mem t j := by
    intro t ht j
    simp [Kernel.zero, ht]
  have st := tables_stable k (({ k with freelist := rest } : Kernel).zero f) pt
    (fun p t ht j => hmem t (fun e => hfN p (e ▸ ht)) j)
  have hnd := hwf.nodup
  rw [hfl] at hnd
  exact ⟨PTWf_pop k _ pt f rest hwf hfl st.1 rfl, st.1, st.2.1, hfN,
    (List.nodup_cons.mp hnd).1, hwf.aligned f hfm⟩

/-- An iteration of the growth loop in which `mappages` returns 0: page `b`
is mapped. -/
theorem grow_ok (k0 k k2 : Kernel) (pt perm a0 b f : Nat) (rest : List Nat)
    (hwf : PTWf k pt) (hinv : RollInv k0 k pt perm a0 a0 b) (hab : a0 ≤ b) (hbM : b < MAXVA)
    (hb : b % 4096 = 0) (hperm : perm < 1024) (hR : perm &&& PTE_R ≠ 0) (hfl : k.freelist = f :: rest)
    (g : Grow (({ k with freelist := rest } : Kernel).zero f) k2 pt)
    (hp : ∀ va, va < MAXVA → pteOf k2 pt va
      = if b ≤ va ∧ va < b + 4096 then (PA2PTE f ||| perm ||| PTE_V) % U64
        else pteOf (({ k with freelist := rest } : Kernel).zero f) pt va)
    (hacct : ∀ x, x ∈ rest → x ∈ k2.freelist ∨ ∃ p, frameAt k2 pt p = some x) :
    RollInv k0 k2 pt perm a0 a0 (b + 4096) := by
  have hM : MAXVA = 274877906944 := by norm_num [MAXVA]
  obtain ⟨wf2, nF, nP, hfN, hfr, hal⟩ := grow_setup k pt f rest hwf hfl
  obtain ⟨e1, e2, e3⟩ := grow_entry f perm hperm hR
  have hentry : ∀ va, b ≤ va → va < b + 4096 →
      pteOf k2 pt va = (PA2PTE f ||| perm ||| PTE_V) % U64 := by
    intro va h1 h2
    rw [hp va (by omega), if_pos ⟨h1, h2⟩]
  have hother : ∀ va, va < MAXVA → ¬ (b ≤ va ∧ va < b + 4096) →
      pteOf k2 pt va = pteOf k pt va := by
    intro va h1 h2
    rw [hp va h1, if_neg h2, nP]
  refine ⟨g.wf.inj, ?_, ?_, ?_, ?_⟩
  · intro va h1 h2
    omega
  · intro va h1 h2
    by_cases hin : b ≤ va
    · rw [hentry va hin h2]
      exact ⟨e1, e2, e3⟩
    · rw [hother va (by omega) (by omega)]
      exact hinv.mapped va h1 (by omega)
  · intro va hva hout
    rw [hother va hva (by omega)]
    exact hinv.other va hva (by omega)
  · intro x hx
    rcases hinv.acct x hx with e | ⟨p, e⟩ | ⟨va, c1, c2, c3⟩
    · rw [hfl] at e
      rcases List.mem_cons.mp e with e' | e'
      · right; right
        refine ⟨b, hab, by omega, ?_⟩
        rw [hentry b (le_refl _) (by omega), leaf_entry_PTE2PA f _ hperm hal.1 hal.2, e']
      · rcases hacct x e' with h | h
        · exact Or.inl h
        · exact Or.inr (Or.inl h)
    · right; left
      exact ⟨p, g.mono p x (by rw [nF]; exact e)⟩
    · right; right
      refine ⟨va, c1, by omega, ?_⟩
      rw [hother va (by omega) (by omega)]; exact c3

/-- An iteration of the growth loop in which `mappages` returns -1: the frame
of the page is released, and page `b` is not mapped. -/
theorem grow_fail (k0 k k2 : Kernel) (pt perm a0 b f : Nat) (rest : List Nat)
    (hwf : PTWf k pt) (hinv : RollInv k0 k pt perm a0 a0 b) (hfl : k.freelist = f :: rest)
    (st : Step (({ k with freelist := rest } : Kernel).zero f) k2 pt)
    (hfl2 : k2.freelist = [])
    (hacct : ∀ x, x ∈ rest → x ∈ k2.freelist ∨ ∃ p, frameAt k2 pt p = some x) :
    PTWf (kfree k2 f) pt ∧ RollInv k0 (kfree k2 f) pt perm a0 a0 b := by
  obtain ⟨wf2, nF, nP, hfN, hfr, hal⟩ := grow_setup k pt f rest hwf hfl
  have hnt : ∀ p, frameAt k2 pt p ≠ some f := by
    intro p hp
    rcases st.tables p f hp with ⟨q, hq⟩ | hm
    · rw [nF] at hq
      exact hfN q hq
    · exact hfr hm
  have hpte : ∀ va, pteOf (kfree k2 f) pt va = pteOf k pt va := by
    intro va
    rw [pteOf_congr k2 (kfree k2 f) pt va rfl, st.pte, nP]
  have hwf3 := PTWf_push k2 pt f st.wf (by rw [hfl2]; simp) hal hnt
  refine ⟨hwf3, hwf3.inj, ?_, ?_, ?_, ?_⟩
  · intro va h1 h2
    omega
  · intro va h1 h2
    rw [hpte]
    exact hinv.mapped va h1 h2
  · intro va hva hout
    rw [hpte]
    exact hinv.other va hva hout
  · intro x hx
    rcases hinv.acct x hx with e | ⟨p, e⟩ | ⟨va, c1, c2, c3⟩
    · rw [hfl] at e
      rcases List.mem_cons.mp e with e' | e'
      · left
        rw [e']
        exact List.mem_cons_self _ _
      · rcases hacct x e' with h | ⟨p, h⟩
        · exact Or.inl (List.mem_cons_of_mem _ h)
        · exact Or.inr (Or.inl ⟨p, (frameAt_mem_eq k2 _ pt rfl p).trans h⟩)
    · right; left
      exact ⟨p, (frameAt_mem_eq k2 _ pt rfl p).trans (st.mono p x (by rw [nF]; exact e))⟩
    · right; right
      exact ⟨va, c1, c2, by rw [hpte]; exact c3⟩

/-- The function `mappages` for one page whose leaf-level table exists: no
allocation. -/
theorem mappages_at_leaf (k : Kernel) (pt a pa perm t i : Nat) (ha : a % 4096 = 0)
    (haM : a < MAXVA) (hl : leaf k pt a = some (t, i)) :
    mappages k pt a PGSIZE pa perm
      = if k.mem t i &&& PTE_V ≠ 0 then .stop .mappages_remap
        else .ok 0 (k.write t i ((PA2PTE pa ||| perm ||| PTE_V) % U64)) := by
  have hM : MAXVA = 274877906944 := by norm_num [MAXVA]
  have hP : PGSIZE = 4096 := rfl
  obtain ⟨ea, el⟩ := mappages_args a PGSIZE (by norm_num [PGSIZE]) (by rw [hP]; omega)
  have ea' : PGROUNDDOWN a = a := by rw [ea]; omega
  have el' : PGROUNDDOWN ((a + PGSIZE - 1) % U64) = a := by rw [el, hP]; omega
  have hfuel : MAXVA / PGSIZE + 1 = 67108864 + 1 := by norm_num [MAXVA, PGSIZE]
  have hm : mappages k pt a PGSIZE pa perm = mappages_loop (67108864 + 1) k pt a a pa perm := by
    simp only [mappages, ea', el', hfuel]
    rw [if_neg (by norm_num [PGSIZE])]
  rw [hm, mappages_loop, walk_alloc_of_leaf k pt a (t, i) haM hl]
  simp only [Res.bind]
  by_cases hv : k.mem t i &&& PTE_V ≠ 0
  · rw [if_pos hv, if_pos hv]
  · rw [if_neg hv, if_neg hv, if_pos trivial]

/-- The pages of the first 2 MB share the leaf-level table of page 0. -/
theorem leaf_low (k : Kernel) (pt b : Nat) (hb : b < 2097152) (h : leaf k pt 0 ≠ none) :
    ∃ t, leaf k pt b = some (t, PX 0 b) ∧ frameAt k pt (.l0 0 0) = some t := by
  have e2 : PX 2 b = 0 := by rw [PX_eq]; omega
  have e1 : PX 1 b = 0 := by rw [PX_eq]; omega
  have z2 : PX 2 0 = 0 := by decide
  have z1 : PX 1 0 = 0 := by decide
  rw [leaf_eq_frameAt, z2, z1] at h
  rw [leaf_eq_frameAt, e2, e1]
  cases hf : frameAt k pt (.l0 0 0) with
  | none => rw [hf] at h; exact absurd rfl h
  | some t => exact ⟨t, rfl, rfl⟩

/-- The scan of `findPageToEvict` does not look at the free list. -/
theorem findPageToEvict_scfifo_free (fl : List Nat) (fuel : Nat) :
    ∀ (k ke : Kernel) (m : Nat), findPageToEvict_scfifo fuel k = .ok m ke →
      findPageToEvict_scfifo fuel { k with freelist := fl } = .ok m { ke with freelist := fl }
        ∧ ke.freelist = k.freelist := by
  induction fuel with
  | zero =>
    intro k ke m h
    rw [findPageToEvict_scfifo] at h
    cases h
  | succ fuel ih =>
    intro k ke m h
    rw [findPageToEvict_scfifo] at h ⊢
    simp only at h ⊢
    cases ho : k.proc.oldest with
    | none => rw [ho] at h; cases h
    | some o =>
      rw [ho] at h
      simp only at h ⊢
      obtain ⟨r, k1, hw, h2⟩ := bind_ok_inv _ _ _ _ h
      obtain ⟨e1, e2, e3⟩ := walk_noalloc_inv k k1 _ _ r hw
      subst e1
      rw [walk_noalloc _ _ _ e3]
      simp only [Res.bind]
      rw [leaf_congr k1 { k1 with freelist := fl } _ _ rfl, ← e2]
      cases r with
      | none => cases h2
      | some l =>
        obtain ⟨t, i⟩ := l
        simp only at h2 ⊢
        by_cases hA : k1.mem t i &&& PTE_A = 0
        · rw [if_pos hA] at h2 ⊢
          injection h2 with hm hk
          rw [← hm, ← hk]
          exact ⟨rfl, rfl⟩
        · rw [if_neg hA] at h2 ⊢
          cases hr : remove_scfifo (k1.write t i (k1.mem t i &&& NOT64 PTE_A)).proc
              (k1.proc.scfifo o).position with
          | none => rw [hr] at h2; cases h2
          | some p3 =>
            rw [hr] at h2
            have hr' : remove_scfifo
                (({ k1 with freelist := fl } : Kernel).write t i
                  (({ k1 with freelist := fl } : Kernel).mem t i &&& NOT64 PTE_A)).proc
                (({ k1 with freelist := fl } : Kernel).proc.scfifo o).position = some p3 := hr
            rw [hr']
            simp only at h2 ⊢
            exact ih _ ke m h2

theorem findPageToEvict_free (algo : SwapAlgo) (fl : List Nat) (k ke : Kernel) (m : Nat)
    (h : findPageToEvict algo k = .ok m ke) :
    findPageToEvict algo { k with freelist := fl } = .ok m { ke with freelist := fl }
      ∧ ke.freelist = k.freelist := by
  unfold findPageToEvict at h ⊢
  cases algo with
  | SCFIFO => exact findPageToEvict_scfifo_free fl _ k ke m h
  | NONE =>
    simp only at h ⊢
    split at h
    · cases h
    · cases h
    · injection h with hm hk
      rw [← hm, ← hk]
      exact ⟨rfl, rfl⟩
  | NFUA =>
    simp only at h ⊢
    split at h
    · cases h
    · cases h
    · injection h with hm hk
      rw [← hm, ← hk]
      exact ⟨rfl, rfl⟩
  | LAPA =>
    simp only at h ⊢
    split at h
    · cases h
    · cases h
    · injection h with hm hk
      rw [← hm, ← hk]
      exact ⟨rfl, rfl⟩

/-- What `findPageToEvict` leaves of a page table that is a tree. -/
theorem evict_facts (algo : SwapAlgo) (k ke : Kernel) (m : Nat)
    (ht : Tree k k.proc.pagetable) (h : findPageToEvict algo k = .ok m ke) :
    ke.proc.pagetable = k.proc.pagetable
      ∧ ke.proc.num_of_phys_pages = k.proc.num_of_phys_pages
      ∧ ke.freelist = k.freelist
      ∧ Tree ke k.proc.pagetable
      ∧ (∀ p, frameAt ke k.proc.pagetable p = frameAt k k.proc.pagetable p)
      ∧ (∀ va, leaf ke k.proc.pagetable va = leaf k k.proc.pagetable va)
      ∧ (∀ va, PTE2PA (pteOf ke k.proc.pagetable va) = PTE2PA (pteOf k k.proc.pagetable va)) := by
  obtain ⟨h1, h2⟩ := findPageToEvict_free algo [] k ke m h
  have hs := findPageToEvict_evictScan algo { k with freelist := [] } { ke with freelist := [] } m
    (wf_nofree k k.proc.pagetable ht) h1
  obtain ⟨f1, f2, f3, _, _⟩ := mem_eq_facts ke { ke with freelist := [] } k.proc.pagetable rfl
  obtain ⟨g1, g2, g3, _, _⟩ := mem_eq_facts k { k with freelist := [] } k.proc.pagetable rfl
  refine ⟨hs.pagetable, hs.num, h2, ?_, ?_, ?_, ?_⟩
  · exact tree_congr { ke with freelist := [] } ke _ (fun p => (f1 p).symm) hs.wf.inj
  · intro p
    rw [← f1, ← g1]
    exact hs.frames p
  · intro va
    rw [← f2, ← g2]
    exact hs.leaf_eq va
  · intro va
    rw [← f3, ← g3]
    rcases hs.pte va with e | e
    · exact congrArg PTE2PA e
    · have : pteOf { ke with freelist := [] } k.proc.pagetable va
          = pteOf { k with freelist := [] } k.proc.pagetable va &&& NOT64 PTE_A := e
      rw [this]
      exact (clearA_entry _).1

/-- The PTE that `swap_out` stores keeps the frame number. -/
theorem swapped_entry_frame (x : Nat) : PTE2PA ((x &&& NOT64 PTE_V) ||| PTE_PG) = PTE2PA x := by
  have hV : PTE_V = 2 ^ 0 := by norm_num [PTE_V]
  have hPG : PTE_PG = 2 ^ 9 := by norm_num [PTE_PG]
  apply Nat.eq_of_testBit_eq
  intro j
  simp only [tb_PTE2PA, Nat.testBit_or, Nat.testBit_and, tb_NOT64, hV, hPG, Nat.testBit_two_pow]
  by_cases h1 : j < 64 <;> by_cases h2 : 12 ≤ j <;> simp [h1, h2]
  have a1 : 10 + (j - 12) < 64 := by omega
  have a2 : ¬ (9 = 10 + (j - 12)) := by omega
  have a3 : ¬ (0 = 10 + (j - 12)) := by omega
  simp [a1, a2, a3]

/-- An `allocate_page` that evicts: afterwards the resident roster is full
again and the frame of the victim is at the head of the free list. -/
theorem evict_admit (algo : SwapAlgo) (k2 k3 : Kernel) (b : Nat)
    (ht : Tree k2 k2.proc.pagetable) (hlow : leaf k2 k2.proc.pagetable 0 ≠ none)
    (hoff : ∀ va, va < MAXVA → ∀ p,
      frameAt k2 k2.proc.pagetable p ≠ some (PTE2PA (pteOf k2 k2.proc.pagetable va)))
    (hnum : k2.proc.num_of_phys_pages = MAX_PSYC_PAGES)
    (h : allocate_page algo k2 k2.proc.pagetable b = .ok () k3) :
    EvInv k3 k2.proc.pagetable := by
  unfold allocate_page at h
  rw [if_pos hnum] at h
  obtain ⟨_, k2', hso, h2⟩ := bind_ok_inv _ _ _ _ h
  have hso0 := hso
  unfold swap_out at hso
  cases hs : findFree k2.proc.swapfile_pages with
  | none => rw [hs] at hso; cases hso
  | some s =>
    rw [hs] at hso
    simp only at hso
    obtain ⟨m, ke, hev, h3⟩ := bind_ok_inv _ _ _ _ hso
    obtain ⟨r, k4, hw, h4⟩ := bind_ok_inv _ _ _ _ h3
    obtain ⟨e1, e2, e3⟩ := walk_noalloc_inv _ k4 _ _ r hw
    simp only [upd_same] at e2 e3
    cases r with
    | none => cases h4
    | some l =>
      obtain ⟨t, i⟩ := l
      obtain ⟨v1, v2, v3, v4, v5, v6, v7⟩ := evict_facts algo k2 ke m ht hev
      have hl : leaf ke k2.proc.pagetable (ke.proc.memory_pages m).va = some (t, i) := by
        rw [e2]
        exact (leaf_congr ke _ _ _ rfl).symm
      obtain ⟨k1', s1, s2, s3, s4, _, _, s7, _⟩ :=
        swap_out_spec algo k2 ke k2.proc.pagetable s m t i hs hev e3 hl
      rw [hso0] at s1
      injection s1 with _ hk
      rw [← hk] at s2 s3 s4 s7
      have hm : k2'.mem = (ke.write t i ((ke.mem t i &&& NOT64 PTE_V) ||| PTE_PG)).mem := by
        rw [s2]; rfl
      obtain ⟨w1, w2, w3, w4⟩ :=
        tree_write ke k2.proc.pagetable _ t i ((ke.mem t i &&& NOT64 PTE_V) ||| PTE_PG) v4 hl
      obtain ⟨f1, f2, f3, f4, _⟩ := mem_eq_facts _ k2' k2.proc.pagetable hm
      have hpe : ke.mem t i = pteOf ke k2.proc.pagetable (ke.proc.memory_pages m).va :=
        (pteOf_of_leaf ke _ _ t i hl).symm
      have hpa : ∀ va, PTE2PA (pteOf k2' k2.proc.pagetable va)
          = PTE2PA (pteOf k2 k2.proc.pagetable va) := by
        intro va
        rw [f3, w4]
        by_cases e : leaf ke k2.proc.pagetable va = some (t, i)
        · rw [if_pos e, swapped_entry_frame, ← v7, pteOf_of_leaf ke _ va t i e]
        · rw [if_neg e, v7]
      cases hq : findFree k2'.proc.memory_pages with
      | none => rw [hq] at h2; cases h2
      | some q =>
        rw [hq] at h2
        simp only at h2
        injection h2 with _ hk3
        have hm3 : k3.mem = k2'.mem := by rw [← hk3]
        have hfl3 : k3.freelist = k2'.freelist := by rw [← hk3]
        obtain ⟨g1, g2, g3, g4, _⟩ := mem_eq_facts k2' k3 k2.proc.pagetable hm3
        have hpt3 : k3.proc.pagetable = k2.proc.pagetable
            ∧ k3.proc.num_of_phys_pages = k2'.proc.num_of_phys_pages + 1 := by
          rw [← hk3]
          cases algo with
          | SCFIFO =>
            simp only
            rw [(set_scfifo_fields _ q).2.1, (set_scfifo_fields _ q).2.2.2]
            exact ⟨s4.trans v1, rfl⟩
          | NONE => exact ⟨s4.trans v1, rfl⟩
          | NFUA => exact ⟨s4.trans v1, rfl⟩
          | LAPA => exact ⟨s4.trans v1, rfl⟩
        refine ⟨g4 (f4 w2), hpt3.1, ?_, ?_, ?_, ?_⟩
        · rw [g2, f2, w3, v6]
          exact hlow
        · intro va hva p
          rw [g1, f1, w1, v5, g3, hpa]
          exact hoff va hva p
        · rw [hpt3.2, s7, v2, hnum]
          norm_num [MAX_PSYC_PAGES]
        · refine ⟨PTE2PA (ke.mem t i), ke.freelist, by rw [hfl3, s3], PTE2PA_aligned _,
            PTE2PA_lt _, ?_⟩
          intro p
          rw [g1, f1, w1, v5, hpe, v7]
          exact hoff _ e3 p

/-- Once a page was evicted, the growth loop does not fail: every later
`kalloc` finds the frame of the last victim, and `mappages` finds the
leaf-level table. -/
theorem ev_no_fail (algo : SwapAlgo) (pt xperm newsz sh : Nat)
    (hpg : algo ≠ .NONE ∧ sh ≠ 0) (hx : xperm < 1024) (hnew : newsz ≤ 2097152) (fuel : Nat) :
    ∀ (k : Kernel) (b a : Nat) (kf : Kernel), b % 4096 = 0 → EvInv k pt →
      uvmalloc_grow algo fuel k pt b newsz xperm sh ≠ .ok (a, true) kf := by
  have hM : MAXVA = 274877906944 := by norm_num [MAXVA]
  obtain ⟨hperm, _, _⟩ := perm_facts xperm hx
  induction fuel with
  | zero =>
    intro k b a kf _ _ h
    rw [uvmalloc_grow] at h
    cases h
  | succ fuel ih =>
    intro k b a kf hb hev h
    rw [uvmalloc_grow] at h
    by_cases hlt : b < newsz
    swap
    · rw [if_neg hlt] at h
      injection h with hr _
      injection hr with _ h2
      cases h2
    rw [if_pos hlt] at h
    obtain ⟨f, rest, hfl, hal, hfU, hnt⟩ := hev.head
    unfold kalloc at h
    rw [hfl] at h
    simp only at h
    have hmem : ∀ t, t ≠ f → ∀ j,
        (({ k with freelist := rest } : Kernel).zero f).mem t j = k.mem t j := by
      intro t ht j
      simp [Kernel.zero, ht]
    have st := tables_stable k (({ k with freelist := rest } : Kernel).zero f) pt
      (fun p t ht j => hmem t (fun e => hnt p (e ▸ ht)) j)
    have hlf : ∀ va, leaf (({ k with freelist := rest } : Kernel).zero f) pt va = leaf k pt va := by
      intro va
      rw [leaf_eq_frameAt, leaf_eq_frameAt, st.1]
    obtain ⟨L, hlb, _⟩ := leaf_low (({ k with freelist := rest } : Kernel).zero f) pt b
      (by omega) (by rw [hlf]; exact hev.low)
    rw [mappages_at_leaf _ pt b f _ L (PX 0 b) hb (by omega) hlb] at h
    by_cases hv : (({ k with freelist := rest } : Kernel).zero f).mem L (PX 0 b) &&& PTE_V ≠ 0
    · rw [if_pos hv] at h
      cases h
    rw [if_neg hv] at h
    simp only [Res.bind] at h
    rw [if_neg (by simp), if_pos hpg] at h
    obtain ⟨_, k3, ha, h3⟩ := bind_ok_inv _ _ _ _ h
    have ht1 : Tree (({ k with freelist := rest } : Kernel).zero f) pt :=
      tree_congr k _ pt st.1 hev.tree
    obtain ⟨w1, w2, w3, w4⟩ := tree_write _ pt b L (PX 0 b)
      ((PA2PTE f ||| (PTE_R ||| PTE_U ||| xperm) ||| PTE_V) % U64) ht1 hlb
    have hown : ((({ k with freelist := rest } : Kernel).zero f).write L (PX 0 b)
        ((PA2PTE f ||| (PTE_R ||| PTE_U ||| xperm) ||| PTE_V) % U64)).proc.pagetable = pt :=
      hev.own
    have hev3 : EvInv k3 pt := by
      rw [← hown]
      apply evict_admit algo _ k3 b
      · rw [hown]; exact w2
      · rw [hown, w3, hlf]; exact hev.low
      · rw [hown]
        intro va hva p
        rw [w1, st.1, w4]
        by_cases e : leaf (({ k with freelist := rest } : Kernel).zero f) pt va = some (L, PX 0 b)
        · rw [if_pos e, leaf_entry_PTE2PA f _ hperm hal hfU]
          exact hnt p
        · rw [if_neg e, st.2.1]
          exact hev.leafOff va hva p
      · exact hev.num
      · rw [hown]; exact ha
    have hnext : (b + PGSIZE) % U64 = b + 4096 := by
      rw [U64_val]; simp only [PGSIZE]; omega
    rw [hnext] at h3
    exact ih k3 (b + 4096) a kf (by omega) hev3 h3

/-! ### The second-chance list: appending and removing a node -/

/-- The `last` of a chain is its last node. -/
theorem chain_last (sc : Nat → Scfifo) (rest : List Nat) :
    ∀ (a : Nat) (prev last : Option Nat), Chain sc prev (a :: rest) last →
      last = (a :: rest).getLast? := by
  induction rest with
  | nil =>
    intro a prev last h
    simp only [Chain] at h
    simp [h.2.2.2]
  | cons b r ih =>
    intro a prev last h
    simp only [Chain] at h
    rw [List.getLast?_cons_cons]
    exact ih b (some a) last (by simp only [Chain]; exact h.2.2.2)

/-- The node `a` appended to a well-formed list, as `set_scfifo` does. -/
theorem set_scfifo_isList (p : Proc) (a : Nat) (l : List Nat) (h : IsList p l) (ha : a ∉ l) :
    IsList (set_scfifo p a) (l ++ [a]) := by
  obtain ⟨hnd, hold, hch⟩ := h
  have hnd' : (l ++ [a]).Nodup := by
    rw [List.nodup_append]
    refine ⟨hnd, by simp, ?_⟩
    intro x hx hx'
    simp only [List.mem_singleton] at hx'
    exact ha (hx' ▸ hx)
  cases l with
  | nil =>
    simp only [Chain] at hch
    simp only [List.head?_nil] at hold
    refine ⟨hnd', ?_, ?_⟩
    · simp [set_scfifo, hch, hold]
    · simp [set_scfifo, hch, hold, Chain, upd]
  | cons x rest =>
    simp only [List.head?_cons] at hold
    obtain ⟨z, hz, _⟩ := chain_last_mem p.scfifo rest x none p.newest hch
    have hsnoc := chain_snoc p.scfifo a (x :: rest) none p.newest hch hnd' (by simp)
    rw [hz] at hsnoc
    refine ⟨hnd', ?_, ?_⟩
    · simp [set_scfifo, hz, hold]
    · simp only [set_scfifo, hz, hold]
      exact hsnoc

/-- The head of a chain may hang from another node. -/
theorem chain_set_older (sc : Nat → Scfifo) (b : Nat) (r : List Nat) (prev prev' last : Option Nat)
    (h : Chain sc prev (b :: r) last) (hb : b ∉ r) :
    Chain (upd sc b { sc b with older := prev' }) prev' (b :: r) last := by
  simp only [Chain] at h ⊢
  obtain ⟨h1, h2, h3, h4⟩ := h
  refine ⟨by simp [upd, h1], by simp [upd], by simp [upd, h3], ?_⟩
  rw [chain_congr sc _ r (some b) last]
  · exact h4
  · intro s hs
    have : s ≠ b := fun e => hb (e ▸ hs)
    simp [upd, this]

/-- The last node of a chain removed. -/
theorem chain_drop_last (sc : Nat → Scfifo) (a : Nat) (l1 : List Nat) :
    ∀ (x : Nat) (prev last : Option Nat), Chain sc prev (x :: l1 ++ [a]) last →
      (x :: l1 ++ [a]).Nodup →
      ∃ n, (sc a).older = some n ∧ n ≠ a ∧ n ∈ x :: l1
        ∧ Chain (upd sc n { sc n with newer := none }) prev (x :: l1) (some n) := by
  induction l1 with
  | nil =>
    intro x prev last h hnd
    simp only [List.cons_append, List.nil_append, Chain] at h
    obtain ⟨h1, h2, h3, h4, h5, h6, h7⟩ := h
    have hxa : x ≠ a := by
      intro e
      simp [e] at hnd
    refine ⟨x, h5, hxa, by simp, ?_⟩
    simp [Chain, upd, h1, h2]
  | cons y r ih =>
    intro x prev last h hnd
    simp only [List.cons_append, Chain] at h
    obtain ⟨h1, h2, h3, h4⟩ := h
    have hnd' : (y :: r ++ [a]).Nodup := (List.nodup_cons.mp hnd).2
    obtain ⟨n, e1, e2, e3, e4⟩ := ih y (some x) last (by simp only [List.cons_append, Chain]; exact h4) hnd'
    have hxn : x ≠ n := by
      intro e
      have := (List.nodup_cons.mp hnd).1
      apply this
      rw [e]
      exact List.mem_append_left _ e3
    refine ⟨n, e1, e2, List.mem_cons_of_mem _ e3, ?_⟩
    simp only [Chain]
    simp only [Chain] at e4
    refine ⟨by simp [upd, hxn, h1], by simp [upd, hxn, h2], ?_, e4⟩
    simp [upd, hxn, h3]

/-- A node between two nodes of a chain removed. -/
theorem chain_cut (sc : Nat → Scfifo) (a b : Nat) (r : List Nat) (l1 : List Nat) :
    ∀ (x : Nat) (prev last : Option Nat), Chain sc prev (x :: l1 ++ a :: b :: r) last →
      (x :: l1 ++ a :: b :: r).Nodup →
      ∃ n, (sc a).older = some n ∧ (sc a).newer = some b ∧ n ≠ a ∧ n ≠ b
        ∧ Chain (upd (upd sc n { sc n with newer := some b }) b
            { (upd sc n { sc n with newer := some b }) b with older := some n })
          prev (x :: l1 ++ b :: r) last := by
  induction l1 with
  | nil =>
    intro x prev last h hnd
    simp only [List.cons_append, List.nil_append, Chain] at h
    obtain ⟨h1, h2, h3, h4, h5, h6, h7, h8, h9, h10⟩ := h
    simp only [List.cons_append, List.nil_append, List.nodup_cons, List.mem_cons] at hnd
    obtain ⟨n1, n2, n3, n4⟩ := hnd
    have hxa : x ≠ a := fun e => n1 (Or.inl e)
    have hxb : x ≠ b := fun e => n1 (Or.inr (Or.inl e))
    have hxr : x ∉ r := fun e => n1 (Or.inr (Or.inr e))
    refine ⟨x, h5, by simpa using h6, hxa, hxb, ?_⟩
    simp only [List.cons_append, List.nil_append, Chain]
    refine ⟨by simp [upd, hxb, h1], by simp [upd, hxb, h2], by simp [upd, hxb],
      by simp [upd, hxb.symm, h7], by simp [upd], by simp [upd, hxb.symm, h9], ?_⟩
    rw [chain_congr sc _ r (some b) last]
    · exact h10
    · intro s hs
      have s1 : s ≠ b := fun e => n3 (e ▸ hs)
      have s2 : s ≠ x := fun e => hxr (e ▸ hs)
      simp [upd, s1, s2]
  | cons y l1 ih =>
    intro x prev last h hnd
    simp only [List.cons_append, Chain] at h
    obtain ⟨h1, h2, h3, h4⟩ := h
    have hnd' : (y :: l1 ++ a :: b :: r).Nodup := (List.nodup_cons.mp hnd).2
    have hx : x ∉ y :: l1 ++ a :: b :: r := (List.nodup_cons.mp hnd).1
    obtain ⟨n, e1, e2, e3, e4, e5⟩ :=
      ih y (some x) last (by simp only [List.cons_append, Chain]; exact h4) hnd'
    refine ⟨n, e1, e2, e3, e4, ?_⟩
    have hxb : x ≠ b := by
      intro e
      apply hx
      rw [e]
      simp
    have hn : n ∈ y :: l1 ++ a :: b :: r := by
      by_contra hc
      have key : ∀ (l : List Nat) (z : Nat) (pv : Option Nat),
          Chain sc pv (z :: l ++ a :: b :: r) last → ∃ m, m ∈ z :: l ∧ (sc a).older = some m := by
        intro l
        induction l with
        | nil =>
          intro z pv hz
          simp only [List.cons_append, List.nil_append, Chain] at hz
          exact ⟨z, by simp, hz.2.2.2.2.1⟩
        | cons w l ihl =>
          intro z pv hz
          simp only [List.cons_append, Chain] at hz
          obtain ⟨m, hm1, hm2⟩ := ihl w (some z) (by simp only [List.cons_append, Chain]; exact hz.2.2.2)
          exact ⟨m, List.mem_cons_of_mem _ hm1, hm2⟩
      obtain ⟨m, hm1, hm2⟩ := key l1 y (some x) (by simp only [List.cons_append, Chain]; exact h4)
      rw [e1] at hm2
      injection hm2 with hm2
      apply hc
      rw [hm2]
      simp only [List.cons_append] at hm1 ⊢
      exact List.mem_append_left _ hm1
    have hxn : x ≠ n := fun e => hx (e ▸ hn)
    simp only [List.cons_append, Chain]
    simp only [List.cons_append, Chain] at e5
    refine ⟨by simp [upd, hxb, hxn, h1], by simp [upd, hxb, hxn, h2], ?_, e5⟩
    simp [upd, hxb, hxn, h3]

/-- A node removed from a well-formed list, as `remove_scfifo` does: no null
pointer is dereferenced, and the rest is a well-formed list. -/
theorem remove_scfifo_isList (p : Proc) (a : Nat) (l1 l2 : List Nat)
    (h : IsList p (l1 ++ a :: l2)) :
    ∃ p', remove_scfifo p a = some p' ∧ IsList p' (l1 ++ l2) := by
  obtain ⟨hnd, hold, hch⟩ := h
  cases l1 with
  | nil =>
    simp only [List.nil_append] at hnd hold hch ⊢
    simp only [List.head?_cons] at hold
    have ha_notin : a ∉ l2 := (List.nodup_cons.mp hnd).1
    have hnd2 : l2.Nodup := (List.nodup_cons.mp hnd).2
    cases l2 with
    | nil =>
      simp only [Chain] at hch
      obtain ⟨h1, h2, h3, h4⟩ := hch
      have hrem : remove_scfifo p a = some { p with
          oldest := none, newest := none,
          scfifo := upd p.scfifo a { p.scfifo a with newer := none, older := none } } := by
        simp [remove_scfifo, h4, hold]
      exact ⟨_, hrem, by simp, rfl, by simp [Chain]⟩
    | cons b r =>
      have hlast := chain_last p.scfifo (b :: r) a none p.newest hch
      rw [List.getLast?_cons_cons] at hlast
      simp only [Chain] at hch
      obtain ⟨h1, h2, h3, h5, h6, h7, h8⟩ := hch
      have hba : b ≠ a := fun e => ha_notin (by rw [e]; exact List.mem_cons_self a r)
      have hb_notin : b ∉ r := (List.nodup_cons.mp hnd2).1
      have hnew : ¬ (p.newest = some a) := by
        rw [hlast]
        intro e
        exact ha_notin (List.mem_of_mem_getLast? e)
      simp only [List.head?_cons] at h3
      have hrem : remove_scfifo p a = some { p with
          oldest := some b,
          scfifo := upd (upd p.scfifo b { p.scfifo b with older := none }) a
            { (upd p.scfifo b { p.scfifo b with older := none }) a with
              newer := none, older := none } } := by
        simp only [remove_scfifo]
        rw [if_neg (fun hc => hnew hc.1), if_pos hold, h3]
      refine ⟨_, hrem, ?_⟩
      · refine ⟨hnd2, rfl, ?_⟩
        simp only [Chain]
        refine ⟨by simp [upd, hba, h5], by simp [upd, hba], by simp [upd, hba, h7], ?_⟩
        rw [chain_congr p.scfifo _ r (some b) p.newest]
        · exact h8
        · intro s hs
          have hsa : s ≠ a := fun e => ha_notin (e ▸ List.mem_cons_of_mem b hs)
          have hsb : s ≠ b := fun e => hb_notin (e ▸ hs)
          simp [upd, hsa, hsb]
  | cons x l1 =>
    simp only [List.cons_append, List.head?_cons] at hold
    have hxa : x ≠ a := by
      intro e
      have := (List.nodup_cons.mp hnd).1
      apply this
      rw [e]
      exact List.mem_append_right _ (List.mem_cons_self _ _)
    have hold' : ¬ (p.oldest = some a) := by
      rw [hold]
      simpa using hxa
    cases l2 with
    | nil =>
      have hlast := chain_last p.scfifo (l1 ++ [a]) x none p.newest hch
      have hnew : p.newest = some a := by
        rw [hlast, show x :: (l1 ++ [a]) = (x :: l1) ++ [a] by simp, List.getLast?_append]
        rfl
      obtain ⟨n, e1, e2, e3, e4⟩ := chain_drop_last p.scfifo a l1 x none p.newest hch hnd
      have hnd' : (x :: l1 ++ [a]).Nodup := hnd
      rw [List.nodup_append] at hnd'
      have ha_notin : a ∉ x :: l1 := fun hm => hnd'.2.2 hm (by simp)
      have hrem : remove_scfifo p a = some { p with
          newest := some n,
          scfifo := upd (upd p.scfifo n { p.scfifo n with newer := none }) a
            { (upd p.scfifo n { p.scfifo n with newer := none }) a with
              newer := none, older := none } } := by
        simp only [remove_scfifo]
        rw [if_neg (fun hc => hold' hc.2), if_neg hold', if_pos hnew, e1]
      refine ⟨_, hrem, ?_⟩
      · rw [List.append_nil]
        refine ⟨hnd'.1, hold, ?_⟩
        rw [chain_congr (upd p.scfifo n { p.scfifo n with newer := none }) _ (x :: l1) none
          (some n)]
        · exact e4
        · intro s hs
          have : s ≠ a := fun e => ha_notin (e ▸ hs)
          simp [upd, this]
    | cons b r =>
      have hlast := chain_last p.scfifo (l1 ++ a :: b :: r) x none p.newest hch
      have hnd0 : (x :: l1 ++ a :: b :: r).Nodup := hnd
      have hnd' := hnd0
      rw [List.nodup_append] at hnd'
      have ha_br : a ∉ b :: r := (List.nodup_cons.mp hnd'.2.1).1
      have hnew : ¬ (p.newest = some a) := by
        rw [hlast]
        intro e
        have e2 : (x :: (l1 ++ a :: b :: r)).getLast? = (b :: r).getLast? := by
          rw [show x :: (l1 ++ a :: b :: r) = (x :: l1 ++ [a]) ++ (b :: r) by simp]
          rw [List.getLast?_append]
          obtain ⟨z, hz⟩ : ∃ z, (b :: r).getLast? = some z :=
            ⟨(b :: r).getLast (by simp), List.getLast?_eq_getLast _ _⟩
          rw [hz]
          rfl
        rw [e2] at e
        exact ha_br (List.mem_of_mem_getLast? e)
      obtain ⟨n, e1, e2, e3, e4, e5⟩ := chain_cut p.scfifo a b r l1 x none p.newest hch hnd0
      have ha_notin : a ∉ x :: l1 ++ b :: r := by
        intro hm
        rcases List.mem_append.mp hm with h1 | h1
        · exact hnd'.2.2 h1 (List.mem_cons_self _ _)
        · exact ha_br h1
      have hnewer' : (upd p.scfifo n { p.scfifo n with newer := some b } a).newer
          = some b := by simp [upd, e3.symm, e2]
      have hrem : remove_scfifo p a = some { p with
          scfifo := upd (upd (upd p.scfifo n { p.scfifo n with newer := some b }) b
              { (upd p.scfifo n { p.scfifo n with newer := some b }) b with older := some n }) a
            { (upd (upd p.scfifo n { p.scfifo n with newer := some b }) b
                { (upd p.scfifo n { p.scfifo n with newer := some b }) b with older := some n }) a
              with newer := none, older := none } } := by
        have holder : (upd p.scfifo n { p.scfifo n with newer := some b } a).older = some n := by
          simp [upd, e3.symm, e1]
        simp only [remove_scfifo]
        rw [if_neg (fun hc => hold' hc.2), if_neg hold', if_neg hnew, e1]
        simp only [e2]
        rw [hnewer', holder]
      refine ⟨_, hrem, ?_⟩
      · refine ⟨?_, hold, ?_⟩
        · show (x :: l1 ++ b :: r).Nodup
          rw [List.nodup_append]
          refine ⟨hnd'.1, (List.nodup_cons.mp hnd'.2.1).2, ?_⟩
          intro y hy hy'
          exact hnd'.2.2 hy (List.mem_cons_of_mem _ hy')
        · rw [chain_congr (upd (upd p.scfifo n { p.scfifo n with newer := some b }) b
              { (upd p.scfifo n { p.scfifo n with newer := some b }) b with older := some n })
              _ (x :: l1 ++ b :: r) none p.newest]
          · exact e5
          · intro s hs
            have hsa : s ≠ a := fun e => ha_notin (e ▸ hs)
            simp [upd, hsa]

theorem isList_congr (p p' : Proc) (l : List Nat) (hs : p'.scfifo = p.scfifo)
    (ho : p'.oldest = p.oldest) (hn : p'.newest = p.newest) (h : IsList p l) : IsList p' l := by
  unfold IsList at h ⊢
  rw [hs, ho, hn]
  exact h

/-! ### The end of the second-chance list during growth and rollback -/

/-- What `set_scfifo` does to the list, when the new node is not `p->newest`. -/
theorem set_scfifo_links (p : Proc) (q : Nat) (hn : p.newest ≠ some q) :
    (set_scfifo p q).newest = some q
      ∧ (set_scfifo p q).oldest = (match p.oldest with | none => some q | some o => some o)
      ∧ ((set_scfifo p q).scfifo q).older
          = (match p.oldest with | none => none | some _ => p.newest)
      ∧ (∀ x, x ≠ q → ((set_scfifo p q).scfifo x).older = (p.scfifo x).older)
      ∧ (∀ x, x ≠ q → ((set_scfifo p q).scfifo x).newer
          = if p.newest = some x then some q else (p.scfifo x).newer)
      ∧ (set_scfifo p q).memory_pages = p.memory_pages
      ∧ (set_scfifo p q).pagetable = p.pagetable
      ∧ (set_scfifo p q).name = p.name := by
  unfold set_scfifo
  cases hnw : p.newest with
  | none =>
    cases ho : p.oldest with
    | none =>
      refine ⟨rfl, rfl, ?_, ?_, ?_, rfl, rfl, rfl⟩
      · simp [hnw, ho, upd]
      · intro x hx; simp [hnw, ho, upd, hx]
      · intro x hx; simp [hnw, ho, upd, hx]
    | some o =>
      refine ⟨rfl, rfl, ?_, ?_, ?_, rfl, rfl, rfl⟩
      · simp [hnw, ho, upd]
      · intro x hx; simp [hnw, ho, upd, hx]
      · intro x hx; simp [hnw, ho, upd, hx]
  | some n =>
    have hnq : n ≠ q := fun e => hn (by rw [hnw, e])
    have hqn : q ≠ n := fun e => hnq e.symm
    cases ho : p.oldest with
    | none =>
      refine ⟨rfl, rfl, ?_, ?_, ?_, rfl, rfl, rfl⟩
      · simp [hnw, ho, upd]
      · intro x hx
        by_cases e : x = n
        · simp [hnw, ho, upd, hx, e, hnq]
        · simp [hnw, ho, upd, hx, e]
      · intro x hx
        by_cases e : x = n
        · simp [hnw, ho, upd, hx, e, hnq]
        · have e' : n ≠ x := fun c => e c.symm
          simp [hnw, ho, upd, hx, e, e']
    | some o =>
      refine ⟨rfl, rfl, ?_, ?_, ?_, rfl, rfl, rfl⟩
      · simp [hnw, ho, upd, hqn]
      · intro x hx
        by_cases e : x = n
        · simp [hnw, ho, upd, hx, e, hnq]
        · simp [hnw, ho, upd, hx, e]
      · intro x hx
        by_cases e : x = n
        · simp [hnw, ho, upd, hx, e, hnq]
        · have e' : n ≠ x := fun c => e c.symm
          simp [hnw, ho, upd, hx, e, e']

/-- The rollback removes the node of page `b`, the first of the nodes that the
growth added: `remove_scfifo` dereferences no null pointer, and the nodes of
the later pages are again the end of the list. -/
theorem remove_scfifo_tail (p : Proc) (s : Nat → Nat) (b a : Nat)
    (hb : b % 4096 = 0) (ha : a % 4096 = 0) (hba : b < a)
    (hinj : ∀ va, b < va → va < a → va % 4096 = 0 → s va ≠ s b)
    (ht : TailOK p s b a) :
    ∃ p2, remove_scfifo p (s b) = some p2
      ∧ (b + 4096 < a → TailOK p2 s (b + 4096) a) := by
  have hlast : b + 4096 < a → p.newest ≠ some (s b) := by
    intro h e
    rw [ht.newest] at e
    injection e with e
    exact hinj (a - 4096) (by omega) (by omega) (by omega) e
  have hone : ¬ b + 4096 < a → p.newest = some (s b) := by
    intro h
    rw [ht.newest, show a - 4096 = b by omega]
  by_cases hN : p.newest = some (s b)
  · have hnot : ¬ b + 4096 < a := fun h => hlast h hN
    by_cases hO : p.oldest = some (s b)
    · have hrem : ∃ p2, remove_scfifo p (s b) = some p2 := by
        simp only [remove_scfifo]
        rw [if_pos ⟨hN, hO⟩]
        exact ⟨_, rfl⟩
      obtain ⟨p2, hrem⟩ := hrem
      exact ⟨p2, hrem, fun h => absurd h hnot⟩
    · cases hold : (p.scfifo (s b)).older with
      | none => exact absurd (ht.head hold) hO
      | some n =>
        have hrem : ∃ p2, remove_scfifo p (s b) = some p2 := by
          simp only [remove_scfifo]
          rw [if_neg (fun hc => hO hc.2), if_neg hO, if_pos hN, hold]
          exact ⟨_, rfl⟩
        obtain ⟨p2, hrem⟩ := hrem
        exact ⟨p2, hrem, fun h => absurd h hnot⟩
  · have hlt : b + 4096 < a := by
      by_contra h
      exact hN (hone h)
    have hnewer : (p.scfifo (s b)).newer = some (s (b + 4096)) :=
      ht.link b (le_refl _) hlt hb
    have hob : s (b + 4096) ≠ s b := hinj (b + 4096) (by omega) hlt (by omega)
    by_cases hO : p.oldest = some (s b)
    · have hrem : remove_scfifo p (s b) = some { p with
          oldest := some (s (b + 4096)),
          scfifo := upd (upd p.scfifo (s (b + 4096))
              { p.scfifo (s (b + 4096)) with older := none }) (s b)
            { (upd p.scfifo (s (b + 4096))
                { p.scfifo (s (b + 4096)) with older := none }) (s b)
              with newer := none, older := none } } := by
        simp only [remove_scfifo]
        rw [if_neg (fun hc => hN hc.1), if_pos hO, hnewer]
      refine ⟨_, hrem, fun _ => ⟨?_, ?_, ?_, ?_, ?_⟩⟩
      · exact ht.newest
      · intro e; cases e
      · intro va h1 h2 h3
        have hne : s va ≠ s b := hinj va (by omega) (by omega) h3
        have := ht.link va (by omega) h2 h3
        show (upd (upd p.scfifo _ _) (s b) _ (s va)).newer = _
        rw [upd_ne _ _ _ _ hne]
        by_cases e : s va = s (b + 4096)
        · rw [e, upd_same]
          rw [e] at this
          exact this
        · rw [upd_ne _ _ _ _ e]
          exact this
      · intro _
        rfl
      · intro n hn
        exfalso
        have : (upd (upd p.scfifo (s (b + 4096))
            { p.scfifo (s (b + 4096)) with older := none }) (s b)
            { (upd p.scfifo (s (b + 4096))
                { p.scfifo (s (b + 4096)) with older := none }) (s b)
              with newer := none, older := none } (s (b + 4096))).older = some n := hn
        rw [upd_ne _ _ _ _ hob, upd_same] at this
        cases this
    · cases hold : (p.scfifo (s b)).older with
      | none => exact absurd (ht.head hold) hO
      | some n =>
        have hnb : n ≠ s b := ht.pred n hold b (le_refl _) hba hb
        have hbn : s b ≠ n := fun e => hnb e.symm
        have hnewer' : (upd p.scfifo n { p.scfifo n with newer := some (s (b + 4096)) }
            (s b)).newer = some (s (b + 4096)) := by
          rw [upd_ne _ _ _ _ hbn]
          exact hnewer
        have holder' : (upd p.scfifo n { p.scfifo n with newer := some (s (b + 4096)) }
            (s b)).older = some n := by
          rw [upd_ne _ _ _ _ hbn]
          exact hold
        have hrem : remove_scfifo p (s b) = some { p with
            scfifo := upd (upd (upd p.scfifo n
                  { p.scfifo n with newer := some (s (b + 4096)) }) (s (b + 4096))
                { (upd p.scfifo n { p.scfifo n with newer := some (s (b + 4096)) })
                    (s (b + 4096)) with older := some n }) (s b)
              { (upd (upd p.scfifo n
                    { p.scfifo n with newer := some (s (b + 4096)) }) (s (b + 4096))
                  { (upd p.scfifo n { p.scfifo n with newer := some (s (b + 4096)) })
                      (s (b + 4096)) with older := some n }) (s b)
                with newer := none, older := none } } := by
          simp only [remove_scfifo]
          rw [if_neg (fun hc => hO hc.2), if_neg hO, if_neg hN, hold]
          simp only [hnewer]
          rw [hnewer', holder']
        have hno : n ≠ s (b + 4096) := ht.pred n hold (b + 4096) (by omega) hlt (by omega)
        refine ⟨_, hrem, fun _ => ⟨?_, ?_, ?_, ?_, ?_⟩⟩
        · exact ht.newest
        · exact ht.oldest
        · intro va h1 h2 h3
          have hne : s va ≠ s b := hinj va (by omega) (by omega) h3
          have hnn : s va ≠ n := fun e => ht.pred n hold va (by omega) (by omega) h3 e.symm
          have := ht.link va (by omega) h2 h3
          show (upd (upd (upd p.scfifo _ _) _ _) (s b) _ (s va)).newer = _
          rw [upd_ne _ _ _ _ hne]
          by_cases e : s va = s (b + 4096)
          · rw [e, upd_same]
            show (upd p.scfifo n _ (s (b + 4096))).newer = _
            rw [upd_ne _ _ _ _ (fun c => hno c.symm)]
            rw [e] at this
            exact this
          · rw [upd_ne _ _ _ _ e, upd_ne _ _ _ _ hnn]
            exact this
        · intro hc
          exfalso
          have : (upd (upd (upd p.scfifo n
                  { p.scfifo n with newer := some (s (b + 4096)) }) (s (b + 4096))
                { (upd p.scfifo n { p.scfifo n with newer := some (s (b + 4096)) })
                    (s (b + 4096)) with older := some n }) (s b)
              { (upd (upd p.scfifo n
                    { p.scfifo n with newer := some (s (b + 4096)) }) (s (b + 4096))
                  { (upd p.scfifo n { p.scfifo n with newer := some (s (b + 4096)) })
                      (s (b + 4096)) with older := some n }) (s b)
                with newer := none, older := none } (s (b + 4096))).older = none := hc
          rw [upd_ne _ _ _ _ hob, upd_same] at this
          cases this
        · intro n' hn' va h1 h2 h3
          have : (upd (upd (upd p.scfifo n
                  { p.scfifo n with newer := some (s (b + 4096)) }) (s (b + 4096))
                { (upd p.scfifo n { p.scfifo n with newer := some (s (b + 4096)) })
                    (s (b + 4096)) with older := some n }) (s b)
              { (upd (upd p.scfifo n
                    { p.scfifo n with newer := some (s (b + 4096)) }) (s (b + 4096))
                  { (upd p.scfifo n { p.scfifo n with newer := some (s (b + 4096)) })
                      (s (b + 4096)) with older := some n }) (s b)
                with newer := none, older := none } (s (b + 4096))).older = some n' := hn'
          rw [upd_ne _ _ _ _ hob, upd_same] at this
          injection this with this
          rw [← this]
          exact ht.pred n hold va (by omega) h2 h3

/-! ### The resident roster during growth and rollback -/

theorem tailOK_congr (p p' : Proc) (s : Nat → Nat) (b a : Nat) (hs : p'.scfifo = p.scfifo)
    (ho : p'.oldest = p.oldest) (hn : p'.newest = p.newest) (h : TailOK p s b a) :
    TailOK p' s b a := by
  refine ⟨?_, ?_, ?_, ?_, ?_⟩
  · rw [hn]; exact h.newest
  · rw [ho]; exact h.oldest
  · rw [hs]; exact h.link
  · rw [hs, ho]; exact h.head
  · rw [hs]; exact h.pred

/-- The release of the roster slot of page `b` in the rollback. -/
theorem release_step (algo : SwapAlgo) (pt a sh : Nat) (hpg : algo ≠ .NONE ∧ sh ≠ 0)
    (s : Nat → Nat) (ha : a % 4096 = 0)
    (k : Kernel) (b : Nat) (hr : RosterInv algo k.proc pt b a s) (hba : b < a)
    (hb : b % 4096 = 0) :
    ∃ k2, uvmunmap_resident algo k pt b sh = .ok () k2 ∧ k2.mem = k.mem
      ∧ k2.freelist = k.freelist ∧ RosterInv algo k2.proc pt (b + 4096) a s := by
  obtain ⟨hq, hva, hst, hfirst⟩ := hr.slots b (le_refl _) hba hb
  have hfs : firstSlot (fun i => decide ((k.proc.memory_pages i).va = b)) MAX_PSYC_PAGES 0
      = some (s b) :=
    firstSlot_of _ _ 0 (s b) (Nat.zero_le _) (by omega) (by simpa using hva)
      (fun j _ hj => by simpa using hfirst j hj)
  have hfp : freePage k.proc.memory_pages b
      = some (s b, upd k.proc.memory_pages (s b) ⟨0, UNUSED, 0⟩) := by
    unfold freePage
    rw [hfs]
  have hinj : ∀ va, b < va → va < a → va % 4096 = 0 → s va ≠ s b := by
    intro va h1 h2 h3 e
    obtain ⟨_, c2, _, _⟩ := hr.slots va (by omega) h2 h3
    rw [e, hva] at c2
    omega
  have hslots : ∀ (mp : Nat → Page), mp = upd k.proc.memory_pages (s b) ⟨0, UNUSED, 0⟩ →
      ∀ va, b + 4096 ≤ va → va < a → va % 4096 = 0 →
      s va < MAX_PSYC_PAGES ∧ (mp (s va)).va = va ∧ (mp (s va)).status ≠ UNUSED
        ∧ (∀ j, j < s va → (mp j).va ≠ va) := by
    intro mp hmp va h1 h2 h3
    obtain ⟨c1, c2, c3, c4⟩ := hr.slots va (by omega) h2 h3
    have hne : s va ≠ s b := hinj va (by omega) h2 h3
    refine ⟨c1, ?_, ?_, ?_⟩
    · rw [hmp, upd_ne _ _ _ _ hne]; exact c2
    · rw [hmp, upd_ne _ _ _ _ hne]; exact c3
    · intro j hj
      rw [hmp]
      by_cases e : j = s b
      · rw [e, upd_same]
        show (0 : Nat) ≠ va
        omega
      · rw [upd_ne _ _ _ _ e]
        exact c4 j hj
  unfold uvmunmap_resident
  rw [if_pos ⟨hpg.1, hpg.2, hr.own.symm⟩, hfp]
  simp only
  by_cases hsc : algo = .SCFIFO
  · rw [if_pos hsc]
    have ht : TailOK { k.proc with
        memory_pages := upd k.proc.memory_pages (s b) ⟨0, UNUSED, 0⟩ } s b a :=
      tailOK_congr k.proc _ s b a rfl rfl rfl (hr.tail hsc hba)
    obtain ⟨p2, hrem, hl2⟩ := remove_scfifo_tail _ s b a hb ha hba hinj ht
    obtain ⟨r1, r2, _⟩ := remove_scfifo_fields _ p2 (s b) hrem
    rw [hrem]
    simp only
    refine ⟨_, rfl, rfl, rfl, ?_, ?_, ?_⟩
    · show p2.pagetable = pt
      rw [r2]
      exact hr.own
    · intro va h1 h2 h3
      exact hslots p2.memory_pages r1 va h1 h2 h3
    · intro _ hlt
      exact tailOK_congr p2 _ s (b + 4096) a rfl rfl rfl (hl2 hlt)
  · rw [if_neg hsc]
    refine ⟨_, rfl, rfl, rfl, ?_, ?_, ?_⟩
    · exact hr.own
    · intro va h1 h2 h3
      exact hslots _ rfl va h1 h2 h3
    · intro e
      exact absurd e hsc

/-- An `allocate_page` that does not evict: page `b`, mapped just before,
takes the first slot that is not in use. -/
theorem admit_roster (algo : SwapAlgo) (k2 k3 : Kernel) (pt a0 b : Nat) (s : Nat → Nat)
    (hb : b % 4096 = 0) (ha0 : a0 % 4096 = 0) (hab : a0 ≤ b) (hbM : b < MAXVA)
    (hadm : AdmitInv algo k2 pt a0 b s)
    (hmapped : pteOf k2 pt b ≠ 0)
    (hfresh : ∀ i, i < MAX_PSYC_PAGES → (k2.proc.memory_pages i).status ≠ UNUSED →
      (k2.proc.memory_pages i).va ≠ b)
    (hnum : k2.proc.num_of_phys_pages ≠ MAX_PSYC_PAGES)
    (h : allocate_page algo k2 pt b = .ok () k3) :
    k3.mem = k2.mem ∧ k3.freelist = k2.freelist ∧ k3.proc.name = k2.proc.name
      ∧ ∃ s', AdmitInv algo k3 pt a0 (b + 4096) s' := by
  cases hq : findFree k2.proc.memory_pages with
  | none =>
    unfold allocate_page at h
    rw [if_neg hnum] at h
    simp only [Res.bind] at h
    rw [hq] at h
    cases h
  | some q =>
    obtain ⟨k', s1, s2, s3, s4, _, s6, s7, s8⟩ := allocate_page_spec algo k2 pt b q hnum hq
    rw [h] at s1
    injection s1 with _ hk
    subst hk
    obtain ⟨q1, q2, q3, q4⟩ := firstSlot_inv _ _ 0 q hq
    have q3' : (k2.proc.memory_pages q).status = UNUSED := by simpa using q3
    have q4' : ∀ j, j < q → (k2.proc.memory_pages j).status ≠ UNUSED := by
      intro j hj
      simpa using q4 j (Nat.zero_le _) hj
    have hq16 : q < MAX_PSYC_PAGES := by omega
    have hnq : algo = .SCFIFO → k2.proc.newest ≠ some q :=
      fun e c => (hadm.list e).2 q c hq16 q3'
    have hname : k3.proc.name = k2.proc.name
        ∧ (algo = .SCFIFO →
          k3.proc.newest = some q
          ∧ k3.proc.oldest = (match k2.proc.oldest with | none => some q | some o => some o)
          ∧ (k3.proc.scfifo q).older
              = (match k2.proc.oldest with | none => none | some _ => k2.proc.newest)
          ∧ (∀ x, x ≠ q → (k3.proc.scfifo x).older = (k2.proc.scfifo x).older)
          ∧ (∀ x, x ≠ q → (k3.proc.scfifo x).newer
              = if k2.proc.newest = some x then some q else (k2.proc.scfifo x).newer)) := by
      unfold allocate_page at h
      rw [if_neg hnum] at h
      simp only [Res.bind] at h
      rw [hq] at h
      simp only at h
      injection h with _ hk
      rw [← hk]
      cases algo with
      | SCFIFO =>
        simp only
        obtain ⟨l1, l2, l3, l4, l5, _, _, l8⟩ := set_scfifo_links
          { k2.proc with
            memory_pages := upd k2.proc.memory_pages q
              { k2.proc.memory_pages q with status := INMEMORY, va := b } }
          q (hnq rfl)
        exact ⟨l8, fun _ => ⟨l1, l2, l3, l4, l5⟩⟩
      | NONE => exact ⟨rfl, fun e => by cases e⟩
      | NFUA => exact ⟨rfl, fun e => by cases e⟩
      | LAPA => exact ⟨rfl, fun e => by cases e⟩
    obtain ⟨f1, f2, f3, _, _⟩ := mem_eq_facts k2 k3 pt s2
    have hsq : ∀ va, a0 ≤ va → va < b → va % 4096 = 0 → s va ≠ q := by
      intro va h1 h2 h3 e
      obtain ⟨_, _, c3, _⟩ := hadm.roster.slots va h1 h2 h3
      exact c3 (e ▸ q3')
    have hsinj : ∀ va vb, a0 ≤ va → va < b → va % 4096 = 0 → a0 ≤ vb → vb < b →
        vb % 4096 = 0 → s va = s vb → va = vb := by
      intro va vb h1 h2 h3 h4 h5 h6 e
      obtain ⟨_, c2, _, _⟩ := hadm.roster.slots va h1 h2 h3
      obtain ⟨_, d2, _, _⟩ := hadm.roster.slots vb h4 h5 h6
      rw [e, d2] at c2
      exact c2.symm
    refine ⟨s2, s3, hname.1, upd s b q, ⟨⟨?_, ?_, ?_⟩, ?_, ?_, ?_, ?_, ?_, ?_⟩⟩
    · rw [s4]
      exact hadm.roster.own
    · intro va h1 h2 h3
      by_cases hlt : va < b
      · obtain ⟨c1, c2, c3, c4⟩ := hadm.roster.slots va h1 hlt h3
        have hne : s va ≠ q := hsq va h1 hlt h3
        rw [upd_ne _ _ _ _ (by omega : va ≠ b)]
        refine ⟨c1, ?_, ?_, ?_⟩
        · rw [s8 _ hne]; exact c2
        · rw [s8 _ hne]; exact c3
        · intro j hj
          by_cases e : j = q
          · rw [e, s7]
            omega
          · rw [s8 j e]
            exact c4 j hj
      · have hvb : va = b := by omega
        rw [hvb, upd_same]
        refine ⟨hq16, by rw [s7], by rw [s6]; decide, ?_⟩
        intro j hj
        rw [s8 j (by omega)]
        exact hfresh j (by omega) (q4' j hj)
    · intro hsc _
      obtain ⟨l1, l2, l3, l4, l5⟩ := hname.2 hsc
      have hH := hadm.list hsc
      refine ⟨?_, ?_, ?_, ?_, ?_⟩
      · rw [l1, show b + 4096 - 4096 = b by omega, upd_same]
      · rw [l2]
        cases k2.proc.oldest <;> simp
      · intro va h1 h2 h3
        have hlt : va < b := by omega
        have hne : s va ≠ q := hsq va h1 hlt h3
        rw [upd_ne _ _ _ _ (by omega : va ≠ b), l5 _ hne]
        have hold := hadm.roster.tail hsc (by omega : a0 < b)
        by_cases e : va + 4096 = b
        · rw [if_pos (by rw [hold.newest, show b - 4096 = va by omega]), e, upd_same]
        · rw [upd_ne _ _ _ _ e, if_neg, hold.link va h1 (by omega) h3]
          rw [hold.newest]
          intro c
          injection c with c
          have := hsinj _ _ (by omega) (by omega) (by omega) h1 hlt h3 c
          omega
      · intro hc
        by_cases e : a0 = b
        · rw [e, upd_same] at hc ⊢
          rw [l3] at hc
          rw [l2]
          cases ho : k2.proc.oldest with
          | none => rfl
          | some o =>
            rw [ho] at hc
            simp only at hc
            have := hH.1 hc
            rw [ho] at this
            cases this
        · have hlt : a0 < b := by omega
          rw [upd_ne _ _ _ _ e] at hc ⊢
          have hne : s a0 ≠ q := hsq a0 (le_refl _) hlt ha0
          rw [l4 _ hne] at hc
          have := (hadm.roster.tail hsc hlt).head hc
          rw [l2, this]
      · intro n hn va h1 h2 h3
        by_cases e : a0 = b
        · have hvb : va = b := by omega
          rw [e, upd_same, l3] at hn
          rw [hvb, upd_same]
          cases ho : k2.proc.oldest with
          | none =>
            rw [ho] at hn
            cases hn
          | some o =>
            rw [ho] at hn
            simp only at hn
            intro c
            exact hnq hsc (by rw [hn, c])
        · have hlt : a0 < b := by omega
          rw [upd_ne _ _ _ _ e] at hn
          have hne : s a0 ≠ q := hsq a0 (le_refl _) hlt ha0
          rw [l4 _ hne] at hn
          by_cases hvb : va = b
          · rw [hvb, upd_same]
            intro c
            by_cases hn16 : n < MAX_PSYC_PAGES
            · exact hadm.pred hsc hlt n hn hn16 (c ▸ q3')
            · omega
          · rw [upd_ne _ _ _ _ hvb]
            exact (hadm.roster.tail hsc hlt).pred n hn va h1 (by omega) h3
    · intro i hi hst
      by_cases e : i = q
      · rw [e, s7, f3]
        exact ⟨hbM, hmapped⟩
      · rw [s8 i e] at hst ⊢
        rw [f3]
        exact hadm.used i hi hst
    · intro i hi hst
      by_cases e : i = q
      · rw [e, s6] at hst
        exact absurd hst (by decide)
      · rw [s8 i e] at hst ⊢
        exact hadm.unused i hi hst
    · intro hsc
      obtain ⟨l1, _, _, _, _⟩ := hname.2 hsc
      refine ⟨fun c => ?_, ?_⟩
      · rw [l1] at c
        cases c
      · intro n hn _
        rw [l1] at hn
        injection hn with hn
        rw [← hn, s6]
        decide
    · intro hsc _ n hn hn16
      obtain ⟨_, _, l3, l4, _⟩ := hname.2 hsc
      have hH := hadm.list hsc
      have hfin : (k2.proc.memory_pages n).status ≠ UNUSED →
          (k3.proc.memory_pages n).status ≠ UNUSED := by
        intro hu
        have hne : n ≠ q := fun c => hu (c ▸ q3')
        rw [s8 n hne]
        exact hu
      by_cases e : a0 = b
      · rw [e, upd_same, l3] at hn
        cases ho : k2.proc.oldest with
        | none =>
          rw [ho] at hn
          cases hn
        | some o =>
          rw [ho] at hn
          simp only at hn
          exact hfin (hH.2 n hn hn16)
      · have hlt : a0 < b := by omega
        rw [upd_ne _ _ _ _ e] at hn
        have hne : s a0 ≠ q := hsq a0 (le_refl _) hlt ha0
        rw [l4 _ hne] at hn
        exact hfin (hadm.pred hsc hlt n hn hn16)
    · rw [f2]
      exact hadm.low
    · intro va hva p
      rw [f1, f3]
      exact hadm.leafOff va hva p

theorem rollInv_congr (k0 k k' : Kernel) (pt perm a0 b a : Nat) (hm : k'.mem = k.mem)
    (hf : k'.freelist = k.freelist) (h : RollInv k0 k pt perm a0 b a) :
    RollInv k0 k' pt perm a0 b a := by
  obtain ⟨f1, _, f3, f4, _⟩ := mem_eq_facts k k' pt hm
  refine ⟨f4 h.tree, ?_, ?_, ?_, ?_⟩
  · intro va h1 h2
    rw [f3]; exact h.zero va h1 h2
  · intro va h1 h2
    rw [f3]; exact h.mapped va h1 h2
  · intro va h1 h2
    rw [f3]; exact h.other va h1 h2
  · intro x hx
    rcases h.acct x hx with e | ⟨p, e⟩ | ⟨va, c1, c2, c3⟩
    · exact Or.inl (by rw [hf]; exact e)
    · exact Or.inr (Or.inl ⟨p, by rw [f1]; exact e⟩)
    · exact Or.inr (Or.inr ⟨va, c1, c2, by rw [f3]; exact c3⟩)

/-- The state after `mappages` stored the leaf PTE of page `b` in the
leaf-level table of the first pages: the conditions of the growth loop of a
process that takes part in paging still hold. -/
theorem admit_mapped (algo : SwapAlgo) (k : Kernel) (pt perm a0 b f L : Nat) (s : Nat → Nat)
    (rest : List Nat) (hwf : PTWf k pt) (hfl : k.freelist = f :: rest)
    (hperm : perm < 1024) (hadm : AdmitInv algo k pt a0 b s)
    (hlb : leaf (({ k with freelist := rest } : Kernel).zero f) pt b = some (L, PX 0 b)) :
    AdmitInv algo ((({ k with freelist := rest } : Kernel).zero f).write L (PX 0 b)
        ((PA2PTE f ||| perm ||| PTE_V) % U64)) pt a0 b s
      ∧ pteOf ((({ k with freelist := rest } : Kernel).zero f).write L (PX 0 b)
          ((PA2PTE f ||| perm ||| PTE_V) % U64)) pt b ≠ 0 := by
  obtain ⟨wf2, nF, nP, hfN, hfr, hal⟩ := grow_setup k pt f rest hwf hfl
  obtain ⟨w1, w2, w3, w4⟩ := tree_write _ pt b L (PX 0 b)
    ((PA2PTE f ||| perm ||| PTE_V) % U64) wf2.inj hlb
  have hne : (PA2PTE f ||| perm ||| PTE_V) % U64 ≠ 0 := by
    intro e
    have hv : ((PA2PTE f ||| perm ||| PTE_V) % U64) &&& PTE_V ≠ 0 := leafEntry_valid f perm
    rw [e] at hv
    exact hv (by decide)
  have hlf : ∀ va, leaf (({ k with freelist := rest } : Kernel).zero f) pt va = leaf k pt va := by
    intro va
    rw [leaf_eq_frameAt, leaf_eq_frameAt, nF]
  refine ⟨⟨hadm.roster, ?_, hadm.unused, hadm.list, hadm.pred, ?_, ?_⟩, ?_⟩
  · intro i hi hst
    obtain ⟨c1, c2⟩ := hadm.used i hi hst
    refine ⟨c1, ?_⟩
    show pteOf _ pt (k.proc.memory_pages i).va ≠ 0
    rw [w4]
    by_cases e : leaf (({ k with freelist := rest } : Kernel).zero f) pt
        (k.proc.memory_pages i).va = some (L, PX 0 b)
    · rw [if_pos e]; exact hne
    · rw [if_neg e, nP]; exact c2
  · rw [w3, hlf]
    exact hadm.low
  · intro va hva p
    rw [w1, nF, w4]
    by_cases e : leaf (({ k with freelist := rest } : Kernel).zero f) pt va = some (L, PX 0 b)
    · rw [if_pos e, leaf_entry_PTE2PA f _ hperm hal.1 hal.2]
      exact hfN p
    · rw [if_neg e, nP]
      exact hadm.leafOff va hva p
  · rw [w4, if_pos hlb]
    exact hne

/-- The growth loop of `uvmalloc` up to a failure at page `a`: the pages of
`[a0, a)` are mapped and, when the process takes part in paging, recorded in
the resident roster; no page was evicted. -/
theorem grow_loop (k0 : Kernel) (algo : SwapAlgo) (pt xperm a0 newsz sh : Nat)
    (hx : xperm < 1024) (hnew : newsz ≤ MAXVA) (ha0 : a0 % 4096 = 0)
    (hunm : ∀ va, a0 ≤ va → va < newsz → pteOf k0 pt va = 0)
    (hpag : algo ≠ .NONE ∧ sh ≠ 0 → newsz ≤ 2097152) (fuel : Nat) :
    ∀ (k : Kernel) (b a : Nat) (kf : Kernel), b % 4096 = 0 → a0 ≤ b → PTWf k pt →
      RollInv k0 k pt (PTE_R ||| PTE_U ||| xperm) a0 a0 b →
      (algo ≠ .NONE ∧ sh ≠ 0 → ∃ s, AdmitInv algo k pt a0 b s) →
      uvmalloc_grow algo fuel k pt b newsz xperm sh = .ok (a, true) kf →
      a % 4096 = 0 ∧ b ≤ a ∧ a < newsz
        ∧ RollInv k0 kf pt (PTE_R ||| PTE_U ||| xperm) a0 a0 a
        ∧ kf.proc.name = k.proc.name
        ∧ (algo ≠ .NONE ∧ sh ≠ 0 → ∃ s, RosterInv algo kf.proc pt a0 a s) := by
  have hM : MAXVA = 274877906944 := by norm_num [MAXVA]
  obtain ⟨hperm, hR, _⟩ := perm_facts xperm hx
  induction fuel with
  | zero =>
    intro k b a kf _ _ _ _ _ h
    rw [uvmalloc_grow] at h
    cases h
  | succ fuel ih =>
    intro k b a kf hb hab hwf hinv hros h
    rw [uvmalloc_grow] at h
    by_cases hlt : b < newsz
    swap
    · rw [if_neg hlt] at h
      injection h with hr _
      injection hr with _ h2
      cases h2
    rw [if_pos hlt] at h
    have hun0 : pteOf k pt b = 0 := by
      rw [hinv.other b (by omega) (by omega)]
      exact hunm b hab hlt
    have hnext : (b + PGSIZE) % U64 = b + 4096 := by
      rw [U64_val]; simp only [PGSIZE]; omega
    unfold kalloc at h
    cases hfl : k.freelist with
    | nil =>
      rw [hfl] at h
      simp only at h
      injection h with hr hk
      injection hr with hr _
      rw [← hr, ← hk]
      refine ⟨hb, le_refl _, hlt, hinv, rfl, ?_⟩
      intro hpg
      obtain ⟨s, hadm⟩ := hros hpg
      exact ⟨s, hadm.roster⟩
    | cons f rest =>
      rw [hfl] at h
      simp only at h
      obtain ⟨v, k2, hm, h2⟩ := bind_ok_inv _ _ _ _ h
      obtain ⟨wf2, nF, nP, hfN, hfr, hal⟩ := grow_setup k pt f rest hwf hfl
      have hun : pteOf (({ k with freelist := rest } : Kernel).zero f) pt b &&& PTE_V = 0 := by
        rw [nP, hun0]; simp
      rcases mappages_page _ pt b f (PTE_R ||| PTE_U ||| xperm) wf2 hb (by omega) hun with
        ⟨k2', hm', g, hp, _, hacct⟩ | ⟨k2', hm', st, hfl2, hacct⟩
      · rw [hm] at hm'
        injection hm' with ev ek
        subst ek
        rw [ev, if_neg (by simp)] at h2
        obtain ⟨_, k3, ha, h3⟩ := bind_ok_inv _ _ _ _ h2
        rw [hnext] at h3
        have hinv2 := grow_ok k0 k k2 pt _ a0 b f rest hwf hinv hab (by omega) hb hperm hR hfl
          g hp hacct
        have hproc2 : k2.proc = k.proc := g.proc
        by_cases hpg : algo ≠ .NONE ∧ sh ≠ 0
        · rw [if_pos hpg] at ha
          obtain ⟨s, hadm⟩ := hros hpg
          have hlf : ∀ va,
              leaf (({ k with freelist := rest } : Kernel).zero f) pt va = leaf k pt va := by
            intro va
            rw [leaf_eq_frameAt, leaf_eq_frameAt, nF]
          obtain ⟨L, hlb, _⟩ := leaf_low (({ k with freelist := rest } : Kernel).zero f) pt b
            (by have := hpag hpg; omega) (by rw [hlf]; exact hadm.low)
          have hv0 : ¬ ((({ k with freelist := rest } : Kernel).zero f).mem L (PX 0 b)
              &&& PTE_V ≠ 0) := by
            rw [← pteOf_of_leaf _ pt b L (PX 0 b) hlb]
            simpa using hun
          have hm2 := mappages_at_leaf (({ k with freelist := rest } : Kernel).zero f) pt b f
            (PTE_R ||| PTE_U ||| xperm) L (PX 0 b) hb (by omega) hlb
          rw [if_neg hv0, hm] at hm2
          injection hm2 with _ hk2
          obtain ⟨hadm2, hmapped⟩ := admit_mapped algo k pt (PTE_R ||| PTE_U ||| xperm) a0 b f L
            s rest hwf hfl hperm hadm hlb
          rw [← hk2] at hadm2 hmapped
          have hown2 : k2.proc.pagetable = pt := hadm2.roster.own
          by_cases hnum : k2.proc.num_of_phys_pages = MAX_PSYC_PAGES
          · exfalso
            have hev : EvInv k3 pt := by
              rw [← hown2]
              apply evict_admit algo k2 k3 b
              · rw [hown2]; exact g.wf.inj
              · rw [hown2]; exact hadm2.low
              · rw [hown2]; exact hadm2.leafOff
              · exact hnum
              · rw [hown2]; exact ha
            exact ev_no_fail algo pt xperm newsz sh hpg hx (hpag hpg) fuel k3 (b + 4096) a kf
              (by omega) hev h3
          · have hfresh : ∀ i, i < MAX_PSYC_PAGES →
                (k2.proc.memory_pages i).status ≠ UNUSED → (k2.proc.memory_pages i).va ≠ b := by
              intro i hi hst e
              rw [hproc2] at hst e
              have := (hadm.used i hi hst).2
              rw [e, hun0] at this
              exact this rfl
            obtain ⟨r1, r2, r3, s2, hadm3⟩ := admit_roster algo k2 k3 pt a0 b s hb ha0 hab (by omega)
              hadm2 hmapped hfresh hnum ha
            obtain ⟨c1, c2, c3, c4, c5, c6⟩ := ih k3 (b + 4096) a kf (by omega) (by omega)
              (PTWf_congr k2 k3 pt r1 r2 g.wf)
              (rollInv_congr k0 k2 k3 pt _ a0 a0 (b + 4096) r1 r2 hinv2)
              (fun _ => ⟨s2, hadm3⟩) h3
            refine ⟨c1, by omega, c3, c4, ?_, c6⟩
            rw [c5, r3, hproc2]
        · rw [if_neg hpg] at ha
          injection ha with _ hk3
          subst hk3
          obtain ⟨c1, c2, c3, c4, c5, c6⟩ := ih k2 (b + 4096) a kf (by omega) (by omega) g.wf
            hinv2 (fun h' => absurd h' hpg) h3
          refine ⟨c1, by omega, c3, c4, ?_, c6⟩
          rw [c5, hproc2]
      · rw [hm] at hm'
        injection hm' with ev ek
        subst ek
        rw [ev, if_pos (by simp)] at h2
        injection h2 with hr hk
        injection hr with hr _
        obtain ⟨_, hinv2⟩ := grow_fail k0 k k2 pt _ a0 b f rest hwf hinv hfl st hfl2 hacct
        have hproc2 : k2.proc = k.proc := st.proc
        rw [← hr, ← hk]
        refine ⟨hb, le_refl _, hlt, hinv2, ?_, ?_⟩
        · show k2.proc.name = k.proc.name
          rw [hproc2]
        · intro hpg
          obtain ⟨s, hadm⟩ := hros hpg
          refine ⟨s, ?_⟩
          show RosterInv algo k2.proc pt a0 b s
          rw [hproc2]
          exact hadm.roster

theorem sh_or_init_name (p p' : Proc) (h : p'.name = p.name) : sh_or_init p' = sh_or_init p := by
  unfold sh_or_init
  rw [h]

/-- C17: the page table is a tree, `oldsz ≤ newsz ≤ MAXVA`, `xperm` holds
flag bits only, no page of `[PGROUNDUP(oldsz), PGROUNDUP(newsz))` has a leaf
PTE at the call and, when the process takes part in paging, the conditions
`Paged` on the page table and the resident roster hold.  When the loop of
`uvmalloc` fails at page `a` (`kalloc` returned 0, or `mappages` returned
-1), `uvmalloc` returns 0 without a kernel stop; afterwards no page of
`[PGROUNDUP(oldsz), PGROUNDUP(newsz))` has a Valid or Swapped leaf, every
frame that was free at the call is free again or is a table of the page
table, and every leaf PTE below `PGROUNDUP(oldsz)` is as before the call. -/
theorem uvmalloc_rollback (algo : SwapAlgo) (k kf : Kernel) (pt oldsz newsz xperm a : Nat)
    (hwf : PTWf k pt) (hle : oldsz ≤ newsz) (hnew : newsz ≤ MAXVA) (hx : xperm < 1024)
    (hunm : ∀ va, PGROUNDUP oldsz ≤ va → va < PGROUNDUP newsz → pteOf k pt va = 0)
    (hpaged : algo ≠ .NONE → sh_or_init k.proc ≠ 0 → Paged algo k pt xperm)
    (hfail : uvmalloc_grow algo (MAXVA / PGSIZE + 2) k pt (PGROUNDUP oldsz) newsz xperm
      (sh_or_init k.proc) = .ok (a, true) kf) :
    ∃ k', uvmalloc algo k pt oldsz newsz xperm = .ok 0 k'
      ∧ (∀ va, PGROUNDUP oldsz ≤ va → va < PGROUNDUP newsz →
          pteOf k' pt va &&& (PTE_V ||| PTE_PG) = 0)
      ∧ (∀ f, f ∈ k.freelist → f ∈ k'.freelist ∨ ∃ p, frameAt k' pt p = some f)
      ∧ (∀ va, va < PGROUNDUP oldsz → pteOf k' pt va = pteOf k pt va) := by
  have hM : MAXVA = 274877906944 := by norm_num [MAXVA]
  have hP : PGSIZE = 4096 := rfl
  have hup1 : PGROUNDUP oldsz = (oldsz + 4095) / 4096 * 4096 := by
    rw [PGROUNDUP_eq, Nat.mod_eq_of_lt (by rw [U64_val]; omega)]
  have hup2 : PGROUNDUP newsz = (newsz + 4095) / 4096 * 4096 := by
    rw [PGROUNDUP_eq, Nat.mod_eq_of_lt (by rw [U64_val]; omega)]
  obtain ⟨hperm, hR, hPG⟩ := perm_facts xperm hx
  unfold uvmalloc
  simp only
  by_cases hc : algo ≠ .NONE ∧ sh_or_init k.proc ≠ 0 ∧ newsz ≥ MAX_TOTAL_PAGES * PGSIZE
  · rw [if_pos hc]
    refine ⟨k, rfl, ?_, fun f hf => Or.inl hf, fun _ _ => rfl⟩
    intro va h1 h2
    rw [hunm va h1 h2]
    simp
  rw [if_neg hc, if_neg (by omega)]
  have hpag : algo ≠ .NONE ∧ sh_or_init k.proc ≠ 0 → newsz ≤ 2097152 := by
    intro h
    have : ¬ (newsz ≥ MAX_TOTAL_PAGES * PGSIZE) := fun e => hc ⟨h.1, h.2, e⟩
    simp only [MAX_TOTAL_PAGES, PGSIZE] at this
    omega
  have hinit : RollInv k k pt (PTE_R ||| PTE_U ||| xperm) (PGROUNDUP oldsz) (PGROUNDUP oldsz)
      (PGROUNDUP oldsz) :=
    ⟨hwf.inj, fun va h1 h2 => by omega, fun va h1 h2 => by omega, fun _ _ _ => rfl,
      fun f hf => Or.inl hf⟩
  have hadm : algo ≠ .NONE ∧ sh_or_init k.proc ≠ 0 →
      ∃ s, AdmitInv algo k pt (PGROUNDUP oldsz) (PGROUNDUP oldsz) s := by
    intro h
    have hp := hpaged h.1 h.2
    exact ⟨fun _ => 0, ⟨hp.own.symm, fun va h1 h2 => by omega, fun _ h1 => by omega⟩,
      hp.used, hp.unused, hp.list, fun _ h1 => by omega, hp.low, hp.leafOff⟩
  obtain ⟨ha, ha0, halt, hinv, hname, hros⟩ := grow_loop k algo pt xperm (PGROUNDUP oldsz) newsz
    (sh_or_init k.proc) hx hnew (by omega) (fun va h1 h2 => hunm va h1 (by omega)) hpag _ k
    (PGROUNDUP oldsz) a kf (by omega) (le_refl _) hwf hinit hadm hfail
  rw [uvmalloc_loop_of_grow algo pt (PGROUNDUP oldsz) newsz xperm _ _ k _ (a, true) kf hfail]
  simp only [if_true]
  have hfin : ∀ k', RollInv k k' pt (PTE_R ||| PTE_U ||| xperm) (PGROUNDUP oldsz) a a →
      (∀ va, PGROUNDUP oldsz ≤ va → va < PGROUNDUP newsz →
          pteOf k' pt va &&& (PTE_V ||| PTE_PG) = 0)
        ∧ (∀ f, f ∈ k.freelist → f ∈ k'.freelist ∨ ∃ p, frameAt k' pt p = some f)
        ∧ (∀ va, va < PGROUNDUP oldsz → pteOf k' pt va = pteOf k pt va) := by
    intro k' hr
    refine ⟨?_, ?_, ?_⟩
    · intro va h1 h2
      by_cases e : va < a
      · rw [hr.zero va h1 e]; simp
      · rw [hr.other va (by omega) (by omega), hunm va h1 h2]; simp
    · intro f hf
      rcases hr.acct f hf with e | e | ⟨va, c1, c2, _⟩
      · exact Or.inl e
      · exact Or.inr e
      · omega
    · intro va hva
      exact hr.other va (by omega) (by omega)
  unfold uvmdealloc
  by_cases hge : PGROUNDUP oldsz ≥ a
  · rw [if_pos hge]
    have e : a = PGROUNDUP oldsz := by omega
    refine ⟨kf, rfl, hfin kf ?_⟩
    rw [e] at hinv ⊢
    exact hinv
  rw [if_neg hge]
  have hr1 : PGROUNDUP (PGROUNDUP oldsz) = PGROUNDUP oldsz := by
    rw [PGROUNDUP_eq (PGROUNDUP oldsz), Nat.mod_eq_of_lt (by rw [U64_val]; omega)]
    omega
  have hr2 : PGROUNDUP a = a := by
    rw [PGROUNDUP_eq a, Nat.mod_eq_of_lt (by rw [U64_val]; omega)]
    omega
  rw [hr1, hr2, if_pos (by omega)]
  simp only
  have hn : intToU64 ((a - PGROUNDUP oldsz) / PGSIZE) = (a - PGROUNDUP oldsz) / 4096 := by
    unfold intToU64
    rw [hP]
    have : (a - PGROUNDUP oldsz) / 4096 < 2 ^ 31 := by omega
    rw [Nat.mod_eq_of_lt (by omega), if_pos this]
  rw [hn]
  unfold uvmunmap
  simp only
  rw [if_neg (by rw [hP]; omega)]
  have hbound : (PGROUNDUP oldsz + (a - PGROUNDUP oldsz) / 4096 * PGSIZE) % U64 = a := by
    rw [U64_val, hP]; omega
  rw [hbound, sh_or_init_name k.proc kf.proc hname]
  have hroll : ∃ k', uvmunmap_loop algo (MAXVA / PGSIZE + 2) kf pt (PGROUNDUP oldsz) a 1
        (sh_or_init k.proc) = .ok () k'
      ∧ RollInv k k' pt (PTE_R ||| PTE_U ||| xperm) (PGROUNDUP oldsz) a a := by
    by_cases hpg : algo ≠ .NONE ∧ sh_or_init k.proc ≠ 0
    · obtain ⟨s, hs⟩ := hros hpg
      obtain ⟨k', h1, h2, _⟩ := roll_loop k algo pt (PTE_R ||| PTE_U ||| xperm)
        (PGROUNDUP oldsz) a (sh_or_init k.proc) ha (by omega)
        (fun p b => RosterInv algo p pt b a s)
        (fun k1 b hri _ hba hb =>
          release_step algo pt a (sh_or_init k.proc) hpg s ha k1 b hri hba hb)
        (fun h => hPG (hpaged h.1 h.2).perm) (MAXVA / PGSIZE + 2) kf (PGROUNDUP oldsz) (by omega) (le_refl _)
        (by omega) (by rw [copy_fuel]; omega) hinv hs
      exact ⟨k', h1, h2⟩
    · obtain ⟨k', h1, h2, _⟩ := roll_loop k algo pt (PTE_R ||| PTE_U ||| xperm)
        (PGROUNDUP oldsz) a (sh_or_init k.proc) ha (by omega) (fun _ _ => True)
        (fun k1 b _ _ _ _ => ⟨k1, by
          unfold uvmunmap_resident
          rw [if_neg (fun h => hpg ⟨h.1, h.2.1⟩)], rfl, rfl, trivial⟩)
        (fun h => absurd h hpg) (MAXVA / PGSIZE + 2) kf (PGROUNDUP oldsz) (by omega) (le_refl _)
        (by omega) (by rw [copy_fuel]; omega) hinv trivial
      exact ⟨k', h1, h2⟩
  obtain ⟨k', h1, h2⟩ := hroll
  rw [h1]
  exact ⟨k', rfl, hfin k' h2⟩

theorem gK0_wf : PTWf gK0 0x1000 :=
  PTWf_empty gK0 0x1000 (fun _ => rfl) (by decide) (by decide) (by decide)

theorem gK0_unmapped (va : Nat) : pteOf gK0 0x1000 va = 0 := by
  have hz : ∀ i, gK0.mem 0x1000 i = 0 := fun _ => rfl
  simp [pteOf, leaf, hz]

theorem gK1_facts : Grow gK0 gK1 0x1000
    ∧ ∀ va, va < MAXVA → pteOf gK1 0x1000 va
        = if 0 ≤ va ∧ va < 0 + 4096
          then (PA2PTE 0x80000000 ||| (PTE_R ||| PTE_U ||| PTE_W) ||| PTE_V) % U64 else 0 := by
  rcases mappages_page gK0 0x1000 0 0x80000000 (PTE_R ||| PTE_U ||| PTE_W) gK0_wf (by decide)
    (by decide) (by rw [gK0_unmapped]; decide) with ⟨k', hm, g, hp, _, _⟩ | ⟨k', hm, _⟩
  · have e : gK1 = k' := by
      unfold gK1
      rw [hm]
      rfl
    rw [e]
    refine ⟨g, ?_⟩
    intro va hva
    rw [hp va hva, gK0_unmapped]
  · exfalso
    have h1 : (mappages gK0 0x1000 0 PGSIZE 0x80000000 (PTE_R ||| PTE_U ||| PTE_W)).val?
        = some 0 := by decide
    rw [hm] at h1
    simp [Res.val?] at h1

theorem gK_tables (p : Pos) (g : Nat) (h : frameAt gK 0x1000 p = some g) :
    g = 0x1000 ∨ g = 0x2000 ∨ g = 0x3000 ∨ g = 0x4000 := by
  have h1 : frameAt gK1 0x1000 p = some g := by
    rw [← frameAt_mem_eq gK1 gK 0x1000 rfl p]
    exact h
  rcases gK1_facts.1.tables p g h1 with ⟨q, hq⟩ | hmem
  · left
    cases q with
    | root => simp [frameAt] at hq; exact hq.symm
    | l1 a =>
      have hz : gK0.mem 0x1000 a = 0 := rfl
      simp [frameAt, hz] at hq
    | l0 a b =>
      have hz : gK0.mem 0x1000 a = 0 := rfl
      simp [frameAt, hz] at hq
  · have hfl : gK0.freelist = [0x2000, 0x3000, 0x4000] := rfl
    rw [hfl] at hmem
    simp at hmem
    omega

theorem gK_pte (va : Nat) (hva : va < MAXVA) :
    pteOf gK 0x1000 va = (if 0 ≤ va ∧ va < 0 + 4096
      then (PA2PTE 0x80000000 ||| (PTE_R ||| PTE_U ||| PTE_W) ||| PTE_V) % U64 else 0) := by
  rw [pteOf_congr gK1 gK 0x1000 va rfl]
  exact gK1_facts.2 va hva

theorem gK_paged : Paged .NFUA gK 0x1000 PTE_W := by
  refine ⟨rfl, by decide, ?_, by decide, by decide, (fun e => by cases e), by decide⟩
  intro va hva p hp
  have ht := gK_tables p _ hp
  rw [gK_pte va hva] at ht
  by_cases e : 0 ≤ va ∧ va < 0 + 4096
  · rw [if_pos e] at ht
    revert ht
    decide
  · rw [if_neg e] at ht
    revert ht
    decide

set_option maxRecDepth 100000 in
theorem gK_fails :
    uvmalloc_grow .NFUA (MAXVA / PGSIZE + 2) gK 0x1000 (PGROUNDUP 0x1000) 0x3000 PTE_W
      (sh_or_init gK.proc) = .ok (0x2000, true) gKfail :=
  res_of_val _ _ gK (by decide)

theorem uvmalloc_rollback_witness :
    ∃ k', uvmalloc .NFUA gK 0x1000 0x1000 0x3000 PTE_W = .ok 0 k'
      ∧ (∀ va, PGROUNDUP 0x1000 ≤ va → va < PGROUNDUP 0x3000 →
          pteOf k' 0x1000 va &&& (PTE_V ||| PTE_PG) = 0)
      ∧ (∀ f, f ∈ gK.freelist → f ∈ k'.freelist ∨ ∃ p, frameAt k' 0x1000 p = some f)
      ∧ (∀ va, va < PGROUNDUP 0x1000 → pteOf k' 0x1000 va = pteOf gK 0x1000 va) :=
  uvmalloc_rollback .NFUA gK gKfail 0x1000 0x1000 0x3000 PTE_W 0x2000
    (PTWf_congr gK1 gK 0x1000 rfl rfl gK1_facts.1.wf) (by decide) (by decide) (by decide)
    (fun va h1 h2 => by
      have e1 : PGROUNDUP 0x1000 = 4096 := by decide
      have e2 : PGROUNDUP 0x3000 = 12288 := by decide
      rw [e1] at h1
      rw [e2] at h2
      rw [gK_pte va (by norm_num [MAXVA]; omega), if_neg (by omega)])
    (fun _ _ => gK_paged) gK_fails

/-! ## C21: the second-chance scan terminates -/

/-- Clearing the accessed bit of a word of memory changes no walk: the Valid
bit and the frame of every entry are as before. -/
theorem leaf_clearA (k : Kernel) (pt t i va : Nat) :
    leaf (k.write t i (k.mem t i &&& NOT64 PTE_A)) pt va = leaf k pt va := by
  have hV : ∀ t' i', (k.write t i (k.mem t i &&& NOT64 PTE_A)).mem t' i' &&& PTE_V
      = k.mem t' i' &&& PTE_V := by
    intro t' i'
    show (if t' = t ∧ i' = i then k.mem t i &&& NOT64 PTE_A else k.mem t' i') &&& PTE_V = _
    by_cases e : t' = t ∧ i' = i
    · rw [if_pos e, e.1, e.2]
      exact (clearA_entry _).2.1
    · rw [if_neg e]
  have hP : ∀ t' i', PTE2PA ((k.write t i (k.mem t i &&& NOT64 PTE_A)).mem t' i')
      = PTE2PA (k.mem t' i') := by
    intro t' i'
    show PTE2PA (if t' = t ∧ i' = i then k.mem t i &&& NOT64 PTE_A else k.mem t' i') = _
    by_cases e : t' = t ∧ i' = i
    · rw [if_pos e, e.1, e.2]
      exact (clearA_entry _).1
    · rw [if_neg e]
  unfold leaf
  simp only [hV, hP]

/-- Clearing the accessed bit of one leaf PTE sets the accessed bit of no
leaf PTE. -/
theorem pteOf_clearA (k : Kernel) (pt t i va : Nat)
    (h : pteOf k pt va &&& PTE_A = 0 ∨ leaf k pt va = some (t, i)) :
    pteOf (k.write t i (k.mem t i &&& NOT64 PTE_A)) pt va &&& PTE_A = 0 := by
  have hA : PTE_A = 2 ^ 6 := by norm_num [PTE_A]
  unfold pteOf at h ⊢
  rw [leaf_clearA]
  cases hl : leaf k pt va with
  | none => simp
  | some l =>
    obtain ⟨t', i'⟩ := l
    rw [hl] at h
    show (if t' = t ∧ i' = i then k.mem t i &&& NOT64 PTE_A else k.mem t' i') &&& PTE_A = 0
    by_cases e : t' = t ∧ i' = i
    · rw [if_pos e, hA]
      exact clear_flag _ 6 (by norm_num)
    · rw [if_neg e]
      rcases h with h | h
      · exact h
      · injection h with h
        injection h with h1 h2
        exact absurd ⟨h1, h2⟩ e

/-- One iteration of the loop of `findPageToEvict` under SCFIFO on a
well-formed list `a :: rest`: the loop returns `a` when its accessed bit is
clear; otherwise it clears the bit and moves `a` to the newest end. -/
theorem scan_head (k : Kernel) (a : Nat) (rest : List Nat)
    (hlist : IsList k.proc (a :: rest))
    (hva : (k.proc.memory_pages a).va < MAXVA)
    (hleaf : leaf k k.proc.pagetable (k.proc.memory_pages a).va ≠ none) :
    (pteOf k k.proc.pagetable (k.proc.memory_pages a).va &&& PTE_A = 0 →
        ∀ fuel, findPageToEvict_scfifo (fuel + 1) k = .ok a k)
      ∧ (pteOf k k.proc.pagetable (k.proc.memory_pages a).va &&& PTE_A ≠ 0 →
        ∃ k3, (∀ fuel, findPageToEvict_scfifo (fuel + 1) k = findPageToEvict_scfifo fuel k3)
          ∧ IsList k3.proc (rest ++ [a])
          ∧ k3.proc.memory_pages = k.proc.memory_pages
          ∧ k3.proc.pagetable = k.proc.pagetable
          ∧ (∀ va, leaf k3 k.proc.pagetable va = leaf k k.proc.pagetable va)
          ∧ pteOf k3 k.proc.pagetable (k.proc.memory_pages a).va &&& PTE_A = 0
          ∧ (∀ va, pteOf k k.proc.pagetable va &&& PTE_A = 0 →
              pteOf k3 k.proc.pagetable va &&& PTE_A = 0)) := by
  have hlist' := hlist
  obtain ⟨_, hold, hch⟩ := hlist
  simp only [List.head?_cons, Chain] at hold hch
  cases hl : leaf k k.proc.pagetable (k.proc.memory_pages a).va with
  | none => exact absurd hl hleaf
  | some l =>
    obtain ⟨t, i⟩ := l
    have hw := walk_noalloc k k.proc.pagetable _ hva
    rw [hl] at hw
    have hpte : pteOf k k.proc.pagetable (k.proc.memory_pages a).va = k.mem t i := by
      simp [pteOf, hl]
    rw [hpte]
    constructor
    · intro hclr fuel
      simp only [findPageToEvict_scfifo, hold, hch.1, hw, Res.bind]
      rw [if_pos hclr]
    · intro hA
      have hA' : ¬ (k.mem t i &&& PTE_A = 0) := hA
      obtain ⟨p', hrem, hrot, hf1, hf2, _, _⟩ := scfifo_rotate k.proc a rest hlist'
      refine ⟨{ k.write t i (k.mem t i &&& NOT64 PTE_A) with proc := set_scfifo p' a },
        ?_, hrot, hf1, hf2, ?_, ?_, ?_⟩
      · intro fuel
        simp only [findPageToEvict_scfifo, hold, hch.1, hw, Res.bind]
        rw [if_neg hA']
        have : (k.write t i (k.mem t i &&& NOT64 PTE_A)).proc = k.proc := rfl
        rw [this, hrem]
      · intro va
        exact (leaf_congr (k.write t i (k.mem t i &&& NOT64 PTE_A))
          { k.write t i (k.mem t i &&& NOT64 PTE_A) with proc := set_scfifo p' a } _ _ rfl).trans
          (leaf_clearA k _ t i va)
      · have e := pteOf_congr (k.write t i (k.mem t i &&& NOT64 PTE_A))
          { k.write t i (k.mem t i &&& NOT64 PTE_A) with proc := set_scfifo p' a }
          k.proc.pagetable (k.proc.memory_pages a).va rfl
        rw [e]
        exact pteOf_clearA k _ t i _ (Or.inr hl)
      · intro va hc
        have e := pteOf_congr (k.write t i (k.mem t i &&& NOT64 PTE_A))
          { k.write t i (k.mem t i &&& NOT64 PTE_A) with proc := set_scfifo p' a }
          k.proc.pagetable va rfl
        rw [e]
        exact pteOf_clearA k _ t i va (Or.inl hc)

/-- The loop of `findPageToEvict` under SCFIFO on the well-formed list
`rem ++ done`, where the accessed bits of the entries of `done` are clear:
it returns within `rem.length + 1` iterations. -/
theorem scan_terminates (rem : List Nat) :
    ∀ (done : List Nat) (k : Kernel), IsList k.proc (rem ++ done) → rem ++ done ≠ [] →
      (∀ s ∈ rem ++ done, (k.proc.memory_pages s).va < MAXVA
        ∧ leaf k k.proc.pagetable (k.proc.memory_pages s).va ≠ none) →
      (∀ s ∈ done, pteOf k k.proc.pagetable (k.proc.memory_pages s).va &&& PTE_A = 0) →
      ∃ m k', (∀ fuel, rem.length < fuel → findPageToEvict_scfifo fuel k = .ok m k')
        ∧ m ∈ rem ++ done
        ∧ k'.proc.memory_pages = k.proc.memory_pages
        ∧ k'.proc.pagetable = k.proc.pagetable
        ∧ pteOf k' k.proc.pagetable (k.proc.memory_pages m).va &&& PTE_A = 0 := by
  induction rem with
  | nil =>
    intro done k hlist hne hmap hclr
    cases done with
    | nil => exact absurd rfl hne
    | cons a r =>
      obtain ⟨h1, h2⟩ := hmap a (List.mem_cons_self a r)
      have hc := hclr a (List.mem_cons_self a r)
      refine ⟨a, k, ?_, List.mem_cons_self a r, rfl, rfl, hc⟩
      intro fuel hf
      obtain ⟨f, rfl⟩ : ∃ f, fuel = f + 1 := ⟨fuel - 1, by omega⟩
      exact (scan_head k a r hlist h1 h2).1 hc f
  | cons a rem' ih =>
    intro done k hlist hne hmap hclr
    obtain ⟨h1, h2⟩ := hmap a (List.mem_cons_self a _)
    obtain ⟨hret, hnext⟩ := scan_head k a (rem' ++ done) hlist h1 h2
    by_cases hc : pteOf k k.proc.pagetable (k.proc.memory_pages a).va &&& PTE_A = 0
    · refine ⟨a, k, ?_, List.mem_cons_self a _, rfl, rfl, hc⟩
      intro fuel hf
      obtain ⟨f, rfl⟩ : ∃ f, fuel = f + 1 := ⟨fuel - 1, by simp at hf; omega⟩
      exact hret hc f
    · obtain ⟨k3, hstep, hl3, hmp3, hpt3, hleaf3, hca, hmono⟩ := hnext hc
      have hl3' : IsList k3.proc (rem' ++ (done ++ [a])) := by
        rw [← List.append_assoc]
        exact hl3
      obtain ⟨m, k', hr, hm, hmp', hpt', hclear⟩ := ih (done ++ [a]) k3 hl3' (by simp)
        (by
          intro s hs
          rw [hmp3, hpt3, hleaf3]
          exact hmap s (by simp at hs ⊢; tauto))
        (by
          intro s hs
          rw [hmp3, hpt3]
          rcases List.mem_append.mp hs with e | e
          · exact hmono _ (hclr s e)
          · simp only [List.mem_singleton] at e
            rw [e]
            exact hca)
      refine ⟨m, k', ?_, ?_, by rw [hmp', hmp3], by rw [hpt', hpt3], ?_⟩
      · intro fuel hf
        obtain ⟨f, rfl⟩ : ∃ f, fuel = f + 1 := ⟨fuel - 1, by simp at hf; omega⟩
        rw [hstep f]
        exact hr f (by simp at hf; omega)
      · simp at hm ⊢
        tauto
      · rw [hmp3, hpt3] at hclear
        exact hclear

/-- C21 (the second-chance scan terminates).  Under SCFIFO, for a
well-formed non-empty second-chance list `l` of `n` resident slots (slots of
the roster that are INMEMORY, so `1 ≤ n ≤ 16`) whose pages are below MAXVA
and have leaf PTEs, whatever the accessed bits are: the loop of
`findPageToEvict` returns within `n + 1` iterations (each iteration inspects
one entry), so `findPageToEvict` returns, and what it returns is a slot `m`
of the list, a resident page, never null, whose accessed bit is clear on
return. -/
theorem second_chance_scan_terminates (k : Kernel) (l : List Nat)
    (hlist : IsList k.proc l) (hne : l ≠ [])
    (hres : ∀ s ∈ l, s < MAX_PSYC_PAGES ∧ (k.proc.memory_pages s).status = INMEMORY)
    (hmapped : ∀ s ∈ l, (k.proc.memory_pages s).va < MAXVA
      ∧ leaf k k.proc.pagetable (k.proc.memory_pages s).va ≠ none) :
    1 ≤ l.length ∧ l.length ≤ MAX_PSYC_PAGES
      ∧ ∃ m k', findPageToEvict_scfifo (l.length + 1) k = .ok m k'
        ∧ findPageToEvict .SCFIFO k = .ok m k'
        ∧ m ∈ l ∧ (k'.proc.memory_pages m).status = INMEMORY
        ∧ pteOf k' k'.proc.pagetable (k'.proc.memory_pages m).va &&& PTE_A = 0 := by
  have hlen := nodup_length_le l MAX_PSYC_PAGES hlist.1 (fun s hs => (hres s hs).1)
  have hpos : 1 ≤ l.length := by
    cases l with
    | nil => exact absurd rfl hne
    | cons a r => simp
  obtain ⟨m, k', hr, hm, hmp, hpt, hclear⟩ := scan_terminates l [] k
    (by rw [List.append_nil]; exact hlist) (by rw [List.append_nil]; exact hne)
    (by rw [List.append_nil]; exact hmapped) (fun s hs => by cases hs)
  rw [List.append_nil] at hm
  refine ⟨hpos, hlen, m, k', hr _ (by omega), ?_, hm, ?_, ?_⟩
  · show findPageToEvict_scfifo (MAX_PSYC_PAGES + 1) k = .ok m k'
    exact hr _ (by omega)
  · rw [hmp]
    exact (hres m hm).2
  · rw [hmp, hpt]
    exact hclear

theorem sK_list : IsList sK.proc [0, 1, 2] := by
  refine ⟨by decide, by decide, ?_⟩
  simp only [Chain]
  decide

theorem second_chance_scan_terminates_witness :
    IsList sK.proc [0, 1, 2]
      ∧ (∀ s ∈ [0, 1, 2], pteOf sK sK.proc.pagetable (sK.proc.memory_pages s).va &&& PTE_A ≠ 0)
      ∧ 1 ≤ [0, 1, 2].length ∧ [0, 1, 2].length ≤ MAX_PSYC_PAGES
      ∧ ∃ m k', findPageToEvict_scfifo ([0, 1, 2].length + 1) sK = .ok m k'
        ∧ findPageToEvict .SCFIFO sK = .ok m k'
        ∧ m ∈ [0, 1, 2] ∧ (k'.proc.memory_pages m).status = INMEMORY
        ∧ pteOf k' k'.proc.pagetable (k'.proc.memory_pages m).va &&& PTE_A = 0 :=
  ⟨sK_list, by decide,
    second_chance_scan_terminates sK [0, 1, 2] sK_list (by decide) (by decide) (by decide)⟩

/-! ## C3: the roster capacity invariant -/

end XV6
